import Mathlib

/-!
# nwMirrorModeler: the k-d tree and the mirror-vertex search

A shallow embedding of `KdTree.h`, `KdTree.cpp` and of the search part of
`GetMirrorVerticesIndex.cpp`.

Modelling decisions:

* Coordinates are rationals (`ℚ`): every finite `double` is a rational. The code is embedded
  twice. The functions `sqDist`, `checkSubtree`, `nearestNode`, `mirroredPos`, `mirrorSearch`,
  `redoIt`, ... compute in exact arithmetic: no operation rounds, and the one `sqrt` of the
  source, which is only ever compared with the threshold, is compared on squares (`sqrtLe`,
  related to `Real.sqrt` by `sqrtLe_iff_real_sqrt_le`). The functions of the same names in the
  namespace `Fp` take an arithmetic `Arith` that rounds the result of every operation of the
  source; with `Arith.ieee` (`roundDouble`, `sqrtDouble`: IEEE 754 binary64, round to nearest,
  ties to even, with subnormals) they are the program as it runs, with `Arith.exact` they are
  the exact functions (`fp_nearestNode_exact`, `fp_mirrorSearch_exact`, `fp_redoIt_exact`).
  A statement on the exact functions is a statement in exact arithmetic.
* `unsigned int` is `Nat` reduced modulo `2 ^ 32` where the source computes, `int` is `Int`
  with the two's complement conversions `toUInt32` / `toInt32`.
* A `Node *` is a value of `Node`, `Node.null` being `NULL`. The `parent` pointer is replaced by
  the list of ancestors met on the way down (nearest ancestor first): walking `parent` links
  from a node is walking that list. `buildKdTreeCells` is the same construction with the heap
  explicit (addresses, `parent` fields); it yields the memory layout of the tree
  (`buildKdTreeCells_eq`), on which the parent links are studied.
* `std::sort` is a parameter (`Sorter`) with its contract: the result is a permutation of the
  range, ordered for the comparator. `insertionSorter` is one executable instance; when no sort
  meets two equal keys every instance builds the same tree (`build_eq_of_tieFree`).
  `libstdcxxSorter` is the `std::sort` of libstdc++ (`bits/stl_algo.h`), `stdSorter` the same
  with its heap-sort fallback fixed.
* The host's arrays hold fewer than `2 ^ 32` elements, so the index expressions `i*2 + 1`,
  `i*3 + 2` of `build` do not wrap; they are left unreduced.
* The host calls of `parseArgs` (argument database) are represented by what they return
  (`MArgList`): the flags, the objects, and the call that reports a failure, if one does. The
  host calls of `doIt` (selection, function sets) are represented by what they return on
  success (`Shape`).
* `checkSubtreeSpec` is not code: it is `checkSubtree` with the pruning test as the
  specification words it, and is only compared with `checkSubtree`.
-/

namespace nwave

/-! ## Machine integers -/

/-- Conversion of an `int` to `unsigned int`. -/
def toUInt32 (v : Int) : Nat := (v % 4294967296).toNat

/-- Conversion of an `unsigned int` to `int` (two's complement). -/
def toInt32 (u : Nat) : Int :=
  if u % 4294967296 < 2147483648 then ((u % 4294967296 : Nat) : Int)
  else ((u % 4294967296 : Nat) : Int) - 4294967296

/-! ## Points -/

/-- The host's `MPoint`, reduced to its three cartesian coordinates. -/
structure MPoint where
  x : ℚ
  y : ℚ
  z : ℚ
deriving DecidableEq

/-- Component access `p[i]` of `MPoint` and `MVector` (`i` is always `depth % 3` or a literal
below 3 in the code embedded here). -/
def MPoint.get (p : MPoint) (i : Nat) : ℚ :=
  match i with
  | 0 => p.x
  | 1 => p.y
  | _ => p.z

/-- Squared distance in exact arithmetic: the value of
`pow(diff[0], 2) + pow(diff[1], 2) + pow(diff[2], 2)` with `diff = a - b` of `nearestNeighbour`
and `checkSubtree` when no operation rounds (`Fp.sqDist` rounds each of them). -/
def sqDist (a b : MPoint) : ℚ :=
  (a.x - b.x) ^ 2 + (a.y - b.y) ^ 2 + (a.z - b.z) ^ 2

/-- The comparison `sqrt(d2) <= t` of the source in exact arithmetic, that is with the real
square root (`Arith.ieee.sqrtLe` compares the rounded root). -/
def sqrtLe (d2 t : ℚ) : Bool := decide (0 ≤ t ∧ d2 ≤ t * t)

namespace KdTree

/-- The number of dimensions, set once by the constructor of `KdTree`. -/
def dimensions : Nat := 3

/-- `KdTree::IdPoint`: up to three unsigned components and the arity tag `size`. -/
structure IdPoint where
  x : Nat
  y : Nat
  z : Nat
  size : Nat
deriving DecidableEq

/-- `IdPoint()`. -/
def IdPoint.mk0 : IdPoint := ⟨0, 0, 0, 0⟩

/-- `IdPoint(x)`. -/
def IdPoint.mk1 (x : Nat) : IdPoint := ⟨x, 0, 0, 1⟩

/-- `IdPoint(x, y)`. -/
def IdPoint.mk2 (x y : Nat) : IdPoint := ⟨x, y, 0, 2⟩

/-- `IdPoint(x, y, z)`. -/
def IdPoint.mk3 (x y z : Nat) : IdPoint := ⟨x, y, z, 3⟩

/-- `KdTree::Node`, `null` standing for the `NULL` pointer. -/
inductive Node where
  | null : Node
  | node (depth : Nat) (point : MPoint) (id : IdPoint) (leftChild rightChild : Node) : Node
deriving DecidableEq

/-- Test `node == NULL`. -/
def Node.isNull : Node → Bool
  | .null => true
  | .node _ _ _ _ _ => false

/-- `hasLeftChild`. -/
def Node.hasLeftChild : Node → Bool
  | .null => false
  | .node _ _ _ l _ => !l.isNull

/-- `hasRightChild`. -/
def Node.hasRightChild : Node → Bool
  | .null => false
  | .node _ _ _ _ r => !r.isNull

/-- `isLeaf`. -/
def Node.isLeaf (n : Node) : Bool := !n.hasLeftChild && !n.hasRightChild

/-- The elements of `PointList`. -/
abbrev Pair := MPoint × IdPoint

/-- The comparators `SortX`, `SortY`, `SortZ`, selected by the axis. -/
def sortLt (axis : Nat) (a b : Pair) : Bool := decide (a.1.get axis < b.1.get axis)

/-- The contract of `std::sort` for the three comparators: it permutes the range and leaves no
element before one that compares less than it. -/
structure Sorter where
  sort : Nat → List Pair → List Pair
  perm : ∀ axis l, (sort axis l).Perm l
  sorted : ∀ axis l, (sort axis l).Pairwise (fun a b => sortLt axis b a = false)

/-- Insertion of one element in a sorted range, after the elements that do not compare
greater. -/
def orderedInsert (axis : Nat) (a : Pair) : List Pair → List Pair
  | [] => [a]
  | b :: l => if sortLt axis a b then a :: b :: l else b :: orderedInsert axis a l

/-- Insertion sort for the comparator of `axis`. -/
def insertionSort (axis : Nat) : List Pair → List Pair
  | [] => []
  | a :: l => orderedInsert axis a (insertionSort axis l)

theorem orderedInsert_perm (axis : Nat) (a : Pair) (l : List Pair) :
    (orderedInsert axis a l).Perm (a :: l) := by
  induction l with
  | nil => simp [orderedInsert]
  | cons b l ih =>
    simp only [orderedInsert]
    split
    · exact List.Perm.refl _
    · exact ((List.Perm.cons b ih).trans (List.Perm.swap a b l))

theorem insertionSort_perm (axis : Nat) (l : List Pair) : (insertionSort axis l).Perm l := by
  induction l with
  | nil => simp [insertionSort]
  | cons a l ih =>
    simp only [insertionSort]
    exact (orderedInsert_perm axis a _).trans (List.Perm.cons a ih)

theorem orderedInsert_sorted (axis : Nat) (a : Pair) (l : List Pair)
    (h : l.Pairwise (fun a b => sortLt axis b a = false)) :
    (orderedInsert axis a l).Pairwise (fun a b => sortLt axis b a = false) := by
  induction l with
  | nil => simp [orderedInsert]
  | cons b l ih =>
    rw [List.pairwise_cons] at h
    simp only [orderedInsert]
    split
    · rename_i hab
      rw [List.pairwise_cons]
      refine ⟨?_, List.pairwise_cons.mpr h⟩
      intro c hc
      simp only [sortLt, decide_eq_true_eq, decide_eq_false_iff_not, not_lt] at hab ⊢
      rcases List.mem_cons.mp hc with rfl | hc
      · exact le_of_lt hab
      · have hbc := h.1 c hc
        simp only [sortLt, decide_eq_false_iff_not, not_lt] at hbc
        exact le_trans (le_of_lt hab) hbc
    · rename_i hab
      rw [List.pairwise_cons]
      refine ⟨?_, ih h.2⟩
      intro c hc
      rcases List.mem_cons.mp ((orderedInsert_perm axis a l).subset hc) with rfl | hc
      · simpa using hab
      · exact h.1 c hc

theorem insertionSort_sorted (axis : Nat) (l : List Pair) :
    (insertionSort axis l).Pairwise (fun a b => sortLt axis b a = false) := by
  induction l with
  | nil => simp [insertionSort]
  | cons a l ih => exact orderedInsert_sorted axis a _ ih

/-- Insertion sort as an instance of the contract of `std::sort`. It leaves equal keys in the
reverse of their order in the range, which the `std::sort` of libstdc++ does not do on short
ranges: it stands for `std::sort` where no two keys are equal or where the order of equal keys
plays no part. -/
def insertionSorter : Sorter :=
  ⟨insertionSort, insertionSort_perm, insertionSort_sorted⟩

/-- `KdTree::buildKdTree` on the range `l`, the recursion bounded by `fuel`. -/
def buildKdTreeAux (S : Sorter) : Nat → List Pair → Nat → Node
  | 0, _, _ => .null
  | fuel + 1, l, depth =>
    if l.isEmpty then .null
    else
      let axis := depth % dimensions
      if 3 ≤ axis then .null
      else
        let s := S.sort axis l
        let half := s.length / 2
        match s[half]? with
        | none => .null
        | some pair =>
          .node depth pair.1 pair.2
            (if half ≠ 0 then buildKdTreeAux S fuel (s.take half) (depth + 1) else .null)
            (if s.length ≠ half + 1 then buildKdTreeAux S fuel (s.drop (half + 1)) (depth + 1)
             else .null)

/-- `KdTree::buildKdTree( begin, end, depth )`; the length of the range bounds the recursion. -/
def buildKdTree (S : Sorter) (l : List Pair) (depth : Nat) : Node :=
  buildKdTreeAux S l.length l depth

end KdTree

/-- The state of a `KdTree` object that queries read. -/
structure KdTree where
  root : KdTree.Node
  pointCount : Nat

namespace KdTree

/-- `KdTree::KdTree()`. -/
def new : KdTree := ⟨.null, 0⟩

/-- `isBuilt`. -/
def isBuilt (t : KdTree) : Bool := !t.root.isNull

/-- The identifier `build` gives point `i`. -/
def decodeId (pointCount : Nat) (ids : List Int) (i : Nat) : IdPoint :=
  if ids.length = pointCount then
    IdPoint.mk1 (toUInt32 (ids.getD i 0))
  else if ids.length = pointCount * 2 then
    IdPoint.mk2 (toUInt32 (ids.getD (i * 2) 0)) (toUInt32 (ids.getD (i * 2 + 1) 0))
  else if ids.length = pointCount * 3 then
    IdPoint.mk3 (toUInt32 (ids.getD (i * 3) 0)) (toUInt32 (ids.getD (i * 3 + 1) 0))
      (toUInt32 (ids.getD (i * 3 + 2) 0))
  else IdPoint.mk0

/-- The point list filled by the loop of `build`. -/
def makePointList (points : List MPoint) (ids : List Int) : List Pair :=
  (List.range points.length).map
    (fun i => (points.getD i ⟨0, 0, 0⟩, decodeId points.length ids i))

/-- `KdTree::build( points, ids )`: the former tree is dropped. -/
def build (S : Sorter) (_t : KdTree) (points : List MPoint) (ids : List Int) : KdTree :=
  { root := buildKdTree S (makePointList points ids) 0, pointCount := points.length }

/-- `KdTree::traverseTree`; `anc` collects the nodes passed, the parent chain of the result. -/
def traverseTree : Node → MPoint → List Node → Node × List Node
  | .null, _, anc => (.null, anc)
  | .node depth point id l r, position, anc =>
    if !(Node.node depth point id l r).isLeaf then
      let axis := depth % dimensions
      let d := position.get axis - point.get axis
      if d ≤ 0 ∧ !l.isNull then traverseTree l position (.node depth point id l r :: anc)
      else if d > 0 ∧ !r.isNull then traverseTree r position (.node depth point id l r :: anc)
      else (.node depth point id l r, anc)
    else (.node depth point id l r, anc)

/-- `KdTree::checkSubtree`; the reference parameter `minDist` is returned with the node. -/
def checkSubtree : Node → MPoint → Node → ℚ → Node × ℚ
  | .null, _, _, minDist => (.null, minDist)
  | .node depth point id l r, position, nearest, minDist =>
    let dist := sqDist point position
    let upd : Node × ℚ :=
      if dist < minDist then (.node depth point id l r, dist) else (nearest, minDist)
    let axis := depth % dimensions
    let d := position.get axis - point.get axis
    if d * d > upd.2 then
      if d ≤ 0 ∧ !l.isNull then checkSubtree l position upd.1 upd.2
      else if d > 0 ∧ !r.isNull then checkSubtree r position upd.1 upd.2
      else upd
    else
      let afterLeft : Node × ℚ :=
        if !l.isNull then checkSubtree l position upd.1 upd.2 else upd
      if !r.isNull then checkSubtree r position afterLeft.1 afterLeft.2 else afterLeft

/-- The point of a node (`node->point`); never read on `NULL` by the code. -/
def Node.point : Node → MPoint
  | .null => ⟨0, 0, 0⟩
  | .node _ p _ _ _ => p

/-- The identifier of a node (`node->id`). -/
def Node.id : Node → IdPoint
  | .null => IdPoint.mk0
  | .node _ _ i _ _ => i

/-- The upward loop of `nearestNeighbour`: `checkSubtree` on each ancestor in turn. -/
def walkUp (position : MPoint) : List Node → Node × ℚ → Node × ℚ
  | [], best => best
  | parent :: rest, best => walkUp position rest (checkSubtree parent position best.1 best.2)

/-- `KdTree::nearestNeighbour`. -/
def nearestNeighbour (node : Node) (position : MPoint) : Node :=
  if node.isNull then .null
  else
    let found := traverseTree node position []
    let leaf := found.1
    let dist := sqDist leaf.point position
    if leaf.point = position then leaf
    else (walkUp position found.2 (leaf, dist)).1

/-- `KdTree::nearestNode`. -/
def nearestNode (t : KdTree) (position : MPoint) : Node :=
  nearestNeighbour t.root position

/-! ### Notions used to state the properties of the tree -/

/-- The (point, identifier) pairs held by the nodes of a tree. -/
def Node.pairs : Node → List Pair
  | .null => []
  | .node _ p i l r => (p, i) :: (l.pairs ++ r.pairs)

/-- The nodes of a tree: the addresses a `Node *` into it can hold. -/
def Node.subnodes : Node → List Node
  | .null => []
  | .node d p i l r => .node d p i l r :: (l.subnodes ++ r.subnodes)

/-- The k-d ordering of a tree, each node splitting on the axis of its own `depth`. -/
def KdInv : Node → Prop
  | .null => True
  | .node d p _ l r =>
    (∀ q ∈ l.pairs, q.1.get (d % dimensions) ≤ p.get (d % dimensions)) ∧
    (∀ q ∈ r.pairs, p.get (d % dimensions) ≤ q.1.get (d % dimensions)) ∧
    KdInv l ∧ KdInv r

/-- The pair `b` is `a` or a node among `T` with its own squared distance, and is no farther
than `a`. -/
def Improves (q : MPoint) (T : List Node) (a b : Node × ℚ) : Prop :=
  b.2 ≤ a.2 ∧ (b = a ∨ (b.1 ∈ T ∧ b.2 = sqDist b.1.point q))

/-- The descent stops at this node: no child on the side of the query. -/
def Stops : Node → MPoint → Prop
  | .null, _ => True
  | .node d p _ l r, q =>
    ¬ (q.get (d % dimensions) - p.get (d % dimensions) ≤ 0 ∧ l.isNull = false) ∧
    ¬ (q.get (d % dimensions) - p.get (d % dimensions) > 0 ∧ r.isNull = false)

/-- A node without a left child has no right child. -/
def LeftFirst : Node → Prop
  | .null => True
  | .node _ _ _ l r => l.isNull = true → r.isNull = true

/-- No two elements of the range have the same coordinate on the axis. -/
def noTie (axis : Nat) (l : List Pair) : Bool :=
  decide (l.Pairwise (fun a b => a.1.get axis ≠ b.1.get axis))

/-- No call of `std::sort` made by `buildKdTree` on the range meets two elements with the same
coordinate on the axis it sorts along. -/
def tieFree : Nat → List Pair → Nat → Bool
  | 0, _, _ => true
  | fuel + 1, l, depth =>
    noTie (depth % dimensions) l &&
      tieFree fuel ((insertionSort (depth % dimensions) l).take
        ((insertionSort (depth % dimensions) l).length / 2)) (depth + 1) &&
      tieFree fuel ((insertionSort (depth % dimensions) l).drop
        ((insertionSort (depth % dimensions) l).length / 2 + 1)) (depth + 1)

/-- The largest `depth` field of the nodes of a tree (`0` for the empty tree). -/
def Node.maxDepth : Node → Nat
  | .null => 0
  | .node d _ _ l r => max d (max l.maxDepth r.maxDepth)

/-- At every node the left subtree holds as many points as the right one, or one more. -/
def Balanced : Node → Prop
  | .null => True
  | .node _ _ _ l r =>
    r.pairs.length ≤ l.pairs.length ∧ l.pairs.length ≤ r.pairs.length + 1 ∧
      Balanced l ∧ Balanced r

/-- Insertion of one element in a sorted range, before the elements that do not compare
less. -/
def stableInsert (axis : Nat) (a : Pair) : List Pair → List Pair
  | [] => [a]
  | b :: l => if sortLt axis b a then b :: stableInsert axis a l else a :: b :: l

/-- Insertion sort that keeps the elements with equal keys in the order of the range. -/
def stableSort (axis : Nat) : List Pair → List Pair
  | [] => []
  | a :: l => stableInsert axis a (stableSort axis l)

theorem stableInsert_perm (axis : Nat) (a : Pair) (l : List Pair) :
    (stableInsert axis a l).Perm (a :: l) := by
  induction l with
  | nil => simp [stableInsert]
  | cons b l ih =>
    simp only [stableInsert]
    split
    · exact ((List.Perm.cons b ih).trans (List.Perm.swap a b l))
    · exact List.Perm.refl _

theorem stableSort_perm (axis : Nat) (l : List Pair) : (stableSort axis l).Perm l := by
  induction l with
  | nil => simp [stableSort]
  | cons a l ih =>
    simp only [stableSort]
    exact (stableInsert_perm axis a _).trans (List.Perm.cons a ih)

theorem stableInsert_sorted (axis : Nat) (a : Pair) (l : List Pair)
    (h : l.Pairwise (fun a b => sortLt axis b a = false)) :
    (stableInsert axis a l).Pairwise (fun a b => sortLt axis b a = false) := by
  induction l with
  | nil => simp [stableInsert]
  | cons b l ih =>
    rw [List.pairwise_cons] at h
    simp only [stableInsert]
    split
    · rename_i hba
      rw [List.pairwise_cons]
      refine ⟨?_, ih h.2⟩
      intro c hc
      rcases List.mem_cons.mp ((stableInsert_perm axis a l).subset hc) with rfl | hc
      · simp only [sortLt, decide_eq_true_eq, decide_eq_false_iff_not, not_lt] at hba ⊢
        exact le_of_lt hba
      · exact h.1 c hc
    · rename_i hba
      rw [List.pairwise_cons]
      refine ⟨?_, List.pairwise_cons.mpr h⟩
      intro c hc
      simp only [sortLt, decide_eq_true_eq, decide_eq_false_iff_not, not_lt] at hba ⊢
      rcases List.mem_cons.mp hc with rfl | hc
      · exact hba
      · have hbc := h.1 c hc
        simp only [sortLt, decide_eq_false_iff_not, not_lt] at hbc
        exact le_trans hba hbc

theorem stableSort_sorted (axis : Nat) (l : List Pair) :
    (stableSort axis l).Pairwise (fun a b => sortLt axis b a = false) := by
  induction l with
  | nil => simp [stableSort]
  | cons a l ih => exact stableInsert_sorted axis a _ ih

/-- A stable sort as an instance of the contract of `std::sort`. -/
def stableSorter : Sorter :=
  ⟨stableSort, stableSort_perm, stableSort_sorted⟩

/-- Four points with the same `x`, numbered in array order. -/
def tiedPoints : List MPoint := [⟨0, 0, 0⟩, ⟨0, 1, 0⟩, ⟨0, 2, 0⟩, ⟨0, 3, 0⟩]

/-- The `depth` field of a node (`node->depth`). -/
def Node.depth : Node → Nat
  | .null => 0
  | .node d _ _ _ _ => d

/-- Every node of the tree carries in `depth` the number of nodes above it, the root of the
tree being `e` levels down. -/
def DepthOk : Nat → Node → Prop
  | _, .null => True
  | e, .node d _ _ l r => d = e ∧ DepthOk (e + 1) l ∧ DepthOk (e + 1) r

/-- The address of a node. The address `new Node` returns is taken to be the path of child
links from the root to the node (`false` left, `true` right): distinct nodes get distinct
addresses, which is all the code relies on. -/
abbrev Addr := List Bool

/-- A `KdTree::Node` as it lies in memory, the three pointers being addresses (`none` is
`NULL`). -/
structure Cell where
  depth : Nat
  point : MPoint
  id : IdPoint
  leftChild : Option Addr
  rightChild : Option Addr
  parent : Option Addr

/-- `KdTree::buildKdTree( begin, end, depth, currentNode )` with the heap explicit: the pointer
returned and the nodes allocated, `self` being the address of the node this call allocates.
The recursion is bounded by `fuel`. -/
def buildKdTreeCells (S : Sorter) :
    Nat → List Pair → Nat → Option Addr → Addr → Option Addr × List (Addr × Cell)
  | 0, _, _, _, _ => (none, [])
  | fuel + 1, l, depth, currentNode, self =>
    if l.isEmpty then (none, [])
    else
      let axis := depth % dimensions
      if 3 ≤ axis then (none, [])
      else
        let s := S.sort axis l
        let half := s.length / 2
        match s[half]? with
        | none => (none, [])
        | some pair =>
          let left : Option Addr × List (Addr × Cell) :=
            if half ≠ 0 then
              buildKdTreeCells S fuel (s.take half) (depth + 1) (some self) (self ++ [false])
            else (none, [])
          let right : Option Addr × List (Addr × Cell) :=
            if s.length ≠ half + 1 then
              buildKdTreeCells S fuel (s.drop (half + 1)) (depth + 1) (some self) (self ++ [true])
            else (none, [])
          (some self,
            (self, ⟨depth, pair.1, pair.2, left.1, right.1, currentNode⟩) :: (left.2 ++ right.2))

/-- The node at an address (`*node`), `none` when nothing was allocated there. -/
def lookupCell (heap : List (Addr × Cell)) (a : Addr) : Option Cell :=
  (heap.find? (fun e => decide (e.1 = a))).map Prod.snd

/-- The node reached from `a` by following `k` times the `parent` pointer; `none` when a
pointer on the way is `NULL` or dangling. -/
def parentSteps (heap : List (Addr × Cell)) : Nat → Addr → Option Addr
  | 0, a => some a
  | k + 1, a =>
    match lookupCell heap a with
    | none => none
    | some c =>
      match c.parent with
      | none => none
      | some p => parentSteps heap k p

/-- The loop `while ( node->parent != NULL ) node = node->parent` of `nearestNeighbour`, bounded
by `fuel`: the node it ends on, `none` when the fuel runs out or a pointer dangles. -/
def climbToRoot (heap : List (Addr × Cell)) : Nat → Addr → Option Addr
  | 0, _ => none
  | fuel + 1, a =>
    match lookupCell heap a with
    | none => none
    | some c =>
      match c.parent with
      | none => some a
      | some p => climbToRoot heap fuel p

/-- The pointer to a tree laid out at `self`. -/
def Node.ptr (t : Node) (self : Addr) : Option Addr :=
  if t.isNull then none else some self

/-- The memory layout of a tree: its nodes as cells, the root at `self` with the parent
pointer `currentNode`, each child holding the address of its holder as parent. -/
def Node.cells : Node → Option Addr → Addr → List (Addr × Cell)
  | .null, _, _ => []
  | .node d p i l r, currentNode, self =>
    (self, ⟨d, p, i, l.ptr (self ++ [false]), r.ptr (self ++ [true]), currentNode⟩) ::
      (l.cells (some self) (self ++ [false]) ++ r.cells (some self) (self ++ [true]))

/-- The call `buildKdTree( pointList.begin(), pointList.end() )` made by `build`, with the heap
explicit: `depth` and `currentNode` take their default values `0` and `NULL`. The pointer
returned is stored in `root`. -/
def buildHeap (S : Sorter) (points : List MPoint) (ids : List Int) :
    Option Addr × List (Addr × Cell) :=
  buildKdTreeCells S (makePointList points ids).length (makePointList points ids) 0 none []

/-- The pruning rule as the specification words it: `checkSubtree` where the far side is
skipped whenever `d * d >= ` the current best squared distance (the code skips it only when
`d * d >` the best). -/
def checkSubtreeSpec : Node → MPoint → Node → ℚ → Node × ℚ
  | .null, _, _, minDist => (.null, minDist)
  | .node depth point id l r, position, nearest, minDist =>
    let dist := sqDist point position
    let upd : Node × ℚ :=
      if dist < minDist then (.node depth point id l r, dist) else (nearest, minDist)
    let axis := depth % dimensions
    let d := position.get axis - point.get axis
    if d * d ≥ upd.2 then
      if d ≤ 0 ∧ !l.isNull then checkSubtreeSpec l position upd.1 upd.2
      else if d > 0 ∧ !r.isNull then checkSubtreeSpec r position upd.1 upd.2
      else upd
    else
      let afterLeft : Node × ℚ :=
        if !l.isNull then checkSubtreeSpec l position upd.1 upd.2 else upd
      if !r.isNull then checkSubtreeSpec r position afterLeft.1 afterLeft.2 else afterLeft

/-- Every node holds `floor(m/2)` points on its left and `m - 1 - floor(m/2)` on its right,
`m` being the number of points of its subtree. -/
def SizesOk : Node → Prop
  | .null => True
  | .node d p i l r =>
    l.pairs.length = (Node.node d p i l r).pairs.length / 2 ∧
      r.pairs.length =
        (Node.node d p i l r).pairs.length - 1 - (Node.node d p i l r).pairs.length / 2 ∧
      SizesOk l ∧ SizesOk r

end KdTree

/-! ## The command `getMirrorVerticesIndex` -/

/-- The values of `MStatus` the command returns. -/
inductive MStatus where
  | kSuccess
  | kFailure
  | kInvalidParameter
  | kNotFound
deriving DecidableEq

/-- `GetMirrorVerticesIndex::MirrorMode`. -/
inductive MirrorMode where
  | NONE
  | MIRROR_X
  | MIRROR_Y
  | MIRROR_Z
deriving DecidableEq

/-- `GetMirrorVerticesIndex::ObjectType`. -/
inductive ObjectType where
  | NO_TYPE
  | MESH
  | NURBS_CURVE
  | NURBS_SURFACE
  | LATTICE
deriving DecidableEq

/-- What `doIt` reads from the host for the shape under the selected object: the accessors
take the `useWorldspace` flag where the source passes a space. The counts are the values left
in `dimensionX`, `dimensionY` (the number of spans in place of the number of control vertices
for a periodic form). -/
inductive Shape where
  | mesh (getPoints : Bool → List MPoint)
  | nurbsCurve (numCVs : Nat) (getCV : Nat → Bool → MPoint)
  | nurbsSurface (numCVsInU numCVsInV : Nat) (getCV : Nat → Nat → Bool → MPoint)
  | lattice (s t u : Nat) (point : Nat → Nat → Nat → MPoint)
  | other

/-- The fields of the command object. The `tree` pointer is dereferenced by `redoIt` and
`mirrorSearch` without a test: the state is the one after `tree = new KdTree()`. The selection
list holds, for each object, what the host returns for its shape. -/
structure GetMirrorVerticesIndex where
  useWorldspace : Bool
  usePosition : Bool
  useMirror : Bool
  searchPosition : MPoint
  mirrorMode : MirrorMode
  objectType : ObjectType
  mirrorPosition : MPoint
  threshold : ℚ
  helpFlagSet : Bool
  objectSelectionList : List Shape
  tree : KdTree
  points : List MPoint
  dimensionX : Nat
  dimensionY : Nat
  dimensionZ : Nat

namespace GetMirrorVerticesIndex

/-- The comparison `sqrt(d2) > t` of `redoIt` in exact arithmetic, that is with the real
square root (`Arith.ieee.sqrtGt` compares the rounded root). -/
def sqrtGt (d2 t : ℚ) : Bool := decide (t < 0 ∨ t * t < d2)

/-- `a - b` on points (an `MVector`, held in the same three coordinates). -/
def vsub (a b : MPoint) : MPoint := ⟨a.x - b.x, a.y - b.y, a.z - b.z⟩

/-- `a + v`: a point plus a vector. -/
def vadd (a v : MPoint) : MPoint := ⟨a.x + v.x, a.y + v.y, a.z + v.z⟩

/-- The `switch( mirrorMode )` that multiplies one component by `-1`. -/
def negateAxis (m : MirrorMode) (p : MPoint) : MPoint :=
  match m with
  | .MIRROR_X => { p with x := p.x * -1 }
  | .MIRROR_Y => { p with y := p.y * -1 }
  | .MIRROR_Z => { p with z := p.z * -1 }
  | .NONE => p

/-- The position `mirroredPos` that `mirrorSearch` computes for a point, in exact arithmetic
(`Fp.mirroredPos` rounds the subtraction and the addition of the world-space branch). -/
def mirroredPos (c : GetMirrorVerticesIndex) (p : MPoint) : MPoint :=
  if c.useWorldspace then
    vadd c.mirrorPosition (negateAxis c.mirrorMode (vsub p c.mirrorPosition))
  else negateAxis c.mirrorMode p

/-- The value stored in `tmpIds[i]` for a matched node: the `unsigned int` expression of the
`switch ( objectType )`, converted to `int`; `none` is the `default` branch. -/
def linearize (c : GetMirrorVerticesIndex) (id : KdTree.IdPoint) : Option Int :=
  match c.objectType with
  | .MESH => some (toInt32 id.x)
  | .NURBS_CURVE => some (toInt32 id.x)
  | .NURBS_SURFACE => some (toInt32 ((id.x * c.dimensionY + id.y) % 4294967296))
  | .LATTICE =>
    some (toInt32 ((id.x * c.dimensionY * c.dimensionZ + id.y * c.dimensionZ + id.z)
      % 4294967296))
  | .NO_TYPE => none

/-- The body of the `for` loop of `mirrorSearch` over the indices still to visit; the state is
`(setIds, tmpIds)`, an error is the early `return MStatus::kFailure`. -/
def mirrorSearchLoop (c : GetMirrorVerticesIndex) :
    List Nat → List Int × List Int → Except MStatus (List Int × List Int)
  | [], st => .ok st
  | i :: rest, st =>
    if st.1.getD i 0 ≠ 0 then mirrorSearchLoop c rest st
    else
      let mirrored := mirroredPos c (c.points.getD i ⟨0, 0, 0⟩)
      let nearestPoint := c.tree.nearestNode mirrored
      if !nearestPoint.isNull then
        if sqrtLe (sqDist mirrored nearestPoint.point) c.threshold then
          match linearize c nearestPoint.id with
          | none => .error .kFailure
          | some v => mirrorSearchLoop c rest (st.1.set i 1, st.2.set i v)
        else mirrorSearchLoop c rest (st.1.set i 1, st.2)
      else mirrorSearchLoop c rest (st.1.set i 1, st.2)

/-- `GetMirrorVerticesIndex::mirrorSearch( mirrorIds )`: the status and the array left in
`mirrorIds`. -/
def mirrorSearch (c : GetMirrorVerticesIndex) (mirrorIds : List Int) : MStatus × List Int :=
  let pointCount := c.points.length
  match mirrorSearchLoop c (List.range pointCount)
      (List.replicate pointCount 0, List.replicate pointCount (-2)) with
  | .error s => (s, mirrorIds)
  | .ok st => (.kSuccess, st.2)

/-- The array `result` filled by the position branch of `redoIt`; `none` is a `default`
branch, which returns `kFailure`. -/
def positionResult (c : GetMirrorVerticesIndex) : Option (List Int) :=
  let nearest := c.tree.nearestNode c.searchPosition
  if !nearest.isNull then
    if sqrtGt (sqDist c.searchPosition nearest.point) c.threshold then
      match c.objectType with
      | .MESH => some [-2]
      | .NURBS_CURVE => some [-2]
      | .NURBS_SURFACE => some [-2, -2]
      | .LATTICE => some [-2, -2, -2]
      | .NO_TYPE => none
    else
      match c.objectType with
      | .MESH => some [toInt32 nearest.id.x]
      | .NURBS_CURVE => some [toInt32 nearest.id.x]
      | .NURBS_SURFACE => some [toInt32 nearest.id.x, toInt32 nearest.id.y]
      | .LATTICE => some [toInt32 nearest.id.x, toInt32 nearest.id.y, toInt32 nearest.id.z]
      | .NO_TYPE => none
  else
    match c.objectType with
    | .MESH => some [-1]
    | .NURBS_CURVE => some [-1]
    | .NURBS_SURFACE => some [-1, -1]
    | .LATTICE => some [-1, -1, -1]
    | .NO_TYPE => none

/-- `GetMirrorVerticesIndex::redoIt`: the status and the command result when one is set. -/
def redoIt (c : GetMirrorVerticesIndex) : MStatus × Option (List Int) :=
  if c.usePosition = true then
    match positionResult c with
    | none => (.kFailure, none)
    | some result => (.kSuccess, some result)
  else if c.useMirror = true then
    (.kSuccess, some (mirrorSearch c []).2)
  else (.kSuccess, none)

/-- The identifiers appended for a mesh or a curve: `ids.append( i )` for `i < dimensionX`. -/
def flatIds (dimensionX : Nat) : List Int :=
  (List.range dimensionX).map (fun i => toInt32 i)

/-- The identifiers appended for a surface, two per control vertex. -/
def surfaceIds (dimensionX dimensionY : Nat) : List Int :=
  (List.range dimensionX).flatMap (fun i =>
    (List.range dimensionY).flatMap (fun j => [toInt32 i, toInt32 j]))

/-- The identifiers appended for a lattice, three per point. -/
def latticeIds (dimensionX dimensionY dimensionZ : Nat) : List Int :=
  (List.range dimensionX).flatMap (fun i =>
    (List.range dimensionY).flatMap (fun j =>
      (List.range dimensionZ).flatMap (fun k => [toInt32 i, toInt32 j, toInt32 k])))

/-- The branch of `doIt` that reads the points of the shape and numbers them: the new command
state and the array `ids`, or `none` when the shape is of no accepted type. -/
def loadShape (c : GetMirrorVerticesIndex) :
    Shape → Option (GetMirrorVerticesIndex × List Int)
  | .mesh getPoints =>
    let points := getPoints c.useWorldspace
    some ({ c with points := points, dimensionX := points.length, objectType := .MESH },
      flatIds points.length)
  | .nurbsCurve numCVs getCV =>
    some ({ c with
        points := (List.range numCVs).map (fun i => getCV i c.useWorldspace),
        dimensionX := numCVs, objectType := .NURBS_CURVE },
      flatIds numCVs)
  | .nurbsSurface numU numV getCV =>
    some ({ c with
        points := (List.range numU).flatMap (fun i =>
          (List.range numV).map (fun j => getCV i j c.useWorldspace)),
        dimensionX := numU, dimensionY := numV, objectType := .NURBS_SURFACE },
      surfaceIds numU numV)
  | .lattice s t u point =>
    some ({ c with
        points := (List.range s).flatMap (fun i =>
          (List.range t).flatMap (fun j => (List.range u).map (fun k => point i j k))),
        dimensionX := s, dimensionY := t, dimensionZ := u, objectType := .LATTICE },
      latticeIds s t u)
  | .other => none

/-- The part of `doIt` from `tree = new KdTree()` to `tree->build( points, ids )`: the state
handed to `redoIt`, or the error returned. -/
def loadAndBuild (S : KdTree.Sorter) (c : GetMirrorVerticesIndex) (shape : Shape) :
    Except MStatus GetMirrorVerticesIndex :=
  match loadShape { c with tree := KdTree.new, points := [] } shape with
  | none => .error .kInvalidParameter
  | some (c1, ids) =>
    if c1.points.length = 0 then .error .kInvalidParameter
    else .ok { c1 with tree := KdTree.build S c1.tree c1.points ids }

/-- The end of `doIt` after the selection has been resolved to a shape: read the points, build
the tree and `return redoIt()`. -/
def loadBuildRedo (S : KdTree.Sorter) (c : GetMirrorVerticesIndex) (shape : Shape) :
    MStatus × Option (List Int) :=
  match loadAndBuild S c shape with
  | .error s => (s, none)
  | .ok c1 => redoIt c1

/-- `GetMirrorVerticesIndex::GetMirrorVerticesIndex()`: the default threshold is the `double`
nearest to `0.001`, the three dimensions are `-1` stored in an `unsigned int`. The constructor
leaves the pointer `tree` at `NULL`; `doIt` allocates a `KdTree` before any use of it, and the
field holds the state of that empty tree. -/
def new : GetMirrorVerticesIndex :=
  { useWorldspace := false, usePosition := false, useMirror := false,
    searchPosition := ⟨0, 0, 0⟩, mirrorMode := .NONE, objectType := .NO_TYPE,
    mirrorPosition := ⟨0, 0, 0⟩, threshold := 1152921504606847 / 1152921504606846976,
    helpFlagSet := false,
    objectSelectionList := [], tree := KdTree.new, points := [],
    dimensionX := 4294967295, dimensionY := 4294967295, dimensionZ := 4294967295 }

/-- The state `redoIt` receives when `doIt` has loaded `shape` with the flags of `c`
(`c` itself when `doIt` returns an error first). -/
def loaded (S : KdTree.Sorter) (c : GetMirrorVerticesIndex) (shape : Shape) :
    GetMirrorVerticesIndex :=
  match loadAndBuild S c shape with
  | .error _ => c
  | .ok c1 => c1

/-- The mesh of the scenario: three vertices. -/
def scenarioMesh : Shape :=
  .mesh (fun _ => [⟨0, 0, 0⟩, ⟨1, 0, 0⟩, ⟨5, 5, 5⟩])

/-- The flags of the scenario: position mode at `(1.1, 0, 0)` with the given threshold. -/
def scenarioFlags (threshold : ℚ) : GetMirrorVerticesIndex :=
  { new with usePosition := true, searchPosition := ⟨11 / 10, 0, 0⟩, threshold := threshold }

/-- The eight vertices of the cube of side 2 centred on the origin, as a mesh. -/
def cubeMesh : Shape :=
  .mesh (fun _ => [⟨-1, -1, -1⟩, ⟨1, -1, -1⟩, ⟨-1, 1, -1⟩, ⟨1, 1, -1⟩,
    ⟨-1, -1, 1⟩, ⟨1, -1, 1⟩, ⟨-1, 1, 1⟩, ⟨1, 1, 1⟩])

/-- Mirror mode along X in object space, threshold `0`. -/
def mirrorXFlags : GetMirrorVerticesIndex :=
  { new with useMirror := true, mirrorMode := .MIRROR_X, threshold := 0 }

/-- The command state after the branch of `doIt` that reads `shape` (`c` when the shape is of
no accepted type). -/
def shapeState (c : GetMirrorVerticesIndex) (shape : Shape) : GetMirrorVerticesIndex :=
  match loadShape c shape with
  | some (c1, _) => c1
  | none => c

/-- The array `ids` after the branch of `doIt` that reads `shape`. -/
def shapeIds (c : GetMirrorVerticesIndex) (shape : Shape) : List Int :=
  match loadShape c shape with
  | some (_, ids) => ids
  | none => []

/-- A lattice of 2 x 3 x 2 points on the integer grid. -/
def gridLattice : Shape :=
  .lattice 2 3 2 (fun i j k => ⟨i, j, k⟩)

/-- The calls to the host whose status `parseArgs` checks with `CHECK_ERROR`, in the order of
the source: the query of each flag, the reading of its values, and `getObjects`. -/
inductive HostCall where
  | positionFlag
  | positionValues
  | axisFlag
  | axisValue
  | pivotFlag
  | pivotValues
  | thresholdFlag
  | thresholdValue
  | worldSpaceFlag
  | helpFlag
  | getObjects
deriving DecidableEq

/-- The flags and the objects of one invocation, as `MArgDatabase` returns them: the value of
a flag when it is set, the objects passed or selected (what `getObjects` leaves in the
selection list), and the call that reports a failure, if one does and is reached. -/
structure MArgList where
  position : Option MPoint
  mirrorAxis : Option Int
  mirrorPosition : Option MPoint
  threshold : Option ℚ
  worldSpace : Bool
  help : Bool
  objects : List Shape
  failure : Option HostCall

/-- The end of `parseArgs`, from `useMirror = hasFlag` on. Each `CHECK_ERROR` returns the
status of the host, `kFailure`, with the fields written so far. -/
def parseArgsRest (c : GetMirrorVerticesIndex) (args : MArgList) :
    MStatus × GetMirrorVerticesIndex :=
  let c1 := { c with useMirror := args.mirrorAxis.isSome }
  if args.failure = some .pivotFlag then (.kFailure, c1)
  else
    let c2 := (match args.mirrorPosition with
      | some p => { c1 with mirrorPosition := p }
      | none => c1)
    if args.mirrorPosition.isSome = true ∧ args.failure = some .pivotValues then
      (.kFailure, c2)
    else if args.failure = some .thresholdFlag then (.kFailure, c2)
    else
      let c3 := (match args.threshold with
        | some t => { c2 with threshold := t }
        | none => c2)
      if args.threshold.isSome = true ∧ args.failure = some .thresholdValue then
        (.kFailure, c3)
      else if args.failure = some .worldSpaceFlag then (.kFailure, c3)
      else if args.failure = some .helpFlag then
        (.kFailure, { c3 with useWorldspace := args.worldSpace })
      else if args.failure = some .getObjects then
        (.kFailure,
          { c3 with useWorldspace := args.worldSpace, helpFlagSet := args.help,
                    objectSelectionList := args.objects })
      else
        (.kSuccess,
          { c3 with useWorldspace := args.worldSpace, helpFlagSet := args.help,
                    objectSelectionList := args.objects })

/-- `GetMirrorVerticesIndex::parseArgs`: the status and the fields as it leaves them. A mirror
axis other than 0, 1 or 2 returns `kInvalidParameter` before `useMirror` and the later fields
are written; a failure of a call to the host returns at the `CHECK_ERROR` that follows it. -/
def parseArgs (c : GetMirrorVerticesIndex) (args : MArgList) :
    MStatus × GetMirrorVerticesIndex :=
  if args.failure = some .positionFlag then (.kFailure, c)
  else
    let c1 := (match args.position with
      | some p => { c with searchPosition := p }
      | none => c)
    if args.position.isSome = true ∧ args.failure = some .positionValues then (.kFailure, c1)
    else
      let c2 := { c1 with usePosition := args.position.isSome }
      if args.failure = some .axisFlag then (.kFailure, c2)
      else
        match args.mirrorAxis with
        | some value =>
          if args.failure = some .axisValue then (.kFailure, c2)
          else if value = 0 then parseArgsRest { c2 with mirrorMode := .MIRROR_X } args
          else if value = 1 then parseArgsRest { c2 with mirrorMode := .MIRROR_Y } args
          else if value = 2 then parseArgsRest { c2 with mirrorMode := .MIRROR_Z } args
          else (.kInvalidParameter, c2)
        | none => parseArgsRest c2 args

/-- `GetMirrorVerticesIndex::doIt`: the status returned, the command object as it is left and
the command result when one is set. The status of `parseArgs` is not read. -/
def doIt (S : KdTree.Sorter) (c : GetMirrorVerticesIndex) (args : MArgList) :
    MStatus × GetMirrorVerticesIndex × Option (List Int) :=
  let c1 := (parseArgs c args).2
  if c1.helpFlagSet = true then (.kSuccess, c1, none)
  else if c1.useMirror = false ∧ c1.usePosition = false then (.kInvalidParameter, c1, none)
  else if c1.useMirror = true ∧ c1.usePosition = true then (.kInvalidParameter, c1, none)
  else
    match c1.objectSelectionList with
    | [] => (.kNotFound, c1, none)
    | shape :: _ =>
      match loadAndBuild S c1 shape with
      | .error s => (s, shapeState { c1 with tree := KdTree.new, points := [] } shape, none)
      | .ok c2 => ((redoIt c2).1, c2, (redoIt c2).2)

/-- An invocation with no flag and no object. -/
def noArgs : MArgList :=
  { position := none, mirrorAxis := none, mirrorPosition := none, threshold := none,
    worldSpace := false, help := false, objects := [], failure := none }

/-- A mesh with the vertex `(0, 0, 0)`, the vertex `(0.0004, 0, 0)` next to it, and a third
vertex far away. -/
def nearPairMesh : Shape :=
  .mesh (fun _ => [⟨0, 0, 0⟩, ⟨1 / 2500, 0, 0⟩, ⟨5, 5, 5⟩])

/-- Mirror mode along X in object space with the default threshold `0.001`. -/
def mirrorXDefaultFlags : GetMirrorVerticesIndex :=
  { new with useMirror := true, mirrorMode := .MIRROR_X }

/-- An invocation with the mirror-axis value 5, the position flag, the help flag and the cube
as object. -/
def badAxisArgs : MArgList :=
  { position := some ⟨0, 0, 0⟩, mirrorAxis := some 5, mirrorPosition := none,
    threshold := none, worldSpace := false, help := true, objects := [cubeMesh],
    failure := none }

/-- An invocation with the help flag and an object, on which `getObjects` reports a failure. -/
def helpFailingArgs : MArgList :=
  { position := none, mirrorAxis := none, mirrorPosition := none, threshold := none,
    worldSpace := false, help := true, objects := [scenarioMesh],
    failure := some .getObjects }


/-- A mesh with three vertices on the X axis: two mirror images of each other and one on the
plane `x = 0`. -/
def symmetricMesh : Shape :=
  .mesh (fun _ => [⟨-1, 0, 0⟩, ⟨0, 0, 0⟩, ⟨1, 0, 0⟩])

/-! ### Notions used to state the properties of the command -/

/-- The number of components of an identifier of the object type. -/
def idArity : ObjectType → Nat
  | .MESH => 1
  | .NURBS_CURVE => 1
  | .NURBS_SURFACE => 2
  | .LATTICE => 3
  | .NO_TYPE => 0

/-- The entry of the mirror result for one point, as the specification words it: the
linearized identifier of the nearest node of the reflected point when there is one within the
threshold, `-2` otherwise. -/
def mirrorEntry (c : GetMirrorVerticesIndex) (p : MPoint) : Int :=
  if (c.tree.nearestNode (mirroredPos c p)).isNull = false ∧
      sqrtLe (sqDist (mirroredPos c p) (c.tree.nearestNode (mirroredPos c p)).point)
        c.threshold = true then
    (linearize c (c.tree.nearestNode (mirroredPos c p)).id).getD (-2)
  else -2

/-- The point lies on the mirror plane of the command: its coordinate on the mirror axis is
the one of the pivot in world space, `0` in object space. Without a mirror axis no coordinate
is negated and every point is its own reflection. -/
def onMirrorPlane (c : GetMirrorVerticesIndex) (p : MPoint) : Bool :=
  match c.mirrorMode with
  | .MIRROR_X => decide (p.x = if c.useWorldspace then c.mirrorPosition.x else 0)
  | .MIRROR_Y => decide (p.y = if c.useWorldspace then c.mirrorPosition.y else 0)
  | .MIRROR_Z => decide (p.z = if c.useWorldspace then c.mirrorPosition.z else 0)
  | .NONE => true

end GetMirrorVerticesIndex

end nwave

namespace nwave

/-! ## The arithmetic of `double`

The source computes on `double`: every `+`, `-`, `*`, `pow( . , 2 )` and `sqrt` returns the
exact result rounded to the nearest `double`, a tie going to the even significand (IEEE 754,
53 bits, exponents down to the subnormals). Each operation is rounded on its own: no fused
multiply-add, no extended precision, and `pow( x, 2 )` is the rounded square. The values are
finite doubles, held as the rationals they are; a result of magnitude `2 ^ 1024` or more (an
overflow) is outside this model, as are NaN operands. -/

/-- The loop of `log2`. -/
def log2Aux : Nat → Nat → Nat
  | 0, _ => 0
  | f + 1, n => if n < 2 then 0 else log2Aux f (n / 2) + 1

/-- `floor(log2 n)` for positive `n`. -/
def log2 (n : Nat) : Nat := log2Aux n n

/-- `floor(log2 (n / d))` for positive `n` and `d`. -/
def floorLog2 (n d : Nat) : Int :=
  let e : Int := (log2 n : Int) - (log2 d : Int)
  let ok : Bool :=
    match e with
    | Int.ofNat k => decide (2 ^ k * d ≤ n)
    | Int.negSucc k => decide (d ≤ n * 2 ^ (k + 1))
  if ok then e else e - 1

/-- The quotient `num / den` rounded to the nearest integer, a tie to the even one. -/
def roundHalfEven (num den : Nat) : Nat :=
  if den < 2 * (num % den) then num / den + 1
  else if 2 * (num % den) < den then num / den
  else if (num / den) % 2 = 0 then num / den else num / den + 1

/-- The rational `m * 2 ^ u`. -/
def scaleBy (m : Nat) (u : Int) : ℚ :=
  match u with
  | Int.ofNat k => ((m * 2 ^ k : Nat) : ℚ)
  | Int.negSucc k => mkRat m (2 ^ (k + 1))

/-- The quotient `(n / d) / 2 ^ u` rounded to the nearest integer, a tie to the even one. -/
def roundAt (n d : Nat) (u : Int) : Nat :=
  match u with
  | Int.ofNat k => roundHalfEven n (d * 2 ^ k)
  | Int.negSucc k => roundHalfEven (n * 2 ^ (k + 1)) d

/-- The exponent of the last of the 53 bits of a `double` of the size of `n / d`, at least
`-1074`, the exponent of the subnormals. -/
def lastBit (n d : Nat) : Int := max (floorLog2 n d - 52) (-1074)

/-- The exponent `floor(log2 |q|)` of a number other than `0`. -/
def expOf (q : ℚ) : Int := floorLog2 q.num.natAbs q.den

/-- The exponent of the last bit of the `double` nearest to `q`. -/
def lastBitOf (q : ℚ) : Int := lastBit q.num.natAbs q.den

/-- The integer `m` such that the `double` nearest to `|q|` is `m * 2 ^ lastBitOf q`. -/
def significand (q : ℚ) : Nat := roundAt q.num.natAbs q.den (lastBitOf q)

/-- The `double` nearest to `q`, a tie going to the even significand: `q` is rounded to a
multiple of `2 ^ u`, where `u` is the exponent of the last of the 53 bits of a number of the
size of `q`, and at least `-1074`, the exponent of the subnormals. -/
def roundDouble (q : ℚ) : ℚ :=
  if q = 0 then 0
  else if 0 < q then scaleBy (significand q) (lastBitOf q)
  else -scaleBy (significand q) (lastBitOf q)

/-- The loop of `isqrt`: the bits of the root, from the highest down. -/
def isqrtAux (n : Nat) : Nat → Nat → Nat
  | 0, r => r
  | k + 1, r =>
    if (r + 2 ^ k) * (r + 2 ^ k) ≤ n then isqrtAux n k (r + 2 ^ k) else isqrtAux n k r

/-- The integer square root `floor(sqrt n)`. -/
def isqrt (n : Nat) : Nat := isqrtAux n (log2 n / 2 + 1) 0

/-- The function `sqrt` on a `double` `q >= 0`: the `double` nearest to the real square root.
With `s = floor(sqrt(q / 4 ^ u))` the root is rounded to `s * 2 ^ u` or `(s + 1) * 2 ^ u`
according as `q / 4 ^ u` is below or above `(s + 1/2) ^ 2`. -/
def sqrtDouble (q : ℚ) : ℚ :=
  if q ≤ 0 then 0
  else
    let n := q.num.natAbs
    let d := q.den
    let u : Int := Int.fdiv (floorLog2 n d) 2 - 52
    let num : Nat :=
      match u with
      | Int.ofNat _ => n
      | Int.negSucc k => n * 4 ^ (k + 1)
    let den : Nat :=
      match u with
      | Int.ofNat k => d * 4 ^ k
      | Int.negSucc _ => d
    let s := isqrt (num / den)
    let m : Nat :=
      if (4 * s * s + 4 * s + 1) * den < 4 * num then s + 1
      else if 4 * num < (4 * s * s + 4 * s + 1) * den then s
      else if s % 2 = 0 then s else s + 1
    scaleBy m u

/-- An arithmetic for the coordinates: `rnd` is applied to the exact result of each `+`, `-`,
`*` and `pow( . , 2 )`; `sqrtLe d2 t` is the test `sqrt( d2 ) <= t` and `sqrtGt d2 t` the test
`sqrt( d2 ) > t`. -/
structure Arith where
  rnd : ℚ → ℚ
  sqrtLe : ℚ → ℚ → Bool
  sqrtGt : ℚ → ℚ → Bool

/-- Arithmetic without rounding: the one of `sqDist`, `sqrtLe`, `sqrtGt`, `mirroredPos`. -/
def Arith.exact : Arith :=
  { rnd := id, sqrtLe := nwave.sqrtLe, sqrtGt := GetMirrorVerticesIndex.sqrtGt }

/-- The arithmetic of `double`, in which the program runs. -/
def Arith.ieee : Arith :=
  { rnd := roundDouble,
    sqrtLe := fun d2 t => decide (sqrtDouble d2 ≤ t),
    sqrtGt := fun d2 t => decide (t < sqrtDouble d2) }

/-- The properties of a rounding to the nearest that the pruning of the search relies on: it
is monotone, it commutes with the change of sign, and it leaves a rounded number as it is. -/
def Arith.Regular (A : Arith) : Prop :=
  (∀ x y : ℚ, x ≤ y → A.rnd x ≤ A.rnd y) ∧ (∀ x : ℚ, A.rnd (-x) = -A.rnd x) ∧
    (∀ x : ℚ, A.rnd (A.rnd x) = A.rnd x)

/-! ## The search and the command in a given arithmetic

The functions of the source that compute on coordinates, with every operation of the source
rounded by the arithmetic. With `Arith.ieee` they are the program; with `Arith.exact` they are
the functions of the same name defined above. -/

namespace Fp

/-- The sum `pow(diff[0], 2) + pow(diff[1], 2) + pow(diff[2], 2)` with `diff = a - b`, as
`nearestNeighbour`, `checkSubtree`, `redoIt` and `mirrorSearch` compute it. -/
def sqDist (A : Arith) (a b : MPoint) : ℚ :=
  A.rnd (A.rnd (A.rnd (A.rnd (a.x - b.x) ^ 2) + A.rnd (A.rnd (a.y - b.y) ^ 2))
    + A.rnd (A.rnd (a.z - b.z) ^ 2))

/-- `KdTree::traverseTree`, with `d = position[axis] - point[axis]` rounded. -/
def traverseTree (A : Arith) :
    KdTree.Node → MPoint → List KdTree.Node → KdTree.Node × List KdTree.Node
  | .null, _, anc => (.null, anc)
  | .node depth point id l r, position, anc =>
    if !(KdTree.Node.node depth point id l r).isLeaf then
      let axis := depth % KdTree.dimensions
      let d := A.rnd (position.get axis - point.get axis)
      if d ≤ 0 ∧ !l.isNull then traverseTree A l position (.node depth point id l r :: anc)
      else if d > 0 ∧ !r.isNull then
        traverseTree A r position (.node depth point id l r :: anc)
      else (.node depth point id l r, anc)
    else (.node depth point id l r, anc)

/-- `KdTree::checkSubtree`, with `dist`, `d` and `d * d` rounded. -/
def checkSubtree (A : Arith) : KdTree.Node → MPoint → KdTree.Node → ℚ → KdTree.Node × ℚ
  | .null, _, _, minDist => (.null, minDist)
  | .node depth point id l r, position, nearest, minDist =>
    let dist := sqDist A point position
    let upd : KdTree.Node × ℚ :=
      if dist < minDist then (.node depth point id l r, dist) else (nearest, minDist)
    let axis := depth % KdTree.dimensions
    let d := A.rnd (position.get axis - point.get axis)
    if A.rnd (d * d) > upd.2 then
      if d ≤ 0 ∧ !l.isNull then checkSubtree A l position upd.1 upd.2
      else if d > 0 ∧ !r.isNull then checkSubtree A r position upd.1 upd.2
      else upd
    else
      let afterLeft : KdTree.Node × ℚ :=
        if !l.isNull then checkSubtree A l position upd.1 upd.2 else upd
      if !r.isNull then checkSubtree A r position afterLeft.1 afterLeft.2 else afterLeft

/-- The upward loop of `nearestNeighbour`. -/
def walkUp (A : Arith) (position : MPoint) :
    List KdTree.Node → KdTree.Node × ℚ → KdTree.Node × ℚ
  | [], best => best
  | parent :: rest, best =>
    walkUp A position rest (checkSubtree A parent position best.1 best.2)

/-- `KdTree::nearestNeighbour`. -/
def nearestNeighbour (A : Arith) (node : KdTree.Node) (position : MPoint) : KdTree.Node :=
  if node.isNull then .null
  else
    let found := traverseTree A node position []
    let leaf := found.1
    let dist := sqDist A leaf.point position
    if leaf.point = position then leaf
    else (walkUp A position found.2 (leaf, dist)).1

/-- `KdTree::nearestNode`. -/
def nearestNode (A : Arith) (t : KdTree) (position : MPoint) : KdTree.Node :=
  nearestNeighbour A t.root position

/-- `a - b` on points, each component rounded. -/
def vsub (A : Arith) (a b : MPoint) : MPoint :=
  ⟨A.rnd (a.x - b.x), A.rnd (a.y - b.y), A.rnd (a.z - b.z)⟩

/-- `a + v`, each component rounded. -/
def vadd (A : Arith) (a v : MPoint) : MPoint :=
  ⟨A.rnd (a.x + v.x), A.rnd (a.y + v.y), A.rnd (a.z + v.z)⟩

/-- The position `mirroredPos` that `mirrorSearch` computes for a point: in world space
`mirrorPosition + diff` with `diff = points[i] - mirrorPosition` and one component of `diff`
multiplied by `-1`; in object space one coordinate multiplied by `-1` (an exact operation). -/
def mirroredPos (A : Arith) (c : GetMirrorVerticesIndex) (p : MPoint) : MPoint :=
  if c.useWorldspace then
    vadd A c.mirrorPosition
      (GetMirrorVerticesIndex.negateAxis c.mirrorMode (vsub A p c.mirrorPosition))
  else GetMirrorVerticesIndex.negateAxis c.mirrorMode p

/-- The body of the `for` loop of `mirrorSearch`; the state is `(setIds, tmpIds)`. -/
def mirrorSearchLoop (A : Arith) (c : GetMirrorVerticesIndex) :
    List Nat → List Int × List Int → Except MStatus (List Int × List Int)
  | [], st => .ok st
  | i :: rest, st =>
    if st.1.getD i 0 ≠ 0 then mirrorSearchLoop A c rest st
    else
      let mirrored := mirroredPos A c (c.points.getD i ⟨0, 0, 0⟩)
      let nearestPoint := nearestNode A c.tree mirrored
      if !nearestPoint.isNull then
        if A.sqrtLe (sqDist A mirrored nearestPoint.point) c.threshold then
          match GetMirrorVerticesIndex.linearize c nearestPoint.id with
          | none => .error .kFailure
          | some v => mirrorSearchLoop A c rest (st.1.set i 1, st.2.set i v)
        else mirrorSearchLoop A c rest (st.1.set i 1, st.2)
      else mirrorSearchLoop A c rest (st.1.set i 1, st.2)

/-- `GetMirrorVerticesIndex::mirrorSearch( mirrorIds )`. -/
def mirrorSearch (A : Arith) (c : GetMirrorVerticesIndex) (mirrorIds : List Int) :
    MStatus × List Int :=
  let pointCount := c.points.length
  match mirrorSearchLoop A c (List.range pointCount)
      (List.replicate pointCount 0, List.replicate pointCount (-2)) with
  | .error s => (s, mirrorIds)
  | .ok st => (.kSuccess, st.2)

/-- The array `result` filled by the position branch of `redoIt`. -/
def positionResult (A : Arith) (c : GetMirrorVerticesIndex) : Option (List Int) :=
  let nearest := nearestNode A c.tree c.searchPosition
  if !nearest.isNull then
    if A.sqrtGt (sqDist A c.searchPosition nearest.point) c.threshold then
      match c.objectType with
      | .MESH => some [-2]
      | .NURBS_CURVE => some [-2]
      | .NURBS_SURFACE => some [-2, -2]
      | .LATTICE => some [-2, -2, -2]
      | .NO_TYPE => none
    else
      match c.objectType with
      | .MESH => some [toInt32 nearest.id.x]
      | .NURBS_CURVE => some [toInt32 nearest.id.x]
      | .NURBS_SURFACE => some [toInt32 nearest.id.x, toInt32 nearest.id.y]
      | .LATTICE => some [toInt32 nearest.id.x, toInt32 nearest.id.y, toInt32 nearest.id.z]
      | .NO_TYPE => none
  else
    match c.objectType with
    | .MESH => some [-1]
    | .NURBS_CURVE => some [-1]
    | .NURBS_SURFACE => some [-1, -1]
    | .LATTICE => some [-1, -1, -1]
    | .NO_TYPE => none

/-- `GetMirrorVerticesIndex::redoIt`. -/
def redoIt (A : Arith) (c : GetMirrorVerticesIndex) : MStatus × Option (List Int) :=
  if c.usePosition = true then
    match positionResult A c with
    | none => (.kFailure, none)
    | some result => (.kSuccess, some result)
  else if c.useMirror = true then
    (.kSuccess, some (mirrorSearch A c []).2)
  else (.kSuccess, none)

/-- The end of `doIt` after the selection has been resolved to a shape: read the points, build
the tree and `return redoIt()`. -/
def loadBuildRedo (A : Arith) (S : KdTree.Sorter) (c : GetMirrorVerticesIndex)
    (shape : Shape) : MStatus × Option (List Int) :=
  match GetMirrorVerticesIndex.loadAndBuild S c shape with
  | .error s => (s, none)
  | .ok c1 => redoIt A c1

/-! ### Notions used to state the properties in a given arithmetic -/

/-- The entry of the mirror result for one point: the linearized identifier of the nearest
node of the reflected position when the node exists and its computed distance passes the test
against the threshold, `-2` otherwise. -/
def mirrorEntry (A : Arith) (c : GetMirrorVerticesIndex) (p : MPoint) : Int :=
  if (nearestNode A c.tree (mirroredPos A c p)).isNull = false ∧
      A.sqrtLe (sqDist A (mirroredPos A c p) (nearestNode A c.tree (mirroredPos A c p)).point)
        c.threshold = true then
    (GetMirrorVerticesIndex.linearize c (nearestNode A c.tree (mirroredPos A c p)).id).getD (-2)
  else -2

/-- The pair `b` is `a` or a node among `T` with its own computed squared distance, and is no
farther than `a`. -/
def Improves (A : Arith) (q : MPoint) (T : List KdTree.Node) (a b : KdTree.Node × ℚ) : Prop :=
  b.2 ≤ a.2 ∧ (b = a ∨ (b.1 ∈ T ∧ b.2 = sqDist A b.1.point q))

/-- The descent stops at this node: no child on the side of the query. -/
def Stops (A : Arith) : KdTree.Node → MPoint → Prop
  | .null, _ => True
  | .node d p _ l r, q =>
    ¬ (A.rnd (q.get (d % KdTree.dimensions) - p.get (d % KdTree.dimensions)) ≤ 0 ∧
        l.isNull = false) ∧
    ¬ (A.rnd (q.get (d % KdTree.dimensions) - p.get (d % KdTree.dimensions)) > 0 ∧
        r.isNull = false)

end Fp

/-! ### Inputs at which rounding shows -/

/-- The double `2 ^ -600`, whose square underflows to `0`. -/
def tiny : ℚ := 1 / 2 ^ 600

/-- The double `2 ^ -30`: `1 + (k * 2 ^ -30) ^ 2` has more than 53 bits for small `k`. -/
def small : ℚ := 1 / 2 ^ 30

namespace GetMirrorVerticesIndex

/-- Three vertices on a diagonal, `2 ^ -600` apart on `x` and on `y`. -/
def tinyDiagonalPoints : List MPoint := [⟨-tiny, -tiny, 0⟩, ⟨0, 0, 0⟩, ⟨tiny, tiny, 0⟩]

/-- A mesh of three vertices on the X axis, `2 ^ -600` apart, symmetric about `x = 0`. -/
def tinySymmetricMesh : Shape := .mesh (fun _ => [⟨-tiny, 0, 0⟩, ⟨0, 0, 0⟩, ⟨tiny, 0, 0⟩])

/-- A mesh with two vertices `3 * 2 ^ -600` apart on either side of `x = 0`, not mirror images
of each other, and a vertex on the plane. -/
def tinyAsymmetricMesh : Shape := .mesh (fun _ => [⟨tiny, 0, 0⟩, ⟨0, 7, 0⟩, ⟨-2 * tiny, 0, 0⟩])

/-- A mesh symmetric about the plane `x = a`, `a = 1 + 2 ^ -52`: the vertices `5`, `2a - 5`
and `a` on the X axis. -/
def offCentreMesh : Shape :=
  .mesh (fun _ => [⟨5, 0, 0⟩, ⟨2 * (1 + 1 / 2 ^ 52) - 5, 0, 0⟩, ⟨1 + 1 / 2 ^ 52, 0, 0⟩])

/-- Mirror mode along X in world space about the pivot `(1 + 2 ^ -52, 0, 0)`, threshold 0. -/
def offCentreFlags : GetMirrorVerticesIndex :=
  { new with useMirror := true, mirrorMode := .MIRROR_X, useWorldspace := true,
             mirrorPosition := ⟨1 + 1 / 2 ^ 52, 0, 0⟩, threshold := 0 }

/-- A mesh of one vertex at the distance `sqrt(1 + 2 ^ -60)` of the origin. -/
def nearUnitMesh : Shape := .mesh (fun _ => [⟨1, small, 0⟩])

/-- Position mode at the origin with the threshold 1. -/
def originFlags : GetMirrorVerticesIndex :=
  { new with usePosition := true, searchPosition := ⟨0, 0, 0⟩, threshold := 1 }

/-- A mesh whose second vertex is, once mirrored along X, at a distance of the first within
half a unit in the last place of the threshold `boundaryThreshold`. -/
def boundaryMesh : Shape :=
  .mesh (fun _ => [⟨0, 0, 0⟩,
    ⟨-3513706503107085 / 4503599627370496, 840097039091705 / 4503599627370496,
      5087727535961581 / 9007199254740992⟩, ⟨50, 50, 50⟩])

/-- The double `0.9811040126147056`. -/
def boundaryThreshold : ℚ := 8836999331246573 / 9007199254740992

end GetMirrorVerticesIndex

namespace KdTree

/-- Three points: the first at the squared distance `1 + 2 ^ -60` of the origin, the second
at the squared distance `1`. -/
def nearTiePoints : List MPoint := [⟨-1, small, 0⟩, ⟨0, 1, 0⟩, ⟨5, 5, 5⟩]

/-- Three points: the first at the squared distance `1 + 144 * 2 ^ -60` of the origin, the
third at the squared distance `1 + 242 * 2 ^ -60`. -/
def roundedTiePoints : List MPoint :=
  [⟨-1, 12 * small, 0⟩, ⟨0, 100, 0⟩, ⟨1, 11 * small, 11 * small⟩]

end KdTree

end nwave

namespace nwave
namespace KdTree

/-! ## `std::sort` as libstdc++ implements it

The functions of `bits/stl_algo.h` (GCC) behind `std::sort( begin, end, comp )`, on a range
held as a list and positions held as indices: `__introsort_loop` (median-of-three quicksort on
the ranges of more than 16 elements) followed by `__final_insertion_sort`. The heap sort that
`__introsort_loop` falls back to when its depth limit `2 * floor(log2 n)` is used up is a
parameter with the contract of a sort. -/

/-- `std::iter_swap` on two positions of the range. -/
def iterSwap (l : List Pair) (i j : Nat) : List Pair :=
  match l[i]?, l[j]? with
  | some a, some b => (l.set i b).set j a
  | _, _ => l

/-- `std::__move_median_to_first( result, a, b, c, comp )`. -/
def moveMedianToFirst (axis : Nat) (l : List Pair) (result a b c : Nat) : List Pair :=
  match l[a]?, l[b]?, l[c]? with
  | some va, some vb, some vc =>
    if sortLt axis va vb then
      if sortLt axis vb vc then iterSwap l result b
      else if sortLt axis va vc then iterSwap l result c
      else iterSwap l result a
    else if sortLt axis va vc then iterSwap l result a
    else if sortLt axis vb vc then iterSwap l result c
    else iterSwap l result b
  | _, _, _ => l

/-- The loop `while ( comp( first, pivot ) ) ++first` of `__unguarded_partition`. -/
def scanUp (axis : Nat) (l : List Pair) (pivot : Pair) : Nat → Nat → Nat
  | 0, first => first
  | fuel + 1, first =>
    match l[first]? with
    | some v => if sortLt axis v pivot then scanUp axis l pivot fuel (first + 1) else first
    | none => first

/-- The loop `while ( comp( pivot, last ) ) --last` of `__unguarded_partition`. -/
def scanDown (axis : Nat) (l : List Pair) (pivot : Pair) : Nat → Nat → Nat
  | 0, last => last
  | fuel + 1, last =>
    match l[last]? with
    | some v => if sortLt axis pivot v then scanDown axis l pivot fuel (last - 1) else last
    | none => last

/-- `std::__unguarded_partition( first, last, pivot, comp )`: the range as it is left and the
position returned. -/
def unguardedPartition (axis : Nat) (pivot : Nat) :
    Nat → List Pair → Nat → Nat → List Pair × Nat
  | 0, l, first, _ => (l, first)
  | fuel + 1, l, first, last =>
    match l[pivot]? with
    | none => (l, first)
    | some pv =>
      if scanUp axis l pv l.length first < scanDown axis l pv l.length (last - 1) then
        unguardedPartition axis pivot fuel
          (iterSwap l (scanUp axis l pv l.length first) (scanDown axis l pv l.length (last - 1)))
          (scanUp axis l pv l.length first + 1) (scanDown axis l pv l.length (last - 1))
      else (l, scanUp axis l pv l.length first)

/-- `std::__introsort_loop( first, last, depth_limit, comp )`; `H` is the heap sort of
`__partial_sort( first, last, last )`. -/
def introsortLoop (H : Sorter) (axis : Nat) : Nat → List Pair → Nat → Nat → Nat → List Pair
  | 0, l, _, _, _ => l
  | fuel + 1, l, first, last, depthLimit =>
    if 16 < last - first then
      if depthLimit = 0 then
        l.take first ++ (H.sort axis ((l.drop first).take (last - first)) ++ l.drop last)
      else
        introsortLoop H axis fuel
          (introsortLoop H axis fuel
            (unguardedPartition axis first l.length
              (moveMedianToFirst axis l first (first + 1) (first + (last - first) / 2)
                (last - 1)) (first + 1) last).1
            (unguardedPartition axis first l.length
              (moveMedianToFirst axis l first (first + 1) (first + (last - first) / 2)
                (last - 1)) (first + 1) last).2
            last (depthLimit - 1))
          first
          (unguardedPartition axis first l.length
            (moveMedianToFirst axis l first (first + 1) (first + (last - first) / 2)
              (last - 1)) (first + 1) last).2
          (depthLimit - 1)
    else l

/-- `std::__final_insertion_sort`: each element in turn is inserted in the sorted elements
before it, after those that do not compare greater (`__unguarded_linear_insert`). -/
def finalInsertionSort (axis : Nat) (l : List Pair) : List Pair :=
  l.foldl (fun acc v => orderedInsert axis v acc) []

/-- `std::sort( begin, end, comp )` of libstdc++. -/
def libstdcxxSort (H : Sorter) (axis : Nat) (l : List Pair) : List Pair :=
  if l.isEmpty then l
  else finalInsertionSort axis (introsortLoop H axis l.length l 0 l.length (log2 l.length * 2))

theorem set_perm_cons (x : Pair) : ∀ (xs : List Pair) (j : Nat) (b : Pair), xs[j]? = some b →
    (b :: xs.set j x).Perm (x :: xs) := by
  intro xs
  induction xs with
  | nil => intro j b h; simp at h
  | cons y ys ih =>
    intro j b h
    cases j with
    | zero =>
      simp only [List.getElem?_cons_zero, Option.some.injEq] at h
      subst h
      simp only [List.set_cons_zero]
      exact List.Perm.swap _ _ _
    | succ j =>
      simp only [List.getElem?_cons_succ] at h
      simp only [List.set_cons_succ]
      exact (List.Perm.swap _ _ _).trans
        (((ih j b h).cons y).trans (List.Perm.swap _ _ _))

theorem set_set_perm : ∀ (l : List Pair) (i j : Nat) (a b : Pair), l[i]? = some a →
    l[j]? = some b → ((l.set i b).set j a).Perm l := by
  intro l
  induction l with
  | nil => intro i j a b h; simp at h
  | cons x xs ih =>
    intro i j a b hi hj
    cases i with
    | zero =>
      simp only [List.getElem?_cons_zero, Option.some.injEq] at hi
      subst hi
      cases j with
      | zero =>
        simp only [List.getElem?_cons_zero, Option.some.injEq] at hj
        subst hj
        simp
      | succ j =>
        simp only [List.getElem?_cons_succ] at hj
        simp only [List.set_cons_zero, List.set_cons_succ]
        exact set_perm_cons _ xs j b hj
    | succ i =>
      simp only [List.getElem?_cons_succ] at hi
      cases j with
      | zero =>
        simp only [List.getElem?_cons_zero, Option.some.injEq] at hj
        subst hj
        simp only [List.set_cons_succ, List.set_cons_zero]
        exact set_perm_cons _ xs i a hi
      | succ j =>
        simp only [List.getElem?_cons_succ] at hj
        simp only [List.set_cons_succ]
        exact (ih i j a b hi hj).cons x

theorem iterSwap_perm (l : List Pair) (i j : Nat) : (iterSwap l i j).Perm l := by
  unfold iterSwap
  cases hi : l[i]? with
  | none => exact List.Perm.refl _
  | some a =>
    cases hj : l[j]? with
    | none => exact List.Perm.refl _
    | some b => exact set_set_perm l i j a b hi hj

theorem moveMedianToFirst_perm (axis : Nat) (l : List Pair) (result a b c : Nat) :
    (moveMedianToFirst axis l result a b c).Perm l := by
  unfold moveMedianToFirst
  split
  · split_ifs <;> exact iterSwap_perm _ _ _
  · exact List.Perm.refl _

theorem unguardedPartition_perm (axis : Nat) (pivot : Nat) :
    ∀ (fuel : Nat) (l : List Pair) (first last : Nat),
      (unguardedPartition axis pivot fuel l first last).1.Perm l := by
  intro fuel
  induction fuel with
  | zero => intro l first last; exact List.Perm.refl _
  | succ fuel ih =>
    intro l first last
    rw [unguardedPartition]
    split
    · exact List.Perm.refl _
    · split
      · exact (ih _ _ _).trans (iterSwap_perm _ _ _)
      · exact List.Perm.refl _

theorem introsortLoop_perm (H : Sorter) (axis : Nat) :
    ∀ (fuel : Nat) (l : List Pair) (first last depthLimit : Nat),
      (introsortLoop H axis fuel l first last depthLimit).Perm l := by
  intro fuel
  induction fuel with
  | zero => intro l first last depthLimit; exact List.Perm.refl _
  | succ fuel ih =>
    intro l first last depthLimit
    rw [introsortLoop]
    split
    · rename_i hbig
      split
      · have hsplit : l = l.take first ++ ((l.drop first).take (last - first) ++ l.drop last) := by
          have h1 : l.drop last = (l.drop first).drop (last - first) := by
            rw [List.drop_drop]
            congr 1
            omega
          rw [h1, List.take_append_drop, List.take_append_drop]
        conv_rhs => rw [hsplit]
        exact List.Perm.append_left _ (List.Perm.append_right _ (H.perm axis _))
      · exact ((ih _ _ _ _).trans (ih _ _ _ _)).trans
          ((unguardedPartition_perm axis first _ _ _ _).trans
            (moveMedianToFirst_perm axis l _ _ _ _))
    · exact List.Perm.refl _

theorem finalInsertionSort_snoc (axis : Nat) (l : List Pair) (v : Pair) :
    finalInsertionSort axis (l ++ [v]) = orderedInsert axis v (finalInsertionSort axis l) := by
  unfold finalInsertionSort
  rw [List.foldl_append]
  rfl

theorem finalInsertionSort_perm (axis : Nat) (l : List Pair) :
    (finalInsertionSort axis l).Perm l := by
  induction l using List.reverseRecOn with
  | nil => exact List.Perm.refl _
  | append_singleton l v ih =>
    rw [finalInsertionSort_snoc]
    exact (orderedInsert_perm axis v _).trans
      ((List.Perm.cons v ih).trans (List.perm_append_singleton v l).symm)

theorem finalInsertionSort_sorted (axis : Nat) (l : List Pair) :
    (finalInsertionSort axis l).Pairwise (fun a b => sortLt axis b a = false) := by
  induction l using List.reverseRecOn with
  | nil => exact List.Pairwise.nil
  | append_singleton l v ih =>
    rw [finalInsertionSort_snoc]
    exact orderedInsert_sorted axis v _ ih

theorem libstdcxxSort_perm (H : Sorter) (axis : Nat) (l : List Pair) :
    (libstdcxxSort H axis l).Perm l := by
  unfold libstdcxxSort
  split
  · exact List.Perm.refl _
  · exact (finalInsertionSort_perm axis _).trans (introsortLoop_perm H axis _ _ _ _ _)

theorem libstdcxxSort_sorted (H : Sorter) (axis : Nat) (l : List Pair) :
    (libstdcxxSort H axis l).Pairwise (fun a b => sortLt axis b a = false) := by
  unfold libstdcxxSort
  split
  · rename_i hl
    rw [List.isEmpty_iff.mp hl]
    exact List.Pairwise.nil
  · exact finalInsertionSort_sorted axis _

/-- The `std::sort` of libstdc++ as an instance of the contract of `std::sort`. -/
def libstdcxxSorter (H : Sorter) : Sorter :=
  ⟨libstdcxxSort H, libstdcxxSort_perm H, libstdcxxSort_sorted H⟩

/-- The `std::sort` of libstdc++ with a stable sort for the heap sort of its fallback, which is
run only on a range of more than 16 elements whose quicksort has used up its depth limit;
every other range is sorted as libstdc++ sorts it. -/
def stdSorter : Sorter := libstdcxxSorter stableSorter

/-- Seventeen points with the same `x`, numbered in array order. -/
def seventeenTiedPoints : List MPoint :=
  (List.range 17).map (fun i => (⟨0, (i : ℚ), 0⟩ : MPoint))

end KdTree
end nwave

/-! # Properties -/

namespace nwave
namespace KdTree

theorem buildKdTreeAux_nil (S : Sorter) (fuel depth : Nat) :
    buildKdTreeAux S fuel [] depth = .null := by
  cases fuel <;> simp [buildKdTreeAux]

theorem buildKdTreeAux_cons (S : Sorter) (fuel depth : Nat) (l : List Pair) (hl : l ≠ []) :
    ∃ pair, (S.sort (depth % dimensions) l)[(S.sort (depth % dimensions) l).length / 2]? = some pair ∧
      buildKdTreeAux S (fuel + 1) l depth =
        .node depth pair.1 pair.2
          (buildKdTreeAux S fuel ((S.sort (depth % dimensions) l).take
            ((S.sort (depth % dimensions) l).length / 2)) (depth + 1))
          (buildKdTreeAux S fuel ((S.sort (depth % dimensions) l).drop
            ((S.sort (depth % dimensions) l).length / 2 + 1)) (depth + 1)) := by
  have hlen : (S.sort (depth % dimensions) l).length = l.length := (S.perm _ l).length_eq
  have hpos : 0 < l.length := List.length_pos.mpr hl
  have hhalf : (S.sort (depth % dimensions) l).length / 2 < (S.sort (depth % dimensions) l).length := by
    omega
  refine ⟨(S.sort (depth % dimensions) l)[(S.sort (depth % dimensions) l).length / 2], ?_, ?_⟩
  · exact List.getElem?_eq_getElem hhalf
  · have haxis : ¬ 3 ≤ depth % dimensions := by
      have : depth % 3 < 3 := Nat.mod_lt _ (by decide)
      simpa [dimensions] using this
    have hne : l.isEmpty = false := by
      cases l with
      | nil => exact absurd rfl hl
      | cons a l => rfl
    rw [buildKdTreeAux]
    simp only [hne, haxis, if_false, List.getElem?_eq_getElem hhalf, Bool.false_eq_true]
    congr 1
    · split
      · rfl
      · rename_i h0
        have h0 : (S.sort (depth % dimensions) l).length / 2 = 0 := by simpa using h0
        rw [h0, List.take_zero, buildKdTreeAux_nil]
    · split
      · rfl
      · rename_i h1
        have h1 : (S.sort (depth % dimensions) l).length = (S.sort (depth % dimensions) l).length / 2 + 1 := by
          simpa using h1
        rw [List.drop_eq_nil_of_le (by omega), buildKdTreeAux_nil]

theorem split_at_median (s : List Pair) (pair : Pair) (k : Nat) (h : s[k]? = some pair) :
    s = s.take k ++ pair :: s.drop (k + 1) := by
  have hk : k < s.length := by
    by_contra hge
    rw [List.getElem?_eq_none (by omega)] at h
    cases h
  have hget : s[k] = pair := by
    rw [List.getElem?_eq_getElem hk] at h
    exact Option.some.inj h
  rw [← hget, ← List.drop_eq_getElem_cons hk, List.take_append_drop]

theorem buildKdTreeAux_pairs_perm (S : Sorter) :
    ∀ (fuel : Nat) (l : List Pair) (depth : Nat), l.length ≤ fuel →
      (buildKdTreeAux S fuel l depth).pairs.Perm l := by
  intro fuel
  induction fuel with
  | zero =>
    intro l depth hl
    have : l = [] := List.length_eq_zero.mp (by omega)
    subst this
    simp [buildKdTreeAux, Node.pairs]
  | succ fuel ih =>
    intro l depth hl
    by_cases hnil : l = []
    · subst hnil
      rw [buildKdTreeAux_nil]
      simp [Node.pairs]
    · obtain ⟨pair, hget, heq⟩ := buildKdTreeAux_cons S fuel depth l hnil
      have hlen : (S.sort (depth % dimensions) l).length = l.length := (S.perm _ l).length_eq
      have hpos : 0 < l.length := List.length_pos.mpr hnil
      rw [heq]
      simp only [Node.pairs]
      have hsplit := split_at_median _ pair _ hget
      have hL := ih ((S.sort (depth % dimensions) l).take ((S.sort (depth % dimensions) l).length / 2))
        (depth + 1) (by rw [List.length_take]; omega)
      have hR := ih ((S.sort (depth % dimensions) l).drop ((S.sort (depth % dimensions) l).length / 2 + 1))
        (depth + 1) (by rw [List.length_drop]; omega)
      refine List.Perm.trans ?_ (S.perm (depth % dimensions) l)
      have hmid : (pair :: ((S.sort (depth % dimensions) l).take ((S.sort (depth % dimensions) l).length / 2) ++
          (S.sort (depth % dimensions) l).drop ((S.sort (depth % dimensions) l).length / 2 + 1))).Perm
          (S.sort (depth % dimensions) l) := by
        conv_rhs => rw [hsplit]
        exact List.perm_middle.symm
      exact (List.Perm.cons pair (List.Perm.append hL hR)).trans hmid

theorem buildKdTreeAux_kdInv (S : Sorter) :
    ∀ (fuel : Nat) (l : List Pair) (depth : Nat), l.length ≤ fuel →
      KdInv (buildKdTreeAux S fuel l depth) := by
  intro fuel
  induction fuel with
  | zero =>
    intro l depth _
    simp [buildKdTreeAux, KdInv]
  | succ fuel ih =>
    intro l depth hl
    by_cases hnil : l = []
    · subst hnil
      rw [buildKdTreeAux_nil]
      simp [KdInv]
    · obtain ⟨pair, hget, heq⟩ := buildKdTreeAux_cons S fuel depth l hnil
      have hlen : (S.sort (depth % dimensions) l).length = l.length := (S.perm _ l).length_eq
      have hpos : 0 < l.length := List.length_pos.mpr hnil
      have hsplit := split_at_median _ pair _ hget
      have hsorted := S.sorted (depth % dimensions) l
      rw [hsplit, List.pairwise_append, List.pairwise_cons] at hsorted
      obtain ⟨-, ⟨hafter, -⟩, hbefore⟩ := hsorted
      have hlenL : ((S.sort (depth % dimensions) l).take ((S.sort (depth % dimensions) l).length / 2)).length
          ≤ fuel := by rw [List.length_take]; omega
      have hlenR : ((S.sort (depth % dimensions) l).drop ((S.sort (depth % dimensions) l).length / 2 + 1)).length
          ≤ fuel := by rw [List.length_drop]; omega
      rw [heq]
      refine ⟨?_, ?_, ih _ _ hlenL, ih _ _ hlenR⟩
      · intro q hq
        have hq1 := (buildKdTreeAux_pairs_perm S fuel _ (depth + 1) hlenL).subset hq
        have := hbefore q hq1 pair (List.mem_cons_self _ _)
        simpa [sortLt] using this
      · intro q hq
        have hq1 := (buildKdTreeAux_pairs_perm S fuel _ (depth + 1) hlenR).subset hq
        have := hafter q hq1
        simpa [sortLt] using this


/-! ### Distances -/

theorem sqDist_nonneg (a b : MPoint) : 0 ≤ sqDist a b := by
  unfold sqDist
  positivity

theorem sqDist_self (a : MPoint) : sqDist a a = 0 := by
  simp [sqDist]

theorem sqDist_eq_zero {a b : MPoint} (h : sqDist a b = 0) : a = b := by
  unfold sqDist at h
  have hx : (a.x - b.x) ^ 2 = 0 := by nlinarith [sq_nonneg (a.x - b.x), sq_nonneg (a.y - b.y), sq_nonneg (a.z - b.z)]
  have hy : (a.y - b.y) ^ 2 = 0 := by nlinarith [sq_nonneg (a.x - b.x), sq_nonneg (a.y - b.y), sq_nonneg (a.z - b.z)]
  have hz : (a.z - b.z) ^ 2 = 0 := by nlinarith [sq_nonneg (a.x - b.x), sq_nonneg (a.y - b.y), sq_nonneg (a.z - b.z)]
  cases a
  cases b
  simp only [MPoint.mk.injEq]
  simp only [pow_eq_zero_iff, ne_eq, OfNat.ofNat_ne_zero, not_false_eq_true, sub_eq_zero] at hx hy hz
  exact ⟨hx, hy, hz⟩

theorem sqDist_comm (a b : MPoint) : sqDist a b = sqDist b a := by
  unfold sqDist
  ring

theorem axis_le_sqDist (p q : MPoint) (i : Nat) : (q.get i - p.get i) ^ 2 ≤ sqDist p q := by
  unfold sqDist MPoint.get
  split <;> nlinarith [sq_nonneg (p.x - q.x), sq_nonneg (p.y - q.y), sq_nonneg (p.z - q.z)]

/-- A point on the far side of a splitting plane is at least as far as the plane. -/
theorem far_side_le (p q : MPoint) (i : Nat) (c : ℚ)
    (h : (q.get i - c ≤ 0 ∧ c ≤ p.get i) ∨ (0 < q.get i - c ∧ p.get i ≤ c)) :
    (q.get i - c) * (q.get i - c) ≤ sqDist p q := by
  refine le_trans ?_ (axis_le_sqDist p q i)
  rcases h with ⟨h1, h2⟩ | ⟨h1, h2⟩ <;> nlinarith

/-! ### Nodes of a tree -/

theorem pairs_of_isNull {t : Node} (h : t.isNull = true) : t.pairs = [] := by
  cases t with
  | null => rfl
  | node _ _ _ _ _ => simp [Node.isNull] at h

theorem isNull_of_mem_subnodes {t n : Node} (h : n ∈ t.subnodes) : n.isNull = false := by
  induction t with
  | null => simp [Node.subnodes] at h
  | node d p i l r ihl ihr =>
    simp only [Node.subnodes, List.mem_cons, List.mem_append] at h
    rcases h with rfl | h | h
    · rfl
    · exact ihl h
    · exact ihr h

theorem self_mem_subnodes {t : Node} (h : t.isNull = false) : t ∈ t.subnodes := by
  cases t with
  | null => simp [Node.isNull] at h
  | node _ _ _ _ _ => simp [Node.subnodes]

theorem subnodes_trans {t a n : Node} (ha : a ∈ t.subnodes) (hn : n ∈ a.subnodes) :
    n ∈ t.subnodes := by
  induction t with
  | null => simp [Node.subnodes] at ha
  | node d p i l r ihl ihr =>
    simp only [Node.subnodes, List.mem_cons, List.mem_append] at ha
    rcases ha with rfl | ha | ha
    · exact hn
    · simp only [Node.subnodes, List.mem_cons, List.mem_append]
      exact Or.inr (Or.inl (ihl ha))
    · simp only [Node.subnodes, List.mem_cons, List.mem_append]
      exact Or.inr (Or.inr (ihr ha))

theorem pair_mem_of_mem_subnodes {t n : Node} (h : n ∈ t.subnodes) :
    (n.point, n.id) ∈ t.pairs := by
  induction t with
  | null => simp [Node.subnodes] at h
  | node d p i l r ihl ihr =>
    simp only [Node.subnodes, List.mem_cons, List.mem_append] at h
    simp only [Node.pairs, List.mem_cons, List.mem_append]
    rcases h with rfl | h | h
    · exact Or.inl rfl
    · exact Or.inr (Or.inl (ihl h))
    · exact Or.inr (Or.inr (ihr h))

/-! ### `checkSubtree` -/

theorem Improves.refl (q : MPoint) (T : List Node) (a : Node × ℚ) : Improves q T a a :=
  ⟨le_refl _, Or.inl rfl⟩

theorem Improves.trans {q : MPoint} {T1 T2 T : List Node} {a b c : Node × ℚ}
    (h1 : Improves q T1 a b) (h2 : Improves q T2 b c)
    (hT1 : ∀ n ∈ T1, n ∈ T) (hT2 : ∀ n ∈ T2, n ∈ T) : Improves q T a c := by
  refine ⟨le_trans h2.1 h1.1, ?_⟩
  rcases h2.2 with rfl | ⟨hm, hd⟩
  · rcases h1.2 with rfl | ⟨hm, hd⟩
    · exact Or.inl rfl
    · exact Or.inr ⟨hT1 _ hm, hd⟩
  · exact Or.inr ⟨hT2 _ hm, hd⟩

theorem checkSubtree_improves (q : MPoint) :
    ∀ (t : Node) (n : Node) (m : ℚ), t.isNull = false →
      Improves q t.subnodes (n, m) (checkSubtree t q n m) := by
  intro t
  induction t with
  | null => intro n m h; simp [Node.isNull] at h
  | node d p i l r ihl ihr =>
    intro n m _
    have hupd : Improves q [Node.node d p i l r] (n, m)
        (if sqDist p q < m then (Node.node d p i l r, sqDist p q) else (n, m)) := by
      split
      · rename_i hlt
        exact ⟨le_of_lt hlt, Or.inr ⟨List.mem_singleton.mpr rfl, rfl⟩⟩
      · exact Improves.refl _ _ _
    have hself : ∀ x ∈ [Node.node d p i l r], x ∈ (Node.node d p i l r).subnodes := by
      intro x hx
      rw [List.mem_singleton.mp hx]
      simp [Node.subnodes]
    have hsubl : ∀ x ∈ l.subnodes, x ∈ (Node.node d p i l r).subnodes := by
      intro x hx
      simp only [Node.subnodes, List.mem_cons, List.mem_append]
      exact Or.inr (Or.inl hx)
    have hsubr : ∀ x ∈ r.subnodes, x ∈ (Node.node d p i l r).subnodes := by
      intro x hx
      simp only [Node.subnodes, List.mem_cons, List.mem_append]
      exact Or.inr (Or.inr hx)
    have hid : ∀ x ∈ (Node.node d p i l r).subnodes, x ∈ (Node.node d p i l r).subnodes :=
      fun _ hx => hx
    rw [checkSubtree]
    simp only []
    generalize (if sqDist p q < m then (Node.node d p i l r, sqDist p q) else (n, m)) = upd
      at hupd ⊢
    by_cases hfar : (q.get (d % dimensions) - p.get (d % dimensions)) *
        (q.get (d % dimensions) - p.get (d % dimensions)) > upd.2
    · rw [if_pos hfar]
      by_cases hc : q.get (d % dimensions) - p.get (d % dimensions) ≤ 0 ∧ (!l.isNull) = true
      · rw [if_pos hc]
        have hl : l.isNull = false := by simpa using hc.2
        exact hupd.trans (ihl _ _ hl) hself hsubl
      · rw [if_neg hc]
        by_cases hc2 : q.get (d % dimensions) - p.get (d % dimensions) > 0 ∧ (!r.isNull) = true
        · rw [if_pos hc2]
          have hr : r.isNull = false := by simpa using hc2.2
          exact hupd.trans (ihr _ _ hr) hself hsubr
        · rw [if_neg hc2]
          exact hupd.trans (Improves.refl _ _ _) hself hid
    · rw [if_neg hfar]
      have hleft : Improves q (Node.node d p i l r).subnodes (n, m)
          (if (!l.isNull) = true then checkSubtree l q upd.1 upd.2 else upd) := by
        by_cases hc : (!l.isNull) = true
        · rw [if_pos hc]
          have hl : l.isNull = false := by simpa using hc
          exact hupd.trans (ihl _ _ hl) hself hsubl
        · rw [if_neg hc]
          exact hupd.trans (Improves.refl _ _ _) hself hid
      by_cases hc : (!r.isNull) = true
      · rw [if_pos hc]
        have hr : r.isNull = false := by simpa using hc
        exact hleft.trans (ihr _ _ hr) hid hsubr
      · rw [if_neg hc]
        exact hleft


theorem checkSubtree_min (q : MPoint) :
    ∀ (t : Node) (n : Node) (m : ℚ), t.isNull = false → KdInv t →
      ∀ pr ∈ t.pairs, (checkSubtree t q n m).2 ≤ sqDist pr.1 q := by
  intro t
  induction t with
  | null => intro n m h; simp [Node.isNull] at h
  | node d p i l r ihl ihr =>
    intro n m _ hinv
    obtain ⟨hL, hR, hinvl, hinvr⟩ := hinv
    have hupd : (if sqDist p q < m then (Node.node d p i l r, sqDist p q) else (n, m)).2
        ≤ sqDist p q := by
      split
      · exact le_refl _
      · rename_i hlt
        exact not_lt.mp hlt
    rw [checkSubtree]
    simp only []
    generalize (if sqDist p q < m then (Node.node d p i l r, sqDist p q) else (n, m)) = upd
      at hupd ⊢
    have hfarR : q.get (d % dimensions) - p.get (d % dimensions) ≤ 0 → ∀ pr ∈ r.pairs,
        (q.get (d % dimensions) - p.get (d % dimensions)) *
          (q.get (d % dimensions) - p.get (d % dimensions)) ≤ sqDist pr.1 q :=
      fun hd pr hpr => far_side_le pr.1 q _ _ (Or.inl ⟨hd, hR pr hpr⟩)
    have hfarL : 0 < q.get (d % dimensions) - p.get (d % dimensions) → ∀ pr ∈ l.pairs,
        (q.get (d % dimensions) - p.get (d % dimensions)) *
          (q.get (d % dimensions) - p.get (d % dimensions)) ≤ sqDist pr.1 q :=
      fun hd pr hpr => far_side_le pr.1 q _ _ (Or.inr ⟨hd, hL pr hpr⟩)
    intro pr hpr
    simp only [Node.pairs, List.mem_cons, List.mem_append] at hpr
    by_cases hfar : (q.get (d % dimensions) - p.get (d % dimensions)) *
        (q.get (d % dimensions) - p.get (d % dimensions)) > upd.2
    · rw [if_pos hfar]
      by_cases hc : q.get (d % dimensions) - p.get (d % dimensions) ≤ 0 ∧ (!l.isNull) = true
      · rw [if_pos hc]
        have hl : l.isNull = false := by simpa using hc.2
        have hmono := (checkSubtree_improves q l upd.1 upd.2 hl).1
        rcases hpr with rfl | hpr | hpr
        · exact le_trans hmono hupd
        · exact ihl _ _ hl hinvl pr hpr
        · exact le_trans hmono (le_trans (le_of_lt hfar) (hfarR hc.1 pr hpr))
      · rw [if_neg hc]
        by_cases hc2 : q.get (d % dimensions) - p.get (d % dimensions) > 0 ∧ (!r.isNull) = true
        · rw [if_pos hc2]
          have hr : r.isNull = false := by simpa using hc2.2
          have hmono := (checkSubtree_improves q r upd.1 upd.2 hr).1
          rcases hpr with rfl | hpr | hpr
          · exact le_trans hmono hupd
          · exact le_trans hmono (le_trans (le_of_lt hfar) (hfarL hc2.1 pr hpr))
          · exact ihr _ _ hr hinvr pr hpr
        · rw [if_neg hc2]
          rcases hpr with rfl | hpr | hpr
          · exact hupd
          · by_cases hd : q.get (d % dimensions) - p.get (d % dimensions) ≤ 0
            · have hl : l.isNull = true := by
                by_contra hl
                exact hc ⟨hd, by simpa using hl⟩
              rw [pairs_of_isNull hl] at hpr
              simp at hpr
            · exact le_trans (le_of_lt hfar) (hfarL (not_le.mp hd) pr hpr)
          · by_cases hd : q.get (d % dimensions) - p.get (d % dimensions) ≤ 0
            · exact le_trans (le_of_lt hfar) (hfarR hd pr hpr)
            · have hr : r.isNull = true := by
                by_contra hr
                exact hc2 ⟨not_le.mp hd, by simpa using hr⟩
              rw [pairs_of_isNull hr] at hpr
              simp at hpr
    · rw [if_neg hfar]
      have hleft : (if (!l.isNull) = true then checkSubtree l q upd.1 upd.2 else upd).2 ≤ upd.2 ∧
          ∀ pr ∈ l.pairs,
            (if (!l.isNull) = true then checkSubtree l q upd.1 upd.2 else upd).2 ≤ sqDist pr.1 q := by
        by_cases hc : (!l.isNull) = true
        · rw [if_pos hc]
          have hl : l.isNull = false := by simpa using hc
          exact ⟨(checkSubtree_improves q l upd.1 upd.2 hl).1, ihl _ _ hl hinvl⟩
        · rw [if_neg hc]
          have hl : l.isNull = true := by simpa using hc
          refine ⟨le_refl _, ?_⟩
          intro pr hpr
          rw [pairs_of_isNull hl] at hpr
          simp at hpr
      generalize (if (!l.isNull) = true then checkSubtree l q upd.1 upd.2 else upd) = afterLeft
        at hleft ⊢
      by_cases hc : (!r.isNull) = true
      · rw [if_pos hc]
        have hr : r.isNull = false := by simpa using hc
        have hmono := (checkSubtree_improves q r afterLeft.1 afterLeft.2 hr).1
        rcases hpr with rfl | hpr | hpr
        · exact le_trans hmono (le_trans hleft.1 hupd)
        · exact le_trans hmono (hleft.2 pr hpr)
        · exact ihr _ _ hr hinvr pr hpr
      · rw [if_neg hc]
        have hr : r.isNull = true := by simpa using hc
        rcases hpr with rfl | hpr | hpr
        · exact le_trans hleft.1 hupd
        · exact hleft.2 pr hpr
        · rw [pairs_of_isNull hr] at hpr
          simp at hpr

/-! ### `traverseTree` and the upward walk -/

theorem traverseTree_spec (q : MPoint) :
    ∀ (t : Node) (anc : List Node), t.isNull = false →
      (traverseTree t q anc).1 ∈ t.subnodes ∧
      (((traverseTree t q anc).2 = anc ∧ (traverseTree t q anc).1 = t ∧ Stops t q) ∨
        ∃ path, (traverseTree t q anc).2 = path ++ t :: anc ∧ ∀ a ∈ path, a ∈ t.subnodes) := by
  intro t
  induction t with
  | null => intro anc h; simp [Node.isNull] at h
  | node d p i l r ihl ihr =>
    intro anc _
    have hself : Node.node d p i l r ∈ (Node.node d p i l r).subnodes := by
      simp [Node.subnodes]
    have hsubl : ∀ x ∈ l.subnodes, x ∈ (Node.node d p i l r).subnodes := by
      intro x hx
      simp only [Node.subnodes, List.mem_cons, List.mem_append]
      exact Or.inr (Or.inl hx)
    have hsubr : ∀ x ∈ r.subnodes, x ∈ (Node.node d p i l r).subnodes := by
      intro x hx
      simp only [Node.subnodes, List.mem_cons, List.mem_append]
      exact Or.inr (Or.inr hx)
    rw [traverseTree]
    by_cases hleaf : (!(Node.node d p i l r).isLeaf) = true
    · rw [if_pos hleaf]
      simp only []
      by_cases hc : q.get (d % dimensions) - p.get (d % dimensions) ≤ 0 ∧ (!l.isNull) = true
      · rw [if_pos hc]
        have hl : l.isNull = false := by simpa using hc.2
        obtain ⟨hmem, hcase⟩ := ihl (Node.node d p i l r :: anc) hl
        refine ⟨hsubl _ hmem, Or.inr ?_⟩
        rcases hcase with ⟨h2, -, -⟩ | ⟨path, h2, hp⟩
        · exact ⟨[], by simpa using h2, by simp⟩
        · refine ⟨path ++ [l], by simpa using h2, ?_⟩
          intro a ha
          rcases List.mem_append.mp ha with ha | ha
          · exact hsubl _ (hp a ha)
          · rw [List.mem_singleton.mp ha]
            exact hsubl _ (self_mem_subnodes hl)
      · rw [if_neg hc]
        by_cases hc2 : q.get (d % dimensions) - p.get (d % dimensions) > 0 ∧ (!r.isNull) = true
        · rw [if_pos hc2]
          have hr : r.isNull = false := by simpa using hc2.2
          obtain ⟨hmem, hcase⟩ := ihr (Node.node d p i l r :: anc) hr
          refine ⟨hsubr _ hmem, Or.inr ?_⟩
          rcases hcase with ⟨h2, -, -⟩ | ⟨path, h2, hp⟩
          · exact ⟨[], by simpa using h2, by simp⟩
          · refine ⟨path ++ [r], by simpa using h2, ?_⟩
            intro a ha
            rcases List.mem_append.mp ha with ha | ha
            · exact hsubr _ (hp a ha)
            · rw [List.mem_singleton.mp ha]
              exact hsubr _ (self_mem_subnodes hr)
        · rw [if_neg hc2]
          refine ⟨hself, Or.inl ⟨rfl, rfl, ?_, ?_⟩⟩
          · intro h
            exact hc ⟨h.1, by simp [h.2]⟩
          · intro h
            exact hc2 ⟨h.1, by simp [h.2]⟩
    · rw [if_neg hleaf]
      have hl : l.isNull = true ∧ r.isNull = true := by
        simpa [Node.isLeaf, Node.hasLeftChild, Node.hasRightChild] using hleaf
      refine ⟨hself, Or.inl ⟨rfl, rfl, ?_, ?_⟩⟩
      · intro h
        rw [hl.1] at h
        exact Bool.noConfusion h.2
      · intro h
        rw [hl.2] at h
        exact Bool.noConfusion h.2

theorem walkUp_append (q : MPoint) (path : List Node) (t : Node) (best : Node × ℚ) :
    walkUp q (path ++ [t]) best =
      checkSubtree t q (walkUp q path best).1 (walkUp q path best).2 := by
  induction path generalizing best with
  | nil => simp [walkUp]
  | cons a path ih => simp only [List.cons_append, walkUp]; exact ih _

theorem walkUp_improves (q : MPoint) (T : List Node) (path : List Node)
    (hpath : ∀ a ∈ path, a.isNull = false ∧ ∀ x ∈ a.subnodes, x ∈ T) (best : Node × ℚ) :
    Improves q T best (walkUp q path best) := by
  induction path generalizing best with
  | nil => exact Improves.refl _ _ _
  | cons a path ih =>
    simp only [walkUp]
    have ha := hpath a (List.mem_cons_self _ _)
    have h1 := checkSubtree_improves q a best.1 best.2 ha.1
    have h2 := ih (fun x hx => hpath x (List.mem_cons_of_mem _ hx))
      (checkSubtree a q best.1 best.2)
    exact Improves.trans h1 h2 ha.2 (fun _ hx => hx)


/-! ### `nearestNeighbour` -/

theorem Improves.consistent {q : MPoint} {T : List Node} {a b : Node × ℚ}
    (h : Improves q T a b) (ha : a.1 ∈ T ∧ a.2 = sqDist a.1.point q) :
    b.1 ∈ T ∧ b.2 = sqDist b.1.point q := by
  rcases h.2 with rfl | hb
  · exact ha
  · exact hb

theorem nearestNeighbour_mem (t : Node) (q : MPoint) (ht : t.isNull = false) :
    nearestNeighbour t q ∈ t.subnodes := by
  obtain ⟨hmem, hcase⟩ := traverseTree_spec q t [] ht
  unfold nearestNeighbour
  rw [if_neg (by simp [ht])]
  simp only []
  split
  · exact hmem
  · have hpath : ∀ a ∈ (traverseTree t q []).2, a.isNull = false ∧ ∀ x ∈ a.subnodes, x ∈ t.subnodes := by
      intro a ha
      have hat : a ∈ t.subnodes := by
        rcases hcase with ⟨h2, -, -⟩ | ⟨path, h2, hp⟩
        · rw [h2] at ha
          simp at ha
        · rw [h2] at ha
          rcases List.mem_append.mp ha with ha | ha
          · exact hp a ha
          · rw [List.mem_singleton.mp ha]
            exact self_mem_subnodes ht
      exact ⟨isNull_of_mem_subnodes hat, fun x hx => subnodes_trans hat hx⟩
    exact ((walkUp_improves q t.subnodes _ hpath _).consistent ⟨hmem, rfl⟩).1

/-- The search is exact whenever it does not end on the node it started from; otherwise it
answers that node. -/
theorem nearestNeighbour_spec (t : Node) (q : MPoint) (ht : t.isNull = false) (hinv : KdInv t) :
    (∀ pr ∈ t.pairs, sqDist (nearestNeighbour t q).point q ≤ sqDist pr.1 q) ∨
      (nearestNeighbour t q = t ∧ Stops t q) := by
  obtain ⟨hmem, hcase⟩ := traverseTree_spec q t [] ht
  unfold nearestNeighbour
  rw [if_neg (by simp [ht])]
  simp only []
  by_cases heq : (traverseTree t q []).1.point = q
  · rw [if_pos heq]
    left
    intro pr _
    rw [heq, sqDist_self]
    exact sqDist_nonneg _ _
  · rw [if_neg heq]
    rcases hcase with ⟨h2, h1, hstop⟩ | ⟨path, h2, hp⟩
    · right
      rw [h2]
      exact ⟨h1, hstop⟩
    · left
      rw [h2, walkUp_append]
      have hpath : ∀ a ∈ path, a.isNull = false ∧ ∀ x ∈ a.subnodes, x ∈ t.subnodes :=
        fun a ha => ⟨isNull_of_mem_subnodes (hp a ha), fun x hx => subnodes_trans (hp a ha) hx⟩
      have hw := (walkUp_improves q t.subnodes path hpath
        ((traverseTree t q []).1, sqDist (traverseTree t q []).1.point q)).consistent ⟨hmem, rfl⟩
      generalize walkUp q path ((traverseTree t q []).1, sqDist (traverseTree t q []).1.point q) = w
        at hw ⊢
      have hr := (checkSubtree_improves q t w.1 w.2 ht).consistent hw
      intro pr hpr
      rw [← hr.2]
      exact checkSubtree_min q t w.1 w.2 ht hinv pr hpr

/-! ### Trees made by `build` -/

theorem isNull_iff_pairs_nil (t : Node) : t.isNull = true ↔ t.pairs = [] := by
  cases t <;> simp [Node.isNull, Node.pairs]

theorem buildKdTreeAux_leftFirst (S : Sorter) (fuel : Nat) (l : List Pair) (depth : Nat)
    (hl : l.length ≤ fuel) : LeftFirst (buildKdTreeAux S fuel l depth) := by
  cases fuel with
  | zero => simp [buildKdTreeAux, LeftFirst]
  | succ fuel =>
    by_cases hnil : l = []
    · subst hnil
      rw [buildKdTreeAux_nil]
      simp [LeftFirst]
    · obtain ⟨pair, hget, heq⟩ := buildKdTreeAux_cons S fuel depth l hnil
      have hlen : (S.sort (depth % dimensions) l).length = l.length := (S.perm _ l).length_eq
      have hpos : 0 < l.length := List.length_pos.mpr hnil
      rw [heq]
      intro hleft
      rw [isNull_iff_pairs_nil] at hleft
      have hperm := buildKdTreeAux_pairs_perm S fuel
        ((S.sort (depth % dimensions) l).take ((S.sort (depth % dimensions) l).length / 2)) (depth + 1)
        (by rw [List.length_take]; omega)
      rw [hleft] at hperm
      have htake := hperm.length_eq
      rw [List.length_take, List.length_nil] at htake
      have hdrop : (S.sort (depth % dimensions) l).drop ((S.sort (depth % dimensions) l).length / 2 + 1)
          = [] := List.drop_eq_nil_of_le (by omega)
      rw [hdrop, buildKdTreeAux_nil]
      rfl

theorem mem_makePointList {points : List MPoint} {p : MPoint} (ids : List Int)
    (hp : p ∈ points) : ∃ i, i < points.length ∧ points.getD i ⟨0, 0, 0⟩ = p ∧
      (p, decodeId points.length ids i) ∈ makePointList points ids := by
  obtain ⟨i, hi, hget⟩ := List.getElem_of_mem hp
  have hD : points.getD i ⟨0, 0, 0⟩ = p := by
    rw [List.getD_eq_getElem _ _ hi, hget]
  refine ⟨i, hi, hD, ?_⟩
  unfold makePointList
  rw [List.mem_map]
  exact ⟨i, List.mem_range.mpr hi, by rw [hD]⟩

theorem makePointList_mem {points : List MPoint} {ids : List Int} {pr : Pair}
    (h : pr ∈ makePointList points ids) : ∃ i, i < points.length ∧
      points.getD i ⟨0, 0, 0⟩ = pr.1 ∧ pr.2 = decodeId points.length ids i ∧ pr.1 ∈ points := by
  unfold makePointList at h
  rw [List.mem_map] at h
  obtain ⟨i, hi, rfl⟩ := h
  have hi := List.mem_range.mp hi
  refine ⟨i, hi, rfl, rfl, ?_⟩
  simp only
  rw [List.getD_eq_getElem _ _ hi]
  exact List.getElem_mem _

theorem build_pairs_perm (S : Sorter) (t0 : KdTree) (points : List MPoint) (ids : List Int) :
    (build S t0 points ids).root.pairs.Perm (makePointList points ids) :=
  buildKdTreeAux_pairs_perm S _ _ 0 (le_refl _)

theorem build_kdInv (S : Sorter) (t0 : KdTree) (points : List MPoint) (ids : List Int) :
    KdInv (build S t0 points ids).root :=
  buildKdTreeAux_kdInv S _ _ 0 (le_refl _)

theorem build_leftFirst (S : Sorter) (t0 : KdTree) (points : List MPoint) (ids : List Int) :
    LeftFirst (build S t0 points ids).root :=
  buildKdTreeAux_leftFirst S _ _ 0 (le_refl _)

/-- On a tree with the k-d ordering whose childless-on-the-left nodes are leaves, a stored
point queried is answered by a node holding that point. -/
theorem nearestNeighbour_stored (t : Node) (hinv : KdInv t) (hshape : LeftFirst t)
    (pr : Pair) (hpr : pr ∈ t.pairs) :
    (nearestNeighbour t pr.1).point = pr.1 := by
  have ht : t.isNull = false := by
    cases t with
    | null => simp [Node.pairs] at hpr
    | node _ _ _ _ _ => rfl
  rcases nearestNeighbour_spec t pr.1 ht hinv with hmin | ⟨heq, hstop⟩
  · have h0 := hmin pr hpr
    rw [sqDist_self] at h0
    exact sqDist_eq_zero (le_antisymm h0 (sqDist_nonneg _ _))
  · rw [heq]
    cases t with
    | null => simp [Node.pairs] at hpr
    | node d p i l r =>
      obtain ⟨hL, hR, -, -⟩ := hinv
      obtain ⟨hs1, hs2⟩ := hstop
      simp only [Node.pairs, List.mem_cons, List.mem_append] at hpr
      rcases hpr with rfl | hpr | hpr
      · rfl
      · exfalso
        have hl : l.isNull = false := by
          cases l with
          | null => simp [Node.pairs] at hpr
          | node _ _ _ _ _ => rfl
        exact hs1 ⟨sub_nonpos.mpr (hL pr hpr), hl⟩
      · exfalso
        have hr : r.isNull = false := by
          cases r with
          | null => simp [Node.pairs] at hpr
          | node _ _ _ _ _ => rfl
        have hl : l.isNull = false := by
          by_contra hl
          have := hshape (by simpa using hl)
          rw [hr] at this
          exact Bool.noConfusion this
        have hge := hR pr hpr
        by_cases hd : pr.1.get (d % dimensions) - p.get (d % dimensions) ≤ 0
        · exact hs1 ⟨hd, hl⟩
        · exact hs2 ⟨not_le.mp hd, hr⟩

end KdTree
end nwave

namespace nwave
namespace KdTree

/-! ### Independence from the sort when no tie is met -/

/-- Two sorted arrangements of the same elements are equal when the keys are distinct. -/
theorem sorted_perm_unique (axis : Nat) :
    ∀ (l1 l2 : List Pair), l1.Perm l2 →
      l1.Pairwise (fun a b => a.1.get axis ≠ b.1.get axis) →
      l1.Pairwise (fun a b => sortLt axis b a = false) →
      l2.Pairwise (fun a b => sortLt axis b a = false) → l1 = l2 := by
  intro l1
  induction l1 with
  | nil =>
    intro l2 hp _ _ _
    exact hp.nil_eq
  | cons a t ih =>
    intro l2 hp hd h1 h2
    cases l2 with
    | nil => exact absurd hp.symm.nil_eq (by simp)
    | cons h t2 =>
      rw [List.pairwise_cons] at hd h1 h2
      have hha : h = a := by
        by_contra hne
        have hht : h ∈ t := by
          have : h ∈ a :: t := hp.symm.subset (List.mem_cons_self _ _)
          rcases List.mem_cons.mp this with e | e
          · exact absurd e hne
          · exact e
        have hat : a ∈ t2 := by
          have : a ∈ h :: t2 := hp.subset (List.mem_cons_self _ _)
          rcases List.mem_cons.mp this with e | e
          · exact absurd e.symm hne
          · exact e
        have k1 := h1.1 h hht
        have k2 := h2.1 a hat
        have k3 := hd.1 h hht
        simp only [sortLt, decide_eq_false_iff_not, not_lt] at k1 k2
        exact k3 (le_antisymm k1 k2)
      subst hha
      have hp' : t.Perm t2 := List.Perm.cons_inv hp
      rw [ih t2 hp' hd.2 h1.2 h2.2]

theorem sort_eq_of_noTie (S S' : Sorter) (axis : Nat) (l : List Pair)
    (h : noTie axis l = true) : S.sort axis l = S'.sort axis l := by
  unfold noTie at h
  rw [decide_eq_true_eq] at h
  refine sorted_perm_unique axis _ _ ((S.perm axis l).trans (S'.perm axis l).symm) ?_
    (S.sorted axis l) (S'.sorted axis l)
  exact ((S.perm axis l).pairwise_iff (fun {a b} hab => Ne.symm hab)).mpr h

/-- When no sort meets a tie, the tree is the same for every `std::sort`. -/
theorem buildKdTreeAux_eq_of_tieFree (S : Sorter) :
    ∀ (fuel : Nat) (l : List Pair) (depth : Nat), tieFree fuel l depth = true →
      buildKdTreeAux S fuel l depth = buildKdTreeAux insertionSorter fuel l depth := by
  intro fuel
  induction fuel with
  | zero => intro l depth _; rfl
  | succ fuel ih =>
    intro l depth h
    simp only [tieFree, Bool.and_eq_true] at h
    obtain ⟨⟨h0, h1⟩, h2⟩ := h
    have hs : S.sort (depth % dimensions) l = insertionSort (depth % dimensions) l :=
      sort_eq_of_noTie S insertionSorter _ l h0
    have hi : insertionSorter.sort (depth % dimensions) l = insertionSort (depth % dimensions) l :=
      rfl
    rw [buildKdTreeAux, buildKdTreeAux]
    simp only [hs, hi, ih _ _ h1, ih _ _ h2]

theorem build_eq_of_tieFree (S : Sorter) (t0 : KdTree) (points : List MPoint) (ids : List Int)
    (h : tieFree (makePointList points ids).length (makePointList points ids) 0 = true) :
    build S t0 points ids = build insertionSorter t0 points ids := by
  unfold build buildKdTree
  rw [buildKdTreeAux_eq_of_tieFree S _ _ 0 h]

/-- Querying a stored point of a tree made by `build` answers a node of the tree holding that
point. -/
theorem nearestNode_stored (S : Sorter) (t0 : KdTree) (points : List MPoint)
    (ids : List Int) (p : MPoint) (hp : p ∈ points) :
    (nearestNode (build S t0 points ids) p).isNull = false ∧
      (nearestNode (build S t0 points ids) p).point = p ∧
      sqDist (nearestNode (build S t0 points ids) p).point p = 0 ∧
      ((nearestNode (build S t0 points ids) p).point, (nearestNode (build S t0 points ids) p).id)
        ∈ makePointList points ids := by
  obtain ⟨i, -, -, hmem⟩ := mem_makePointList ids hp
  have hroot : (p, decodeId points.length ids i) ∈ (build S t0 points ids).root.pairs :=
    (build_pairs_perm S t0 points ids).symm.subset hmem
  have hnn : (build S t0 points ids).root.isNull = false := by
    cases h : (build S t0 points ids).root with
    | null => rw [h] at hroot; simp [Node.pairs] at hroot
    | node _ _ _ _ _ => rfl
  have hpt := nearestNeighbour_stored _ (build_kdInv S t0 points ids)
    (build_leftFirst S t0 points ids) _ hroot
  have hin := nearestNeighbour_mem _ p hnn
  simp only at hpt
  refine ⟨isNull_of_mem_subnodes hin, hpt, ?_, ?_⟩
  · unfold nearestNode
    rw [hpt, sqDist_self]
  · exact (build_pairs_perm S t0 points ids).subset (pair_mem_of_mem_subnodes hin)

/-! ## The claims on the tree -/

/-- C1 (evaluation at the failing input). On the tree built from the two points `(0,0,0)` and
`(1,100,0)`, whatever `std::sort` is used, the query `(2,0,0)` is answered with the node of
`(1,100,0)`, although the stored point `(0,0,0)` is strictly nearer: the descent stops on the
root, whose only child is on the other side, and the upward loop has no parent to visit, so the
left child is never examined. -/
theorem C1_two_points_nearer_point_missed (S : Sorter) :
    (nearestNode (build S KdTree.new [⟨0, 0, 0⟩, ⟨1, 100, 0⟩] [0, 1]) ⟨2, 0, 0⟩).point
        = ⟨1, 100, 0⟩ ∧
      (⟨0, 0, 0⟩ : MPoint) ∈ [(⟨0, 0, 0⟩ : MPoint), ⟨1, 100, 0⟩] ∧
      sqDist ⟨0, 0, 0⟩ ⟨2, 0, 0⟩ <
        sqDist (nearestNode (build S KdTree.new [⟨0, 0, 0⟩, ⟨1, 100, 0⟩] [0, 1])
          ⟨2, 0, 0⟩).point ⟨2, 0, 0⟩ := by
  rw [build_eq_of_tieFree S KdTree.new [⟨0, 0, 0⟩, ⟨1, 100, 0⟩] [0, 1] (by decide!)]
  decide!

/-- C4 (counterexample). With two points and an identifier array of length 3, `build` builds
the tree all the same and gives both points the made-up identifier `IdPoint()`. -/
theorem C4_build_accepts_other_length :
    (build insertionSorter KdTree.new [⟨0, 0, 0⟩, ⟨1, 0, 0⟩] [7, 8, 9]).isBuilt = true ∧
      (build insertionSorter KdTree.new [⟨0, 0, 0⟩, ⟨1, 0, 0⟩] [7, 8, 9]).root.pairs =
        [(⟨1, 0, 0⟩, IdPoint.mk0), (⟨0, 0, 0⟩, IdPoint.mk0)] := by
  decide!

theorem decodeId_size (n : Nat) (ids : List Int) (i : Nat) (hn : 0 < n) :
    (∀ k, (k = 1 ∨ k = 2 ∨ k = 3) → ids.length = n * k → (decodeId n ids i).size = k) ∧
      ((ids.length ≠ n ∧ ids.length ≠ n * 2 ∧ ids.length ≠ n * 3) →
        decodeId n ids i = IdPoint.mk0) := by
  constructor
  · intro k hk hlen
    unfold decodeId
    rcases hk with rfl | rfl | rfl
    · rw [if_pos (by omega)]
      rfl
    · rw [if_neg (by omega), if_pos hlen]
      rfl
    · rw [if_neg (by omega), if_neg (by omega), if_pos hlen]
      rfl
  · rintro ⟨h1, h2, h3⟩
    unfold decodeId
    rw [if_neg h1, if_neg h2, if_neg h3]

theorem makePointList_fst (points : List MPoint) (ids : List Int) :
    (makePointList points ids).map Prod.fst = points := by
  unfold makePointList
  apply List.ext_getElem
  · simp
  · intro i h1 h2
    simp only [List.getElem_map, List.getElem_range]
    exact List.getD_eq_getElem _ _ h2

/-- C4 (amended). For `n >= 1` points `build` never rejects: whatever the length of the
identifier array the tree is built and holds exactly the `n` points; when the length is `n`,
`2n` or `3n` every identifier has the arity 1, 2 or 3, and for every other length every point
gets the identifier `IdPoint()` (components `0`, size tag `0`). -/
theorem C4_build_arity (S : Sorter) (t0 : KdTree) (points : List MPoint) (ids : List Int)
    (hn : 0 < points.length) :
    (build S t0 points ids).isBuilt = true ∧
      ((build S t0 points ids).root.pairs.map Prod.fst).Perm points ∧
      (∀ k, (k = 1 ∨ k = 2 ∨ k = 3) → ids.length = points.length * k →
        ∀ pr ∈ (build S t0 points ids).root.pairs, pr.2.size = k) ∧
      ((ids.length ≠ points.length ∧ ids.length ≠ points.length * 2 ∧
          ids.length ≠ points.length * 3) →
        ∀ pr ∈ (build S t0 points ids).root.pairs, pr.2 = IdPoint.mk0) := by
  have hperm := build_pairs_perm S t0 points ids
  refine ⟨?_, ?_, ?_, ?_⟩
  · have hlen := hperm.length_eq
    have hl : (makePointList points ids).length = points.length := by
      simp [makePointList]
    unfold isBuilt
    cases h : (build S t0 points ids).root with
    | null =>
      rw [h] at hlen
      simp only [Node.pairs, List.length_nil] at hlen
      omega
    | node _ _ _ _ _ => rfl
  · have := hperm.map Prod.fst
    rwa [makePointList_fst] at this
  · intro k hk hlen pr hpr
    obtain ⟨i, -, -, hid, -⟩ := makePointList_mem (hperm.subset hpr)
    rw [hid]
    exact (decodeId_size points.length ids i hn).1 k hk hlen
  · intro hne pr hpr
    obtain ⟨i, -, -, hid, -⟩ := makePointList_mem (hperm.subset hpr)
    rw [hid]
    exact (decodeId_size points.length ids i hn).2 hne

/-- Witness of the amended C4 on two points with three identifiers. -/
theorem C4_build_arity_witness :
    0 < [(⟨0, 0, 0⟩ : MPoint), ⟨1, 0, 0⟩].length ∧
      (build insertionSorter KdTree.new [⟨0, 0, 0⟩, ⟨1, 0, 0⟩] [7, 8, 9]).isBuilt = true :=
  ⟨by decide,
    (C4_build_arity insertionSorter KdTree.new [⟨0, 0, 0⟩, ⟨1, 0, 0⟩] [7, 8, 9]
      (by decide)).1⟩

/-- C5. Empty-tree safety: `build` with zero points leaves the index unbuilt (no root,
`isBuilt` false), and `nearestNode` then returns `NULL` for every query position. -/
theorem C5_empty_tree_safety (S : Sorter) (t0 : KdTree) (ids : List Int) (q : MPoint) :
    (build S t0 [] ids).root = .null ∧ (build S t0 [] ids).isBuilt = false ∧
      nearestNode (build S t0 [] ids) q = .null := by
  refine ⟨rfl, rfl, rfl⟩

end KdTree

namespace GetMirrorVerticesIndex

/-! ## The comparisons with the threshold -/

/-- The comparison on squares is the comparison of the real square root with the threshold. -/
theorem sqrtLe_iff_real_sqrt_le (d2 t : ℚ) :
    sqrtLe d2 t = true ↔ Real.sqrt (d2 : ℝ) ≤ (t : ℝ) := by
  unfold sqrtLe
  rw [decide_eq_true_eq, Real.sqrt_le_iff]
  constructor
  · rintro ⟨h0, h1⟩
    refine ⟨by exact_mod_cast h0, ?_⟩
    have : (d2 : ℝ) ≤ (t : ℝ) * (t : ℝ) := by exact_mod_cast h1
    nlinarith
  · rintro ⟨h0, h1⟩
    refine ⟨by exact_mod_cast h0, ?_⟩
    have : (d2 : ℝ) ≤ (t : ℝ) * (t : ℝ) := by nlinarith
    exact_mod_cast this

theorem sqrtGt_eq_not_sqrtLe (d2 t : ℚ) : sqrtGt d2 t = !sqrtLe d2 t := by
  unfold sqrtGt sqrtLe
  by_cases h0 : 0 ≤ t <;> by_cases h1 : d2 ≤ t * t <;>
    simp [h0, h1, not_le.mp, not_lt.mpr, lt_of_not_le]

/-- The strict comparison on squares is the comparison of the threshold with the real square
root. -/
theorem sqrtGt_iff_real_lt_sqrt (d2 t : ℚ) :
    sqrtGt d2 t = true ↔ (t : ℝ) < Real.sqrt (d2 : ℝ) := by
  rw [sqrtGt_eq_not_sqrtLe, ← not_le, ← sqrtLe_iff_real_sqrt_le]
  simp


/-! ## The loop of `mirrorSearch` -/

theorem linearize_isSome (c : GetMirrorVerticesIndex) (hty : c.objectType ≠ .NO_TYPE)
    (id : KdTree.IdPoint) : ∃ v, linearize c id = some v := by
  unfold linearize
  cases h : c.objectType
  · exact absurd h hty
  all_goals exact ⟨_, rfl⟩

/-- One pass of the loop body on an index not yet visited writes `1` in `setIds` and the
entry of the point in `tmpIds`, and goes on. -/
theorem mirrorSearchLoop_cons (c : GetMirrorVerticesIndex) (hty : c.objectType ≠ .NO_TYPE)
    (i : Nat) (rest : List Nat) (st : List Int × List Int)
    (hset : st.1[i]? = some 0) (htmp : st.2[i]? = some (-2)) :
    mirrorSearchLoop c (i :: rest) st =
      mirrorSearchLoop c rest
        (st.1.set i 1, st.2.set i (mirrorEntry c (c.points.getD i ⟨0, 0, 0⟩))) := by
  have hD : st.1.getD i 0 = 0 := by
    rw [List.getD_eq_getElem?_getD, hset]
    rfl
  have hkeep : st.2.set i (-2) = st.2 := by
    apply List.ext_getElem?
    intro k
    rw [List.getElem?_set]
    split
    · rename_i hik
      subst hik
      rw [htmp]
      split
      · rfl
      · rename_i hlt
        have := List.getElem?_eq_none (not_lt.mp hlt)
        rw [htmp] at this
        cases this
    · rfl
  rw [mirrorSearchLoop, if_neg (not_not.mpr hD)]
  simp only []
  by_cases hnull : (c.tree.nearestNode (mirroredPos c (c.points.getD i ⟨0, 0, 0⟩))).isNull = true
  · have hentry : mirrorEntry c (c.points.getD i ⟨0, 0, 0⟩) = -2 := by
      unfold mirrorEntry
      rw [if_neg]
      rw [hnull]
      simp
    rw [hentry, hkeep]
    simp only [hnull, Bool.not_true, Bool.false_eq_true, if_false]
  · have hnull : (c.tree.nearestNode (mirroredPos c (c.points.getD i ⟨0, 0, 0⟩))).isNull = false := by
      simpa using hnull
    by_cases hle : sqrtLe (sqDist (mirroredPos c (c.points.getD i ⟨0, 0, 0⟩))
        (c.tree.nearestNode (mirroredPos c (c.points.getD i ⟨0, 0, 0⟩))).point) c.threshold = true
    · obtain ⟨v, hv⟩ := linearize_isSome c hty
        (c.tree.nearestNode (mirroredPos c (c.points.getD i ⟨0, 0, 0⟩))).id
      have hentry : mirrorEntry c (c.points.getD i ⟨0, 0, 0⟩) = v := by
        unfold mirrorEntry
        rw [if_pos ⟨hnull, hle⟩, hv]
        rfl
      rw [hentry]
      simp only [hnull, Bool.not_false, if_true, hle, hv]
    · have hentry : mirrorEntry c (c.points.getD i ⟨0, 0, 0⟩) = -2 := by
        unfold mirrorEntry
        rw [if_neg]
        exact fun h => hle h.2
      rw [hentry, hkeep]
      simp only [hnull, Bool.not_false, if_true, hle, if_false, Bool.false_eq_true]

theorem mirrorSearchLoop_spec (c : GetMirrorVerticesIndex) (hty : c.objectType ≠ .NO_TYPE) :
    ∀ (is : List Nat) (st : List Int × List Int), is.Nodup →
      (∀ i ∈ is, st.1[i]? = some 0 ∧ st.2[i]? = some (-2)) →
      ∃ st', mirrorSearchLoop c is st = .ok st' ∧
        (∀ k, st'.1[k]? = if k ∈ is then some 1 else st.1[k]?) ∧
        (∀ k, st'.2[k]? =
          if k ∈ is then some (mirrorEntry c (c.points.getD k ⟨0, 0, 0⟩)) else st.2[k]?) := by
  intro is
  induction is with
  | nil =>
    intro st _ _
    exact ⟨st, rfl, by simp, by simp⟩
  | cons i rest ih =>
    intro st hnd hst
    obtain ⟨hi, hrest⟩ := List.nodup_cons.mp hnd
    obtain ⟨hset, htmp⟩ := hst i (List.mem_cons_self _ _)
    have hlt1 : i < st.1.length := by
      by_contra h
      rw [List.getElem?_eq_none (not_lt.mp h)] at hset
      cases hset
    have hlt2 : i < st.2.length := by
      by_contra h
      rw [List.getElem?_eq_none (not_lt.mp h)] at htmp
      cases htmp
    rw [mirrorSearchLoop_cons c hty i rest st hset htmp]
    have hst' : ∀ j ∈ rest,
        (st.1.set i 1, st.2.set i (mirrorEntry c (c.points.getD i ⟨0, 0, 0⟩))).1[j]? = some 0 ∧
        (st.1.set i 1, st.2.set i (mirrorEntry c (c.points.getD i ⟨0, 0, 0⟩))).2[j]? = some (-2) := by
      intro j hj
      have hne : i ≠ j := fun h => hi (h ▸ hj)
      obtain ⟨h1, h2⟩ := hst j (List.mem_cons_of_mem _ hj)
      simp only [List.getElem?_set, if_neg hne]
      exact ⟨h1, h2⟩
    obtain ⟨st', hrun, h1, h2⟩ := ih _ hrest hst'
    refine ⟨st', hrun, ?_, ?_⟩
    · intro k
      rw [h1 k]
      by_cases hk : k ∈ rest
      · simp [hk]
      · by_cases hki : k = i
        · subst hki
          simp [hk, List.getElem?_set, hlt1]
        · have hik : ¬ i = k := fun h => hki h.symm
          simp [hk, hki, List.getElem?_set, hik]
    · intro k
      rw [h2 k]
      by_cases hk : k ∈ rest
      · simp [hk]
      · by_cases hki : k = i
        · subst hki
          simp [hk, List.getElem?_set, hlt2]
        · have hik : ¬ i = k := fun h => hki h.symm
          simp [hk, hki, List.getElem?_set, hik]

theorem mirrorSearchLoop_range (c : GetMirrorVerticesIndex) (hty : c.objectType ≠ .NO_TYPE) :
    mirrorSearchLoop c (List.range c.points.length)
        (List.replicate c.points.length 0, List.replicate c.points.length (-2)) =
      .ok (List.replicate c.points.length 1, c.points.map (mirrorEntry c)) := by
  obtain ⟨st', hrun, h1, h2⟩ := mirrorSearchLoop_spec c hty (List.range c.points.length)
    (List.replicate c.points.length 0, List.replicate c.points.length (-2))
    (List.nodup_range _)
    (by
      intro i hi
      have hi := List.mem_range.mp hi
      simp [List.getElem?_replicate, hi])
  rw [hrun]
  have e1 : st'.1 = List.replicate c.points.length 1 := by
    apply List.ext_getElem?
    intro k
    rw [h1 k]
    by_cases hk : k < c.points.length
    · simp [List.getElem?_replicate, hk]
    · simp [List.getElem?_replicate, hk]
  have e2 : st'.2 = c.points.map (mirrorEntry c) := by
    apply List.ext_getElem?
    intro k
    rw [h2 k]
    by_cases hk : k < c.points.length
    · simp [hk, List.getD_eq_getElem _ _ hk]
    · simp [List.getElem?_replicate, hk]
      exact (List.getElem?_eq_none (not_lt.mp hk)).symm ▸ rfl
  cases st' with
  | mk a b =>
    simp only at e1 e2
    rw [e1, e2]


/-! ## The claims on the results of the command -/

/-- C8. Position-mode miss: when the index holds no node the result is `-1` repeated once
for a mesh or a curve, twice for a surface and three times for a lattice, so its length is the
identifier arity of the object type. -/
theorem C8_position_mode_miss (c : GetMirrorVerticesIndex) (hpos : c.usePosition = true)
    (hempty : c.tree.isBuilt = false) (hty : c.objectType ≠ .NO_TYPE) :
    redoIt c = (.kSuccess, some (List.replicate (idArity c.objectType) (-1))) ∧
      (∀ r, (redoIt c).2 = some r → r.length = idArity c.objectType) ∧
      (idArity .MESH = 1 ∧ idArity .NURBS_CURVE = 1 ∧ idArity .NURBS_SURFACE = 2 ∧
        idArity .LATTICE = 3) := by
  have hroot : c.tree.root.isNull = true := by
    unfold KdTree.isBuilt at hempty
    simpa using hempty
  have hnn : (c.tree.nearestNode c.searchPosition).isNull = true := by
    unfold KdTree.nearestNode KdTree.nearestNeighbour
    rw [if_pos hroot]
    rfl
  have hres : redoIt c = (.kSuccess, some (List.replicate (idArity c.objectType) (-1))) := by
    unfold redoIt positionResult
    simp only [hpos, if_true, hnn, Bool.not_true, Bool.false_eq_true, if_false]
    cases h : c.objectType
    · exact absurd h hty
    all_goals rfl
  refine ⟨hres, ?_, ⟨rfl, rfl, rfl, rfl⟩⟩
  intro r hr
  rw [hres] at hr
  cases hr
  simp

/-- Witness of C8: a surface command in position mode whose tree holds no node. -/
theorem C8_position_mode_miss_witness :
    ({ new with usePosition := true, objectType := .NURBS_SURFACE } :
        GetMirrorVerticesIndex).usePosition = true ∧
      redoIt { new with usePosition := true, objectType := .NURBS_SURFACE } =
        (.kSuccess, some [-1, -1]) :=
  ⟨rfl,
    (C8_position_mode_miss { new with usePosition := true, objectType := .NURBS_SURFACE }
      rfl rfl (by decide)).1⟩

theorem loadAndBuild_eq_of_tieFree (S : KdTree.Sorter) (c0 : GetMirrorVerticesIndex)
    (shape : Shape)
    (h : KdTree.tieFree
      (KdTree.makePointList (shapeState { c0 with tree := KdTree.new, points := [] } shape).points
        (shapeIds { c0 with tree := KdTree.new, points := [] } shape)).length
      (KdTree.makePointList (shapeState { c0 with tree := KdTree.new, points := [] } shape).points
        (shapeIds { c0 with tree := KdTree.new, points := [] } shape)) 0 = true) :
    loadAndBuild S c0 shape = loadAndBuild KdTree.insertionSorter c0 shape := by
  unfold loadAndBuild
  unfold shapeState shapeIds at h
  cases hl : loadShape { c0 with tree := KdTree.new, points := [] } shape with
  | none => rfl
  | some pr =>
    obtain ⟨c1, ids⟩ := pr
    rw [hl] at h
    simp only at h ⊢
    rw [KdTree.build_eq_of_tieFree S c1.tree c1.points ids h]

/-- C9. The scenario: on the mesh of points `(0,0,0)`, `(1,0,0)`, `(5,5,5)` numbered `0, 1, 2`,
whatever `std::sort` is used, the position query at `(1.1, 0, 0)` yields `[1]` with threshold
`1.0` and `[-2]` with threshold `0.05`. -/
theorem C9_scenario (S : KdTree.Sorter) :
    loadBuildRedo S (scenarioFlags 1) scenarioMesh = (.kSuccess, some [1]) ∧
      loadBuildRedo S (scenarioFlags (1 / 20)) scenarioMesh = (.kSuccess, some [-2]) := by
  unfold loadBuildRedo
  rw [loadAndBuild_eq_of_tieFree S (scenarioFlags 1) scenarioMesh (by decide!),
    loadAndBuild_eq_of_tieFree S (scenarioFlags (1 / 20)) scenarioMesh (by decide!)]
  decide!

end GetMirrorVerticesIndex

/-! ## Conversions and the numbering of the points by `doIt` -/

theorem toInt32_of_lt {u : Nat} (h : u < 2147483648) : toInt32 u = (u : Int) := by
  unfold toInt32
  have hmod : u % 4294967296 = u := Nat.mod_eq_of_lt (by omega)
  rw [hmod, if_pos h]

theorem toUInt32_natCast {u : Nat} (h : u < 4294967296) : toUInt32 (u : Int) = u := by
  unfold toUInt32
  have : ((u : Int) % 4294967296) = (u : Int) := Int.emod_eq_of_lt (by omega) (by omega)
  rw [this]
  simp

theorem toUInt32_toInt32 {u : Nat} (h : u < 2147483648) : toUInt32 (toInt32 u) = u := by
  rw [toInt32_of_lt h, toUInt32_natCast (by omega)]

theorem length_flatMap_range {α : Type} (k : Nat) (f : Nat → List α)
    (hk : ∀ i, (f i).length = k) (n : Nat) : ((List.range n).flatMap f).length = n * k := by
  induction n with
  | zero => simp
  | succ n ih =>
    rw [List.range_succ, List.flatMap_append, List.length_append, ih, List.flatMap_singleton, hk]
    ring

theorem getD_flatMap_range {α : Type} (k : Nat) (f : Nat → List α)
    (hk : ∀ i, (f i).length = k) (d : α) (n i j : Nat) (hi : i < n) (hj : j < k) :
    ((List.range n).flatMap f).getD (i * k + j) d = (f i).getD j d := by
  induction n with
  | zero => omega
  | succ n ih =>
    rw [List.range_succ, List.flatMap_append, List.flatMap_singleton]
    have hlen := length_flatMap_range k f hk n
    by_cases hin : i < n
    · have hlt : i * k + j < ((List.range n).flatMap f).length := by
        rw [hlen]
        have : (i + 1) * k ≤ n * k := Nat.mul_le_mul_right k hin
        rw [Nat.add_mul, Nat.one_mul] at this
        omega
      rw [List.getD_append _ _ _ _ hlt]
      exact ih hin
    · have hieq : i = n := by omega
      subst hieq
      rw [List.getD_append_right _ _ _ _ (by rw [hlen]; omega), hlen]
      congr 1
      omega

namespace GetMirrorVerticesIndex

theorem flatIds_length (n : Nat) : (flatIds n).length = n := by
  simp [flatIds]

theorem flatIds_getD (n p : Nat) (hp : p < n) : (flatIds n).getD p 0 = toInt32 p := by
  unfold flatIds
  rw [List.getD_eq_getElem _ _ (by simpa using hp)]
  simp

theorem surfaceRow_length (b i : Nat) :
    ((List.range b).flatMap (fun j => [toInt32 i, toInt32 j])).length = b * 2 :=
  length_flatMap_range 2 (fun j => [toInt32 i, toInt32 j]) (fun _ => rfl) b

theorem surfaceIds_length (a b : Nat) : (surfaceIds a b).length = a * b * 2 := by
  unfold surfaceIds
  rw [length_flatMap_range (b * 2) _ (surfaceRow_length b) a]
  ring

theorem surfaceIds_getD (a b p : Nat) (hp : p < a * b) :
    (surfaceIds a b).getD (p * 2) 0 = toInt32 (p / b) ∧
      (surfaceIds a b).getD (p * 2 + 1) 0 = toInt32 (p % b) := by
  have hb : 0 < b := by
    rcases Nat.eq_zero_or_pos b with h | h
    · subst h; simp at hp
    · exact h
  have hdiv : p / b < a := Nat.div_lt_of_lt_mul (by rwa [Nat.mul_comm] at hp)
  have hmod : p % b < b := Nat.mod_lt _ hb
  have hdm := Nat.div_add_mod p b
  have e0 : p * 2 = (p / b) * (b * 2) + ((p % b) * 2 + 0) := by
    have : (p / b) * (b * 2) = (b * (p / b)) * 2 := by ring
    omega
  have e1 : p * 2 + 1 = (p / b) * (b * 2) + ((p % b) * 2 + 1) := by omega
  unfold surfaceIds
  constructor
  · rw [e0, getD_flatMap_range (b * 2) _ (surfaceRow_length b) 0 a (p / b) _ hdiv (by omega),
      getD_flatMap_range 2 (fun j => [toInt32 (p / b), toInt32 j]) (fun _ => rfl) 0 b (p % b) 0
        hmod (by omega)]
    rfl
  · rw [e1, getD_flatMap_range (b * 2) _ (surfaceRow_length b) 0 a (p / b) _ hdiv (by omega),
      getD_flatMap_range 2 (fun j => [toInt32 (p / b), toInt32 j]) (fun _ => rfl) 0 b (p % b) 1
        hmod (by omega)]
    rfl

theorem latticeCell_length (c i j : Nat) :
    ((List.range c).flatMap (fun k => [toInt32 i, toInt32 j, toInt32 k])).length = c * 3 :=
  length_flatMap_range 3 (fun k => [toInt32 i, toInt32 j, toInt32 k]) (fun _ => rfl) c

theorem latticeRow_length (b c i : Nat) :
    ((List.range b).flatMap (fun j =>
      (List.range c).flatMap (fun k => [toInt32 i, toInt32 j, toInt32 k]))).length
      = b * (c * 3) :=
  length_flatMap_range (c * 3) _ (latticeCell_length c i) b

theorem latticeIds_length (a b c : Nat) : (latticeIds a b c).length = a * b * c * 3 := by
  unfold latticeIds
  rw [length_flatMap_range (b * (c * 3)) _ (latticeRow_length b c) a]
  ring

theorem latticeIds_getD (a b c p : Nat) (hp : p < a * b * c) :
    (latticeIds a b c).getD (p * 3) 0 = toInt32 (p / (b * c)) ∧
      (latticeIds a b c).getD (p * 3 + 1) 0 = toInt32 (p / c % b) ∧
      (latticeIds a b c).getD (p * 3 + 2) 0 = toInt32 (p % c) := by
  have hc : 0 < c := by
    rcases Nat.eq_zero_or_pos c with h | h
    · subst h; simp at hp
    · exact h
  have hb : 0 < b := by
    rcases Nat.eq_zero_or_pos b with h | h
    · subst h; simp at hp
    · exact h
  have hi : p / (b * c) < a := Nat.div_lt_of_lt_mul (by rw [Nat.mul_comm, ← Nat.mul_assoc]; exact hp)
  have hj : p / c % b < b := Nat.mod_lt _ hb
  have hk : p % c < c := Nat.mod_lt _ hc
  have h1 := Nat.div_add_mod p c
  have h2 := Nat.div_add_mod (p / c) b
  have h3 : p / c / b = p / (b * c) := by rw [Nat.div_div_eq_div_mul, Nat.mul_comm]
  rw [h3] at h2
  have hp3 : p = p / (b * c) * (b * c) + (p / c % b) * c + p % c := by
    have : c * (b * (p / (b * c)) + p / c % b) = p / (b * c) * (b * c) + (p / c % b) * c := by ring
    rw [← this, h2]
    omega
  have e : ∀ r : Nat, p * 3 + r = p / (b * c) * (b * (c * 3)) + ((p / c % b) * (c * 3) + ((p % c) * 3 + r)) := by
    intro r
    have : p / (b * c) * (b * (c * 3)) + (p / c % b) * (c * 3) + (p % c) * 3
        = (p / (b * c) * (b * c) + (p / c % b) * c + p % c) * 3 := by ring
    omega
  have hinner : (p / c % b) * (c * 3) + ((p % c) * 3 + 2) < b * (c * 3) := by
    have : (p / c % b + 1) * (c * 3) ≤ b * (c * 3) := Nat.mul_le_mul_right _ hj
    rw [Nat.add_mul, Nat.one_mul] at this
    omega
  have step : ∀ r : Nat, r < 3 → (latticeIds a b c).getD (p * 3 + r) 0 =
      [toInt32 (p / (b * c)), toInt32 (p / c % b), toInt32 (p % c)].getD r 0 := by
    intro r hr
    unfold latticeIds
    rw [e r, getD_flatMap_range (b * (c * 3)) _ (latticeRow_length b c) 0 a (p / (b * c)) _ hi
        (by omega),
      getD_flatMap_range (c * 3) _ (latticeCell_length c (p / (b * c))) 0 b (p / c % b) _ hj
        (by omega),
      getD_flatMap_range 3 (fun k => [toInt32 (p / (b * c)), toInt32 (p / c % b), toInt32 k])
        (fun _ => rfl) 0 c (p % c) r hk hr]
  exact ⟨step 0 (by omega), step 1 (by omega), step 2 (by omega)⟩


theorem linearize_congr (c c1 : GetMirrorVerticesIndex) (h0 : c.objectType = c1.objectType)
    (h1 : c.dimensionY = c1.dimensionY) (h2 : c.dimensionZ = c1.dimensionZ)
    (id : KdTree.IdPoint) : linearize c id = linearize c1 id := by
  unfold linearize
  rw [h0, h1, h2]

/-- The identifier that `build` decodes for the point of index `p` from the array `doIt` fills,
and its linearization, which is `p`. -/
theorem loadShape_decode (c0 : GetMirrorVerticesIndex) (shape : Shape)
    (c : GetMirrorVerticesIndex) (ids : List Int) (hload : loadShape c0 shape = some (c, ids))
    (hn : c.points.length < 2147483648) (p : Nat) (hp : p < c.points.length) :
    c.objectType ≠ .NO_TYPE ∧
      ((c.objectType = .MESH ∨ c.objectType = .NURBS_CURVE) →
        KdTree.decodeId c.points.length ids p = KdTree.IdPoint.mk1 p) ∧
      (c.objectType = .NURBS_SURFACE →
        c.points.length = c.dimensionX * c.dimensionY ∧
        KdTree.decodeId c.points.length ids p =
          KdTree.IdPoint.mk2 (p / c.dimensionY) (p % c.dimensionY)) ∧
      (c.objectType = .LATTICE →
        c.points.length = c.dimensionX * c.dimensionY * c.dimensionZ ∧
        KdTree.decodeId c.points.length ids p =
          KdTree.IdPoint.mk3 (p / (c.dimensionY * c.dimensionZ))
            (p / c.dimensionZ % c.dimensionY) (p % c.dimensionZ)) ∧
      linearize c (KdTree.decodeId c.points.length ids p) = some (p : Int) := by
  cases shape with
  | mesh getPoints =>
    simp only [loadShape, Option.some.injEq, Prod.mk.injEq] at hload
    obtain ⟨rfl, rfl⟩ := hload
    simp only at hn hp ⊢
    have hdec : KdTree.decodeId (getPoints c0.useWorldspace).length
        (flatIds (getPoints c0.useWorldspace).length) p = KdTree.IdPoint.mk1 p := by
      unfold KdTree.decodeId
      rw [if_pos (flatIds_length _), flatIds_getD _ _ hp, toUInt32_toInt32 (by omega)]
    refine ⟨by simp, fun _ => hdec, by simp, by simp, ?_⟩
    rw [hdec]
    simp only [linearize, KdTree.IdPoint.mk1]
    rw [toInt32_of_lt (by omega)]
  | nurbsCurve numCVs getCV =>
    simp only [loadShape, Option.some.injEq, Prod.mk.injEq] at hload
    obtain ⟨rfl, rfl⟩ := hload
    simp only [List.length_map, List.length_range] at hn hp ⊢
    have hdec : KdTree.decodeId numCVs (flatIds numCVs) p = KdTree.IdPoint.mk1 p := by
      unfold KdTree.decodeId
      rw [if_pos (flatIds_length _), flatIds_getD _ _ hp, toUInt32_toInt32 (by omega)]
    refine ⟨by simp, fun _ => hdec, by simp, by simp, ?_⟩
    rw [hdec]
    simp only [linearize, KdTree.IdPoint.mk1]
    rw [toInt32_of_lt (by omega)]
  | nurbsSurface numU numV getCV =>
    simp only [loadShape, Option.some.injEq, Prod.mk.injEq] at hload
    obtain ⟨rfl, rfl⟩ := hload
    have hlen : ((List.range numU).flatMap (fun i =>
        (List.range numV).map (fun j => getCV i j c0.useWorldspace))).length = numU * numV :=
      length_flatMap_range numV _ (fun i => by simp) numU
    simp only [hlen] at hn hp ⊢
    have hpos : 0 < numU * numV := by omega
    have hV : 0 < numV := by
      rcases Nat.eq_zero_or_pos numV with h | h
      · subst h; simp at hp
      · exact h
    have hdiv : p / numV < numU := Nat.div_lt_of_lt_mul (by rwa [Nat.mul_comm] at hp)
    have hmod : p % numV < numV := Nat.mod_lt _ hV
    have hdm := Nat.div_add_mod p numV
    have hdle : p / numV ≤ p := Nat.div_le_self _ _
    have hmle : p % numV ≤ p := Nat.mod_le _ _
    have hdec : KdTree.decodeId (numU * numV) (surfaceIds numU numV) p =
        KdTree.IdPoint.mk2 (p / numV) (p % numV) := by
      unfold KdTree.decodeId
      rw [if_neg (by rw [surfaceIds_length]; omega), if_pos (surfaceIds_length _ _),
        (surfaceIds_getD numU numV p hp).1, (surfaceIds_getD numU numV p hp).2,
        toUInt32_toInt32 (by omega), toUInt32_toInt32 (by omega)]
    refine ⟨by simp, by simp, fun _ => ⟨trivial, hdec⟩, by simp, ?_⟩
    rw [hdec]
    simp only [linearize, KdTree.IdPoint.mk2]
    have hval : p / numV * numV + p % numV = p := by rw [Nat.mul_comm]; exact hdm
    rw [hval, Nat.mod_eq_of_lt (by omega), toInt32_of_lt (by omega)]
  | lattice s t u point =>
    simp only [loadShape, Option.some.injEq, Prod.mk.injEq] at hload
    obtain ⟨rfl, rfl⟩ := hload
    have hlen : ((List.range s).flatMap (fun i => (List.range t).flatMap (fun j =>
        (List.range u).map (fun k => point i j k)))).length = s * t * u := by
      rw [length_flatMap_range (t * u) _
        (fun i => length_flatMap_range u _ (fun j => by simp) t) s]
      ring
    simp only [hlen] at hn hp ⊢
    have hidx := latticeIds_getD s t u p hp
    have hu : 0 < u := by
      rcases Nat.eq_zero_or_pos u with h | h
      · subst h; simp at hp
      · exact h
    have ht : 0 < t := by
      rcases Nat.eq_zero_or_pos t with h | h
      · subst h; simp at hp
      · exact h
    have h1 := Nat.div_add_mod p u
    have h2 := Nat.div_add_mod (p / u) t
    have h3 : p / u / t = p / (t * u) := by rw [Nat.div_div_eq_div_mul, Nat.mul_comm]
    rw [h3] at h2
    have hval : p / (t * u) * t * u + p / u % t * u + p % u = p := by
      have : u * (t * (p / (t * u)) + p / u % t) = p / (t * u) * t * u + p / u % t * u := by ring
      rw [← this, h2]
      omega
    have hx : p / (t * u) ≤ p := Nat.div_le_self _ _
    have hy : p / u % t ≤ p := le_trans (Nat.mod_le _ _) (Nat.div_le_self _ _)
    have hz : p % u ≤ p := Nat.mod_le _ _
    have hdec : KdTree.decodeId (s * t * u) (latticeIds s t u) p =
        KdTree.IdPoint.mk3 (p / (t * u)) (p / u % t) (p % u) := by
      unfold KdTree.decodeId
      rw [if_neg (by rw [latticeIds_length]; omega), if_neg (by rw [latticeIds_length]; omega),
        if_pos (latticeIds_length _ _ _), hidx.1, hidx.2.1, hidx.2.2,
        toUInt32_toInt32 (by omega), toUInt32_toInt32 (by omega), toUInt32_toInt32 (by omega)]
    refine ⟨by simp, by simp, by simp, fun _ => ⟨trivial, hdec⟩, ?_⟩
    rw [hdec]
    simp only [linearize, KdTree.IdPoint.mk3]
    rw [hval, Nat.mod_eq_of_lt (by omega), toInt32_of_lt (by omega)]
  | other => simp [loadShape] at hload


theorem loadAndBuild_ok (S : KdTree.Sorter) (c0 : GetMirrorVerticesIndex) (shape : Shape)
    (c : GetMirrorVerticesIndex) (hload : loadAndBuild S c0 shape = .ok c) :
    ∃ c1 ids, loadShape { c0 with tree := KdTree.new, points := [] } shape = some (c1, ids) ∧
      c1.points.length ≠ 0 ∧ c = { c1 with tree := KdTree.build S c1.tree c1.points ids } := by
  unfold loadAndBuild at hload
  cases h : loadShape { c0 with tree := KdTree.new, points := [] } shape with
  | none =>
    rw [h] at hload
    cases hload
  | some pr =>
    obtain ⟨c1, ids⟩ := pr
    rw [h] at hload
    simp only at hload
    by_cases h0 : c1.points.length = 0
    · rw [if_pos h0] at hload
      cases hload
    · rw [if_neg h0] at hload
      exact ⟨c1, ids, rfl, h0, (Except.ok.inj hload).symm⟩

/-- C10. Linearization. A matched identifier is written as `x` for a mesh or a curve, as
`x*dimY + y` for a surface and as `x*dimY*dimZ + y*dimZ + z` for a lattice (when the value
fits the 31 bits of a non-negative `int`). For the identifiers `doIt` enumerates (fewer than
`2^31` points) the point of array index `p` carries `p` for a mesh or a curve,
`(p / dimY, p % dimY)` for a surface, `(p / (dimY*dimZ), p / dimZ % dimY, p % dimZ)` for a
lattice, and its linearized identifier is `p`: linearization inverts the enumeration and is
injective on the grid. -/
theorem C10_linearization (c0 : GetMirrorVerticesIndex) (shape : Shape)
    (c : GetMirrorVerticesIndex) (ids : List Int) (hload : loadShape c0 shape = some (c, ids))
    (hn : c.points.length < 2147483648) :
    (∀ id : KdTree.IdPoint,
      ((c.objectType = .MESH ∨ c.objectType = .NURBS_CURVE) → id.x < 2147483648 →
        linearize c id = some (id.x : Int)) ∧
      (c.objectType = .NURBS_SURFACE → id.x * c.dimensionY + id.y < 2147483648 →
        linearize c id = some ((id.x * c.dimensionY + id.y : Nat) : Int)) ∧
      (c.objectType = .LATTICE →
        id.x * c.dimensionY * c.dimensionZ + id.y * c.dimensionZ + id.z < 2147483648 →
        linearize c id =
          some ((id.x * c.dimensionY * c.dimensionZ + id.y * c.dimensionZ + id.z : Nat) : Int))) ∧
    (∀ p, p < c.points.length →
      ((c.objectType = .MESH ∨ c.objectType = .NURBS_CURVE) →
        KdTree.decodeId c.points.length ids p = KdTree.IdPoint.mk1 p) ∧
      (c.objectType = .NURBS_SURFACE →
        c.points.length = c.dimensionX * c.dimensionY ∧
        KdTree.decodeId c.points.length ids p =
          KdTree.IdPoint.mk2 (p / c.dimensionY) (p % c.dimensionY)) ∧
      (c.objectType = .LATTICE →
        c.points.length = c.dimensionX * c.dimensionY * c.dimensionZ ∧
        KdTree.decodeId c.points.length ids p =
          KdTree.IdPoint.mk3 (p / (c.dimensionY * c.dimensionZ))
            (p / c.dimensionZ % c.dimensionY) (p % c.dimensionZ)) ∧
      linearize c (KdTree.decodeId c.points.length ids p) = some (p : Int)) ∧
    (∀ p p', p < c.points.length → p' < c.points.length →
      linearize c (KdTree.decodeId c.points.length ids p) =
        linearize c (KdTree.decodeId c.points.length ids p') → p = p') := by
  refine ⟨?_, ?_, ?_⟩
  · intro id
    refine ⟨?_, ?_, ?_⟩
    · intro hty hx
      unfold linearize
      rcases hty with h | h <;> rw [h] <;> simp only <;> rw [toInt32_of_lt hx]
    · intro hty hx
      unfold linearize
      rw [hty]
      simp only
      rw [Nat.mod_eq_of_lt (by omega), toInt32_of_lt hx]
    · intro hty hx
      unfold linearize
      rw [hty]
      simp only
      rw [Nat.mod_eq_of_lt (by omega), toInt32_of_lt hx]
  · intro p hp
    exact (loadShape_decode c0 shape c ids hload hn p hp).2
  · intro p p' hp hp' heq
    rw [(loadShape_decode c0 shape c ids hload hn p hp).2.2.2.2,
      (loadShape_decode c0 shape c ids hload hn p' hp').2.2.2.2] at heq
    exact Int.ofNat.inj (Option.some.inj heq)

/-- Witness of C10 on a lattice of 2 x 3 x 2 points: the point of index 7 is `(1, 0, 1)` and
its linearized identifier is 7. -/
theorem C10_linearization_witness :
    loadShape new gridLattice = some (shapeState new gridLattice, shapeIds new gridLattice) ∧
      (shapeState new gridLattice).points.length < 2147483648 ∧
      linearize (shapeState new gridLattice)
        (KdTree.decodeId (shapeState new gridLattice).points.length (shapeIds new gridLattice) 7)
        = some 7 :=
  ⟨rfl, by decide,
    ((C10_linearization new gridLattice (shapeState new gridLattice) (shapeIds new gridLattice)
      rfl (by decide)).2.1 7 (by decide)).2.2.2⟩


theorem sqrtLe_zero {t : ℚ} (ht : 0 ≤ t) : sqrtLe 0 t = true := by
  unfold sqrtLe
  rw [decide_eq_true_eq]
  exact ⟨ht, mul_nonneg ht ht⟩

/-- After `doIt` has loaded a shape of fewer than `2^31` points, the entry of a point whose
reflection is a stored point is the index of a stored point equal to that reflection, read
from a node of the tree holding it. -/
theorem mirrorEntry_of_stored (S : KdTree.Sorter) (c0 : GetMirrorVerticesIndex) (shape : Shape)
    (c : GetMirrorVerticesIndex) (hload : loadAndBuild S c0 shape = .ok c)
    (hthr : 0 ≤ c.threshold) (hsize : c.points.length < 2147483648)
    (p : MPoint) (hp : mirroredPos c p ∈ c.points) :
    ∃ j, ∃ hj : j < c.points.length, c.points[j] = mirroredPos c p ∧
      mirrorEntry c p = (j : Int) ∧
      ∃ nd ∈ c.tree.root.subnodes, nd.point = mirroredPos c p ∧
        linearize c nd.id = some (j : Int) := by
  obtain ⟨c1, ids, hshape, hne, rfl⟩ := loadAndBuild_ok S c0 shape c hload
  simp only at hthr hsize hp ⊢
  have hst := KdTree.nearestNode_stored S c1.tree c1.points ids _ hp
  obtain ⟨hnn, hpt, -, hmem⟩ := hst
  obtain ⟨j, hj, hgetD, hid, -⟩ := KdTree.makePointList_mem hmem
  simp only at hgetD hid
  have hlin := (loadShape_decode _ shape c1 ids hshape hsize j hj).2.2.2.2
  have hlin' : linearize { c1 with tree := KdTree.build S c1.tree c1.points ids }
      (KdTree.nearestNode (KdTree.build S c1.tree c1.points ids)
        (mirroredPos { c1 with tree := KdTree.build S c1.tree c1.points ids } p)).id
      = some (j : Int) := by
    rw [hid]
    exact hlin
  refine ⟨j, hj, ?_, ?_, ?_⟩
  · rw [← List.getD_eq_getElem _ ⟨0, 0, 0⟩ hj, hgetD, hpt]
  · unfold mirrorEntry
    simp only
    rw [if_pos, hlin']
    · rfl
    · refine ⟨hnn, ?_⟩
      rw [hpt, KdTree.sqDist_self]
      exact sqrtLe_zero hthr
  · have hroot : (KdTree.build S c1.tree c1.points ids).root.isNull = false := by
      cases h : (KdTree.build S c1.tree c1.points ids).root with
      | null =>
        unfold KdTree.nearestNode at hnn
        rw [h] at hnn
        simp [KdTree.nearestNeighbour, KdTree.Node.isNull] at hnn
      | node _ _ _ _ _ => rfl
    exact ⟨_, KdTree.nearestNeighbour_mem _ _ hroot, hpt, hlin'⟩

/-- Mirror round-trip in exact arithmetic: when no operation on the coordinates
rounds, after `doIt` has loaded a shape whose points (fewer than `2^31`) are
pairwise distinct and closed under the reflection of the command, `mirrorSearch` with a
threshold `>= 0` succeeds with one entry per point; whenever `points[j]` is the reflection of
`points[i]`, entry `i` is `j`, which is the linearized identifier of the tree node holding
that point; every point has such a partner, and no entry is `-2`. -/
theorem mirror_round_trip_exact (S : KdTree.Sorter) (c0 : GetMirrorVerticesIndex) (shape : Shape)
    (c : GetMirrorVerticesIndex) (hload : loadAndBuild S c0 shape = .ok c)
    (hdistinct : c.points.Nodup) (hclosed : ∀ p ∈ c.points, mirroredPos c p ∈ c.points)
    (hthr : 0 ≤ c.threshold) (hsize : c.points.length < 2147483648) (prev : List Int) :
    ∃ r, mirrorSearch c prev = (.kSuccess, r) ∧ r.length = c.points.length ∧
      (∀ i j, ∀ hi : i < c.points.length, ∀ hj : j < c.points.length,
        c.points[j] = mirroredPos c c.points[i] →
          r[i]? = some (j : Int) ∧
          ∃ nd ∈ c.tree.root.subnodes, nd.point = c.points[j] ∧
            linearize c nd.id = some (j : Int)) ∧
      (∀ i, ∀ hi : i < c.points.length, ∃ j, ∃ hj : j < c.points.length,
        c.points[j] = mirroredPos c c.points[i]) ∧
      (∀ x ∈ r, x ≠ -2) := by
  obtain ⟨c1, ids, hshape, -, hc⟩ := loadAndBuild_ok S c0 shape c hload
  have hty : c.objectType ≠ .NO_TYPE := by
    have h1 : c.objectType = c1.objectType := by rw [hc]
    rw [h1]
    cases shape <;> simp only [loadShape, Option.some.injEq, Prod.mk.injEq] at hshape
    all_goals first
      | (obtain ⟨rfl, -⟩ := hshape; simp)
      | exact absurd hshape (by simp)
  have hloop := mirrorSearchLoop_range c hty
  have hms : mirrorSearch c prev = (.kSuccess, c.points.map (mirrorEntry c)) := by
    unfold mirrorSearch
    simp only [hloop]
  refine ⟨c.points.map (mirrorEntry c), hms, by simp, ?_, ?_, ?_⟩
  · intro i j hi hj hij
    obtain ⟨j', hj', hpj', hentry, nd, hnd, hndp, hlin⟩ := mirrorEntry_of_stored S c0 shape c hload
      hthr hsize c.points[i] (hclosed _ (List.getElem_mem hi))
    have hjj : j' = j := by
      have hpair : c.points[j'] = c.points[j] := by rw [hpj', hij]
      exact (List.Nodup.getElem_inj_iff hdistinct).mp hpair
    subst hjj
    refine ⟨?_, nd, hnd, by rw [hndp, hij], hlin⟩
    rw [List.getElem?_map, List.getElem?_eq_getElem hi]
    simp only [Option.map_some']
    rw [hentry]
  · intro i hi
    obtain ⟨j, hj, hget⟩ := List.getElem_of_mem (hclosed _ (List.getElem_mem hi))
    exact ⟨j, hj, hget⟩
  · intro x hx
    obtain ⟨p, hp, rfl⟩ := List.mem_map.mp hx
    obtain ⟨j, -, -, hentry, -⟩ := mirrorEntry_of_stored S c0 shape c hload hthr hsize p
      (hclosed p hp)
    rw [hentry]
    omega

end GetMirrorVerticesIndex
end nwave

namespace nwave
namespace GetMirrorVerticesIndex

/-! ## The threshold, the reflection and the validation of the mode -/

theorem sqrtLe_mono {d2 t1 t2 : ℚ} (h : t1 ≤ t2) (h1 : sqrtLe d2 t1 = true) :
    sqrtLe d2 t2 = true := by
  unfold sqrtLe at h1 ⊢
  rw [decide_eq_true_eq] at h1 ⊢
  obtain ⟨h0, hd⟩ := h1
  exact ⟨le_trans h0 h, le_trans hd (mul_le_mul h h h0 (le_trans h0 h))⟩

theorem mirrorEntry_threshold (c : GetMirrorVerticesIndex) (t : ℚ) (p : MPoint) :
    mirrorEntry { c with threshold := t } p =
      if (c.tree.nearestNode (mirroredPos c p)).isNull = false ∧
          sqrtLe (sqDist (mirroredPos c p) (c.tree.nearestNode (mirroredPos c p)).point) t = true
      then (linearize c (c.tree.nearestNode (mirroredPos c p)).id).getD (-2)
      else -2 := rfl

/-- C12. Reflection along an axis changes that coordinate only: in object space it is negated,
in world space with pivot `m` it becomes `2 * m - p` on that axis (subtract, negate, add back);
the other two coordinates come back unchanged; world-space reflection with the pivot at the
origin is object-space reflection. -/
theorem C12_reflection (c : GetMirrorVerticesIndex) (p m : MPoint) :
    mirroredPos { c with useWorldspace := false, mirrorMode := .MIRROR_X } p
        = ⟨-p.x, p.y, p.z⟩ ∧
      mirroredPos { c with useWorldspace := false, mirrorMode := .MIRROR_Y } p
        = ⟨p.x, -p.y, p.z⟩ ∧
      mirroredPos { c with useWorldspace := false, mirrorMode := .MIRROR_Z } p
        = ⟨p.x, p.y, -p.z⟩ ∧
      mirroredPos { c with useWorldspace := true, mirrorMode := .MIRROR_X, mirrorPosition := m } p
        = ⟨2 * m.x - p.x, p.y, p.z⟩ ∧
      mirroredPos { c with useWorldspace := true, mirrorMode := .MIRROR_Y, mirrorPosition := m } p
        = ⟨p.x, 2 * m.y - p.y, p.z⟩ ∧
      mirroredPos { c with useWorldspace := true, mirrorMode := .MIRROR_Z, mirrorPosition := m } p
        = ⟨p.x, p.y, 2 * m.z - p.z⟩ ∧
      (∀ mode : MirrorMode,
        mirroredPos { c with useWorldspace := true, mirrorMode := mode,
                             mirrorPosition := ⟨0, 0, 0⟩ } p
          = mirroredPos { c with useWorldspace := false, mirrorMode := mode } p) := by
  refine ⟨?_, ?_, ?_, ?_, ?_, ?_, ?_⟩
  · simp [mirroredPos, negateAxis]
  · simp [mirroredPos, negateAxis]
  · simp [mirroredPos, negateAxis]
  · simp only [mirroredPos, negateAxis, vadd, vsub, if_true, MPoint.mk.injEq]
    refine ⟨by ring, by ring, by ring⟩
  · simp only [mirroredPos, negateAxis, vadd, vsub, if_true, MPoint.mk.injEq]
    refine ⟨by ring, by ring, by ring⟩
  · simp only [mirroredPos, negateAxis, vadd, vsub, if_true, MPoint.mk.injEq]
    refine ⟨by ring, by ring, by ring⟩
  · intro mode
    cases mode <;> simp [mirroredPos, negateAxis, vadd, vsub]

/-- What the end of `parseArgs` leaves in the command object. -/
theorem parseArgsRest_fields (c : GetMirrorVerticesIndex) (args : MArgList) :
    (parseArgsRest c args).2.tree = c.tree ∧ (parseArgsRest c args).2.points = c.points ∧
      (parseArgsRest c args).2.usePosition = c.usePosition ∧
      (parseArgsRest c args).2.useMirror = args.mirrorAxis.isSome ∧
      ((parseArgsRest c args).1 = .kSuccess →
        (parseArgsRest c args).2.helpFlagSet = args.help ∧
        (parseArgsRest c args).2.objectSelectionList = args.objects) ∧
      ((parseArgsRest c args).1 ≠ .kSuccess →
        (args.failure = some .getObjects ∧
          (parseArgsRest c args).2.helpFlagSet = args.help ∧
          (parseArgsRest c args).2.objectSelectionList = args.objects) ∨
        ((parseArgsRest c args).2.helpFlagSet = c.helpFlagSet ∧
          (parseArgsRest c args).2.objectSelectionList = c.objectSelectionList)) := by
  unfold parseArgsRest
  cases hmp : args.mirrorPosition <;> cases hth : args.threshold <;>
    simp only [] <;> split_ifs <;> simp_all

/-- What `parseArgs` leaves in the command object: the tree and the points are not touched;
on success the mode flags, the help flag and the selection list are the ones passed; on an
error either the failing call is `getObjects`, the last one, and all the fields are written,
or the help flag and the selection list are not written yet. -/
theorem parseArgs_fields (c : GetMirrorVerticesIndex) (args : MArgList) :
    (parseArgs c args).2.tree = c.tree ∧ (parseArgs c args).2.points = c.points ∧
      ((parseArgs c args).1 = .kSuccess →
        (parseArgs c args).2.usePosition = args.position.isSome ∧
        (parseArgs c args).2.useMirror = args.mirrorAxis.isSome ∧
        (parseArgs c args).2.helpFlagSet = args.help ∧
        (parseArgs c args).2.objectSelectionList = args.objects) ∧
      ((parseArgs c args).1 ≠ .kSuccess →
        (args.failure = some .getObjects ∧
          (parseArgs c args).2.usePosition = args.position.isSome ∧
          (parseArgs c args).2.useMirror = args.mirrorAxis.isSome ∧
          (parseArgs c args).2.helpFlagSet = args.help ∧
          (parseArgs c args).2.objectSelectionList = args.objects) ∨
        ((parseArgs c args).2.helpFlagSet = c.helpFlagSet ∧
          (parseArgs c args).2.objectSelectionList = c.objectSelectionList)) := by
  have key : ∀ c2 : GetMirrorVerticesIndex, c2.tree = c.tree → c2.points = c.points →
      c2.usePosition = args.position.isSome → c2.helpFlagSet = c.helpFlagSet →
      c2.objectSelectionList = c.objectSelectionList →
      (parseArgsRest c2 args).2.tree = c.tree ∧ (parseArgsRest c2 args).2.points = c.points ∧
      ((parseArgsRest c2 args).1 = .kSuccess →
        (parseArgsRest c2 args).2.usePosition = args.position.isSome ∧
        (parseArgsRest c2 args).2.useMirror = args.mirrorAxis.isSome ∧
        (parseArgsRest c2 args).2.helpFlagSet = args.help ∧
        (parseArgsRest c2 args).2.objectSelectionList = args.objects) ∧
      ((parseArgsRest c2 args).1 ≠ .kSuccess →
        (args.failure = some .getObjects ∧
          (parseArgsRest c2 args).2.usePosition = args.position.isSome ∧
          (parseArgsRest c2 args).2.useMirror = args.mirrorAxis.isSome ∧
          (parseArgsRest c2 args).2.helpFlagSet = args.help ∧
          (parseArgsRest c2 args).2.objectSelectionList = args.objects) ∨
        ((parseArgsRest c2 args).2.helpFlagSet = c.helpFlagSet ∧
          (parseArgsRest c2 args).2.objectSelectionList = c.objectSelectionList)) := by
    intro c2 h1 h2 h3 h4 h5
    obtain ⟨r1, r2, r3, r4, r5, r6⟩ := parseArgsRest_fields c2 args
    refine ⟨r1.trans h1, r2.trans h2, fun hs => ⟨r3.trans h3, r4, r5 hs⟩, fun hs => ?_⟩
    rcases r6 hs with ⟨a, b, d⟩ | ⟨a, b⟩
    · exact Or.inl ⟨a, r3.trans h3, r4, b, d⟩
    · exact Or.inr ⟨a.trans h4, b.trans h5⟩
  have hc1 : ∀ f : GetMirrorVerticesIndex → Prop, f c →
      (∀ p, f { c with searchPosition := p }) →
      f (match args.position with
        | some p => { c with searchPosition := p }
        | none => c) := by
    intro f h0 h1
    cases args.position
    · exact h0
    · exact h1 _
  have ht := hc1 (fun x => x.tree = c.tree) rfl (fun _ => rfl)
  have hp := hc1 (fun x => x.points = c.points) rfl (fun _ => rfl)
  have hh := hc1 (fun x => x.helpFlagSet = c.helpFlagSet) rfl (fun _ => rfl)
  have ho := hc1 (fun x => x.objectSelectionList = c.objectSelectionList) rfl (fun _ => rfl)
  unfold parseArgs
  simp only []
  split_ifs <;> (try split) <;> (try split_ifs) <;>
    first
      | exact key _ ht hp rfl hh ho
      | exact ⟨ht, hp, fun h => by simp at h, fun _ => Or.inr ⟨hh, ho⟩⟩
      | exact ⟨rfl, rfl, fun h => by simp at h, fun _ => Or.inr ⟨rfl, rfl⟩⟩

/-- C15 (counterexample). With the help flag `doIt` returns `kSuccess`, whether neither or both
of the mirror-axis and position flags are passed. -/
theorem C15_help_flag_first :
    (doIt KdTree.insertionSorter new { noArgs with help := true }).1 = .kSuccess ∧
      (doIt KdTree.insertionSorter new
        { noArgs with help := true, position := some ⟨0, 0, 0⟩, mirrorAxis := some 0 }).1
        = .kSuccess := by
  decide

/-- C15 (amended). When `parseArgs` succeeds and the help flag is not passed, an invocation
with both the mirror-axis and the position flag, or with neither, makes `doIt` return
`kInvalidParameter` at once: the command object is as `parseArgs` left it, with the tree and
the points it had before (no tree is built), and no result is set. -/
theorem C15_mode_validation (S : KdTree.Sorter) (c : GetMirrorVerticesIndex) (args : MArgList)
    (hparse : (parseArgs c args).1 = .kSuccess) (hhelp : args.help = false)
    (hmode : args.position.isSome = args.mirrorAxis.isSome) :
    doIt S c args = (.kInvalidParameter, (parseArgs c args).2, none) ∧
      (doIt S c args).2.1.tree = c.tree ∧ (doIt S c args).2.1.points = c.points := by
  obtain ⟨htree, hpts, hok, -⟩ := parseArgs_fields c args
  obtain ⟨hp, hm, hh, -⟩ := hok hparse
  have hd : doIt S c args = (.kInvalidParameter, (parseArgs c args).2, none) := by
    unfold doIt
    simp only [hh, hhelp, hm, hp, hmode]
    cases args.mirrorAxis.isSome <;> simp
  rw [hd]
  exact ⟨rfl, htree, hpts⟩

/-- Witness of the amended C15: no flag at all. -/
theorem C15_mode_validation_witness :
    (parseArgs new noArgs).1 = .kSuccess ∧ noArgs.help = false ∧
      noArgs.position.isSome = noArgs.mirrorAxis.isSome ∧
      (doIt KdTree.insertionSorter new noArgs).2.1.tree = new.tree :=
  ⟨rfl, rfl, rfl, (C15_mode_validation KdTree.insertionSorter new noArgs rfl rfl rfl).2.1⟩

end GetMirrorVerticesIndex
end nwave

namespace nwave
namespace KdTree

/-! ## Decoding, permutation, rebuild and ordering -/

theorem subnodes_length (t : Node) : t.subnodes.length = t.pairs.length := by
  induction t with
  | null => rfl
  | node d p i l r ihl ihr => simp [Node.subnodes, Node.pairs, ihl, ihr]

theorem kdInv_of_mem_subnodes {t n : Node} (hinv : KdInv t) (h : n ∈ t.subnodes) : KdInv n := by
  induction t with
  | null => simp [Node.subnodes] at h
  | node d p i l r ihl ihr =>
    simp only [Node.subnodes, List.mem_cons, List.mem_append] at h
    rcases h with rfl | h | h
    · exact hinv
    · exact ihl hinv.2.2.1 h
    · exact ihr hinv.2.2.2 h

theorem toUInt32_of_nonneg {v : Int} (h0 : 0 ≤ v) (h1 : v < 4294967296) :
    (toUInt32 v : Int) = v := by
  unfold toUInt32
  rw [Int.emod_eq_of_lt h0 h1]
  exact Int.toNat_of_nonneg h0

/-- C13. Identifier decoding: for `n >= 1` points and an identifier array of length `k*n` with
`k` in `{1, 2, 3}`, the pairs held by the tree are, up to their order, the points `i < n` each
with the identifier whose components are `ids[k*i], ..., ids[k*i+k-1]` converted to
`unsigned int` (the value itself when it is not negative), the unused components `0` and the
size tag `k`; every identifier of the tree has the arity `k`. -/
theorem C13_identifier_decoding (S : Sorter) (t0 : KdTree) (points : List MPoint)
    (ids : List Int) (hn : 0 < points.length) :
    (ids.length = points.length →
      (build S t0 points ids).root.pairs.Perm ((List.range points.length).map (fun i =>
        (points.getD i ⟨0, 0, 0⟩, (⟨toUInt32 (ids.getD i 0), 0, 0, 1⟩ : IdPoint))))) ∧
    (ids.length = points.length * 2 →
      (build S t0 points ids).root.pairs.Perm ((List.range points.length).map (fun i =>
        (points.getD i ⟨0, 0, 0⟩,
          (⟨toUInt32 (ids.getD (i * 2) 0), toUInt32 (ids.getD (i * 2 + 1) 0), 0, 2⟩ : IdPoint))))) ∧
    (ids.length = points.length * 3 →
      (build S t0 points ids).root.pairs.Perm ((List.range points.length).map (fun i =>
        (points.getD i ⟨0, 0, 0⟩,
          (⟨toUInt32 (ids.getD (i * 3) 0), toUInt32 (ids.getD (i * 3 + 1) 0),
            toUInt32 (ids.getD (i * 3 + 2) 0), 3⟩ : IdPoint))))) ∧
    (∀ k, (k = 1 ∨ k = 2 ∨ k = 3) → ids.length = points.length * k →
      ∀ pr ∈ (build S t0 points ids).root.pairs, pr.2.size = k) ∧
    (∀ v : Int, 0 ≤ v → v < 4294967296 → (toUInt32 v : Int) = v) := by
  have hperm := build_pairs_perm S t0 points ids
  refine ⟨?_, ?_, ?_, ?_, fun v h0 h1 => toUInt32_of_nonneg h0 h1⟩
  · intro hlen
    refine hperm.trans (List.Perm.of_eq ?_)
    unfold makePointList
    apply List.map_congr_left
    intro i _
    unfold decodeId
    rw [if_pos hlen]
    rfl
  · intro hlen
    refine hperm.trans (List.Perm.of_eq ?_)
    unfold makePointList
    apply List.map_congr_left
    intro i _
    unfold decodeId
    rw [if_neg (by omega), if_pos hlen]
    rfl
  · intro hlen
    refine hperm.trans (List.Perm.of_eq ?_)
    unfold makePointList
    apply List.map_congr_left
    intro i _
    unfold decodeId
    rw [if_neg (by omega), if_neg (by omega), if_pos hlen]
    rfl
  · intro k hk hlen pr hpr
    obtain ⟨i, -, -, hid, -⟩ := makePointList_mem (hperm.subset hpr)
    rw [hid]
    exact (decodeId_size points.length ids i hn).1 k hk hlen

/-- Witness of C13: two points with four identifiers, decoded as `(7, 8)` and `(9, 10)`. -/
theorem C13_identifier_decoding_witness :
    0 < [(⟨0, 0, 0⟩ : MPoint), ⟨1, 0, 0⟩].length ∧
      (build insertionSorter KdTree.new [⟨0, 0, 0⟩, ⟨1, 0, 0⟩] [7, 8, 9, 10]).root.pairs =
        [(⟨1, 0, 0⟩, IdPoint.mk2 9 10), (⟨0, 0, 0⟩, IdPoint.mk2 7 8)] ∧
      ∀ pr ∈ (build insertionSorter KdTree.new [⟨0, 0, 0⟩, ⟨1, 0, 0⟩]
        [7, 8, 9, 10]).root.pairs, pr.2.size = 2 :=
  ⟨by decide, by decide!,
    (C13_identifier_decoding insertionSorter KdTree.new [⟨0, 0, 0⟩, ⟨1, 0, 0⟩] [7, 8, 9, 10]
      (by decide)).2.2.2.1 2 (Or.inr (Or.inl rfl)) rfl⟩

/-- C14. `build` keeps every point exactly once: the pairs held by the nodes of the tree are a
permutation of the input pairs (the same multiset, each identifier with its own point), the
tree has exactly `n` nodes, and at every step the sorted range is the left range, then the
median, then the right range: the median is in neither range handed to the recursion. -/
theorem C14_build_keeps_points (S : Sorter) (t0 : KdTree) (points : List MPoint)
    (ids : List Int) :
    (build S t0 points ids).root.pairs.Perm (makePointList points ids) ∧
      ((build S t0 points ids).root.pairs : Multiset Pair) = (makePointList points ids) ∧
      ((build S t0 points ids).root.pairs.map Prod.fst).Perm points ∧
      (build S t0 points ids).root.subnodes.length = points.length ∧
      (∀ (fuel : Nat) (l : List Pair) (depth : Nat), l ≠ [] →
        ∃ pair,
          S.sort (depth % dimensions) l =
            (S.sort (depth % dimensions) l).take ((S.sort (depth % dimensions) l).length / 2) ++
              pair :: (S.sort (depth % dimensions) l).drop
                ((S.sort (depth % dimensions) l).length / 2 + 1) ∧
          buildKdTreeAux S (fuel + 1) l depth =
            .node depth pair.1 pair.2
              (buildKdTreeAux S fuel ((S.sort (depth % dimensions) l).take
                ((S.sort (depth % dimensions) l).length / 2)) (depth + 1))
              (buildKdTreeAux S fuel ((S.sort (depth % dimensions) l).drop
                ((S.sort (depth % dimensions) l).length / 2 + 1)) (depth + 1))) := by
  have hperm := build_pairs_perm S t0 points ids
  refine ⟨hperm, Multiset.coe_eq_coe.mpr hperm, ?_, ?_, ?_⟩
  · have := hperm.map Prod.fst
    rwa [makePointList_fst] at this
  · rw [subnodes_length, hperm.length_eq]
    simp [makePointList]
  · intro fuel l depth hl
    obtain ⟨pair, hget, heq⟩ := buildKdTreeAux_cons S fuel depth l hl
    exact ⟨pair, split_at_median _ pair _ hget, heq⟩

/-- C17. Rebuild: `build(P2, I2)` on an index built from `(P1, I1)` (or left in any state)
gives the state `build(P2, I2)` gives on a fresh index: the same tree, hence the same answer
to every query; the tree holds the pairs of the second input only. -/
theorem C17_rebuild (S : Sorter) (t0 : KdTree) (P1 P2 : List MPoint) (I1 I2 : List Int) :
    build S (build S t0 P1 I1) P2 I2 = build S KdTree.new P2 I2 ∧
      (∀ q, nearestNode (build S (build S t0 P1 I1) P2 I2) q =
        nearestNode (build S KdTree.new P2 I2) q) ∧
      (build S (build S t0 P1 I1) P2 I2).root.pairs.Perm (makePointList P2 I2) ∧
      (build S (build S t0 P1 I1) P2 I2).pointCount = P2.length :=
  ⟨rfl, fun _ => rfl, build_pairs_perm S _ P2 I2, rfl⟩

/-- C19. K-d ordering: in the tree made by `build`, for every node, with `a` the axis
`depth % 3` of the node, every point of its left subtree has an `a`-coordinate at most that of
the node and every point of its right subtree has an `a`-coordinate at least that of the
node. -/
theorem C19_kd_ordering (S : Sorter) (t0 : KdTree) (points : List MPoint) (ids : List Int) :
    KdInv (build S t0 points ids).root ∧
      ∀ (d : Nat) (p : MPoint) (i : IdPoint) (l r : Node),
        Node.node d p i l r ∈ (build S t0 points ids).root.subnodes →
          (∀ q ∈ l.pairs, q.1.get (d % 3) ≤ p.get (d % 3)) ∧
          (∀ q ∈ r.pairs, p.get (d % 3) ≤ q.1.get (d % 3)) := by
  refine ⟨build_kdInv S t0 points ids, ?_⟩
  intro d p i l r hmem
  have h := kdInv_of_mem_subnodes (build_kdInv S t0 points ids) hmem
  exact ⟨h.1, h.2.1⟩

end KdTree
end nwave

namespace nwave
namespace KdTree

/-! ## Depth of the tree and the order of equal keys -/

theorem buildKdTreeAux_sizes (S : Sorter) (fuel : Nat) (l : List Pair) (depth : Nat)
    (hl : l.length ≤ fuel + 1) (hne : l ≠ []) :
    ∃ d p i lt rt, buildKdTreeAux S (fuel + 1) l depth = .node d p i lt rt ∧ d = depth ∧
      lt.pairs.length = l.length / 2 ∧ rt.pairs.length = l.length - 1 - l.length / 2 ∧
      lt = buildKdTreeAux S fuel ((S.sort (depth % dimensions) l).take (l.length / 2))
        (depth + 1) ∧
      rt = buildKdTreeAux S fuel ((S.sort (depth % dimensions) l).drop (l.length / 2 + 1))
        (depth + 1) := by
  obtain ⟨pair, -, heq⟩ := buildKdTreeAux_cons S fuel depth l hne
  have hlen : (S.sort (depth % dimensions) l).length = l.length := (S.perm _ l).length_eq
  have hpos : 0 < l.length := List.length_pos.mpr hne
  rw [hlen] at heq
  refine ⟨_, _, _, _, _, heq, rfl, ?_, ?_, rfl, rfl⟩
  · rw [(buildKdTreeAux_pairs_perm S fuel _ (depth + 1)
      (by rw [List.length_take]; omega)).length_eq, List.length_take]
    omega
  · rw [(buildKdTreeAux_pairs_perm S fuel _ (depth + 1)
      (by rw [List.length_drop]; omega)).length_eq, List.length_drop]
    omega

theorem buildKdTreeAux_balanced (S : Sorter) :
    ∀ (fuel : Nat) (l : List Pair) (depth : Nat), l.length ≤ fuel →
      Balanced (buildKdTreeAux S fuel l depth) := by
  intro fuel
  induction fuel with
  | zero => intro l depth _; simp [buildKdTreeAux, Balanced]
  | succ fuel ih =>
    intro l depth hl
    by_cases hne : l = []
    · subst hne
      rw [buildKdTreeAux_nil]
      simp [Balanced]
    · obtain ⟨d, p, i, lt, rt, heq, -, hlt, hrt, elt, ert⟩ :=
        buildKdTreeAux_sizes S fuel l depth hl hne
      have hlen : (S.sort (depth % dimensions) l).length = l.length := (S.perm _ l).length_eq
      have hpos : 0 < l.length := List.length_pos.mpr hne
      rw [heq]
      refine ⟨by omega, by omega, ?_, ?_⟩
      · rw [elt]
        exact ih _ _ (by rw [List.length_take]; omega)
      · rw [ert]
        exact ih _ _ (by rw [List.length_drop]; omega)

theorem buildKdTreeAux_maxDepth (S : Sorter) :
    ∀ (fuel : Nat) (l : List Pair) (depth : Nat), l.length ≤ fuel → l ≠ [] →
      (buildKdTreeAux S fuel l depth).maxDepth = depth + Nat.log 2 l.length := by
  intro fuel
  induction fuel with
  | zero =>
    intro l depth hl hne
    exact absurd (List.length_eq_zero.mp (by omega)) hne
  | succ fuel ih =>
    intro l depth hl hne
    obtain ⟨d, p, i, lt, rt, heq, hd, hlt, hrt, elt, ert⟩ :=
      buildKdTreeAux_sizes S fuel l depth hl hne
    have hlen : (S.sort (depth % dimensions) l).length = l.length := (S.perm _ l).length_eq
    have hpos : 0 < l.length := List.length_pos.mpr hne
    rw [heq]
    subst hd
    simp only [Node.maxDepth]
    by_cases h1 : l.length = 1
    · have hl0 : lt.pairs = [] := List.length_eq_zero.mp (by omega)
      have hr0 : rt.pairs = [] := List.length_eq_zero.mp (by omega)
      have hln : lt = .null := by
        cases lt with
        | null => rfl
        | node _ _ _ _ _ => simp [Node.pairs] at hl0
      have hrn : rt = .null := by
        cases rt with
        | null => rfl
        | node _ _ _ _ _ => simp [Node.pairs] at hr0
      rw [hln, hrn, h1]
      simp [Node.maxDepth]
    · have h2 : 2 ≤ l.length := by omega
      have hlog : Nat.log 2 l.length = Nat.log 2 (l.length / 2) + 1 :=
        Nat.log_of_one_lt_of_le (by decide) h2
      have htake : ((S.sort (d % dimensions) l).take (l.length / 2)).length = l.length / 2 := by
        rw [List.length_take]; omega
      have hdrop : ((S.sort (d % dimensions) l).drop (l.length / 2 + 1)).length
          = l.length - 1 - l.length / 2 := by
        rw [List.length_drop]; omega
      have hL : lt.maxDepth = d + 1 + Nat.log 2 (l.length / 2) := by
        rw [elt, ih _ _ (by omega) (by
          intro h0
          rw [h0] at htake
          simp at htake
          omega), htake]
      have hR : rt.maxDepth ≤ d + 1 + Nat.log 2 (l.length / 2) := by
        by_cases hr0 : (S.sort (d % dimensions) l).drop (l.length / 2 + 1) = []
        · rw [ert, hr0, buildKdTreeAux_nil]
          simp [Node.maxDepth]
        · rw [ert, ih _ _ (by omega) hr0, hdrop]
          have := Nat.log_mono_right (b := 2) (show l.length - 1 - l.length / 2 ≤ l.length / 2
            by omega)
          omega
      rw [hlog, hL]
      omega

/-- C16 (counterexample). The tree built from three points has depth 1 (a root and its two
children), while the ceiling of `log2 3` is 2. -/
theorem C16_three_points_depth_one :
    (build insertionSorter KdTree.new [⟨0, 0, 0⟩, ⟨1, 0, 0⟩, ⟨5, 5, 5⟩] [0, 1, 2]).root.maxDepth
        = 1 ∧ Nat.clog 2 3 = 2 := by
  decide!

/-- C16 (amended). Balanced depth: for every `n >= 1` the tree `build` makes from `n` points
is balanced (at every node the left subtree holds as many points as the right one, or one
more) and its depth, the largest `depth` field with the root at depth 0, is the floor of
`log2 n`, which is at most the ceiling. -/
theorem C16_balanced_depth (S : Sorter) (t0 : KdTree) (points : List MPoint) (ids : List Int)
    (hn : 0 < points.length) :
    Balanced (build S t0 points ids).root ∧
      (build S t0 points ids).root.maxDepth = Nat.log 2 points.length ∧
      (build S t0 points ids).root.maxDepth ≤ Nat.clog 2 points.length := by
  have hlen : (makePointList points ids).length = points.length := by simp [makePointList]
  have hne : makePointList points ids ≠ [] := by
    intro h
    rw [h] at hlen
    simp at hlen
    omega
  have hd : (build S t0 points ids).root.maxDepth = Nat.log 2 points.length := by
    unfold build buildKdTree
    simp only
    rw [buildKdTreeAux_maxDepth S _ _ 0 (le_refl _) hne, hlen]
    omega
  refine ⟨buildKdTreeAux_balanced S _ _ 0 (le_refl _), hd, ?_⟩
  rw [hd]
  exact Nat.log_le_clog 2 _

/-- Witness of the amended C16 on three points. -/
theorem C16_balanced_depth_witness :
    0 < [(⟨0, 0, 0⟩ : MPoint), ⟨1, 0, 0⟩, ⟨5, 5, 5⟩].length ∧
      (build insertionSorter KdTree.new [⟨0, 0, 0⟩, ⟨1, 0, 0⟩, ⟨5, 5, 5⟩]
        [0, 1, 2]).root.maxDepth = Nat.log 2 3 :=
  ⟨by decide,
    (C16_balanced_depth insertionSorter KdTree.new [⟨0, 0, 0⟩, ⟨1, 0, 0⟩, ⟨5, 5, 5⟩] [0, 1, 2]
      (by decide)).2.1⟩

end KdTree
end nwave

namespace nwave
namespace KdTree

/-! ## Depth fields and parent pointers -/

theorem buildKdTreeAux_depthOk (S : Sorter) :
    ∀ (fuel : Nat) (l : List Pair) (depth : Nat), DepthOk depth (buildKdTreeAux S fuel l depth) := by
  intro fuel
  induction fuel with
  | zero => intro l depth; simp [buildKdTreeAux, DepthOk]
  | succ fuel ih =>
    intro l depth
    by_cases hne : l = []
    · subst hne
      rw [buildKdTreeAux_nil]
      simp [DepthOk]
    · obtain ⟨pair, -, heq⟩ := buildKdTreeAux_cons S fuel depth l hne
      rw [heq]
      exact ⟨rfl, ih _ _, ih _ _⟩

/-- The heap made by the construction is the layout of the tree it returns. -/
theorem buildKdTreeCells_eq (S : Sorter) :
    ∀ (fuel : Nat) (l : List Pair) (depth : Nat) (cur : Option Addr) (self : Addr),
      buildKdTreeCells S fuel l depth cur self =
        ((buildKdTreeAux S fuel l depth).ptr self, (buildKdTreeAux S fuel l depth).cells cur self) := by
  intro fuel
  induction fuel with
  | zero => intro l depth cur self; rfl
  | succ fuel ih =>
    intro l depth cur self
    by_cases hne : l = []
    · subst hne
      rw [buildKdTreeAux_nil]
      rfl
    · obtain ⟨pair, hget, heq⟩ := buildKdTreeAux_cons S fuel depth l hne
      have haxis : ¬ 3 ≤ depth % dimensions := by
        have : depth % 3 < 3 := Nat.mod_lt _ (by decide)
        simpa [dimensions] using this
      have hemp : l.isEmpty = false := by
        cases l with
        | nil => exact absurd rfl hne
        | cons a l => rfl
      have hlen : (S.sort (depth % dimensions) l).length = l.length := (S.perm _ l).length_eq
      have hpos : 0 < l.length := List.length_pos.mpr hne
      rw [heq, buildKdTreeCells]
      simp only [hemp, haxis, if_false, hget, Bool.false_eq_true]
      have hL : (if (S.sort (depth % dimensions) l).length / 2 ≠ 0 then
            buildKdTreeCells S fuel ((S.sort (depth % dimensions) l).take
              ((S.sort (depth % dimensions) l).length / 2)) (depth + 1) (some self)
              (self ++ [false])
          else (none, [])) =
          ((buildKdTreeAux S fuel ((S.sort (depth % dimensions) l).take
              ((S.sort (depth % dimensions) l).length / 2)) (depth + 1)).ptr (self ++ [false]),
            (buildKdTreeAux S fuel ((S.sort (depth % dimensions) l).take
              ((S.sort (depth % dimensions) l).length / 2)) (depth + 1)).cells (some self)
              (self ++ [false])) := by
        split
        · exact ih _ _ _ _
        · rename_i h0
          have h0 : (S.sort (depth % dimensions) l).length / 2 = 0 := by simpa using h0
          rw [h0, List.take_zero, buildKdTreeAux_nil]
          rfl
      have hR : (if (S.sort (depth % dimensions) l).length ≠
              (S.sort (depth % dimensions) l).length / 2 + 1 then
            buildKdTreeCells S fuel ((S.sort (depth % dimensions) l).drop
              ((S.sort (depth % dimensions) l).length / 2 + 1)) (depth + 1) (some self)
              (self ++ [true])
          else (none, [])) =
          ((buildKdTreeAux S fuel ((S.sort (depth % dimensions) l).drop
              ((S.sort (depth % dimensions) l).length / 2 + 1)) (depth + 1)).ptr (self ++ [true]),
            (buildKdTreeAux S fuel ((S.sort (depth % dimensions) l).drop
              ((S.sort (depth % dimensions) l).length / 2 + 1)) (depth + 1)).cells (some self)
              (self ++ [true])) := by
        split
        · exact ih _ _ _ _
        · rename_i h1
          have h1 : (S.sort (depth % dimensions) l).length =
              (S.sort (depth % dimensions) l).length / 2 + 1 := by simpa using h1
          rw [List.drop_eq_nil_of_le (by omega), buildKdTreeAux_nil]
          rfl
      rw [hL, hR]
      rfl

theorem mem_cells_prefix {t : Node} {cur : Option Addr} {self : Addr} {e : Addr × Cell}
    (h : e ∈ t.cells cur self) : ∃ s, e.1 = self ++ s := by
  induction t generalizing cur self with
  | null => simp [Node.cells] at h
  | node d p i l r ihl ihr =>
    simp only [Node.cells, List.mem_cons, List.mem_append] at h
    rcases h with rfl | h | h
    · exact ⟨[], by simp⟩
    · obtain ⟨s, hs⟩ := ihl h
      exact ⟨false :: s, by rw [hs]; simp⟩
    · obtain ⟨s, hs⟩ := ihr h
      exact ⟨true :: s, by rw [hs]; simp⟩

/-- Distinct nodes have distinct addresses. -/
theorem cells_keys_nodup (t : Node) :
    ∀ (cur : Option Addr) (self : Addr), ((t.cells cur self).map Prod.fst).Nodup := by
  induction t with
  | null => intro cur self; simp [Node.cells]
  | node d p i l r ihl ihr =>
    intro cur self
    simp only [Node.cells, List.map_cons, List.map_append, List.nodup_cons, List.mem_append,
      List.mem_map]
    refine ⟨?_, ?_⟩
    · rintro (⟨e, he, hes⟩ | ⟨e, he, hes⟩)
      · obtain ⟨s, hs⟩ := mem_cells_prefix he
        rw [hs] at hes
        have := congrArg List.length hes
        simp at this
      · obtain ⟨s, hs⟩ := mem_cells_prefix he
        rw [hs] at hes
        have := congrArg List.length hes
        simp at this
    · rw [List.nodup_append]
      refine ⟨ihl _ _, ihr _ _, ?_⟩
      intro a ha hb
      obtain ⟨e1, he1, h1⟩ := List.mem_map.mp ha
      obtain ⟨e2, he2, h2⟩ := List.mem_map.mp hb
      obtain ⟨s1, hs1⟩ := mem_cells_prefix he1
      obtain ⟨s2, hs2⟩ := mem_cells_prefix he2
      rw [← h2, hs1, hs2, List.append_assoc, List.append_assoc] at h1
      have := List.append_cancel_left h1
      simp at this

theorem lookupCell_of_mem {heap : List (Addr × Cell)} (hnd : (heap.map Prod.fst).Nodup)
    {a : Addr} {c : Cell} (h : (a, c) ∈ heap) : lookupCell heap a = some c := by
  unfold lookupCell
  induction heap with
  | nil => simp at h
  | cons e rest ih =>
    rw [List.map_cons, List.nodup_cons] at hnd
    rcases List.mem_cons.mp h with rfl | h
    · simp [List.find?_cons]
    · have hne : e.1 ≠ a := by
        intro heq
        exact hnd.1 (heq ▸ List.mem_map.mpr ⟨(a, c), h, rfl⟩)
      rw [List.find?_cons]
      simp only [hne, decide_False]
      exact ih hnd.2 h


theorem head_mem_cells {t : Node} (ht : t.isNull = false) (cur : Option Addr) (self : Addr) :
    ∃ c, (self, c) ∈ t.cells cur self ∧ c.parent = cur ∧ c.depth = t.depth := by
  cases t with
  | null => simp [Node.isNull] at ht
  | node d p i l r =>
    exact ⟨_, List.mem_cons_self _ _, rfl, rfl⟩

theorem ptr_eq_some {t : Node} {self b : Addr} (h : t.ptr self = some b) :
    t.isNull = false ∧ b = self := by
  unfold Node.ptr at h
  by_cases hn : t.isNull = true
  · rw [if_pos hn] at h
    cases h
  · rw [if_neg hn] at h
    exact ⟨by simpa using hn, (Option.some.inj h).symm⟩

theorem depth_of_depthOk {t : Node} {e : Nat} (h : DepthOk e t) (ht : t.isNull = false) :
    t.depth = e := by
  cases t with
  | null => simp [Node.isNull] at ht
  | node d p i l r => exact h.1

/-- Downwards: a child pointer leads to a node whose parent pointer is the holder and whose
depth is one more. -/
theorem cells_child_parent (t : Node) :
    ∀ (e : Nat) (cur : Option Addr) (self : Addr), DepthOk e t →
      ∀ a c, (a, c) ∈ t.cells cur self → ∀ b,
        (c.leftChild = some b ∨ c.rightChild = some b) →
        ∃ c', (b, c') ∈ t.cells cur self ∧ c'.parent = some a ∧ c'.depth = c.depth + 1 := by
  induction t with
  | null => intro e cur self _ a c h; simp [Node.cells] at h
  | node d p i l r ihl ihr =>
    intro e cur self hd a c h b hb
    obtain ⟨hde, hdl, hdr⟩ := hd
    simp only [Node.cells, List.mem_cons, List.mem_append] at h ⊢
    rcases h with h | h | h
    · obtain ⟨rfl, rfl⟩ := Prod.mk.inj h
      simp only at hb
      rcases hb with hb | hb
      · obtain ⟨hl, rfl⟩ := ptr_eq_some hb
        obtain ⟨c', hc', hp, hdep⟩ := head_mem_cells hl (some a) (a ++ [false])
        refine ⟨c', Or.inr (Or.inl hc'), hp, ?_⟩
        rw [hdep, depth_of_depthOk hdl hl, hde]
      · obtain ⟨hr, rfl⟩ := ptr_eq_some hb
        obtain ⟨c', hc', hp, hdep⟩ := head_mem_cells hr (some a) (a ++ [true])
        refine ⟨c', Or.inr (Or.inr hc'), hp, ?_⟩
        rw [hdep, depth_of_depthOk hdr hr, hde]
    · obtain ⟨c', hc', hp, hdep⟩ := ihl _ _ _ hdl a c h b hb
      exact ⟨c', Or.inr (Or.inl hc'), hp, hdep⟩
    · obtain ⟨c', hc', hp, hdep⟩ := ihr _ _ _ hdr a c h b hb
      exact ⟨c', Or.inr (Or.inr hc'), hp, hdep⟩

/-- Upwards: a node is the root of the layout, or its parent pointer leads to the node that
holds it, one level up. -/
theorem cells_parent_holder (t : Node) :
    ∀ (e : Nat) (cur : Option Addr) (self : Addr), DepthOk e t →
      ∀ a c, (a, c) ∈ t.cells cur self →
        (a = self ∧ c.parent = cur ∧ c.depth = e) ∨
        ∃ p c', c.parent = some p ∧ (p, c') ∈ t.cells cur self ∧ c.depth = c'.depth + 1 ∧
          (c'.leftChild = some a ∨ c'.rightChild = some a) := by
  induction t with
  | null => intro e cur self _ a c h; simp [Node.cells] at h
  | node d p i l r ihl ihr =>
    intro e cur self hd a c h
    obtain ⟨hde, hdl, hdr⟩ := hd
    have hhead : (self, (⟨d, p, i, l.ptr (self ++ [false]), r.ptr (self ++ [true]), cur⟩ : Cell))
        ∈ (Node.node d p i l r).cells cur self := List.mem_cons_self _ _
    simp only [Node.cells, List.mem_cons, List.mem_append] at h
    rcases h with h | h | h
    · obtain ⟨rfl, rfl⟩ := Prod.mk.inj h
      exact Or.inl ⟨rfl, rfl, hde⟩
    · right
      have hl : l.isNull = false := by
        cases l with
        | null => simp [Node.cells] at h
        | node _ _ _ _ _ => rfl
      rcases ihl _ _ _ hdl a c h with ⟨rfl, hp, hdep⟩ | ⟨q, c', hp, hq, hdep, hch⟩
      · refine ⟨self, _, hp, hhead, ?_, Or.inl ?_⟩
        · rw [hdep, hde]
        · simp [Node.ptr, hl]
      · refine ⟨q, c', hp, ?_, hdep, hch⟩
        simp only [Node.cells, List.mem_cons, List.mem_append]
        exact Or.inr (Or.inl hq)
    · right
      have hr : r.isNull = false := by
        cases r with
        | null => simp [Node.cells] at h
        | node _ _ _ _ _ => rfl
      rcases ihr _ _ _ hdr a c h with ⟨rfl, hp, hdep⟩ | ⟨q, c', hp, hq, hdep, hch⟩
      · refine ⟨self, _, hp, hhead, ?_, Or.inr ?_⟩
        · rw [hdep, hde]
        · simp [Node.ptr, hr]
      · refine ⟨q, c', hp, ?_, hdep, hch⟩
        simp only [Node.cells, List.mem_cons, List.mem_append]
        exact Or.inr (Or.inr hq)

/-- Following the parent pointers from a node of depth `k` arrives at the root after `k`
steps, and the loop that follows them until `NULL` ends there. -/
theorem cells_climb (R : List (Addr × Cell)) (hnd : (R.map Prod.fst).Nodup) (t : Node) :
    ∀ (e : Nat) (cur : Option Addr) (self : Addr), DepthOk e t →
      (∀ x ∈ t.cells cur self, x ∈ R) →
      ((cur = none ∧ e = 0 ∧ self = []) ∨
        ∃ p e', cur = some p ∧ e = e' + 1 ∧ parentSteps R e' p = some [] ∧
          climbToRoot R (e' + 1) p = some []) →
      ∀ a c, (a, c) ∈ t.cells cur self →
        parentSteps R c.depth a = some [] ∧ climbToRoot R (c.depth + 1) a = some [] := by
  induction t with
  | null => intro e cur self _ _ _ a c h; simp [Node.cells] at h
  | node d p i l r ihl ihr =>
    intro e cur self hd hsub hcur a c h
    obtain ⟨hde, hdl, hdr⟩ := hd
    have hhead : (self, (⟨d, p, i, l.ptr (self ++ [false]), r.ptr (self ++ [true]), cur⟩ : Cell))
        ∈ (Node.node d p i l r).cells cur self := List.mem_cons_self _ _
    have hlook := lookupCell_of_mem hnd (hsub _ hhead)
    have hself : parentSteps R d self = some [] ∧ climbToRoot R (d + 1) self = some [] := by
      rcases hcur with ⟨rfl, he0, rfl⟩ | ⟨q, e', rfl, he, hps, hcl⟩
      · rw [hde, he0]
        refine ⟨rfl, ?_⟩
        simp only [climbToRoot, hlook]
      · rw [hde, he]
        refine ⟨?_, ?_⟩
        · simp only [parentSteps, hlook]
          exact hps
        · rw [climbToRoot]
          simp only [hlook]
          exact hcl
    simp only [Node.cells, List.mem_cons, List.mem_append] at h
    rcases h with h | h | h
    · obtain ⟨rfl, rfl⟩ := Prod.mk.inj h
      exact hself
    · refine ihl (e + 1) (some self) (self ++ [false]) hdl ?_ ?_ a c h
      · intro x hx
        apply hsub
        simp only [Node.cells, List.mem_cons, List.mem_append]
        exact Or.inr (Or.inl hx)
      · exact Or.inr ⟨self, e, rfl, rfl, hde ▸ hself.1, hde ▸ hself.2⟩
    · refine ihr (e + 1) (some self) (self ++ [true]) hdr ?_ ?_ a c h
      · intro x hx
        apply hsub
        simp only [Node.cells, List.mem_cons, List.mem_append]
        exact Or.inr (Or.inr hx)
      · exact Or.inr ⟨self, e, rfl, rfl, hde ▸ hself.1, hde ▸ hself.2⟩

/-- The list of ancestors the descent collects is as long as the depth of the node it stops
on. -/
theorem traverseTree_ancestors_length (q : MPoint) :
    ∀ (t : Node) (anc : List Node) (e : Nat), DepthOk e t → t.isNull = false →
      anc.length = e → (traverseTree t q anc).2.length = (traverseTree t q anc).1.depth := by
  intro t
  induction t with
  | null => intro anc e _ h; simp [Node.isNull] at h
  | node d p i l r ihl ihr =>
    intro anc e hd _ hlen
    obtain ⟨hde, hdl, hdr⟩ := hd
    rw [traverseTree]
    by_cases hleaf : (!(Node.node d p i l r).isLeaf) = true
    · rw [if_pos hleaf]
      simp only []
      by_cases hc : q.get (d % dimensions) - p.get (d % dimensions) ≤ 0 ∧ (!l.isNull) = true
      · rw [if_pos hc]
        exact ihl _ (e + 1) hdl (by simpa using hc.2) (by simp [hlen])
      · rw [if_neg hc]
        by_cases hc2 : q.get (d % dimensions) - p.get (d % dimensions) > 0 ∧ (!r.isNull) = true
        · rw [if_pos hc2]
          exact ihr _ (e + 1) hdr (by simpa using hc2.2) (by simp [hlen])
        · rw [if_neg hc2]
          simp only [Node.depth]
          omega
    · rw [if_neg hleaf]
      simp only [Node.depth]
      omega


/-- C20. Depth and parent links. The heap `build` makes is the layout of the tree it returns.
The root has depth 0 and no parent; every other node has as parent the node that holds it as
a child, one level up, and every child pointer leads to a node whose parent is the holder
and whose depth is one more; addresses single out one node. Hence following the parent
pointers from a node of depth `k` arrives at the root after exactly `k` steps and the loop
`while ( node->parent != NULL )` ends there (no cycle); the upward loop of `nearestNeighbour`
makes as many iterations as the depth of the node the descent stopped on. -/
theorem C20_depth_and_parent_links (S : Sorter) (t0 : KdTree) (points : List MPoint)
    (ids : List Int) :
    buildHeap S points ids =
        ((build S t0 points ids).root.ptr [], (build S t0 points ids).root.cells none []) ∧
      DepthOk 0 (build S t0 points ids).root ∧
      (0 < points.length →
        (buildHeap S points ids).1 = some [] ∧
        ∃ c, lookupCell (buildHeap S points ids).2 [] = some c ∧ c.depth = 0 ∧
          c.parent = none) ∧
      (∀ a c, (a, c) ∈ (buildHeap S points ids).2 →
        lookupCell (buildHeap S points ids).2 a = some c ∧
        ((a = [] ∧ c.parent = none ∧ c.depth = 0) ∨
          ∃ p c', c.parent = some p ∧ (p, c') ∈ (buildHeap S points ids).2 ∧
            c.depth = c'.depth + 1 ∧ (c'.leftChild = some a ∨ c'.rightChild = some a)) ∧
        (∀ b, (c.leftChild = some b ∨ c.rightChild = some b) →
          ∃ c', (b, c') ∈ (buildHeap S points ids).2 ∧ c'.parent = some a ∧
            c'.depth = c.depth + 1) ∧
        parentSteps (buildHeap S points ids).2 c.depth a = some [] ∧
        climbToRoot (buildHeap S points ids).2 (c.depth + 1) a = some []) ∧
      (∀ q, (build S t0 points ids).root.isNull = false →
        (traverseTree (build S t0 points ids).root q []).2.length =
          (traverseTree (build S t0 points ids).root q []).1.depth) := by
  have hheap : buildHeap S points ids =
      ((build S t0 points ids).root.ptr [], (build S t0 points ids).root.cells none []) :=
    buildKdTreeCells_eq S _ _ 0 none []
  have hdepth : DepthOk 0 (build S t0 points ids).root := buildKdTreeAux_depthOk S _ _ 0
  have hnd := cells_keys_nodup (build S t0 points ids).root none []
  refine ⟨hheap, hdepth, ?_, ?_, ?_⟩
  · intro hn
    have hroot : (build S t0 points ids).root.isNull = false := by
      have hlen := (build_pairs_perm S t0 points ids).length_eq
      have hl : (makePointList points ids).length = points.length := by simp [makePointList]
      cases h : (build S t0 points ids).root with
      | null =>
        rw [h] at hlen
        simp only [Node.pairs, List.length_nil] at hlen
        omega
      | node _ _ _ _ _ => rfl
    rw [hheap]
    obtain ⟨c, hc, hp, hd⟩ := head_mem_cells hroot none []
    refine ⟨by simp [Node.ptr, hroot], c, lookupCell_of_mem hnd hc, ?_, hp⟩
    rw [hd, depth_of_depthOk hdepth hroot]
  · rw [hheap]
    intro a c hac
    refine ⟨lookupCell_of_mem hnd hac, ?_, ?_, ?_⟩
    · exact cells_parent_holder _ 0 none [] hdepth a c hac
    · exact cells_child_parent _ 0 none [] hdepth a c hac
    · exact cells_climb _ hnd _ 0 none [] hdepth (fun _ hx => hx) (Or.inl ⟨rfl, rfl, rfl⟩) a c hac
  · intro q hroot
    exact traverseTree_ancestors_length q _ [] 0 hdepth hroot rfl

end KdTree
end nwave

namespace nwave
namespace KdTree

/-! ## Pruning, ties and exactness -/

theorem pairs_subset_of_mem_subnodes {t a : Node} (h : a ∈ t.subnodes) :
    ∀ pr ∈ a.pairs, pr ∈ t.pairs := by
  induction t with
  | null => simp [Node.subnodes] at h
  | node d p i l r ihl ihr =>
    simp only [Node.subnodes, List.mem_cons, List.mem_append] at h
    rcases h with rfl | h | h
    · exact fun _ hpr => hpr
    · intro pr hpr
      simp only [Node.pairs, List.mem_cons, List.mem_append]
      exact Or.inr (Or.inl (ihl h pr hpr))
    · intro pr hpr
      simp only [Node.pairs, List.mem_cons, List.mem_append]
      exact Or.inr (Or.inr (ihr h pr hpr))

/-- A subtree without a point strictly closer than the current best leaves the best
unchanged: a node replaces it only when strictly closer. -/
theorem checkSubtree_no_improve (q : MPoint) :
    ∀ (t : Node) (n : Node) (m : ℚ), t.isNull = false →
      (∀ pr ∈ t.pairs, m ≤ sqDist pr.1 q) → checkSubtree t q n m = (n, m) := by
  intro t
  induction t with
  | null => intro n m h; simp [Node.isNull] at h
  | node d p i l r ihl ihr =>
    intro n m _ hfar
    have hp : ¬ sqDist p q < m := not_lt.mpr (hfar (p, i) (by simp [Node.pairs]))
    have hl : ∀ pr ∈ l.pairs, m ≤ sqDist pr.1 q := fun pr hpr =>
      hfar pr (by simp only [Node.pairs, List.mem_cons, List.mem_append]; exact Or.inr (Or.inl hpr))
    have hr : ∀ pr ∈ r.pairs, m ≤ sqDist pr.1 q := fun pr hpr =>
      hfar pr (by simp only [Node.pairs, List.mem_cons, List.mem_append]; exact Or.inr (Or.inr hpr))
    rw [checkSubtree]
    simp only [if_neg hp]
    by_cases hfarside : (q.get (d % dimensions) - p.get (d % dimensions)) *
        (q.get (d % dimensions) - p.get (d % dimensions)) > m
    · rw [if_pos hfarside]
      by_cases hc : q.get (d % dimensions) - p.get (d % dimensions) ≤ 0 ∧ (!l.isNull) = true
      · rw [if_pos hc]
        exact ihl n m (by simpa using hc.2) hl
      · rw [if_neg hc]
        by_cases hc2 : q.get (d % dimensions) - p.get (d % dimensions) > 0 ∧ (!r.isNull) = true
        · rw [if_pos hc2]
          exact ihr n m (by simpa using hc2.2) hr
        · rw [if_neg hc2]
    · rw [if_neg hfarside]
      have hleft : (if (!l.isNull) = true then checkSubtree l q n m else (n, m)) = (n, m) := by
        by_cases hc : (!l.isNull) = true
        · rw [if_pos hc]
          exact ihl n m (by simpa using hc) hl
        · rw [if_neg hc]
      rw [hleft]
      by_cases hc : (!r.isNull) = true
      · rw [if_pos hc]
        exact ihr n m (by simpa using hc) hr
      · rw [if_neg hc]

/-- The pair returned by `checkSubtree` is the pair it was given, or holds a strictly smaller
squared distance: the current best is replaced only by a strictly closer node. -/
theorem checkSubtree_strict (q : MPoint) :
    ∀ (t : Node) (n : Node) (m : ℚ), t.isNull = false →
      checkSubtree t q n m = (n, m) ∨ (checkSubtree t q n m).2 < m := by
  intro t
  induction t with
  | null => intro n m h; simp [Node.isNull] at h
  | node d p i l r ihl ihr =>
    intro n m _
    have stepl : ∀ a : Node × ℚ, (a = (n, m) ∨ a.2 < m) → l.isNull = false →
        (checkSubtree l q a.1 a.2 = (n, m) ∨ (checkSubtree l q a.1 a.2).2 < m) := by
      intro a ha hl
      rcases ihl a.1 a.2 hl with h | h
      · rw [h]
        exact ha
      · right
        rcases ha with ha | ha
        · subst ha
          exact h
        · exact lt_trans h ha
    have stepr : ∀ a : Node × ℚ, (a = (n, m) ∨ a.2 < m) → r.isNull = false →
        (checkSubtree r q a.1 a.2 = (n, m) ∨ (checkSubtree r q a.1 a.2).2 < m) := by
      intro a ha hr
      rcases ihr a.1 a.2 hr with h | h
      · rw [h]
        exact ha
      · right
        rcases ha with ha | ha
        · subst ha
          exact h
        · exact lt_trans h ha
    rw [checkSubtree]
    simp only []
    have hupd : (if sqDist p q < m then (Node.node d p i l r, sqDist p q) else (n, m)) = (n, m) ∨
        (if sqDist p q < m then (Node.node d p i l r, sqDist p q) else (n, m)).2 < m := by
      by_cases h : sqDist p q < m
      · rw [if_pos h]
        exact Or.inr h
      · rw [if_neg h]
        exact Or.inl rfl
    generalize (if sqDist p q < m then (Node.node d p i l r, sqDist p q) else (n, m)) = upd
      at hupd ⊢
    by_cases hfarside : (q.get (d % dimensions) - p.get (d % dimensions)) *
        (q.get (d % dimensions) - p.get (d % dimensions)) > upd.2
    · rw [if_pos hfarside]
      by_cases hc : q.get (d % dimensions) - p.get (d % dimensions) ≤ 0 ∧ (!l.isNull) = true
      · rw [if_pos hc]
        exact stepl upd hupd (by simpa using hc.2)
      · rw [if_neg hc]
        by_cases hc2 : q.get (d % dimensions) - p.get (d % dimensions) > 0 ∧ (!r.isNull) = true
        · rw [if_pos hc2]
          exact stepr upd hupd (by simpa using hc2.2)
        · rw [if_neg hc2]
          exact hupd
    · rw [if_neg hfarside]
      have hleft : (if (!l.isNull) = true then checkSubtree l q upd.1 upd.2 else upd) = (n, m) ∨
          (if (!l.isNull) = true then checkSubtree l q upd.1 upd.2 else upd).2 < m := by
        by_cases hc : (!l.isNull) = true
        · rw [if_pos hc]
          exact stepl upd hupd (by simpa using hc)
        · rw [if_neg hc]
          exact hupd
      generalize (if (!l.isNull) = true then checkSubtree l q upd.1 upd.2 else upd) = afterLeft
        at hleft ⊢
      by_cases hc : (!r.isNull) = true
      · rw [if_pos hc]
        exact stepr afterLeft hleft (by simpa using hc)
      · rw [if_neg hc]
        exact hleft

/-- On a tree with the k-d ordering the code and the rule of the specification agree. -/
theorem checkSubtree_eq_spec (q : MPoint) :
    ∀ (t : Node) (n : Node) (m : ℚ), KdInv t →
      checkSubtree t q n m = checkSubtreeSpec t q n m := by
  intro t
  induction t with
  | null => intro n m _; rfl
  | node d p i l r ihl ihr =>
    intro n m hinv
    obtain ⟨hL, hR, hinvl, hinvr⟩ := hinv
    rw [checkSubtree, checkSubtreeSpec]
    simp only []
    generalize (if sqDist p q < m then (Node.node d p i l r, sqDist p q) else (n, m)) = upd
    have hfarR : q.get (d % dimensions) - p.get (d % dimensions) ≤ 0 → ∀ pr ∈ r.pairs,
        (q.get (d % dimensions) - p.get (d % dimensions)) *
          (q.get (d % dimensions) - p.get (d % dimensions)) ≤ sqDist pr.1 q :=
      fun hd pr hpr => far_side_le pr.1 q _ _ (Or.inl ⟨hd, hR pr hpr⟩)
    have hfarL : 0 < q.get (d % dimensions) - p.get (d % dimensions) → ∀ pr ∈ l.pairs,
        (q.get (d % dimensions) - p.get (d % dimensions)) *
          (q.get (d % dimensions) - p.get (d % dimensions)) ≤ sqDist pr.1 q :=
      fun hd pr hpr => far_side_le pr.1 q _ _ (Or.inr ⟨hd, hL pr hpr⟩)
    by_cases hgt : (q.get (d % dimensions) - p.get (d % dimensions)) *
        (q.get (d % dimensions) - p.get (d % dimensions)) > upd.2
    · rw [if_pos hgt, if_pos (le_of_lt hgt)]
      rw [ihl upd.1 upd.2 hinvl, ihr upd.1 upd.2 hinvr]
    · rw [if_neg hgt]
      by_cases heq : (q.get (d % dimensions) - p.get (d % dimensions)) *
          (q.get (d % dimensions) - p.get (d % dimensions)) = upd.2
      · rw [if_pos (le_of_eq heq.symm)]
        by_cases hd : q.get (d % dimensions) - p.get (d % dimensions) ≤ 0
        · have hnd : ¬ q.get (d % dimensions) - p.get (d % dimensions) > 0 := not_lt.mpr hd
          simp only [hd, hnd, true_and, false_and, if_false]
          rw [← ihl upd.1 upd.2 hinvl]
          generalize hal : (if (!l.isNull) = true then checkSubtree l q upd.1 upd.2 else upd)
            = afterLeft
          have hmono : afterLeft.2 ≤ upd.2 := by
            rw [← hal]
            by_cases hc : (!l.isNull) = true
            · rw [if_pos hc]
              exact (checkSubtree_improves q l upd.1 upd.2 (by simpa using hc)).1
            · rw [if_neg hc]
          by_cases hc : (!r.isNull) = true
          · rw [if_pos hc]
            exact checkSubtree_no_improve q r afterLeft.1 afterLeft.2 (by simpa using hc)
              (fun pr hpr => le_trans hmono (heq ▸ hfarR hd pr hpr))
          · rw [if_neg hc]
        · have hpos : q.get (d % dimensions) - p.get (d % dimensions) > 0 := not_le.mp hd
          simp only [hd, hpos, true_and, false_and, if_false]
          rw [← ihr upd.1 upd.2 hinvr]
          have hleft : (if (!l.isNull) = true then checkSubtree l q upd.1 upd.2 else upd)
              = upd := by
            by_cases hc : (!l.isNull) = true
            · rw [if_pos hc]
              exact checkSubtree_no_improve q l upd.1 upd.2 (by simpa using hc)
                (fun pr hpr => heq ▸ hfarL hpos pr hpr)
            · rw [if_neg hc]
          rw [hleft]
      · have hlt : ¬ (q.get (d % dimensions) - p.get (d % dimensions)) *
            (q.get (d % dimensions) - p.get (d % dimensions)) ≥ upd.2 := by
          intro hge
          exact hgt (lt_of_le_of_ne hge (fun h => heq h.symm))
        rw [if_neg hlt, ihl upd.1 upd.2 hinvl]
        generalize (if (!l.isNull) = true then checkSubtreeSpec l q upd.1 upd.2 else upd)
          = afterLeft
        rw [ihr afterLeft.1 afterLeft.2 hinvr]

end KdTree
end nwave

namespace nwave
namespace KdTree

theorem walkUp_no_improve (q : MPoint) :
    ∀ (path : List Node) (best : Node × ℚ),
      (∀ a ∈ path, a.isNull = false ∧ ∀ pr ∈ a.pairs, best.2 ≤ sqDist pr.1 q) →
      walkUp q path best = best := by
  intro path
  induction path with
  | nil => intro best _; rfl
  | cons a rest ih =>
    intro best h
    have ha := h a (List.mem_cons_self _ _)
    rw [walkUp, checkSubtree_no_improve q a best.1 best.2 ha.1 ha.2]
    exact ih best (fun b hb => h b (List.mem_cons_of_mem _ hb))

/-- The search answers the candidate of the descent whenever no stored point is strictly
closer to the query than this candidate. -/
theorem nearestNeighbour_first_found (t : Node) (q : MPoint) (ht : t.isNull = false)
    (hmin : ∀ pr ∈ t.pairs, sqDist (traverseTree t q []).1.point q ≤ sqDist pr.1 q) :
    nearestNeighbour t q = (traverseTree t q []).1 := by
  obtain ⟨-, hcase⟩ := traverseTree_spec q t [] ht
  unfold nearestNeighbour
  rw [if_neg (by simp [ht])]
  simp only []
  by_cases heq : (traverseTree t q []).1.point = q
  · rw [if_pos heq]
  · rw [if_neg heq]
    have hanc : ∀ a ∈ (traverseTree t q []).2, a ∈ t.subnodes := by
      rcases hcase with ⟨h2, -, -⟩ | ⟨path, h2, hp⟩
      · rw [h2]; intro a ha; simp at ha
      · rw [h2]
        intro a ha
        rcases List.mem_append.mp ha with ha | ha
        · exact hp a ha
        · rw [List.mem_singleton] at ha
          rw [ha]
          exact self_mem_subnodes ht
    rw [walkUp_no_improve q _ _ (fun a ha => ⟨isNull_of_mem_subnodes (hanc a ha),
      fun pr hpr => hmin pr (pairs_subset_of_mem_subnodes (hanc a ha) pr hpr)⟩)]

theorem makePointList_length (points : List MPoint) (ids : List Int) :
    (makePointList points ids).length = points.length := by simp [makePointList]

/-- The root built from a non-empty array, with the sizes of its two subtrees. -/
theorem build_root_shape (S : Sorter) (t0 : KdTree) (points : List MPoint) (ids : List Int)
    (hn : 0 < points.length) :
    ∃ d p i lt rt, (build S t0 points ids).root = .node d p i lt rt ∧
      lt.pairs.length = points.length / 2 ∧
      rt.pairs.length = points.length - 1 - points.length / 2 := by
  have hlen := makePointList_length points ids
  have hne : makePointList points ids ≠ [] := by
    intro h
    rw [h] at hlen
    simp at hlen
    omega
  obtain ⟨k, hk⟩ : ∃ k, (makePointList points ids).length = k + 1 := ⟨points.length - 1, by omega⟩
  obtain ⟨d, p, i, lt, rt, heq, -, hlt, hrt, -, -⟩ :=
    buildKdTreeAux_sizes S k (makePointList points ids) 0 (le_of_eq hk) hne
  refine ⟨d, p, i, lt, rt, ?_, by omega, by omega⟩
  unfold build buildKdTree
  simp only
  rw [hk, heq]

theorem build_root_null (S : Sorter) (t0 : KdTree) (ids : List Int) :
    (build S t0 [] ids).root = .null := by
  unfold build buildKdTree
  simp [makePointList, buildKdTreeAux]

theorem buildKdTreeAux_sizesOk (S : Sorter) :
    ∀ (fuel : Nat) (l : List Pair) (depth : Nat), l.length ≤ fuel →
      SizesOk (buildKdTreeAux S fuel l depth) := by
  intro fuel
  induction fuel with
  | zero => intro l depth _; simp [buildKdTreeAux, SizesOk]
  | succ fuel ih =>
    intro l depth hl
    by_cases hne : l = []
    · subst hne
      rw [buildKdTreeAux_nil]
      simp [SizesOk]
    · obtain ⟨d, p, i, lt, rt, heq, -, hlt, hrt, elt, ert⟩ :=
        buildKdTreeAux_sizes S fuel l depth hl hne
      have hlen : (S.sort (depth % dimensions) l).length = l.length := (S.perm _ l).length_eq
      have hpos : 0 < l.length := List.length_pos.mpr hne
      have hall : (Node.node d p i lt rt).pairs.length = l.length := by
        simp only [Node.pairs, List.length_cons, List.length_append]
        omega
      rw [heq]
      refine ⟨by rw [hall]; exact hlt, by rw [hall]; exact hrt, ?_, ?_⟩
      · rw [elt]
        exact ih _ _ (by rw [List.length_take]; omega)
      · rw [ert]
        exact ih _ _ (by rw [List.length_drop]; omega)

theorem sizesOk_of_mem_subnodes {t n : Node} (hs : SizesOk t) (h : n ∈ t.subnodes) :
    SizesOk n := by
  induction t with
  | null => simp [Node.subnodes] at h
  | node d p i l r ihl ihr =>
    simp only [Node.subnodes, List.mem_cons, List.mem_append] at h
    rcases h with rfl | h | h
    · exact hs
    · exact ihl hs.2.2.1 h
    · exact ihr hs.2.2.2 h

/-- C21. Hyperplane pruning rule (refinement). On every tree with the k-d ordering, for every
query and every starting pair of nearest node and best squared distance (consistent or not),
`checkSubtree` as coded, which skips the far side of a node only when `d * d` is strictly
greater than the best squared distance, returns the same node and the same best squared
distance as the rule of the specification, which skips it whenever `d * d` is greater or
equal. -/
theorem C21_pruning_rule (t : Node) (q : MPoint) (nearest : Node) (best : ℚ) (hinv : KdInv t) :
    checkSubtree t q nearest best = checkSubtreeSpec t q nearest best :=
  checkSubtree_eq_spec q t nearest best hinv

/-- Witness of C21 on the tree of three points, at a query where `d * d` equals the best
squared distance at the root, so that the two rules take different branches. -/
theorem C21_pruning_rule_witness :
    KdInv (build insertionSorter KdTree.new [⟨0, 0, 0⟩, ⟨1, 0, 0⟩, ⟨5, 5, 5⟩] [0, 1, 2]).root ∧
      checkSubtree (build insertionSorter KdTree.new [⟨0, 0, 0⟩, ⟨1, 0, 0⟩, ⟨5, 5, 5⟩]
          [0, 1, 2]).root ⟨3, 0, 0⟩
          (build insertionSorter KdTree.new [⟨0, 0, 0⟩, ⟨1, 0, 0⟩, ⟨5, 5, 5⟩] [0, 1, 2]).root 4 =
        checkSubtreeSpec (build insertionSorter KdTree.new [⟨0, 0, 0⟩, ⟨1, 0, 0⟩, ⟨5, 5, 5⟩]
          [0, 1, 2]).root ⟨3, 0, 0⟩
          (build insertionSorter KdTree.new [⟨0, 0, 0⟩, ⟨1, 0, 0⟩, ⟨5, 5, 5⟩] [0, 1, 2]).root 4 :=
  ⟨build_kdInv _ _ _ _, C21_pruning_rule _ _ _ _ (build_kdInv _ _ _ _)⟩

end KdTree
end nwave

namespace nwave
namespace KdTree

theorem isNull_false_of_pairs_length {t : Node} (h : 0 < t.pairs.length) : t.isNull = false := by
  cases t with
  | null => simp [Node.pairs] at h
  | node _ _ _ _ _ => rfl

theorem isNull_true_of_pairs_length {t : Node} (h : t.pairs.length = 0) : t.isNull = true := by
  cases t with
  | null => rfl
  | node _ _ _ _ _ => simp [Node.pairs] at h

theorem build_isNull (S : Sorter) (t0 : KdTree) (points : List MPoint) (ids : List Int) :
    (build S t0 points ids).root.isNull = false ↔ points ≠ [] := by
  constructor
  · intro h hp
    subst hp
    rw [build_root_null] at h
    simp [Node.isNull] at h
  · intro hp
    obtain ⟨d, p, i, lt, rt, heq, -, -⟩ :=
      build_root_shape S t0 points ids (List.length_pos.mpr hp)
    rw [heq]
    rfl

/-- The ancestors collected by the descent are nodes of the tree. -/
theorem traverseTree_ancestors_mem (t : Node) (q : MPoint) (ht : t.isNull = false) :
    ∀ a ∈ (traverseTree t q []).2, a ∈ t.subnodes := by
  obtain ⟨-, hcase⟩ := traverseTree_spec q t [] ht
  rcases hcase with ⟨h2, -, -⟩ | ⟨path, h2, hp⟩
  · rw [h2]; intro a ha; simp at ha
  · rw [h2]
    intro a ha
    rcases List.mem_append.mp ha with ha | ha
    · exact hp a ha
    · rw [List.mem_singleton] at ha
      rw [ha]
      exact self_mem_subnodes ht

/-- The descent returns the node it started from, with no ancestor, only when it stops
there. -/
theorem traverseTree_stops_of_no_ancestor (t : Node) (q : MPoint) (ht : t.isNull = false)
    (h : (traverseTree t q []).2 = []) : Stops t q := by
  obtain ⟨-, hcase⟩ := traverseTree_spec q t [] ht
  rcases hcase with ⟨-, -, hstop⟩ | ⟨path, h2, -⟩
  · exact hstop
  · rw [h2] at h
    simp at h

/-- Exactness outside the two-point case, in exact arithmetic. When no
operation on the coordinates rounds, for every array of one point or of three points
and more, every identifier array and every query, `nearestNode` on the tree built returns a node
of the tree whose point is one of the array and is at the minimal squared distance of the query
among all the points of the array. The root of such a tree is a leaf or has both children, so
the descent stops on the root only when the root is a leaf (it is then the only point), and
otherwise the chain of ancestors that the upward loop walks ends with the root, the last call
of `checkSubtree` being on the root. -/
theorem outside_two_points_exact (S : Sorter) (t0 : KdTree) (points : List MPoint)
    (ids : List Int) (q : MPoint) (hn : points.length = 1 ∨ 3 ≤ points.length) :
    (nearestNode (build S t0 points ids) q).isNull = false ∧
      nearestNode (build S t0 points ids) q ∈ (build S t0 points ids).root.subnodes ∧
      (nearestNode (build S t0 points ids) q).point ∈ points ∧
      (∀ p ∈ points, sqDist (nearestNode (build S t0 points ids) q).point q ≤ sqDist p q) ∧
      ((build S t0 points ids).root.isLeaf = true ∨
        ((build S t0 points ids).root.hasLeftChild = true ∧
          (build S t0 points ids).root.hasRightChild = true)) ∧
      (Stops (build S t0 points ids).root q → (build S t0 points ids).root.isLeaf = true) ∧
      ((traverseTree (build S t0 points ids).root q []).2 = [] →
        (build S t0 points ids).root.isLeaf = true) ∧
      ((build S t0 points ids).root.isLeaf = false →
        ∃ path, (traverseTree (build S t0 points ids).root q []).2 =
            path ++ [(build S t0 points ids).root] ∧
          ∀ best, walkUp q (traverseTree (build S t0 points ids).root q []).2 best =
            checkSubtree (build S t0 points ids).root q (walkUp q path best).1
              (walkUp q path best).2) := by
  have hpos : 0 < points.length := by omega
  have hne : points ≠ [] := List.length_pos.mp hpos
  have hnn : (build S t0 points ids).root.isNull = false := (build_isNull S t0 points ids).mpr hne
  have hmem : nearestNode (build S t0 points ids) q ∈ (build S t0 points ids).root.subnodes :=
    nearestNeighbour_mem _ q hnn
  have hspec := nearestNeighbour_spec (build S t0 points ids).root q hnn (build_kdInv S t0 points ids)
  obtain ⟨d, p, i, lt, rt, heq, hlt, hrt⟩ := build_root_shape S t0 points ids hpos
  have hshape : (build S t0 points ids).root.isLeaf = true ∨
      ((build S t0 points ids).root.hasLeftChild = true ∧
        (build S t0 points ids).root.hasRightChild = true) := by
    rw [heq]
    rcases hn with h1 | h3
    · left
      have hl : lt.isNull = true := isNull_true_of_pairs_length (by rw [hlt, h1])
      have hr : rt.isNull = true := isNull_true_of_pairs_length (by rw [hrt, h1])
      simp [Node.isLeaf, Node.hasLeftChild, Node.hasRightChild, hl, hr]
    · right
      have hl : lt.isNull = false := isNull_false_of_pairs_length (by rw [hlt]; omega)
      have hr : rt.isNull = false := isNull_false_of_pairs_length (by rw [hrt]; omega)
      simp [Node.hasLeftChild, Node.hasRightChild, hl, hr]
  have hstop : Stops (build S t0 points ids).root q →
      (build S t0 points ids).root.isLeaf = true := by
    intro hs
    rcases hshape with h | ⟨hl, hr⟩
    · exact h
    · exfalso
      rw [heq] at hs hl hr
      simp only [Node.hasLeftChild, Node.hasRightChild, Bool.not_eq_true'] at hl hr
      obtain ⟨h1, h2⟩ := hs
      by_cases hd : q.get (d % dimensions) - p.get (d % dimensions) ≤ 0
      · exact h1 ⟨hd, hl⟩
      · exact h2 ⟨not_le.mp hd, hr⟩
  have hpairs : ∀ pr ∈ (build S t0 points ids).root.pairs,
      sqDist (nearestNode (build S t0 points ids) q).point q ≤ sqDist pr.1 q := by
    rcases hspec with h | ⟨hroot, hs⟩
    · exact h
    · have hleaf := hstop hs
      intro pr hpr
      unfold nearestNode
      rw [hroot]
      rw [heq] at hleaf hpr ⊢
      simp only [Node.isLeaf, Node.hasLeftChild, Node.hasRightChild, Bool.not_not,
        Bool.and_eq_true] at hleaf
      rw [Node.pairs, pairs_of_isNull hleaf.1, pairs_of_isNull hleaf.2] at hpr
      simp only [List.append_nil, List.mem_singleton] at hpr
      rw [hpr]
      exact le_refl _
  have hstored := (build_pairs_perm S t0 points ids).mem_iff.mp (pair_mem_of_mem_subnodes hmem)
  refine ⟨isNull_of_mem_subnodes hmem, hmem, ?_, ?_, hshape, hstop, ?_, ?_⟩
  · obtain ⟨j, -, -, -, hin⟩ := makePointList_mem hstored
    exact hin
  · intro x hx
    obtain ⟨j, -, -, hin⟩ := mem_makePointList ids hx
    exact hpairs (x, decodeId points.length ids j)
      ((build_pairs_perm S t0 points ids).mem_iff.mpr hin)
  · intro h
    exact hstop (traverseTree_stops_of_no_ancestor (build S t0 points ids).root q hnn h)
  · intro hleaf
    rcases (traverseTree_spec q (build S t0 points ids).root [] hnn).2 with
      ⟨-, -, hs⟩ | ⟨path, h2, -⟩
    · rw [hstop hs] at hleaf
      exact Bool.noConfusion hleaf
    · refine ⟨path, h2, ?_⟩
      intro best
      rw [h2, walkUp_append]

/-- C26. Subtree sizes. In the tree built from any array, every node whose subtree holds `m`
points has `floor(m/2)` points in its left subtree and `m - 1 - floor(m/2)` in its right
subtree; hence the right subtree holds at most as many points as the left one, the left one at
most one more, and a node with a right child has a left child. The tree holds as many points as
the array, and for an array of `n >= 1` points the largest depth is `floor(log2 n)`. -/
theorem C26_subtree_sizes (S : Sorter) (t0 : KdTree) (points : List MPoint) (ids : List Int) :
    (∀ d p i l r, Node.node d p i l r ∈ (build S t0 points ids).root.subnodes →
        l.pairs.length = (Node.node d p i l r).pairs.length / 2 ∧
        r.pairs.length =
          (Node.node d p i l r).pairs.length - 1 - (Node.node d p i l r).pairs.length / 2 ∧
        r.pairs.length ≤ l.pairs.length ∧ l.pairs.length ≤ r.pairs.length + 1 ∧
        ((Node.node d p i l r).hasRightChild = true →
          (Node.node d p i l r).hasLeftChild = true)) ∧
      (build S t0 points ids).root.pairs.length = points.length ∧
      (0 < points.length →
        (build S t0 points ids).root.maxDepth = Nat.log 2 points.length) := by
  have hlen := makePointList_length points ids
  refine ⟨?_, ?_, ?_⟩
  · intro d p i l r hmem
    have hs : SizesOk (Node.node d p i l r) :=
      sizesOk_of_mem_subnodes (buildKdTreeAux_sizesOk S _ _ 0 (le_refl _)) hmem
    obtain ⟨hl, hr, -, -⟩ := hs
    have hm : (Node.node d p i l r).pairs.length = 1 + (l.pairs.length + r.pairs.length) := by
      simp only [Node.pairs, List.length_cons, List.length_append]
      omega
    refine ⟨hl, hr, by omega, by omega, ?_⟩
    intro hright
    simp only [Node.hasRightChild, Bool.not_eq_true'] at hright
    simp only [Node.hasLeftChild, Bool.not_eq_true']
    cases hlnull : l.isNull with
    | false => rfl
    | true =>
      exfalso
      have h0 : l.pairs.length = 0 := by rw [pairs_of_isNull hlnull]; rfl
      have hr0 : r.pairs.length = 0 := by omega
      rw [isNull_true_of_pairs_length hr0] at hright
      exact Bool.noConfusion hright
  · rw [(build_pairs_perm S t0 points ids).length_eq, hlen]
  · intro hn
    have hne : makePointList points ids ≠ [] := by
      intro h
      rw [h] at hlen
      simp at hlen
      omega
    unfold build buildKdTree
    simp only
    rw [buildKdTreeAux_maxDepth S _ _ 0 (le_refl _) hne, hlen]
    omega

/-- C27. No null dereference on non-empty trees. For every non-empty array and every query,
`traverseTree` returns a node of the tree built, all the ancestors it passed (the parents the
upward loop of `nearestNeighbour` follows and hands to `checkSubtree`) are nodes of the tree,
the nearest node held after any number of turns of the upward loop is a node of the tree, and
`nearestNode` returns a node of the tree; `checkSubtree` on a node of the tree returns the node
it was given or a node of the tree. For every array, `nearestNode` returns a node exactly when
the array is not empty. -/
theorem C27_no_null_dereference (S : Sorter) (t0 : KdTree) (points : List MPoint)
    (ids : List Int) (q : MPoint) :
    (points ≠ [] →
        ((traverseTree (build S t0 points ids).root q []).1 ∈
            (build S t0 points ids).root.subnodes ∧
          (traverseTree (build S t0 points ids).root q []).1.isNull = false) ∧
        (∀ a ∈ (traverseTree (build S t0 points ids).root q []).2,
          a ∈ (build S t0 points ids).root.subnodes ∧ a.isNull = false) ∧
        (∀ k, (walkUp q ((traverseTree (build S t0 points ids).root q []).2.take k)
            ((traverseTree (build S t0 points ids).root q []).1,
              sqDist (traverseTree (build S t0 points ids).root q []).1.point q)).1 ∈
            (build S t0 points ids).root.subnodes) ∧
        (∀ a ∈ (build S t0 points ids).root.subnodes, ∀ (n : Node) (m : ℚ),
          (checkSubtree a q n m).1 = n ∨
            (checkSubtree a q n m).1 ∈ (build S t0 points ids).root.subnodes) ∧
        (nearestNode (build S t0 points ids) q ∈ (build S t0 points ids).root.subnodes ∧
          (nearestNode (build S t0 points ids) q).isNull = false)) ∧
      ((nearestNode (build S t0 points ids) q).isNull = false ↔ points ≠ []) := by
  have hkey : points ≠ [] →
      nearestNode (build S t0 points ids) q ∈ (build S t0 points ids).root.subnodes :=
    fun hp => nearestNeighbour_mem _ q ((build_isNull S t0 points ids).mpr hp)
  refine ⟨?_, ?_⟩
  · intro hp
    have hnn := (build_isNull S t0 points ids).mpr hp
    have hleaf := (traverseTree_spec q _ [] hnn).1
    have hanc := traverseTree_ancestors_mem _ q hnn
    refine ⟨⟨hleaf, isNull_of_mem_subnodes hleaf⟩,
      fun a ha => ⟨hanc a ha, isNull_of_mem_subnodes (hanc a ha)⟩, ?_, ?_,
      hkey hp, isNull_of_mem_subnodes (hkey hp)⟩
    · intro k
      have hpath : ∀ a ∈ (traverseTree (build S t0 points ids).root q []).2.take k,
          a.isNull = false ∧ ∀ x ∈ a.subnodes, x ∈ (build S t0 points ids).root.subnodes :=
        fun a ha => ⟨isNull_of_mem_subnodes (hanc a (List.mem_of_mem_take ha)),
          fun x hx => subnodes_trans (hanc a (List.mem_of_mem_take ha)) hx⟩
      exact ((walkUp_improves q _ _ hpath _).consistent ⟨hleaf, rfl⟩).1
    · intro a ha n m
      rcases (checkSubtree_improves q a n m (isNull_of_mem_subnodes ha)).2 with h | h
      · left
        rw [h]
      · right
        exact subnodes_trans ha h.1
  · constructor
    · intro h hp
      subst hp
      unfold nearestNode at h
      rw [build_root_null] at h
      simp [nearestNeighbour, Node.isNull] at h
    · intro hp
      exact isNull_of_mem_subnodes (hkey hp)

end KdTree
end nwave

namespace nwave
namespace GetMirrorVerticesIndex

/-! ## Reflection, validation and the range of the entries -/

theorem negateAxis_negateAxis (m : MirrorMode) (p : MPoint) :
    negateAxis m (negateAxis m p) = p := by
  cases m <;> cases p <;> simp [negateAxis]

theorem mirroredPos_mirroredPos (c : GetMirrorVerticesIndex) (p : MPoint) :
    mirroredPos c (mirroredPos c p) = p := by
  unfold mirroredPos
  cases c.useWorldspace
  · simp only [Bool.false_eq_true, if_false]
    exact negateAxis_negateAxis _ _
  · simp only [if_true]
    cases c.mirrorMode <;> cases p <;> simp [negateAxis, vadd, vsub]

/-- C23. Many-to-one matches. On the mesh with the vertices `(0, 0, 0)`, `(0.0004, 0, 0)` and
`(5, 5, 5)`, mirror mode along X in object space with the threshold `0.001`, whatever the
sort: the command succeeds with the result `[0, 0, -2]`; the entries of the two distinct
indices 0 and 1 are both the identifier 0, which is not the sentinel. -/
theorem C23_many_to_one (S : KdTree.Sorter) :
    loadBuildRedo S mirrorXDefaultFlags nearPairMesh = (.kSuccess, some [0, 0, -2]) ∧
      (doIt S new { noArgs with mirrorAxis := some 0, objects := [nearPairMesh] }).1
        = .kSuccess ∧
      (doIt S new { noArgs with mirrorAxis := some 0, objects := [nearPairMesh] }).2.2
        = some [0, 0, -2] := by
  have h : loadAndBuild S mirrorXDefaultFlags nearPairMesh =
      loadAndBuild KdTree.insertionSorter mirrorXDefaultFlags nearPairMesh :=
    loadAndBuild_eq_of_tieFree S mirrorXDefaultFlags nearPairMesh (by decide!)
  have hparse : (parseArgs new { noArgs with mirrorAxis := some 0, objects := [nearPairMesh] }).2
      = { mirrorXDefaultFlags with objectSelectionList := [nearPairMesh] } := rfl
  have h2 : loadAndBuild S { mirrorXDefaultFlags with objectSelectionList := [nearPairMesh] }
        nearPairMesh =
      loadAndBuild KdTree.insertionSorter
        { mirrorXDefaultFlags with objectSelectionList := [nearPairMesh] } nearPairMesh :=
    loadAndBuild_eq_of_tieFree S _ nearPairMesh (by decide!)
  refine ⟨?_, ?_, ?_⟩
  · unfold loadBuildRedo
    rw [h]
    decide!
  · unfold doIt
    simp only [hparse]
    rw [h2]
    decide!
  · unfold doIt
    simp only [hparse]
    rw [h2]
    decide!

/-- C29. The reflection is an involution: for every point and every state of the command
(every mirror axis or none, every pivot, object space or world space), reflecting the
reflection of the point gives the point back, exactly. -/
theorem C29_reflection_involution (c : GetMirrorVerticesIndex) (p : MPoint) :
    mirroredPos c (mirroredPos c p) = p :=
  mirroredPos_mirroredPos c p

end GetMirrorVerticesIndex
end nwave

namespace nwave
namespace GetMirrorVerticesIndex

theorem loadAndBuild_objectType (S : KdTree.Sorter) (c0 : GetMirrorVerticesIndex)
    (shape : Shape) (c : GetMirrorVerticesIndex) (hload : loadAndBuild S c0 shape = .ok c) :
    c.objectType ≠ .NO_TYPE := by
  obtain ⟨c1, ids, hshape, -, hc⟩ := loadAndBuild_ok S c0 shape c hload
  have h1 : c.objectType = c1.objectType := by rw [hc]
  rw [h1]
  cases shape <;> simp only [loadShape, Option.some.injEq, Prod.mk.injEq] at hshape
  all_goals first
    | (obtain ⟨rfl, -⟩ := hshape; simp)
    | exact absurd hshape (by simp)

theorem mirrorSearch_eq_map (c : GetMirrorVerticesIndex) (hty : c.objectType ≠ .NO_TYPE)
    (prev : List Int) : mirrorSearch c prev = (.kSuccess, c.points.map (mirrorEntry c)) := by
  have hloop := mirrorSearchLoop_range c hty
  unfold mirrorSearch
  simp only [hloop]

/-- After `doIt` has loaded a shape, the entry of a point is `-2` or the index of a point. -/
theorem mirrorEntry_range (S : KdTree.Sorter) (c0 : GetMirrorVerticesIndex) (shape : Shape)
    (c : GetMirrorVerticesIndex) (hload : loadAndBuild S c0 shape = .ok c)
    (hsize : c.points.length < 2147483648) (p : MPoint) :
    mirrorEntry c p = -2 ∨ ∃ j : Nat, j < c.points.length ∧ mirrorEntry c p = (j : Int) := by
  obtain ⟨c1, ids, hshape, hne, rfl⟩ := loadAndBuild_ok S c0 shape c hload
  simp only at hsize ⊢
  unfold mirrorEntry
  simp only
  by_cases hcond : (KdTree.nearestNode (KdTree.build S c1.tree c1.points ids)
      (mirroredPos { c1 with tree := KdTree.build S c1.tree c1.points ids } p)).isNull = false ∧
      sqrtLe (sqDist (mirroredPos { c1 with tree := KdTree.build S c1.tree c1.points ids } p)
        (KdTree.nearestNode (KdTree.build S c1.tree c1.points ids)
          (mirroredPos { c1 with tree := KdTree.build S c1.tree c1.points ids } p)).point)
        c1.threshold = true
  · right
    rw [if_pos hcond]
    obtain ⟨hnn, -⟩ := hcond
    have hroot : (KdTree.build S c1.tree c1.points ids).root.isNull = false := by
      cases h : (KdTree.build S c1.tree c1.points ids).root with
      | null =>
        unfold KdTree.nearestNode at hnn
        rw [h] at hnn
        simp [KdTree.nearestNeighbour, KdTree.Node.isNull] at hnn
      | node _ _ _ _ _ => rfl
    have hmem := KdTree.nearestNeighbour_mem (KdTree.build S c1.tree c1.points ids).root
      (mirroredPos { c1 with tree := KdTree.build S c1.tree c1.points ids } p) hroot
    have hpair := (KdTree.build_pairs_perm S c1.tree c1.points ids).mem_iff.mp
      (KdTree.pair_mem_of_mem_subnodes hmem)
    obtain ⟨j, hj, -, hid, -⟩ := KdTree.makePointList_mem hpair
    simp only at hid
    have hlin := (loadShape_decode _ shape c1 ids hshape hsize j hj).2.2.2.2
    have hlin' : linearize { c1 with tree := KdTree.build S c1.tree c1.points ids }
        (KdTree.nearestNode (KdTree.build S c1.tree c1.points ids)
          (mirroredPos { c1 with tree := KdTree.build S c1.tree c1.points ids } p)).id
        = some (j : Int) := by
      unfold KdTree.nearestNode
      rw [hid]
      exact hlin
    refine ⟨j, hj, ?_⟩
    rw [hlin']
    rfl
  · left
    rw [if_neg hcond]

theorem mirroredPos_eq_self_iff (c : GetMirrorVerticesIndex) (p : MPoint) :
    mirroredPos c p = p ↔ onMirrorPlane c p = true := by
  unfold mirroredPos onMirrorPlane
  cases c.useWorldspace <;> cases c.mirrorMode <;> cases p <;>
    simp only [negateAxis, vadd, vsub, MPoint.mk.injEq, Bool.false_eq_true, if_false, if_true,
      decide_eq_true_eq, and_true, true_and, add_sub_cancel, iff_true] <;>
    first
      | trivial
      | (constructor <;> intro h <;> linarith)

/-- C28. The sentinel is unambiguous. After `doIt` has loaded a shape of fewer than `2^31`
points (the identifiers are the ones `doIt` fills), `mirrorSearch` succeeds with one entry per
point, and every entry is `-2` or an integer of `[0, n)`, `n` being the number of points: an
entry `-2` is never the index of a point. -/
theorem C28_sentinel_unambiguous (S : KdTree.Sorter) (c0 : GetMirrorVerticesIndex)
    (shape : Shape) (c : GetMirrorVerticesIndex) (hload : loadAndBuild S c0 shape = .ok c)
    (hsize : c.points.length < 2147483648) (prev : List Int) :
    ∃ r, mirrorSearch c prev = (.kSuccess, r) ∧ r.length = c.points.length ∧
      ∀ x ∈ r, x = -2 ∨ (0 ≤ x ∧ x < (c.points.length : Int)) := by
  refine ⟨c.points.map (mirrorEntry c),
    mirrorSearch_eq_map c (loadAndBuild_objectType S c0 shape c hload) prev, by simp, ?_⟩
  intro x hx
  obtain ⟨p, -, rfl⟩ := List.mem_map.mp hx
  rcases mirrorEntry_range S c0 shape c hload hsize p with h | ⟨j, hj, h⟩
  · exact Or.inl h
  · right
    rw [h]
    exact ⟨Int.ofNat_nonneg j, by exact_mod_cast hj⟩

/-- Witness of C28 on the mesh with a near pair: the entries are `0`, `0` and `-2`. -/
theorem C28_sentinel_unambiguous_witness :
    loadAndBuild KdTree.insertionSorter mirrorXDefaultFlags nearPairMesh =
        .ok (loaded KdTree.insertionSorter mirrorXDefaultFlags nearPairMesh) ∧
      (loaded KdTree.insertionSorter mirrorXDefaultFlags nearPairMesh).points.length
        < 2147483648 ∧
      ∃ r, mirrorSearch (loaded KdTree.insertionSorter mirrorXDefaultFlags nearPairMesh) [] =
          (.kSuccess, r) ∧
        r.length = (loaded KdTree.insertionSorter mirrorXDefaultFlags nearPairMesh).points.length ∧
        ∀ x ∈ r, x = -2 ∨ (0 ≤ x ∧
          x < ((loaded KdTree.insertionSorter mirrorXDefaultFlags nearPairMesh).points.length
            : Int)) :=
  ⟨rfl, by decide,
    C28_sentinel_unambiguous KdTree.insertionSorter mirrorXDefaultFlags nearPairMesh
      (loaded KdTree.insertionSorter mirrorXDefaultFlags nearPairMesh) rfl (by decide) []⟩

end GetMirrorVerticesIndex
end nwave

namespace nwave
namespace GetMirrorVerticesIndex

/-- The mirror result is an involution, in exact arithmetic. When no operation
on the coordinates rounds, after `doIt` has loaded a shape whose points
(fewer than `2^31`, numbered by `doIt`) are pairwise distinct and closed under the reflection
of the command, `mirrorSearch` with a threshold `>= 0` succeeds with a result `r` of one entry
per point such that, for every index `i`, the entry `r[i]` is an index `j` with `r[j] = i`
(so `r[r[i]] = i`), and `r[i] = i` exactly when the point `i` lies on the mirror plane; `r` is a
permutation of the indices `0 .. n-1`. -/
theorem mirror_involution_exact (S : KdTree.Sorter) (c0 : GetMirrorVerticesIndex) (shape : Shape)
    (c : GetMirrorVerticesIndex) (hload : loadAndBuild S c0 shape = .ok c)
    (hdistinct : c.points.Nodup) (hclosed : ∀ p ∈ c.points, mirroredPos c p ∈ c.points)
    (hthr : 0 ≤ c.threshold) (hsize : c.points.length < 2147483648) (prev : List Int) :
    ∃ r, mirrorSearch c prev = (.kSuccess, r) ∧ r.length = c.points.length ∧
      (∀ i, ∀ hi : i < c.points.length, ∃ j, j < c.points.length ∧
        r[i]? = some (j : Int) ∧ r[j]? = some (i : Int) ∧
        (j = i ↔ onMirrorPlane c c.points[i] = true)) ∧
      r.Perm ((List.range c.points.length).map (fun (i : Nat) => (i : Int))) := by
  have hentry : ∀ i, ∀ hi : i < c.points.length, ∃ j, ∃ hj : j < c.points.length,
      c.points[j] = mirroredPos c c.points[i] ∧ mirrorEntry c c.points[i] = (j : Int) := by
    intro i hi
    obtain ⟨j, hj, hpj, he, -⟩ := mirrorEntry_of_stored S c0 shape c hload hthr hsize
      c.points[i] (hclosed _ (List.getElem_mem hi))
    exact ⟨j, hj, hpj, he⟩
  have hget : ∀ i, ∀ hi : i < c.points.length,
      (c.points.map (mirrorEntry c))[i]? = some (mirrorEntry c c.points[i]) := by
    intro i hi
    rw [List.getElem?_map, List.getElem?_eq_getElem hi]
    rfl
  have hpairs : ∀ i, ∀ hi : i < c.points.length, ∃ j, ∃ hj : j < c.points.length,
      c.points[j] = mirroredPos c c.points[i] ∧
      (c.points.map (mirrorEntry c))[i]? = some (j : Int) ∧
      (c.points.map (mirrorEntry c))[j]? = some (i : Int) := by
    intro i hi
    obtain ⟨j, hj, hpj, he⟩ := hentry i hi
    obtain ⟨k, hk, hpk, hek⟩ := hentry j hj
    have hki : k = i := by
      have hsame : c.points[k] = c.points[i] := by rw [hpk, hpj, mirroredPos_mirroredPos]
      exact (List.Nodup.getElem_inj_iff hdistinct).mp hsame
    rw [hki] at hek
    exact ⟨j, hj, hpj, by rw [hget i hi, he], by rw [hget j hj, hek]⟩
  refine ⟨c.points.map (mirrorEntry c),
    mirrorSearch_eq_map c (loadAndBuild_objectType S c0 shape c hload) prev, by simp, ?_, ?_⟩
  · intro i hi
    obtain ⟨j, hj, hpj, h1, h2⟩ := hpairs i hi
    refine ⟨j, hj, h1, h2, ?_⟩
    rw [← mirroredPos_eq_self_iff, ← hpj]
    exact (List.Nodup.getElem_inj_iff hdistinct).symm
  · apply (List.perm_ext_iff_of_nodup ?_ ?_).mpr
    · intro a
      constructor
      · intro ha
        obtain ⟨p, hp, rfl⟩ := List.mem_map.mp ha
        obtain ⟨i, hi, rfl⟩ := List.getElem_of_mem hp
        obtain ⟨j, hj, -, he⟩ := hentry i hi
        rw [he]
        exact List.mem_map.mpr ⟨j, List.mem_range.mpr hj, rfl⟩
      · intro ha
        obtain ⟨j, hj, rfl⟩ := List.mem_map.mp ha
        obtain ⟨k, hk, -, -, h2⟩ := hpairs j (List.mem_range.mp hj)
        exact List.getElem?_mem h2
    · rw [List.nodup_iff_getElem?_ne_getElem?]
      intro i j hij hj heq
      have hj' : j < c.points.length := by simpa using hj
      obtain ⟨a, ha, -, h1, h2⟩ := hpairs i (by omega)
      obtain ⟨b, hb, -, h3, h4⟩ := hpairs j hj'
      rw [h1, h3] at heq
      have hab : a = b := by
        have h := Option.some.inj heq
        exact_mod_cast h
      rw [hab, h4] at h2
      have hji : (j : Int) = (i : Int) := Option.some.inj h2
      have : j = i := by exact_mod_cast hji
      omega
    · exact (List.nodup_range _).map Nat.cast_injective

end GetMirrorVerticesIndex
end nwave

namespace nwave

/-! ## Values of the arithmetic of `double` -/

/-- Values of the rounding to `double`: a `double` is left as it is, `1/10`, `1/1000` and `1/3`
go to the nearest of the two neighbouring doubles, and a tie goes to the even significand. -/
theorem roundDouble_values :
    roundDouble 5 = 5 ∧ roundDouble (-3 / 8) = -3 / 8 ∧
      roundDouble (1 / 10) = 3602879701896397 / 36028797018963968 ∧
      roundDouble (1 / 1000) = 1152921504606847 / 1152921504606846976 ∧
      roundDouble (1 / 3) = 6004799503160661 / 18014398509481984 ∧
      roundDouble (1 + 1 / 2 ^ 53) = 1 ∧
      roundDouble (1 + 3 / 2 ^ 53) = 1 + 1 / 2 ^ 51 ∧
      roundDouble (-(1 + 3 / 2 ^ 53)) = -(1 + 1 / 2 ^ 51) := by
  decide!

/-- Below the normal range the doubles are the multiples of `2 ^ -1074`: the smallest one is
left as it is, its half goes to `0` (the even neighbour), and the square of `2 ^ -600`
underflows to `0`. -/
theorem roundDouble_subnormal :
    roundDouble (1 / 2 ^ 1074) = 1 / 2 ^ 1074 ∧ roundDouble (1 / 2 ^ 1075) = 0 ∧
      roundDouble (3 / 2 ^ 1075) = 1 / 2 ^ 1073 ∧ roundDouble (tiny * tiny) = 0 := by
  decide!

/-- Values of `sqrt` on `double`: exact on the squares, rounded to the nearest `double`
elsewhere. -/
theorem sqrtDouble_values :
    sqrtDouble 0 = 0 ∧ sqrtDouble 1 = 1 ∧ sqrtDouble (9 / 4) = 3 / 2 ∧
      sqrtDouble 2 = 6369051672525773 / 4503599627370496 ∧
      sqrtDouble (3602879701896397 / 36028797018963968) =
        5696652996790543 / 18014398509481984 ∧
      sqrtDouble (1 / 2 ^ 1074) = 1 / 2 ^ 537 := by
  decide!

/-- The default threshold of the constructor is the `double` nearest to `0.001`. -/
theorem new_threshold : GetMirrorVerticesIndex.new.threshold = roundDouble (1 / 1000) := by
  decide!

end nwave

namespace nwave

/-! ## The rounding to `double`: nearest, monotone, idempotent, odd -/

theorem log2Aux_spec : ∀ (f n : Nat), 0 < n → n ≤ f →
    2 ^ log2Aux f n ≤ n ∧ n < 2 ^ (log2Aux f n + 1) := by
  intro f
  induction f with
  | zero => intro n h0 h; omega
  | succ f ih =>
    intro n h0 h
    unfold log2Aux
    by_cases h2 : n < 2
    · rw [if_pos h2]
      simp
      omega
    · rw [if_neg h2]
      obtain ⟨a, b⟩ := ih (n / 2) (by omega) (by omega)
      rw [pow_succ, pow_succ]
      constructor <;> omega

theorem log2_spec (n : Nat) (h : 0 < n) : 2 ^ log2 n ≤ n ∧ n < 2 ^ (log2 n + 1) :=
  log2Aux_spec n n h (le_refl n)

theorem scaleBy_eq (m : Nat) (u : Int) : scaleBy m u = (m : ℚ) * (2 : ℚ) ^ u := by
  cases u with
  | ofNat k =>
    simp only [scaleBy, Int.ofNat_eq_coe, zpow_natCast]
    push_cast
    rfl
  | negSucc k =>
    simp only [scaleBy, Rat.mkRat_eq_div, zpow_negSucc]
    push_cast
    rw [div_eq_mul_inv]

/-- The integer nearest to `N / D`. -/
theorem roundHalfEven_spec (N D : Nat) (hD : 0 < D) :
    (roundHalfEven N D : ℚ) - 1 / 2 ≤ (N : ℚ) / D ∧ (N : ℚ) / D ≤ (roundHalfEven N D : ℚ) + 1 / 2 := by
  have hDq : (0 : ℚ) < (D : ℚ) := by exact_mod_cast hD
  have hdiv : (N : ℚ) = (D : ℚ) * ((N / D : ℕ) : ℚ) + ((N % D : ℕ) : ℚ) := by
    exact_mod_cast (Nat.div_add_mod N D).symm
  have hmod : N % D < D := Nat.mod_lt _ hD
  have hmodq : ((N % D : ℕ) : ℚ) < (D : ℚ) := by exact_mod_cast hmod
  have hmod0 : (0 : ℚ) ≤ ((N % D : ℕ) : ℚ) := by positivity
  rw [le_div_iff₀ hDq, div_le_iff₀ hDq]
  unfold roundHalfEven
  split_ifs with h1 h2 h3
  · have h1q : (D : ℚ) < 2 * ((N % D : ℕ) : ℚ) := by exact_mod_cast h1
    push_cast
    constructor <;> nlinarith
  · have h2q : 2 * ((N % D : ℕ) : ℚ) < (D : ℚ) := by exact_mod_cast h2
    constructor <;> nlinarith
  · have heq : 2 * (N % D) = D := by omega
    have hq : 2 * ((N % D : ℕ) : ℚ) = (D : ℚ) := by exact_mod_cast heq
    constructor <;> nlinarith
  · have heq : 2 * (N % D) = D := by omega
    have hq : 2 * ((N % D : ℕ) : ℚ) = (D : ℚ) := by exact_mod_cast heq
    push_cast
    constructor <;> nlinarith

theorem roundAt_ratio (n d : Nat) (u : Int) (hd : 0 < d) :
    (roundAt n d u : ℚ) - 1 / 2 ≤ (n : ℚ) / d / (2 : ℚ) ^ u ∧
      (n : ℚ) / d / (2 : ℚ) ^ u ≤ (roundAt n d u : ℚ) + 1 / 2 := by
  have hdq : (0 : ℚ) < (d : ℚ) := by exact_mod_cast hd
  cases u with
  | ofNat k =>
    have h := roundHalfEven_spec n (d * 2 ^ k) (Nat.mul_pos hd (pow_pos (by decide) k))
    simp only [roundAt, Int.ofNat_eq_coe, zpow_natCast]
    have e : (n : ℚ) / d / 2 ^ k = (n : ℚ) / ((d * 2 ^ k : ℕ) : ℚ) := by
      push_cast
      rw [div_div]
    rw [e]
    exact h
  | negSucc k =>
    have h := roundHalfEven_spec (n * 2 ^ (k + 1)) d hd
    simp only [roundAt, zpow_negSucc]
    have e : (n : ℚ) / d / ((2 : ℚ) ^ (k + 1))⁻¹ = ((n * 2 ^ (k + 1) : ℕ) : ℚ) / (d : ℚ) := by
      push_cast
      field_simp
    rw [e]
    exact h

theorem floorLog2_spec (n d : Nat) (hn : 0 < n) (hd : 0 < d) :
    (2 : ℚ) ^ floorLog2 n d * d ≤ n ∧ (n : ℚ) < (2 : ℚ) ^ (floorLog2 n d + 1) * d := by
  obtain ⟨hn1, hn2⟩ := log2_spec n hn
  obtain ⟨hd1, hd2⟩ := log2_spec d hd
  have hn1q : (2 : ℚ) ^ (log2 n : ℤ) ≤ (n : ℚ) := by
    rw [zpow_natCast]
    exact_mod_cast hn1
  have hn2q : (n : ℚ) < (2 : ℚ) ^ ((log2 n : ℤ) + 1) := by
    have : (n : ℚ) < (2 : ℚ) ^ (log2 n + 1) := by exact_mod_cast hn2
    rw [← zpow_natCast] at this
    push_cast at this
    exact this
  have hd1q : (2 : ℚ) ^ (log2 d : ℤ) ≤ (d : ℚ) := by
    rw [zpow_natCast]
    exact_mod_cast hd1
  have hd2q : (d : ℚ) < (2 : ℚ) ^ ((log2 d : ℤ) + 1) := by
    have : (d : ℚ) < (2 : ℚ) ^ (log2 d + 1) := by exact_mod_cast hd2
    rw [← zpow_natCast] at this
    push_cast at this
    exact this
  have h2 : (2 : ℚ) ≠ 0 := by norm_num
  have hpos : ∀ z : ℤ, (0 : ℚ) < (2 : ℚ) ^ z := fun z => zpow_pos (by norm_num) z
  have hdq : (0 : ℚ) < (d : ℚ) := by exact_mod_cast hd
  -- the bounds that the two logarithms give
  have hA : (2 : ℚ) ^ ((log2 n : ℤ) - (log2 d : ℤ) - 1) * d < n := by
    calc (2 : ℚ) ^ ((log2 n : ℤ) - (log2 d : ℤ) - 1) * d
        < (2 : ℚ) ^ ((log2 n : ℤ) - (log2 d : ℤ) - 1) * (2 : ℚ) ^ ((log2 d : ℤ) + 1) :=
          mul_lt_mul_of_pos_left hd2q (hpos _)
      _ = (2 : ℚ) ^ (log2 n : ℤ) := by
          rw [← zpow_add₀ h2]
          congr 1
          ring
      _ ≤ n := hn1q
  have hB : (n : ℚ) < (2 : ℚ) ^ ((log2 n : ℤ) - (log2 d : ℤ) + 1) * d := by
    calc (n : ℚ) < (2 : ℚ) ^ ((log2 n : ℤ) + 1) := hn2q
      _ = (2 : ℚ) ^ ((log2 n : ℤ) - (log2 d : ℤ) + 1) * (2 : ℚ) ^ (log2 d : ℤ) := by
          rw [← zpow_add₀ h2]
          congr 1
          ring
      _ ≤ (2 : ℚ) ^ ((log2 n : ℤ) - (log2 d : ℤ) + 1) * d :=
          mul_le_mul_of_nonneg_left hd1q (le_of_lt (hpos _))
  have hok : ∀ e : ℤ, (match e with
      | Int.ofNat k => decide (2 ^ k * d ≤ n)
      | Int.negSucc k => decide (d ≤ n * 2 ^ (k + 1))) = true ↔ (2 : ℚ) ^ e * d ≤ n := by
    intro e
    cases e with
    | ofNat k =>
      simp only [decide_eq_true_eq, Int.ofNat_eq_coe, zpow_natCast]
      constructor
      · intro h
        exact_mod_cast h
      · intro h
        exact_mod_cast h
    | negSucc k =>
      simp only [decide_eq_true_eq, zpow_negSucc]
      have hp : (0 : ℚ) < (2 : ℚ) ^ (k + 1) := by positivity
      rw [inv_mul_le_iff₀ hp]
      constructor
      · intro h
        have : (d : ℚ) ≤ (n : ℚ) * 2 ^ (k + 1) := by exact_mod_cast h
        linarith
      · intro h
        have : (d : ℚ) ≤ (n : ℚ) * 2 ^ (k + 1) := by linarith
        exact_mod_cast this
  unfold floorLog2
  simp only []
  by_cases h : (match (log2 n : ℤ) - (log2 d : ℤ) with
      | Int.ofNat k => decide (2 ^ k * d ≤ n)
      | Int.negSucc k => decide (d ≤ n * 2 ^ (k + 1))) = true
  · rw [if_pos h]
    exact ⟨(hok _).mp h, hB⟩
  · rw [if_neg h]
    have hlt : (n : ℚ) < (2 : ℚ) ^ ((log2 n : ℤ) - (log2 d : ℤ)) * d :=
      not_le.mp (fun hle => h ((hok _).mpr hle))
    refine ⟨le_of_lt hA, ?_⟩
    rw [sub_add_cancel]
    exact hlt

theorem pos_rep (q : ℚ) (hq : 0 < q) :
    0 < q.num.natAbs ∧ 0 < q.den ∧ q = (q.num.natAbs : ℚ) / (q.den : ℚ) := by
  have hnum : 0 < q.num := Rat.num_pos.mpr hq
  refine ⟨Int.natAbs_pos.mpr (ne_of_gt hnum), q.den_pos, ?_⟩
  have h2 : ((q.num.natAbs : ℕ) : ℚ) = (q.num : ℚ) := by
    rw [Nat.cast_natAbs, abs_of_pos hnum]
  rw [h2]
  exact (Rat.num_div_den q).symm

theorem expOf_spec (q : ℚ) (hq : 0 < q) :
    (2 : ℚ) ^ expOf q ≤ q ∧ q < (2 : ℚ) ^ (expOf q + 1) := by
  obtain ⟨hn, hd, hqe⟩ := pos_rep q hq
  obtain ⟨h1, h2⟩ := floorLog2_spec q.num.natAbs q.den hn hd
  have hdq : (0 : ℚ) < (q.den : ℚ) := by exact_mod_cast hd
  unfold expOf
  exact ⟨le_of_le_of_eq ((le_div_iff₀ hdq).mpr h1) hqe.symm,
    lt_of_eq_of_lt hqe ((div_lt_iff₀ hdq).mpr h2)⟩

theorem significand_spec (q : ℚ) (hq : 0 < q) :
    (significand q : ℚ) - 1 / 2 ≤ q / (2 : ℚ) ^ lastBitOf q ∧
      q / (2 : ℚ) ^ lastBitOf q ≤ (significand q : ℚ) + 1 / 2 := by
  obtain ⟨-, hd, hqe⟩ := pos_rep q hq
  have h := roundAt_ratio q.num.natAbs q.den (lastBitOf q) hd
  rw [← hqe] at h
  exact h

theorem roundDouble_of_pos (q : ℚ) (hq : 0 < q) :
    roundDouble q = (significand q : ℚ) * (2 : ℚ) ^ lastBitOf q := by
  unfold roundDouble
  rw [if_neg (ne_of_gt hq), if_pos hq, scaleBy_eq]

theorem two_zpow_pos (z : ℤ) : (0 : ℚ) < (2 : ℚ) ^ z := zpow_pos (by norm_num) z

theorem two_zpow_le {a b : ℤ} (h : a ≤ b) : (2 : ℚ) ^ a ≤ (2 : ℚ) ^ b :=
  zpow_le_zpow_right₀ (by norm_num) h

theorem two_zpow_lt_iff {a b : ℤ} : (2 : ℚ) ^ a < (2 : ℚ) ^ b ↔ a < b :=
  zpow_lt_zpow_iff_right₀ (by norm_num)

theorem expOf_mono (x y : ℚ) (hx : 0 < x) (hxy : x ≤ y) : expOf x ≤ expOf y := by
  obtain ⟨h1, -⟩ := expOf_spec x hx
  obtain ⟨-, h2⟩ := expOf_spec y (lt_of_lt_of_le hx hxy)
  have h : (2 : ℚ) ^ expOf x < (2 : ℚ) ^ (expOf y + 1) :=
    lt_of_le_of_lt (le_trans h1 hxy) h2
  have := two_zpow_lt_iff.mp h
  omega

theorem lastBitOf_eq (q : ℚ) : lastBitOf q = max (expOf q - 52) (-1074) := rfl

/-- The `double` nearest to a positive number is at most the power of two above it. -/
theorem roundDouble_le_pow (x : ℚ) (hx : 0 < x) : roundDouble x ≤ (2 : ℚ) ^ (expOf x + 1) := by
  obtain ⟨-, hx2⟩ := expOf_spec x hx
  obtain ⟨hm, -⟩ := significand_spec x hx
  rw [roundDouble_of_pos x hx]
  have hu := two_zpow_pos (lastBitOf x)
  have hlt : x / (2 : ℚ) ^ lastBitOf x < (2 : ℚ) ^ (expOf x + 1 - lastBitOf x) := by
    rw [div_lt_iff₀ hu, ← zpow_add₀ (by norm_num : (2 : ℚ) ≠ 0)]
    rw [sub_add_cancel]
    exact hx2
  by_cases hj : 0 ≤ expOf x + 1 - lastBitOf x
  · obtain ⟨j, hjj⟩ := Int.eq_ofNat_of_zero_le hj
    rw [hjj, zpow_natCast] at hlt
    have hnat : significand x ≤ 2 ^ j := by
      have h3 : (significand x : ℚ) < ((2 ^ j : ℕ) : ℚ) + 1 := by
        push_cast
        linarith
      have h4 : significand x < 2 ^ j + 1 := by exact_mod_cast h3
      omega
    have hq : (significand x : ℚ) ≤ (2 : ℚ) ^ (j : ℤ) := by
      rw [zpow_natCast]
      exact_mod_cast hnat
    calc (significand x : ℚ) * (2 : ℚ) ^ lastBitOf x
        ≤ (2 : ℚ) ^ (j : ℤ) * (2 : ℚ) ^ lastBitOf x :=
          mul_le_mul_of_nonneg_right hq (le_of_lt hu)
      _ = (2 : ℚ) ^ (expOf x + 1) := by
          rw [← zpow_add₀ (by norm_num : (2 : ℚ) ≠ 0), ← hjj, sub_add_cancel]
  · have hneg : expOf x + 1 - lastBitOf x ≤ -1 := by omega
    have hhalf : (2 : ℚ) ^ (expOf x + 1 - lastBitOf x) ≤ 1 / 2 := by
      calc (2 : ℚ) ^ (expOf x + 1 - lastBitOf x) ≤ (2 : ℚ) ^ (-1 : ℤ) := two_zpow_le hneg
        _ = 1 / 2 := by norm_num
    have hzero : significand x = 0 := by
      have h3 : (significand x : ℚ) < 1 := by linarith
      have h4 : significand x < 1 := by exact_mod_cast h3
      omega
    rw [hzero]
    simp only [Nat.cast_zero, zero_mul]
    exact le_of_lt (two_zpow_pos _)

/-- The `double` nearest to a positive number of the normal range is at least the power of two
below it. -/
theorem pow_le_roundDouble (y : ℚ) (hy : 0 < y) (hnorm : lastBitOf y = expOf y - 52) :
    (2 : ℚ) ^ expOf y ≤ roundDouble y := by
  obtain ⟨hy1, -⟩ := expOf_spec y hy
  obtain ⟨-, hm⟩ := significand_spec y hy
  rw [roundDouble_of_pos y hy]
  have hu := two_zpow_pos (lastBitOf y)
  have hge : (2 : ℚ) ^ (52 : ℤ) ≤ y / (2 : ℚ) ^ lastBitOf y := by
    rw [le_div_iff₀ hu, ← zpow_add₀ (by norm_num : (2 : ℚ) ≠ 0), hnorm]
    have : (52 : ℤ) + (expOf y - 52) = expOf y := by ring
    rw [this]
    exact hy1
  have hnat : 2 ^ 52 ≤ significand y := by
    have h3 : ((2 ^ 52 : ℕ) : ℚ) < (significand y : ℚ) + 1 := by
      push_cast
      have : (2 : ℚ) ^ (52 : ℤ) = (2 : ℚ) ^ 52 := by norm_num
      linarith
    have h4 : 2 ^ 52 < significand y + 1 := by exact_mod_cast h3
    omega
  have hq : (2 : ℚ) ^ (52 : ℤ) ≤ (significand y : ℚ) := by
    have : (2 : ℚ) ^ (52 : ℤ) = ((2 ^ 52 : ℕ) : ℚ) := by norm_num
    rw [this]
    exact_mod_cast hnat
  calc (2 : ℚ) ^ expOf y = (2 : ℚ) ^ (52 : ℤ) * (2 : ℚ) ^ lastBitOf y := by
        rw [← zpow_add₀ (by norm_num : (2 : ℚ) ≠ 0), hnorm]
        congr 1
        ring
    _ ≤ (significand y : ℚ) * (2 : ℚ) ^ lastBitOf y :=
        mul_le_mul_of_nonneg_right hq (le_of_lt hu)

/-- Rounding to `double` is monotone on the positive numbers. -/
theorem roundDouble_mono_pos (x y : ℚ) (hx : 0 < x) (hxy : x ≤ y) :
    roundDouble x ≤ roundDouble y := by
  have hy : 0 < y := lt_of_lt_of_le hx hxy
  have hexp := expOf_mono x y hx hxy
  have hlb : lastBitOf x ≤ lastBitOf y := by
    rw [lastBitOf_eq, lastBitOf_eq]
    exact max_le_max (by omega) (le_refl _)
  rcases eq_or_lt_of_le hlb with heq | hlt
  · obtain ⟨-, hmx⟩ := significand_spec y hy
    obtain ⟨hmy, -⟩ := significand_spec x hx
    rw [roundDouble_of_pos x hx, roundDouble_of_pos y hy, heq]
    have hu := two_zpow_pos (lastBitOf y)
    rw [heq] at hmy
    have hdiv : x / (2 : ℚ) ^ lastBitOf y ≤ y / (2 : ℚ) ^ lastBitOf y :=
      div_le_div_of_nonneg_right hxy (le_of_lt hu)
    have hnat : significand x ≤ significand y := by
      have h3 : (significand x : ℚ) < (significand y : ℚ) + 1 + 1 := by linarith
      by_contra hcon
      have h4 : significand y + 1 ≤ significand x := by omega
      have h5 : (significand y : ℚ) + 1 ≤ (significand x : ℚ) := by exact_mod_cast h4
      -- then both quotients are the same half-integer, and so are the two numbers
      have hxq : x / (2 : ℚ) ^ lastBitOf y = y / (2 : ℚ) ^ lastBitOf y := by linarith
      have hxy2 : x = y := by
        have := congrArg (fun t => t * (2 : ℚ) ^ lastBitOf y) hxq
        simpa [div_mul_cancel₀ _ (ne_of_gt hu)] using this
      rw [hxy2] at hcon
      exact hcon (le_refl _)
    exact mul_le_mul_of_nonneg_right (by exact_mod_cast hnat) (le_of_lt hu)
  · have hnorm : lastBitOf y = expOf y - 52 := by
      rw [lastBitOf_eq] at hlt ⊢
      rw [lastBitOf_eq] at hlt
      rcases max_cases (expOf y - 52) (-1074) with ⟨h1, -⟩ | ⟨h1, -⟩
      · exact h1
      · rw [h1] at hlt
        have := le_max_right (expOf x - 52) (-1074)
        omega
    have hexp2 : expOf x + 1 ≤ expOf y := by
      rw [hnorm] at hlt
      have := le_max_left (expOf x - 52) (-1074)
      rw [lastBitOf_eq] at hlt
      omega
    calc roundDouble x ≤ (2 : ℚ) ^ (expOf x + 1) := roundDouble_le_pow x hx
      _ ≤ (2 : ℚ) ^ expOf y := two_zpow_le hexp2
      _ ≤ roundDouble y := pow_le_roundDouble y hy hnorm

theorem roundDouble_zero : roundDouble 0 = 0 := by
  simp [roundDouble]

theorem scaleBy_nonneg (m : Nat) (u : Int) : 0 ≤ scaleBy m u := by
  rw [scaleBy_eq]
  exact mul_nonneg (Nat.cast_nonneg m) (le_of_lt (two_zpow_pos u))

/-- Rounding keeps the sign: a non-negative number is rounded to a non-negative `double`. -/
theorem roundDouble_nonneg (q : ℚ) (h : 0 ≤ q) : 0 ≤ roundDouble q := by
  unfold roundDouble
  split_ifs with h0 h1
  · exact le_refl _
  · exact scaleBy_nonneg _ _
  · exact absurd (lt_of_le_of_ne h (Ne.symm h0)) h1

/-- Rounding keeps the sign: a non-positive number is rounded to a non-positive `double`. -/
theorem roundDouble_nonpos (q : ℚ) (h : q ≤ 0) : roundDouble q ≤ 0 := by
  unfold roundDouble
  split_ifs with h0 h1
  · exact le_refl _
  · exact absurd h (not_le.mpr h1)
  · exact neg_nonpos.mpr (scaleBy_nonneg _ _)

/-- Rounding to `double` commutes with the change of sign. -/
theorem roundDouble_neg (q : ℚ) : roundDouble (-q) = -roundDouble q := by
  have hs : significand (-q) = significand q := by
    simp [significand, lastBitOf, Rat.neg_num, Rat.neg_den]
  have hl : lastBitOf (-q) = lastBitOf q := by
    simp [lastBitOf, Rat.neg_num, Rat.neg_den]
  unfold roundDouble
  rw [hs, hl]
  by_cases h0 : q = 0
  · simp [h0]
  · have h0n : ¬ -q = 0 := by simpa using h0
    rw [if_neg h0, if_neg h0n]
    rcases lt_or_gt_of_ne h0 with h | h
    · rw [if_pos (by linarith : 0 < -q), if_neg (by linarith : ¬ 0 < q), neg_neg]
    · rw [if_neg (by linarith : ¬ 0 < -q), if_pos h]

/-- Rounding to `double` is monotone. -/
theorem roundDouble_mono (x y : ℚ) (hxy : x ≤ y) : roundDouble x ≤ roundDouble y := by
  rcases lt_trichotomy 0 x with hx | hx | hx
  · exact roundDouble_mono_pos x y hx hxy
  · rw [← hx, roundDouble_zero]
    exact roundDouble_nonneg y (by rw [hx]; exact hxy)
  · by_cases hy : 0 ≤ y
    · exact le_trans (roundDouble_nonpos x (le_of_lt hx)) (roundDouble_nonneg y hy)
    · have hy2 : 0 < -y := by linarith
      have h := roundDouble_mono_pos (-y) (-x) hy2 (by linarith)
      rw [roundDouble_neg, roundDouble_neg] at h
      linarith

/-- A positive multiple of the last bit of its own size is a `double`: rounding does not
change it. -/
theorem roundDouble_of_multiple (g : ℚ) (hg : 0 < g) (M : ℕ)
    (h : g = (M : ℚ) * (2 : ℚ) ^ lastBitOf g) : roundDouble g = g := by
  obtain ⟨h1, h2⟩ := significand_spec g hg
  have hu := two_zpow_pos (lastBitOf g)
  have hdiv : g / (2 : ℚ) ^ lastBitOf g = (M : ℚ) := by
    rw [div_eq_iff (ne_of_gt hu)]
    exact h
  rw [hdiv] at h1 h2
  have hnat : significand g = M := by
    have a1 : (significand g : ℚ) < (M : ℚ) + 1 := by linarith
    have a2 : (M : ℚ) < (significand g : ℚ) + 1 := by linarith
    have b1 : significand g < M + 1 := by exact_mod_cast a1
    have b2 : M < significand g + 1 := by exact_mod_cast a2
    omega
  rw [roundDouble_of_pos g hg, hnat]
  exact h.symm

/-- Rounding a `double` does not change it. -/
theorem roundDouble_idem (x : ℚ) : roundDouble (roundDouble x) = roundDouble x := by
  have hpos : ∀ x : ℚ, 0 < x → roundDouble (roundDouble x) = roundDouble x := by
    intro x hx
    have hg0 : 0 ≤ roundDouble x := roundDouble_nonneg x (le_of_lt hx)
    rcases eq_or_lt_of_le hg0 with h0 | hg
    · rw [← h0, roundDouble_zero]
    · have hle := roundDouble_le_pow x hx
      have hge := expOf_spec (roundDouble x) hg
      have hform := roundDouble_of_pos x hx
      have hu := two_zpow_pos (lastBitOf x)
      have hlbx : expOf x - 52 ≤ lastBitOf x := by
        rw [lastBitOf_eq]
        exact le_max_left _ _
      have hlbx2 : -1074 ≤ lastBitOf x := by
        rw [lastBitOf_eq]
        exact le_max_right _ _
      -- the exponent of the rounded number is at most 53 above the last bit
      have hexp : expOf (roundDouble x) ≤ lastBitOf x + 53 := by
        have h3 : (2 : ℚ) ^ expOf (roundDouble x) ≤ (2 : ℚ) ^ (expOf x + 1) :=
          le_trans hge.1 hle
        have h4 : ¬ expOf x + 1 < expOf (roundDouble x) := fun hlt =>
          absurd h3 (not_le.mpr (two_zpow_lt_iff.mpr hlt))
        omega
      rcases eq_or_lt_of_le hexp with heq | hlt
      · -- the significand has reached `2 ^ 53`
        have hpow : roundDouble x = (2 : ℚ) ^ (lastBitOf x + 53) := by
          apply le_antisymm
          · calc roundDouble x ≤ (2 : ℚ) ^ (expOf x + 1) := hle
              _ ≤ (2 : ℚ) ^ (lastBitOf x + 53) := two_zpow_le (by omega)
          · rw [← heq]
            exact hge.1
        have hlb : lastBitOf (roundDouble x) = lastBitOf x + 1 := by
          rw [lastBitOf_eq, heq]
          have : lastBitOf x + 53 - 52 = lastBitOf x + 1 := by ring
          rw [this]
          exact max_eq_left (by omega)
        apply roundDouble_of_multiple _ hg (2 ^ 52)
        rw [hlb]
        have e : (((2 ^ 52 : ℕ) : ℚ)) = (2 : ℚ) ^ (52 : ℤ) := by norm_num
        rw [e, ← zpow_add₀ (by norm_num : (2 : ℚ) ≠ 0)]
        have : (52 : ℤ) + (lastBitOf x + 1) = lastBitOf x + 53 := by ring
        rw [this]
        exact hpow
      · have hlb : lastBitOf (roundDouble x) ≤ lastBitOf x := by
          rw [lastBitOf_eq]
          exact max_le (by omega) hlbx2
        obtain ⟨j, hj⟩ := Int.eq_ofNat_of_zero_le (sub_nonneg.mpr hlb)
        apply roundDouble_of_multiple _ hg (significand x * 2 ^ j)
        have e : (((significand x * 2 ^ j : ℕ)) : ℚ) = (significand x : ℚ) * (2 : ℚ) ^ (j : ℤ) := by
          rw [zpow_natCast]
          push_cast
          rfl
        rw [e, mul_assoc, ← zpow_add₀ (by norm_num : (2 : ℚ) ≠ 0), ← hj, sub_add_cancel]
        exact hform
  rcases lt_trichotomy 0 x with hx | hx | hx
  · exact hpos x hx
  · rw [← hx, roundDouble_zero, roundDouble_zero]
  · have h := hpos (-x) (by linarith)
    rw [roundDouble_neg, roundDouble_neg] at h
    exact neg_injective h

/-- No number from `2 ^ -1074` on, the smallest positive `double`, is rounded to `0`. -/
theorem roundDouble_pos (q : ℚ) (h : 1 / 2 ^ 1074 ≤ q) : 0 < roundDouble q := by
  have hq : 0 < q := lt_of_lt_of_le (by positivity) h
  obtain ⟨h1, -⟩ := expOf_spec q hq
  obtain ⟨-, h2⟩ := significand_spec q hq
  have hu := two_zpow_pos (lastBitOf q)
  rw [roundDouble_of_pos q hq]
  apply mul_pos _ hu
  have hone : 1 ≤ q / (2 : ℚ) ^ lastBitOf q := by
    rw [le_div_iff₀ hu, one_mul]
    rcases max_cases (expOf q - 52) (-1074) with ⟨e, -⟩ | ⟨e, -⟩
    · rw [lastBitOf_eq, e]
      exact le_trans (two_zpow_le (by omega)) h1
    · rw [lastBitOf_eq, e]
      have : (2 : ℚ) ^ (-1074 : ℤ) = 1 / 2 ^ 1074 := by
        rw [zpow_neg, one_div, zpow_ofNat]
      rw [this]
      exact h
  have hm : (0 : ℚ) < (significand q : ℚ) := by linarith
  exact hm

/-- The difference of two multiples of `2 ^ -1074`, which all doubles are, is `0` or at least
`2 ^ -1074` in magnitude. -/
theorem grid_sub_ge (x y : ℚ) (hx : x.den ∣ 2 ^ 1074) (hy : y.den ∣ 2 ^ 1074) (h : y < x) :
    1 / 2 ^ 1074 ≤ x - y := by
  have key : ∀ z : ℚ, z.den ∣ 2 ^ 1074 → ∃ k : ℤ, z = (k : ℚ) / 2 ^ 1074 := by
    intro z hz
    obtain ⟨c, hc⟩ := hz
    refine ⟨z.num * c, ?_⟩
    have hd : (z.den : ℚ) ≠ 0 := by exact_mod_cast z.den_pos.ne'
    have hc2 : ((2 : ℚ) ^ 1074) = (z.den : ℚ) * (c : ℚ) := by
      rw [← Nat.cast_mul, ← hc, Nat.cast_pow, Nat.cast_ofNat]
    have hc0 : (c : ℚ) ≠ 0 := by
      intro h0
      rw [h0, mul_zero] at hc2
      exact absurd hc2 (pow_ne_zero _ (by norm_num))
    rw [hc2]
    push_cast
    rw [mul_div_mul_right _ _ hc0]
    exact (Rat.num_div_den z).symm
  obtain ⟨a, ha⟩ := key x hx
  obtain ⟨b, hb⟩ := key y hy
  rw [ha, hb] at h ⊢
  have hlt : b < a := by
    have h2 := (div_lt_div_iff_of_pos_right (by positivity : (0 : ℚ) < 2 ^ 1074)).mp h
    exact_mod_cast h2
  rw [← sub_div, div_le_div_iff_of_pos_right (by positivity)]
  have : (1 : ℤ) ≤ a - b := by omega
  exact_mod_cast this

/-- On doubles the rounded difference has the sign of the difference. -/
theorem roundDouble_sub_nonpos_iff (x y : ℚ) (hx : x.den ∣ 2 ^ 1074) (hy : y.den ∣ 2 ^ 1074) :
    roundDouble (x - y) ≤ 0 ↔ x ≤ y := by
  constructor
  · intro h
    by_contra hlt
    exact absurd h (not_le.mpr (roundDouble_pos _ (grid_sub_ge x y hx hy (not_le.mp hlt))))
  · intro h
    exact roundDouble_nonpos _ (sub_nonpos.mpr h)

/-- No squared distance is computed negative in the arithmetic of `double`. -/
theorem ieee_sqDist_nonneg (a b : MPoint) : 0 ≤ Fp.sqDist Arith.ieee a b := by
  unfold Fp.sqDist
  exact roundDouble_nonneg _ (add_nonneg
    (roundDouble_nonneg _ (add_nonneg (roundDouble_nonneg _ (sq_nonneg _))
      (roundDouble_nonneg _ (sq_nonneg _))))
    (roundDouble_nonneg _ (sq_nonneg _)))

/-- The computed squared distance does not depend on the order of the two points. -/
theorem ieee_sqDist_comm (a b : MPoint) :
    Fp.sqDist Arith.ieee a b = Fp.sqDist Arith.ieee b a := by
  have h : ∀ x y : ℚ, roundDouble (x - y) ^ 2 = roundDouble (y - x) ^ 2 := by
    intro x y
    rw [← neg_sub y x, roundDouble_neg, neg_sq]
  unfold Fp.sqDist
  simp only [Arith.ieee]
  rw [h a.x b.x, h a.y b.y, h a.z b.z]

theorem sqrtDouble_zero : sqrtDouble 0 = 0 := by
  simp [sqrtDouble]

end nwave

namespace nwave
namespace KdTree

/-! ## The search in a given arithmetic -/

theorem fp_improves_refl (A : Arith) (q : MPoint) (T : List Node) (a : Node × ℚ) : Fp.Improves A q T a a :=
  ⟨le_refl _, Or.inl rfl⟩

theorem fp_improves_trans (A : Arith) {q : MPoint} {T1 T2 T : List Node} {a b c : Node × ℚ}
    (h1 : Fp.Improves A q T1 a b) (h2 : Fp.Improves A q T2 b c)
    (hT1 : ∀ n ∈ T1, n ∈ T) (hT2 : ∀ n ∈ T2, n ∈ T) : Fp.Improves A q T a c := by
  refine ⟨le_trans h2.1 h1.1, ?_⟩
  rcases h2.2 with rfl | ⟨hm, hd⟩
  · rcases h1.2 with rfl | ⟨hm, hd⟩
    · exact Or.inl rfl
    · exact Or.inr ⟨hT1 _ hm, hd⟩
  · exact Or.inr ⟨hT2 _ hm, hd⟩

theorem fp_checkSubtree_improves (A : Arith) (q : MPoint) :
    ∀ (t : Node) (n : Node) (m : ℚ), t.isNull = false →
      Fp.Improves A q t.subnodes (n, m) (Fp.checkSubtree A t q n m) := by
  intro t
  induction t with
  | null => intro n m h; simp [Node.isNull] at h
  | node d p i l r ihl ihr =>
    intro n m _
    have hupd : Fp.Improves A q [Node.node d p i l r] (n, m)
        (if Fp.sqDist A p q < m then (Node.node d p i l r, Fp.sqDist A p q) else (n, m)) := by
      split
      · rename_i hlt
        exact ⟨le_of_lt hlt, Or.inr ⟨List.mem_singleton.mpr rfl, rfl⟩⟩
      · exact fp_improves_refl A _ _ _
    have hself : ∀ x ∈ [Node.node d p i l r], x ∈ (Node.node d p i l r).subnodes := by
      intro x hx
      rw [List.mem_singleton.mp hx]
      simp [Node.subnodes]
    have hsubl : ∀ x ∈ l.subnodes, x ∈ (Node.node d p i l r).subnodes := by
      intro x hx
      simp only [Node.subnodes, List.mem_cons, List.mem_append]
      exact Or.inr (Or.inl hx)
    have hsubr : ∀ x ∈ r.subnodes, x ∈ (Node.node d p i l r).subnodes := by
      intro x hx
      simp only [Node.subnodes, List.mem_cons, List.mem_append]
      exact Or.inr (Or.inr hx)
    have hid : ∀ x ∈ (Node.node d p i l r).subnodes, x ∈ (Node.node d p i l r).subnodes :=
      fun _ hx => hx
    rw [Fp.checkSubtree]
    simp only []
    generalize (if Fp.sqDist A p q < m then (Node.node d p i l r, Fp.sqDist A p q) else (n, m)) = upd
      at hupd ⊢
    by_cases hfar : A.rnd (A.rnd (q.get (d % dimensions) - p.get (d % dimensions)) *
        A.rnd (q.get (d % dimensions) - p.get (d % dimensions))) > upd.2
    · rw [if_pos hfar]
      by_cases hc : A.rnd (q.get (d % dimensions) - p.get (d % dimensions)) ≤ 0 ∧ (!l.isNull) = true
      · rw [if_pos hc]
        have hl : l.isNull = false := by simpa using hc.2
        exact fp_improves_trans A hupd (ihl _ _ hl) hself hsubl
      · rw [if_neg hc]
        by_cases hc2 : A.rnd (q.get (d % dimensions) - p.get (d % dimensions)) > 0 ∧ (!r.isNull) = true
        · rw [if_pos hc2]
          have hr : r.isNull = false := by simpa using hc2.2
          exact fp_improves_trans A hupd (ihr _ _ hr) hself hsubr
        · rw [if_neg hc2]
          exact fp_improves_trans A hupd (fp_improves_refl A _ _ _) hself hid
    · rw [if_neg hfar]
      have hleft : Fp.Improves A q (Node.node d p i l r).subnodes (n, m)
          (if (!l.isNull) = true then Fp.checkSubtree A l q upd.1 upd.2 else upd) := by
        by_cases hc : (!l.isNull) = true
        · rw [if_pos hc]
          have hl : l.isNull = false := by simpa using hc
          exact fp_improves_trans A hupd (ihl _ _ hl) hself hsubl
        · rw [if_neg hc]
          exact fp_improves_trans A hupd (fp_improves_refl A _ _ _) hself hid
      by_cases hc : (!r.isNull) = true
      · rw [if_pos hc]
        have hr : r.isNull = false := by simpa using hc
        exact fp_improves_trans A hleft (ihr _ _ hr) hid hsubr
      · rw [if_neg hc]
        exact hleft

theorem fp_traverseTree_spec (A : Arith) (q : MPoint) :
    ∀ (t : Node) (anc : List Node), t.isNull = false →
      (Fp.traverseTree A t q anc).1 ∈ t.subnodes ∧
      (((Fp.traverseTree A t q anc).2 = anc ∧ (Fp.traverseTree A t q anc).1 = t ∧ Fp.Stops A t q) ∨
        ∃ path, (Fp.traverseTree A t q anc).2 = path ++ t :: anc ∧ ∀ a ∈ path, a ∈ t.subnodes) := by
  intro t
  induction t with
  | null => intro anc h; simp [Node.isNull] at h
  | node d p i l r ihl ihr =>
    intro anc _
    have hself : Node.node d p i l r ∈ (Node.node d p i l r).subnodes := by
      simp [Node.subnodes]
    have hsubl : ∀ x ∈ l.subnodes, x ∈ (Node.node d p i l r).subnodes := by
      intro x hx
      simp only [Node.subnodes, List.mem_cons, List.mem_append]
      exact Or.inr (Or.inl hx)
    have hsubr : ∀ x ∈ r.subnodes, x ∈ (Node.node d p i l r).subnodes := by
      intro x hx
      simp only [Node.subnodes, List.mem_cons, List.mem_append]
      exact Or.inr (Or.inr hx)
    rw [Fp.traverseTree]
    by_cases hleaf : (!(Node.node d p i l r).isLeaf) = true
    · rw [if_pos hleaf]
      simp only []
      by_cases hc : A.rnd (q.get (d % dimensions) - p.get (d % dimensions)) ≤ 0 ∧ (!l.isNull) = true
      · rw [if_pos hc]
        have hl : l.isNull = false := by simpa using hc.2
        obtain ⟨hmem, hcase⟩ := ihl (Node.node d p i l r :: anc) hl
        refine ⟨hsubl _ hmem, Or.inr ?_⟩
        rcases hcase with ⟨h2, -, -⟩ | ⟨path, h2, hp⟩
        · exact ⟨[], by simpa using h2, by simp⟩
        · refine ⟨path ++ [l], by simpa using h2, ?_⟩
          intro a ha
          rcases List.mem_append.mp ha with ha | ha
          · exact hsubl _ (hp a ha)
          · rw [List.mem_singleton.mp ha]
            exact hsubl _ (self_mem_subnodes hl)
      · rw [if_neg hc]
        by_cases hc2 : A.rnd (q.get (d % dimensions) - p.get (d % dimensions)) > 0 ∧ (!r.isNull) = true
        · rw [if_pos hc2]
          have hr : r.isNull = false := by simpa using hc2.2
          obtain ⟨hmem, hcase⟩ := ihr (Node.node d p i l r :: anc) hr
          refine ⟨hsubr _ hmem, Or.inr ?_⟩
          rcases hcase with ⟨h2, -, -⟩ | ⟨path, h2, hp⟩
          · exact ⟨[], by simpa using h2, by simp⟩
          · refine ⟨path ++ [r], by simpa using h2, ?_⟩
            intro a ha
            rcases List.mem_append.mp ha with ha | ha
            · exact hsubr _ (hp a ha)
            · rw [List.mem_singleton.mp ha]
              exact hsubr _ (self_mem_subnodes hr)
        · rw [if_neg hc2]
          refine ⟨hself, Or.inl ⟨rfl, rfl, ?_, ?_⟩⟩
          · intro h
            exact hc ⟨h.1, by simp [h.2]⟩
          · intro h
            exact hc2 ⟨h.1, by simp [h.2]⟩
    · rw [if_neg hleaf]
      have hl : l.isNull = true ∧ r.isNull = true := by
        simpa [Node.isLeaf, Node.hasLeftChild, Node.hasRightChild] using hleaf
      refine ⟨hself, Or.inl ⟨rfl, rfl, ?_, ?_⟩⟩
      · intro h
        rw [hl.1] at h
        exact Bool.noConfusion h.2
      · intro h
        rw [hl.2] at h
        exact Bool.noConfusion h.2

theorem fp_walkUp_append (A : Arith) (q : MPoint) (path : List Node) (t : Node) (best : Node × ℚ) :
    Fp.walkUp A q (path ++ [t]) best =
      Fp.checkSubtree A t q (Fp.walkUp A q path best).1 (Fp.walkUp A q path best).2 := by
  induction path generalizing best with
  | nil => simp [Fp.walkUp]
  | cons a path ih => simp only [List.cons_append, Fp.walkUp]; exact ih _

theorem fp_walkUp_improves (A : Arith) (q : MPoint) (T : List Node) (path : List Node)
    (hpath : ∀ a ∈ path, a.isNull = false ∧ ∀ x ∈ a.subnodes, x ∈ T) (best : Node × ℚ) :
    Fp.Improves A q T best (Fp.walkUp A q path best) := by
  induction path generalizing best with
  | nil => exact fp_improves_refl A _ _ _
  | cons a path ih =>
    simp only [Fp.walkUp]
    have ha := hpath a (List.mem_cons_self _ _)
    have h1 := fp_checkSubtree_improves A q a best.1 best.2 ha.1
    have h2 := ih (fun x hx => hpath x (List.mem_cons_of_mem _ hx))
      (Fp.checkSubtree A a q best.1 best.2)
    exact fp_improves_trans A h1 h2 ha.2 (fun _ hx => hx)

theorem fp_improves_consistent (A : Arith) {q : MPoint} {T : List Node} {a b : Node × ℚ}
    (h : Fp.Improves A q T a b) (ha : a.1 ∈ T ∧ a.2 = Fp.sqDist A a.1.point q) :
    b.1 ∈ T ∧ b.2 = Fp.sqDist A b.1.point q := by
  rcases h.2 with rfl | hb
  · exact ha
  · exact hb

theorem fp_nearestNeighbour_mem (A : Arith) (t : Node) (q : MPoint) (ht : t.isNull = false) :
    Fp.nearestNeighbour A t q ∈ t.subnodes := by
  obtain ⟨hmem, hcase⟩ := fp_traverseTree_spec A q t [] ht
  unfold Fp.nearestNeighbour
  rw [if_neg (by simp [ht])]
  simp only []
  split
  · exact hmem
  · have hpath : ∀ a ∈ (Fp.traverseTree A t q []).2, a.isNull = false ∧ ∀ x ∈ a.subnodes, x ∈ t.subnodes := by
      intro a ha
      have hat : a ∈ t.subnodes := by
        rcases hcase with ⟨h2, -, -⟩ | ⟨path, h2, hp⟩
        · rw [h2] at ha
          simp at ha
        · rw [h2] at ha
          rcases List.mem_append.mp ha with ha | ha
          · exact hp a ha
          · rw [List.mem_singleton.mp ha]
            exact self_mem_subnodes ht
      exact ⟨isNull_of_mem_subnodes hat, fun x hx => subnodes_trans hat hx⟩
    exact (fp_improves_consistent A (fp_walkUp_improves A q t.subnodes _ hpath _) ⟨hmem, rfl⟩).1

/-- A subtree without a point strictly closer than the current best leaves the best
unchanged: a node replaces it only when strictly closer. -/
theorem fp_checkSubtree_no_improve (A : Arith) (q : MPoint) :
    ∀ (t : Node) (n : Node) (m : ℚ), t.isNull = false →
      (∀ pr ∈ t.pairs, m ≤ Fp.sqDist A pr.1 q) → Fp.checkSubtree A t q n m = (n, m) := by
  intro t
  induction t with
  | null => intro n m h; simp [Node.isNull] at h
  | node d p i l r ihl ihr =>
    intro n m _ hfar
    have hp : ¬ Fp.sqDist A p q < m := not_lt.mpr (hfar (p, i) (by simp [Node.pairs]))
    have hl : ∀ pr ∈ l.pairs, m ≤ Fp.sqDist A pr.1 q := fun pr hpr =>
      hfar pr (by simp only [Node.pairs, List.mem_cons, List.mem_append]; exact Or.inr (Or.inl hpr))
    have hr : ∀ pr ∈ r.pairs, m ≤ Fp.sqDist A pr.1 q := fun pr hpr =>
      hfar pr (by simp only [Node.pairs, List.mem_cons, List.mem_append]; exact Or.inr (Or.inr hpr))
    rw [Fp.checkSubtree]
    simp only [if_neg hp]
    by_cases hfarside : A.rnd (A.rnd (q.get (d % dimensions) - p.get (d % dimensions)) *
        A.rnd (q.get (d % dimensions) - p.get (d % dimensions))) > m
    · rw [if_pos hfarside]
      by_cases hc : A.rnd (q.get (d % dimensions) - p.get (d % dimensions)) ≤ 0 ∧ (!l.isNull) = true
      · rw [if_pos hc]
        exact ihl n m (by simpa using hc.2) hl
      · rw [if_neg hc]
        by_cases hc2 : A.rnd (q.get (d % dimensions) - p.get (d % dimensions)) > 0 ∧ (!r.isNull) = true
        · rw [if_pos hc2]
          exact ihr n m (by simpa using hc2.2) hr
        · rw [if_neg hc2]
    · rw [if_neg hfarside]
      have hleft : (if (!l.isNull) = true then Fp.checkSubtree A l q n m else (n, m)) = (n, m) := by
        by_cases hc : (!l.isNull) = true
        · rw [if_pos hc]
          exact ihl n m (by simpa using hc) hl
        · rw [if_neg hc]
      rw [hleft]
      by_cases hc : (!r.isNull) = true
      · rw [if_pos hc]
        exact ihr n m (by simpa using hc) hr
      · rw [if_neg hc]

/-- The pair returned by `Fp.checkSubtree A` is the pair it was given, or holds a strictly smaller
squared distance: the current best is replaced only by a strictly closer node. -/
theorem fp_checkSubtree_strict (A : Arith) (q : MPoint) :
    ∀ (t : Node) (n : Node) (m : ℚ), t.isNull = false →
      Fp.checkSubtree A t q n m = (n, m) ∨ (Fp.checkSubtree A t q n m).2 < m := by
  intro t
  induction t with
  | null => intro n m h; simp [Node.isNull] at h
  | node d p i l r ihl ihr =>
    intro n m _
    have stepl : ∀ a : Node × ℚ, (a = (n, m) ∨ a.2 < m) → l.isNull = false →
        (Fp.checkSubtree A l q a.1 a.2 = (n, m) ∨ (Fp.checkSubtree A l q a.1 a.2).2 < m) := by
      intro a ha hl
      rcases ihl a.1 a.2 hl with h | h
      · rw [h]
        exact ha
      · right
        rcases ha with ha | ha
        · subst ha
          exact h
        · exact lt_trans h ha
    have stepr : ∀ a : Node × ℚ, (a = (n, m) ∨ a.2 < m) → r.isNull = false →
        (Fp.checkSubtree A r q a.1 a.2 = (n, m) ∨ (Fp.checkSubtree A r q a.1 a.2).2 < m) := by
      intro a ha hr
      rcases ihr a.1 a.2 hr with h | h
      · rw [h]
        exact ha
      · right
        rcases ha with ha | ha
        · subst ha
          exact h
        · exact lt_trans h ha
    rw [Fp.checkSubtree]
    simp only []
    have hupd : (if Fp.sqDist A p q < m then (Node.node d p i l r, Fp.sqDist A p q) else (n, m)) = (n, m) ∨
        (if Fp.sqDist A p q < m then (Node.node d p i l r, Fp.sqDist A p q) else (n, m)).2 < m := by
      by_cases h : Fp.sqDist A p q < m
      · rw [if_pos h]
        exact Or.inr h
      · rw [if_neg h]
        exact Or.inl rfl
    generalize (if Fp.sqDist A p q < m then (Node.node d p i l r, Fp.sqDist A p q) else (n, m)) = upd
      at hupd ⊢
    by_cases hfarside : A.rnd (A.rnd (q.get (d % dimensions) - p.get (d % dimensions)) *
        A.rnd (q.get (d % dimensions) - p.get (d % dimensions))) > upd.2
    · rw [if_pos hfarside]
      by_cases hc : A.rnd (q.get (d % dimensions) - p.get (d % dimensions)) ≤ 0 ∧ (!l.isNull) = true
      · rw [if_pos hc]
        exact stepl upd hupd (by simpa using hc.2)
      · rw [if_neg hc]
        by_cases hc2 : A.rnd (q.get (d % dimensions) - p.get (d % dimensions)) > 0 ∧ (!r.isNull) = true
        · rw [if_pos hc2]
          exact stepr upd hupd (by simpa using hc2.2)
        · rw [if_neg hc2]
          exact hupd
    · rw [if_neg hfarside]
      have hleft : (if (!l.isNull) = true then Fp.checkSubtree A l q upd.1 upd.2 else upd) = (n, m) ∨
          (if (!l.isNull) = true then Fp.checkSubtree A l q upd.1 upd.2 else upd).2 < m := by
        by_cases hc : (!l.isNull) = true
        · rw [if_pos hc]
          exact stepl upd hupd (by simpa using hc)
        · rw [if_neg hc]
          exact hupd
      generalize (if (!l.isNull) = true then Fp.checkSubtree A l q upd.1 upd.2 else upd) = afterLeft
        at hleft ⊢
      by_cases hc : (!r.isNull) = true
      · rw [if_pos hc]
        exact stepr afterLeft hleft (by simpa using hc)
      · rw [if_neg hc]
        exact hleft

theorem fp_walkUp_no_improve (A : Arith) (q : MPoint) :
    ∀ (path : List Node) (best : Node × ℚ),
      (∀ a ∈ path, a.isNull = false ∧ ∀ pr ∈ a.pairs, best.2 ≤ Fp.sqDist A pr.1 q) →
      Fp.walkUp A q path best = best := by
  intro path
  induction path with
  | nil => intro best _; rfl
  | cons a rest ih =>
    intro best h
    have ha := h a (List.mem_cons_self _ _)
    rw [Fp.walkUp, fp_checkSubtree_no_improve A q a best.1 best.2 ha.1 ha.2]
    exact ih best (fun b hb => h b (List.mem_cons_of_mem _ hb))

/-- The search answers the candidate of the descent whenever no stored point is strictly
closer to the query than this candidate. -/
theorem fp_nearestNeighbour_first_found (A : Arith) (t : Node) (q : MPoint) (ht : t.isNull = false)
    (hmin : ∀ pr ∈ t.pairs, Fp.sqDist A (Fp.traverseTree A t q []).1.point q ≤ Fp.sqDist A pr.1 q) :
    Fp.nearestNeighbour A t q = (Fp.traverseTree A t q []).1 := by
  obtain ⟨-, hcase⟩ := fp_traverseTree_spec A q t [] ht
  unfold Fp.nearestNeighbour
  rw [if_neg (by simp [ht])]
  simp only []
  by_cases heq : (Fp.traverseTree A t q []).1.point = q
  · rw [if_pos heq]
  · rw [if_neg heq]
    have hanc : ∀ a ∈ (Fp.traverseTree A t q []).2, a ∈ t.subnodes := by
      rcases hcase with ⟨h2, -, -⟩ | ⟨path, h2, hp⟩
      · rw [h2]; intro a ha; simp at ha
      · rw [h2]
        intro a ha
        rcases List.mem_append.mp ha with ha | ha
        · exact hp a ha
        · rw [List.mem_singleton] at ha
          rw [ha]
          exact self_mem_subnodes ht
    rw [fp_walkUp_no_improve A q _ _ (fun a ha => ⟨isNull_of_mem_subnodes (hanc a ha),
      fun pr hpr => hmin pr (pairs_subset_of_mem_subnodes (hanc a ha) pr hpr)⟩)]

end KdTree
end nwave

namespace nwave
namespace GetMirrorVerticesIndex

/-! ## The loop of `mirrorSearch` in a given arithmetic -/

/-- One pass of the loop body on an index not yet visited writes `1` in `setIds` and the
entry of the point in `tmpIds`, and goes on. -/
theorem fp_mirrorSearchLoop_cons (A : Arith) (c : GetMirrorVerticesIndex) (hty : c.objectType ≠ .NO_TYPE)
    (i : Nat) (rest : List Nat) (st : List Int × List Int)
    (hset : st.1[i]? = some 0) (htmp : st.2[i]? = some (-2)) :
    Fp.mirrorSearchLoop A c (i :: rest) st =
      Fp.mirrorSearchLoop A c rest
        (st.1.set i 1, st.2.set i (Fp.mirrorEntry A c (c.points.getD i ⟨0, 0, 0⟩))) := by
  have hD : st.1.getD i 0 = 0 := by
    rw [List.getD_eq_getElem?_getD, hset]
    rfl
  have hkeep : st.2.set i (-2) = st.2 := by
    apply List.ext_getElem?
    intro k
    rw [List.getElem?_set]
    split
    · rename_i hik
      subst hik
      rw [htmp]
      split
      · rfl
      · rename_i hlt
        have := List.getElem?_eq_none (not_lt.mp hlt)
        rw [htmp] at this
        cases this
    · rfl
  rw [Fp.mirrorSearchLoop, if_neg (not_not.mpr hD)]
  simp only []
  by_cases hnull : (Fp.nearestNode A c.tree (Fp.mirroredPos A c (c.points.getD i ⟨0, 0, 0⟩))).isNull = true
  · have hentry : Fp.mirrorEntry A c (c.points.getD i ⟨0, 0, 0⟩) = -2 := by
      unfold Fp.mirrorEntry
      rw [if_neg]
      rw [hnull]
      simp
    rw [hentry, hkeep]
    simp only [hnull, Bool.not_true, Bool.false_eq_true, if_false]
  · have hnull : (Fp.nearestNode A c.tree (Fp.mirroredPos A c (c.points.getD i ⟨0, 0, 0⟩))).isNull = false := by
      simpa using hnull
    by_cases hle : A.sqrtLe (Fp.sqDist A (Fp.mirroredPos A c (c.points.getD i ⟨0, 0, 0⟩))
        (Fp.nearestNode A c.tree (Fp.mirroredPos A c (c.points.getD i ⟨0, 0, 0⟩))).point) c.threshold = true
    · obtain ⟨v, hv⟩ := linearize_isSome c hty
        (Fp.nearestNode A c.tree (Fp.mirroredPos A c (c.points.getD i ⟨0, 0, 0⟩))).id
      have hentry : Fp.mirrorEntry A c (c.points.getD i ⟨0, 0, 0⟩) = v := by
        unfold Fp.mirrorEntry
        rw [if_pos ⟨hnull, hle⟩, hv]
        rfl
      rw [hentry]
      simp only [hnull, Bool.not_false, if_true, hle, hv]
    · have hentry : Fp.mirrorEntry A c (c.points.getD i ⟨0, 0, 0⟩) = -2 := by
        unfold Fp.mirrorEntry
        rw [if_neg]
        exact fun h => hle h.2
      rw [hentry, hkeep]
      simp only [hnull, Bool.not_false, if_true, hle, if_false, Bool.false_eq_true]

theorem fp_mirrorSearchLoop_spec (A : Arith) (c : GetMirrorVerticesIndex) (hty : c.objectType ≠ .NO_TYPE) :
    ∀ (is : List Nat) (st : List Int × List Int), is.Nodup →
      (∀ i ∈ is, st.1[i]? = some 0 ∧ st.2[i]? = some (-2)) →
      ∃ st', Fp.mirrorSearchLoop A c is st = .ok st' ∧
        (∀ k, st'.1[k]? = if k ∈ is then some 1 else st.1[k]?) ∧
        (∀ k, st'.2[k]? =
          if k ∈ is then some (Fp.mirrorEntry A c (c.points.getD k ⟨0, 0, 0⟩)) else st.2[k]?) := by
  intro is
  induction is with
  | nil =>
    intro st _ _
    exact ⟨st, rfl, by simp, by simp⟩
  | cons i rest ih =>
    intro st hnd hst
    obtain ⟨hi, hrest⟩ := List.nodup_cons.mp hnd
    obtain ⟨hset, htmp⟩ := hst i (List.mem_cons_self _ _)
    have hlt1 : i < st.1.length := by
      by_contra h
      rw [List.getElem?_eq_none (not_lt.mp h)] at hset
      cases hset
    have hlt2 : i < st.2.length := by
      by_contra h
      rw [List.getElem?_eq_none (not_lt.mp h)] at htmp
      cases htmp
    rw [fp_mirrorSearchLoop_cons A c hty i rest st hset htmp]
    have hst' : ∀ j ∈ rest,
        (st.1.set i 1, st.2.set i (Fp.mirrorEntry A c (c.points.getD i ⟨0, 0, 0⟩))).1[j]? = some 0 ∧
        (st.1.set i 1, st.2.set i (Fp.mirrorEntry A c (c.points.getD i ⟨0, 0, 0⟩))).2[j]? = some (-2) := by
      intro j hj
      have hne : i ≠ j := fun h => hi (h ▸ hj)
      obtain ⟨h1, h2⟩ := hst j (List.mem_cons_of_mem _ hj)
      simp only [List.getElem?_set, if_neg hne]
      exact ⟨h1, h2⟩
    obtain ⟨st', hrun, h1, h2⟩ := ih _ hrest hst'
    refine ⟨st', hrun, ?_, ?_⟩
    · intro k
      rw [h1 k]
      by_cases hk : k ∈ rest
      · simp [hk]
      · by_cases hki : k = i
        · subst hki
          simp [hk, List.getElem?_set, hlt1]
        · have hik : ¬ i = k := fun h => hki h.symm
          simp [hk, hki, List.getElem?_set, hik]
    · intro k
      rw [h2 k]
      by_cases hk : k ∈ rest
      · simp [hk]
      · by_cases hki : k = i
        · subst hki
          simp [hk, List.getElem?_set, hlt2]
        · have hik : ¬ i = k := fun h => hki h.symm
          simp [hk, hki, List.getElem?_set, hik]

theorem fp_mirrorSearchLoop_range (A : Arith) (c : GetMirrorVerticesIndex) (hty : c.objectType ≠ .NO_TYPE) :
    Fp.mirrorSearchLoop A c (List.range c.points.length)
        (List.replicate c.points.length 0, List.replicate c.points.length (-2)) =
      .ok (List.replicate c.points.length 1, c.points.map (Fp.mirrorEntry A c)) := by
  obtain ⟨st', hrun, h1, h2⟩ := fp_mirrorSearchLoop_spec A c hty (List.range c.points.length)
    (List.replicate c.points.length 0, List.replicate c.points.length (-2))
    (List.nodup_range _)
    (by
      intro i hi
      have hi := List.mem_range.mp hi
      simp [List.getElem?_replicate, hi])
  rw [hrun]
  have e1 : st'.1 = List.replicate c.points.length 1 := by
    apply List.ext_getElem?
    intro k
    rw [h1 k]
    by_cases hk : k < c.points.length
    · simp [List.getElem?_replicate, hk]
    · simp [List.getElem?_replicate, hk]
  have e2 : st'.2 = c.points.map (Fp.mirrorEntry A c) := by
    apply List.ext_getElem?
    intro k
    rw [h2 k]
    by_cases hk : k < c.points.length
    · simp [hk, List.getD_eq_getElem _ _ hk]
    · simp [List.getElem?_replicate, hk]
      exact (List.getElem?_eq_none (not_lt.mp hk)).symm ▸ rfl
  cases st' with
  | mk a b =>
    simp only at e1 e2
    rw [e1, e2]

end GetMirrorVerticesIndex
end nwave

namespace nwave

/-! ## The exact arithmetic as an instance -/

theorem fp_sqDist_exact (a b : MPoint) : Fp.sqDist Arith.exact a b = sqDist a b := rfl

theorem fp_traverseTree_exact (q : MPoint) :
    ∀ (t : KdTree.Node) (anc : List KdTree.Node),
      Fp.traverseTree Arith.exact t q anc = KdTree.traverseTree t q anc := by
  intro t
  induction t with
  | null => intro anc; rfl
  | node d p i l r ihl ihr =>
    intro anc
    rw [Fp.traverseTree, KdTree.traverseTree]
    simp only [ihl, ihr]
    rfl

theorem fp_checkSubtree_exact (q : MPoint) :
    ∀ (t n : KdTree.Node) (m : ℚ),
      Fp.checkSubtree Arith.exact t q n m = KdTree.checkSubtree t q n m := by
  intro t
  induction t with
  | null => intro n m; rfl
  | node d p i l r ihl ihr =>
    intro n m
    rw [Fp.checkSubtree, KdTree.checkSubtree]
    simp only [ihl, ihr, fp_sqDist_exact]
    rfl

theorem fp_walkUp_exact (q : MPoint) :
    ∀ (path : List KdTree.Node) (best : KdTree.Node × ℚ),
      Fp.walkUp Arith.exact q path best = KdTree.walkUp q path best := by
  intro path
  induction path with
  | nil => intro best; rfl
  | cons a rest ih =>
    intro best
    rw [Fp.walkUp, KdTree.walkUp, fp_checkSubtree_exact, ih]

theorem fp_nearestNeighbour_exact (t : KdTree.Node) (q : MPoint) :
    Fp.nearestNeighbour Arith.exact t q = KdTree.nearestNeighbour t q := by
  unfold Fp.nearestNeighbour KdTree.nearestNeighbour
  simp only [fp_traverseTree_exact, fp_walkUp_exact, fp_sqDist_exact]

/-- In the arithmetic without rounding the search is `nearestNode`. -/
theorem fp_nearestNode_exact (t : KdTree) (q : MPoint) :
    Fp.nearestNode Arith.exact t q = KdTree.nearestNode t q :=
  fp_nearestNeighbour_exact t.root q

namespace GetMirrorVerticesIndex

theorem fp_mirroredPos_exact (c : GetMirrorVerticesIndex) (p : MPoint) :
    Fp.mirroredPos Arith.exact c p = mirroredPos c p := rfl

theorem fp_mirrorEntry_exact (c : GetMirrorVerticesIndex) (p : MPoint) :
    Fp.mirrorEntry Arith.exact c p = mirrorEntry c p := by
  unfold Fp.mirrorEntry mirrorEntry
  simp only [fp_mirroredPos_exact, fp_nearestNode_exact, fp_sqDist_exact]
  rfl

theorem fp_mirrorSearchLoop_exact (c : GetMirrorVerticesIndex) :
    ∀ (is : List Nat) (st : List Int × List Int),
      Fp.mirrorSearchLoop Arith.exact c is st = mirrorSearchLoop c is st := by
  intro is
  induction is with
  | nil => intro st; rfl
  | cons i rest ih =>
    intro st
    rw [Fp.mirrorSearchLoop, mirrorSearchLoop]
    simp only [ih, fp_mirroredPos_exact, fp_nearestNode_exact, fp_sqDist_exact]
    rfl

/-- In the arithmetic without rounding `mirrorSearch` is the function of that name. -/
theorem fp_mirrorSearch_exact (c : GetMirrorVerticesIndex) (prev : List Int) :
    Fp.mirrorSearch Arith.exact c prev = mirrorSearch c prev := by
  unfold Fp.mirrorSearch mirrorSearch
  simp only [fp_mirrorSearchLoop_exact]

theorem fp_positionResult_exact (c : GetMirrorVerticesIndex) :
    Fp.positionResult Arith.exact c = positionResult c := by
  unfold Fp.positionResult positionResult
  simp only [fp_nearestNode_exact, fp_sqDist_exact]
  rfl

/-- In the arithmetic without rounding `redoIt` is the function of that name. -/
theorem fp_redoIt_exact (c : GetMirrorVerticesIndex) : Fp.redoIt Arith.exact c = redoIt c := by
  unfold Fp.redoIt redoIt
  simp only [fp_positionResult_exact, fp_mirrorSearch_exact]

end GetMirrorVerticesIndex
end nwave

namespace nwave
namespace KdTree

/-! ## The search for a stored point in a given arithmetic -/

/-- The computed squared distance of a point to itself is `0` when `0` is rounded to `0`. -/
theorem fp_sqDist_self (A : Arith) (h0 : A.rnd 0 = 0) (p : MPoint) : Fp.sqDist A p p = 0 := by
  simp [Fp.sqDist, h0]

theorem fp_checkSubtree_le (A : Arith) (q : MPoint) (t n : Node) (m : ℚ)
    (ht : t.isNull = false) : (Fp.checkSubtree A t q n m).2 ≤ m :=
  (fp_checkSubtree_improves A q t n m ht).1

theorem fp_checkSubtree_nonneg (A : Arith) (q : MPoint) (t n : Node) (m : ℚ)
    (ht : t.isNull = false) (hnn : ∀ pr ∈ t.pairs, 0 ≤ Fp.sqDist A pr.1 q) (hm : 0 ≤ m) :
    0 ≤ (Fp.checkSubtree A t q n m).2 := by
  rcases (fp_checkSubtree_improves A q t n m ht).2 with h | ⟨hmem, hd⟩
  · rw [h]
    exact hm
  · rw [hd]
    exact hnn ((Fp.checkSubtree A t q n m).1.point, (Fp.checkSubtree A t q n m).1.id)
      (pair_mem_of_mem_subnodes hmem)

theorem isNull_false_of_mem_pairs {t : Node} {pr : Pair} (h : pr ∈ t.pairs) :
    t.isNull = false := by
  cases t with
  | null => simp [Node.pairs] at h
  | node _ _ _ _ _ => rfl

/-- In an arithmetic that rounds `0` to `0`, computes no negative squared distance to the query
and keeps the sign of the differences between the coordinates of the query and those of the
stored points, `checkSubtree` on a subtree with the k-d ordering that holds the query brings
the best computed squared distance down to `0`: the side of a node that holds the query is
always visited. -/
theorem fp_checkSubtree_stored (A : Arith) (q : MPoint) (h0 : A.rnd 0 = 0) :
    ∀ t : Node, KdInv t →
      (∀ pr ∈ t.pairs, 0 ≤ Fp.sqDist A pr.1 q) →
      (∀ pr ∈ t.pairs, ∀ axis, axis < 3 →
        (A.rnd (q.get axis - pr.1.get axis) ≤ 0 ↔ q.get axis ≤ pr.1.get axis)) →
      (∃ pr ∈ t.pairs, pr.1 = q) →
      ∀ (n : Node) (m : ℚ), 0 ≤ m → (Fp.checkSubtree A t q n m).2 ≤ 0 := by
  intro t
  induction t with
  | null =>
    intro _ _ _ h
    obtain ⟨pr, hpr, -⟩ := h
    simp [Node.pairs] at hpr
  | node d p i l r ihl ihr =>
    intro hinv hnn hsign hmem n m hm
    obtain ⟨hL, hR, hkl, hkr⟩ := hinv
    have haxis : d % dimensions < 3 := Nat.mod_lt _ (by decide)
    have hinl : ∀ pr ∈ l.pairs, pr ∈ (Node.node d p i l r).pairs := by
      intro pr h
      simp only [Node.pairs, List.mem_cons, List.mem_append]
      exact Or.inr (Or.inl h)
    have hinr : ∀ pr ∈ r.pairs, pr ∈ (Node.node d p i l r).pairs := by
      intro pr h
      simp only [Node.pairs, List.mem_cons, List.mem_append]
      exact Or.inr (Or.inr h)
    have hself : (p, i) ∈ (Node.node d p i l r).pairs := by simp [Node.pairs]
    have hp0 : 0 ≤ Fp.sqDist A p q := hnn (p, i) hself
    have hsd : A.rnd (q.get (d % dimensions) - p.get (d % dimensions)) ≤ 0 ↔
        q.get (d % dimensions) ≤ p.get (d % dimensions) := hsign (p, i) hself _ haxis
    have hnnl : ∀ pr ∈ l.pairs, 0 ≤ Fp.sqDist A pr.1 q := fun pr h => hnn pr (hinl pr h)
    have hnnr : ∀ pr ∈ r.pairs, 0 ≤ Fp.sqDist A pr.1 q := fun pr h => hnn pr (hinr pr h)
    have stepl : ∀ a : Node × ℚ, 0 ≤ a.2 → (∃ pr ∈ l.pairs, pr.1 = q) →
        (Fp.checkSubtree A l q a.1 a.2).2 ≤ 0 := fun a ha hin =>
      ihl hkl hnnl (fun pr h => hsign pr (hinl pr h)) hin a.1 a.2 ha
    have stepr : ∀ a : Node × ℚ, 0 ≤ a.2 → (∃ pr ∈ r.pairs, pr.1 = q) →
        (Fp.checkSubtree A r q a.1 a.2).2 ≤ 0 := fun a ha hin =>
      ihr hkr hnnr (fun pr h => hsign pr (hinr pr h)) hin a.1 a.2 ha
    have hwhere : p = q ∨ (∃ pr ∈ l.pairs, pr.1 = q) ∨ (∃ pr ∈ r.pairs, pr.1 = q) := by
      obtain ⟨pr, hpr, hq⟩ := hmem
      simp only [Node.pairs, List.mem_cons, List.mem_append] at hpr
      rcases hpr with rfl | hpr | hpr
      · exact Or.inl hq
      · exact Or.inr (Or.inl ⟨pr, hpr, hq⟩)
      · exact Or.inr (Or.inr ⟨pr, hpr, hq⟩)
    have hlnn : (∃ pr ∈ l.pairs, pr.1 = q) → l.isNull = false := fun ⟨_, h, _⟩ =>
      isNull_false_of_mem_pairs h
    have hrnn : (∃ pr ∈ r.pairs, pr.1 = q) → r.isNull = false := fun ⟨_, h, _⟩ =>
      isNull_false_of_mem_pairs h
    have hld : (∃ pr ∈ l.pairs, pr.1 = q) →
        A.rnd (q.get (d % dimensions) - p.get (d % dimensions)) ≤ 0 := by
      rintro ⟨pr, h, rfl⟩
      exact hsd.mpr (hL pr h)
    have hrd : (∃ pr ∈ r.pairs, pr.1 = q) →
        A.rnd (q.get (d % dimensions) - p.get (d % dimensions)) ≤ 0 →
        A.rnd (A.rnd (q.get (d % dimensions) - p.get (d % dimensions)) *
          A.rnd (q.get (d % dimensions) - p.get (d % dimensions))) = 0 := by
      rintro ⟨pr, h, rfl⟩ hd
      have heq : pr.1.get (d % dimensions) = p.get (d % dimensions) :=
        le_antisymm (hsd.mp hd) (hR pr h)
      rw [heq, sub_self, h0, mul_zero, h0]
    have hupd : 0 ≤ (if Fp.sqDist A p q < m then (Node.node d p i l r, Fp.sqDist A p q)
          else (n, m)).2 ∧
        (p = q → (if Fp.sqDist A p q < m then (Node.node d p i l r, Fp.sqDist A p q)
          else (n, m)).2 ≤ 0) := by
      split
      · exact ⟨hp0, fun h => by rw [h, fp_sqDist_self A h0]⟩
      · rename_i hlt
        refine ⟨hm, fun h => ?_⟩
        rw [h, fp_sqDist_self A h0] at hlt
        exact not_lt.mp hlt
    rw [Fp.checkSubtree]
    simp only []
    generalize (if Fp.sqDist A p q < m then (Node.node d p i l r, Fp.sqDist A p q) else (n, m))
      = upd at hupd ⊢
    obtain ⟨hu0, hup⟩ := hupd
    by_cases hfar : A.rnd (A.rnd (q.get (d % dimensions) - p.get (d % dimensions)) *
        A.rnd (q.get (d % dimensions) - p.get (d % dimensions))) > upd.2
    · rw [if_pos hfar]
      by_cases hc : A.rnd (q.get (d % dimensions) - p.get (d % dimensions)) ≤ 0 ∧
          (!l.isNull) = true
      · rw [if_pos hc]
        have hl : l.isNull = false := by simpa using hc.2
        rcases hwhere with hpq | hin | hin
        · exact le_trans (fp_checkSubtree_le A q l _ _ hl) (hup hpq)
        · exact stepl upd hu0 hin
        · exfalso
          rw [hrd hin hc.1] at hfar
          exact absurd hu0 (not_le.mpr hfar)
      · rw [if_neg hc]
        by_cases hc2 : A.rnd (q.get (d % dimensions) - p.get (d % dimensions)) > 0 ∧
            (!r.isNull) = true
        · rw [if_pos hc2]
          have hr : r.isNull = false := by simpa using hc2.2
          rcases hwhere with hpq | hin | hin
          · exact le_trans (fp_checkSubtree_le A q r _ _ hr) (hup hpq)
          · exact absurd (hld hin) (not_le.mpr hc2.1)
          · exact stepr upd hu0 hin
        · rw [if_neg hc2]
          rcases hwhere with hpq | hin | hin
          · exact hup hpq
          · exact absurd ⟨hld hin, by simp [hlnn hin]⟩ hc
          · exfalso
            by_cases hd : A.rnd (q.get (d % dimensions) - p.get (d % dimensions)) ≤ 0
            · rw [hrd hin hd] at hfar
              exact absurd hu0 (not_le.mpr hfar)
            · exact hc2 ⟨not_le.mp hd, by simp [hrnn hin]⟩
    · rw [if_neg hfar]
      have hleft : 0 ≤ (if (!l.isNull) = true then Fp.checkSubtree A l q upd.1 upd.2
            else upd).2 ∧
          (if (!l.isNull) = true then Fp.checkSubtree A l q upd.1 upd.2 else upd).2 ≤ upd.2 ∧
          ((∃ pr ∈ l.pairs, pr.1 = q) →
            (if (!l.isNull) = true then Fp.checkSubtree A l q upd.1 upd.2 else upd).2 ≤ 0) := by
        by_cases hc : (!l.isNull) = true
        · rw [if_pos hc]
          have hl : l.isNull = false := by simpa using hc
          exact ⟨fp_checkSubtree_nonneg A q l _ _ hl hnnl hu0, fp_checkSubtree_le A q l _ _ hl,
            fun hin => stepl upd hu0 hin⟩
        · rw [if_neg hc]
          exact ⟨hu0, le_refl _, fun hin => absurd (by simp [hlnn hin]) hc⟩
      generalize (if (!l.isNull) = true then Fp.checkSubtree A l q upd.1 upd.2 else upd)
        = afterLeft at hleft ⊢
      obtain ⟨ha0, hau, hal⟩ := hleft
      by_cases hc : (!r.isNull) = true
      · rw [if_pos hc]
        have hr : r.isNull = false := by simpa using hc
        rcases hwhere with hpq | hin | hin
        · exact le_trans (fp_checkSubtree_le A q r _ _ hr) (le_trans hau (hup hpq))
        · exact le_trans (fp_checkSubtree_le A q r _ _ hr) (hal hin)
        · exact stepr afterLeft ha0 hin
      · rw [if_neg hc]
        rcases hwhere with hpq | hin | hin
        · exact le_trans hau (hup hpq)
        · exact hal hin
        · exact absurd (by simp [hrnn hin]) hc

/-- In such an arithmetic, on a tree with the k-d ordering whose childless-on-the-left nodes
are leaves, the search for a stored point returns a node at the computed squared distance
`0`. -/
theorem fp_nearestNeighbour_stored (A : Arith) (q : MPoint) (h0 : A.rnd 0 = 0) (t : Node)
    (hinv : KdInv t) (hshape : LeftFirst t)
    (hnn : ∀ pr ∈ t.pairs, 0 ≤ Fp.sqDist A pr.1 q)
    (hsign : ∀ pr ∈ t.pairs, ∀ axis, axis < 3 →
      (A.rnd (q.get axis - pr.1.get axis) ≤ 0 ↔ q.get axis ≤ pr.1.get axis))
    (hmem : ∃ pr ∈ t.pairs, pr.1 = q) :
    Fp.sqDist A (Fp.nearestNeighbour A t q).point q = 0 := by
  have ht : t.isNull = false := by
    obtain ⟨pr, hpr, -⟩ := hmem
    exact isNull_false_of_mem_pairs hpr
  obtain ⟨hleaf, hcase⟩ := fp_traverseTree_spec A q t [] ht
  unfold Fp.nearestNeighbour
  rw [if_neg (by simp [ht])]
  simp only []
  by_cases heq : (Fp.traverseTree A t q []).1.point = q
  · rw [if_pos heq, heq]
    exact fp_sqDist_self A h0 q
  · rw [if_neg heq]
    have hleaf0 : 0 ≤ Fp.sqDist A (Fp.traverseTree A t q []).1.point q :=
      hnn ((Fp.traverseTree A t q []).1.point, (Fp.traverseTree A t q []).1.id)
        (pair_mem_of_mem_subnodes hleaf)
    rcases hcase with ⟨-, h1, hstop⟩ | ⟨path, h2, hp⟩
    · exfalso
      rw [h1] at heq
      cases t with
      | null => simp [Node.isNull] at ht
      | node d p i l r =>
        obtain ⟨hL, hR, -, -⟩ := hinv
        obtain ⟨hs1, hs2⟩ := hstop
        have haxis : d % dimensions < 3 := Nat.mod_lt _ (by decide)
        have hsd := hsign (p, i) (by simp [Node.pairs]) _ haxis
        obtain ⟨pr, hpr, hq⟩ := hmem
        simp only [Node.pairs, List.mem_cons, List.mem_append] at hpr
        rcases hpr with rfl | hpr | hpr
        · exact heq hq
        · subst hq
          exact hs1 ⟨hsd.mpr (hL pr hpr), isNull_false_of_mem_pairs hpr⟩
        · subst hq
          have hr : r.isNull = false := isNull_false_of_mem_pairs hpr
          have hl : l.isNull = false := by
            by_contra hl
            have := hshape (by simpa using hl)
            rw [hr] at this
            exact Bool.noConfusion this
          by_cases hd : A.rnd (pr.1.get (d % dimensions) - p.get (d % dimensions)) ≤ 0
          · exact hs1 ⟨hd, hl⟩
          · exact hs2 ⟨not_le.mp hd, hr⟩
    · have hpath : ∀ a ∈ path, a.isNull = false ∧ ∀ x ∈ a.subnodes, x ∈ t.subnodes :=
        fun a ha => ⟨isNull_of_mem_subnodes (hp a ha), fun x hx => subnodes_trans (hp a ha) hx⟩
      have hw := fp_walkUp_improves A q t.subnodes path hpath
        ((Fp.traverseTree A t q []).1, Fp.sqDist A (Fp.traverseTree A t q []).1.point q)
      have hw0 : 0 ≤ (Fp.walkUp A q path
          ((Fp.traverseTree A t q []).1,
            Fp.sqDist A (Fp.traverseTree A t q []).1.point q)).2 := by
        rcases hw.2 with h | ⟨hm, hd⟩
        · rw [h]
          exact hleaf0
        · rw [hd]
          exact hnn (_, _) (pair_mem_of_mem_subnodes hm)
      have hwc := fp_improves_consistent A hw ⟨hleaf, rfl⟩
      rw [h2, fp_walkUp_append]
      generalize Fp.walkUp A q path ((Fp.traverseTree A t q []).1,
        Fp.sqDist A (Fp.traverseTree A t q []).1.point q) = best at hw0 hwc ⊢
      have hle := fp_checkSubtree_stored A q h0 t hinv hnn hsign hmem best.1 best.2 hw0
      have hcons := fp_improves_consistent A
        (fp_checkSubtree_improves A q t best.1 best.2 ht) hwc
      have hge := fp_checkSubtree_nonneg A q t best.1 best.2 ht hnn hw0
      rw [← hcons.2]
      exact le_antisymm hle hge

/-- In an arithmetic that rounds `0` to `0`, computes no negative squared distance to the query
and keeps the sign of the differences between the coordinates of the query and those of the
stored points, the search for a stored point on the tree made by `build` returns a node of the
tree at the computed squared distance `0`, which holds one of the stored pairs. -/
theorem fp_nearestNode_stored (A : Arith) (S : Sorter) (t0 : KdTree) (points : List MPoint)
    (ids : List Int) (p : MPoint) (hp : p ∈ points) (h0 : A.rnd 0 = 0)
    (hnn : ∀ q ∈ points, 0 ≤ Fp.sqDist A q p)
    (hsign : ∀ q ∈ points, ∀ axis, axis < 3 →
      (A.rnd (p.get axis - q.get axis) ≤ 0 ↔ p.get axis ≤ q.get axis)) :
    (Fp.nearestNode A (build S t0 points ids) p).isNull = false ∧
      Fp.sqDist A (Fp.nearestNode A (build S t0 points ids) p).point p = 0 ∧
      ((Fp.nearestNode A (build S t0 points ids) p).point,
        (Fp.nearestNode A (build S t0 points ids) p).id) ∈ makePointList points ids := by
  obtain ⟨i, -, -, hmem⟩ := mem_makePointList ids hp
  have hperm := build_pairs_perm S t0 points ids
  have hroot : (p, decodeId points.length ids i) ∈ (build S t0 points ids).root.pairs :=
    hperm.symm.subset hmem
  have hpts : ∀ pr ∈ (build S t0 points ids).root.pairs, pr.1 ∈ points := fun pr h =>
    (makePointList_mem (hperm.subset h)).choose_spec.2.2.2
  have hnull : (build S t0 points ids).root.isNull = false := isNull_false_of_mem_pairs hroot
  have hin := fp_nearestNeighbour_mem A _ p hnull
  refine ⟨isNull_of_mem_subnodes hin, ?_, hperm.subset (pair_mem_of_mem_subnodes hin)⟩
  exact fp_nearestNeighbour_stored A p h0 _ (build_kdInv S t0 points ids)
    (build_leftFirst S t0 points ids) (fun pr h => hnn pr.1 (hpts pr h))
    (fun pr h => hsign pr.1 (hpts pr h)) ⟨_, hroot, rfl⟩

end KdTree
end nwave

namespace nwave
namespace KdTree

/-! ## The minimum of the computed squared distances -/

theorem fp_rnd_zero (A : Arith) (hA : A.Regular) : A.rnd 0 = 0 := by
  have h := hA.2.1 0
  rw [neg_zero] at h
  linarith

theorem fp_rnd_nonneg (A : Arith) (hA : A.Regular) (x : ℚ) (h : 0 ≤ x) : 0 ≤ A.rnd x := by
  have := hA.1 0 x h
  rwa [fp_rnd_zero A hA] at this

theorem fp_sqDist_nonneg (A : Arith) (hA : A.Regular) (a b : MPoint) :
    0 ≤ Fp.sqDist A a b := by
  unfold Fp.sqDist
  exact fp_rnd_nonneg A hA _ (add_nonneg
    (fp_rnd_nonneg A hA _ (add_nonneg (fp_rnd_nonneg A hA _ (sq_nonneg _))
      (fp_rnd_nonneg A hA _ (sq_nonneg _))))
    (fp_rnd_nonneg A hA _ (sq_nonneg _)))

/-- A sum of rounded non-negative terms rounds to no less than each term. -/
theorem fp_le_rnd_add (A : Arith) (hA : A.Regular) (x y : ℚ) (hy : 0 ≤ y) :
    A.rnd x ≤ A.rnd (A.rnd x + y) := by
  have h := hA.1 (A.rnd x) (A.rnd x + y) (by linarith)
  rwa [hA.2.2] at h

/-- The computed squared distance is at least the computed square of each of its three
differences. -/
theorem fp_axis_le_sqDist (A : Arith) (hA : A.Regular) (p q : MPoint) (i : Nat) :
    A.rnd (A.rnd (p.get i - q.get i) ^ 2) ≤ Fp.sqDist A p q := by
  have hx := fp_rnd_nonneg A hA (A.rnd (p.x - q.x) ^ 2) (sq_nonneg _)
  have hy := fp_rnd_nonneg A hA (A.rnd (p.y - q.y) ^ 2) (sq_nonneg _)
  have hz := fp_rnd_nonneg A hA (A.rnd (p.z - q.z) ^ 2) (sq_nonneg _)
  have hxy := fp_rnd_nonneg A hA _ (add_nonneg hx hy)
  have h1 := fp_le_rnd_add A hA (A.rnd (p.x - q.x) ^ 2) _ hy
  have h2 := fp_le_rnd_add A hA (A.rnd (p.y - q.y) ^ 2) _ hx
  have h3 := fp_le_rnd_add A hA (A.rnd (A.rnd (p.x - q.x) ^ 2) + A.rnd (A.rnd (p.y - q.y) ^ 2)) _ hz
  have h4 := fp_le_rnd_add A hA (A.rnd (p.z - q.z) ^ 2) _ hxy
  rw [add_comm] at h2 h4
  unfold Fp.sqDist MPoint.get
  split
  · exact le_trans h1 h3
  · exact le_trans h2 h3
  · exact h4

/-- A point on the far side of a splitting plane is computed at least as far as the plane. -/
theorem fp_far_side_le (A : Arith) (hA : A.Regular) (p q : MPoint) (i : Nat) (c : ℚ)
    (h : (A.rnd (q.get i - c) ≤ 0 ∧ c ≤ p.get i) ∨ (0 < A.rnd (q.get i - c) ∧ p.get i ≤ c)) :
    A.rnd (A.rnd (q.get i - c) * A.rnd (q.get i - c)) ≤ Fp.sqDist A p q := by
  refine le_trans (hA.1 _ _ ?_) (fp_axis_le_sqDist A hA p q i)
  have hneg : A.rnd (c - q.get i) = -A.rnd (q.get i - c) := by
    rw [← neg_sub, hA.2.1]
  rcases h with ⟨h1, h2⟩ | ⟨h1, h2⟩
  · have h3 : A.rnd (c - q.get i) ≤ A.rnd (p.get i - q.get i) := hA.1 _ _ (by linarith)
    rw [hneg] at h3
    nlinarith
  · have h3 : A.rnd (p.get i - q.get i) ≤ A.rnd (c - q.get i) := hA.1 _ _ (by linarith)
    rw [hneg] at h3
    nlinarith

theorem fp_checkSubtree_min (A : Arith) (hA : A.Regular) (q : MPoint) :
    ∀ (t : Node) (n : Node) (m : ℚ), t.isNull = false → KdInv t →
      ∀ pr ∈ t.pairs, (Fp.checkSubtree A t q n m).2 ≤ Fp.sqDist A pr.1 q := by
  intro t
  induction t with
  | null => intro n m h; simp [Node.isNull] at h
  | node d p i l r ihl ihr =>
    intro n m _ hinv
    obtain ⟨hL, hR, hinvl, hinvr⟩ := hinv
    have hupd : (if Fp.sqDist A p q < m then (Node.node d p i l r, Fp.sqDist A p q) else (n, m)).2
        ≤ Fp.sqDist A p q := by
      split
      · exact le_refl _
      · rename_i hlt
        exact not_lt.mp hlt
    rw [Fp.checkSubtree]
    simp only []
    generalize (if Fp.sqDist A p q < m then (Node.node d p i l r, Fp.sqDist A p q) else (n, m)) = upd
      at hupd ⊢
    have hfarR : A.rnd (q.get (d % dimensions) - p.get (d % dimensions)) ≤ 0 → ∀ pr ∈ r.pairs,
        A.rnd (A.rnd (q.get (d % dimensions) - p.get (d % dimensions)) *
          A.rnd (q.get (d % dimensions) - p.get (d % dimensions))) ≤ Fp.sqDist A pr.1 q :=
      fun hd pr hpr => fp_far_side_le A hA pr.1 q _ _ (Or.inl ⟨hd, hR pr hpr⟩)
    have hfarL : 0 < A.rnd (q.get (d % dimensions) - p.get (d % dimensions)) → ∀ pr ∈ l.pairs,
        A.rnd (A.rnd (q.get (d % dimensions) - p.get (d % dimensions)) *
          A.rnd (q.get (d % dimensions) - p.get (d % dimensions))) ≤ Fp.sqDist A pr.1 q :=
      fun hd pr hpr => fp_far_side_le A hA pr.1 q _ _ (Or.inr ⟨hd, hL pr hpr⟩)
    intro pr hpr
    simp only [Node.pairs, List.mem_cons, List.mem_append] at hpr
    by_cases hfar : A.rnd (A.rnd (q.get (d % dimensions) - p.get (d % dimensions)) *
        A.rnd (q.get (d % dimensions) - p.get (d % dimensions))) > upd.2
    · rw [if_pos hfar]
      by_cases hc : A.rnd (q.get (d % dimensions) - p.get (d % dimensions)) ≤ 0 ∧ (!l.isNull) = true
      · rw [if_pos hc]
        have hl : l.isNull = false := by simpa using hc.2
        have hmono := (fp_checkSubtree_improves A q l upd.1 upd.2 hl).1
        rcases hpr with rfl | hpr | hpr
        · exact le_trans hmono hupd
        · exact ihl _ _ hl hinvl pr hpr
        · exact le_trans hmono (le_trans (le_of_lt hfar) (hfarR hc.1 pr hpr))
      · rw [if_neg hc]
        by_cases hc2 : A.rnd (q.get (d % dimensions) - p.get (d % dimensions)) > 0 ∧ (!r.isNull) = true
        · rw [if_pos hc2]
          have hr : r.isNull = false := by simpa using hc2.2
          have hmono := (fp_checkSubtree_improves A q r upd.1 upd.2 hr).1
          rcases hpr with rfl | hpr | hpr
          · exact le_trans hmono hupd
          · exact le_trans hmono (le_trans (le_of_lt hfar) (hfarL hc2.1 pr hpr))
          · exact ihr _ _ hr hinvr pr hpr
        · rw [if_neg hc2]
          rcases hpr with rfl | hpr | hpr
          · exact hupd
          · by_cases hd : A.rnd (q.get (d % dimensions) - p.get (d % dimensions)) ≤ 0
            · have hl : l.isNull = true := by
                by_contra hl
                exact hc ⟨hd, by simpa using hl⟩
              rw [pairs_of_isNull hl] at hpr
              simp at hpr
            · exact le_trans (le_of_lt hfar) (hfarL (not_le.mp hd) pr hpr)
          · by_cases hd : A.rnd (q.get (d % dimensions) - p.get (d % dimensions)) ≤ 0
            · exact le_trans (le_of_lt hfar) (hfarR hd pr hpr)
            · have hr : r.isNull = true := by
                by_contra hr
                exact hc2 ⟨not_le.mp hd, by simpa using hr⟩
              rw [pairs_of_isNull hr] at hpr
              simp at hpr
    · rw [if_neg hfar]
      have hleft : (if (!l.isNull) = true then Fp.checkSubtree A l q upd.1 upd.2 else upd).2 ≤ upd.2 ∧
          ∀ pr ∈ l.pairs,
            (if (!l.isNull) = true then Fp.checkSubtree A l q upd.1 upd.2 else upd).2 ≤ Fp.sqDist A pr.1 q := by
        by_cases hc : (!l.isNull) = true
        · rw [if_pos hc]
          have hl : l.isNull = false := by simpa using hc
          exact ⟨(fp_checkSubtree_improves A q l upd.1 upd.2 hl).1, ihl _ _ hl hinvl⟩
        · rw [if_neg hc]
          have hl : l.isNull = true := by simpa using hc
          refine ⟨le_refl _, ?_⟩
          intro pr hpr
          rw [pairs_of_isNull hl] at hpr
          simp at hpr
      generalize (if (!l.isNull) = true then Fp.checkSubtree A l q upd.1 upd.2 else upd) = afterLeft
        at hleft ⊢
      by_cases hc : (!r.isNull) = true
      · rw [if_pos hc]
        have hr : r.isNull = false := by simpa using hc
        have hmono := (fp_checkSubtree_improves A q r afterLeft.1 afterLeft.2 hr).1
        rcases hpr with rfl | hpr | hpr
        · exact le_trans hmono (le_trans hleft.1 hupd)
        · exact le_trans hmono (hleft.2 pr hpr)
        · exact ihr _ _ hr hinvr pr hpr
      · rw [if_neg hc]
        have hr : r.isNull = true := by simpa using hc
        rcases hpr with rfl | hpr | hpr
        · exact le_trans hleft.1 hupd
        · exact hleft.2 pr hpr
        · rw [pairs_of_isNull hr] at hpr
          simp at hpr

/-- The search is exact whenever it does not end on the node it started from; otherwise it
answers that node. -/
theorem fp_nearestNeighbour_spec (A : Arith) (hA : A.Regular) (t : Node) (q : MPoint) (ht : t.isNull = false) (hinv : KdInv t) :
    (∀ pr ∈ t.pairs, Fp.sqDist A (Fp.nearestNeighbour A t q).point q ≤ Fp.sqDist A pr.1 q) ∨
      (Fp.nearestNeighbour A t q = t ∧ Fp.Stops A t q) := by
  obtain ⟨hmem, hcase⟩ := fp_traverseTree_spec A q t [] ht
  unfold Fp.nearestNeighbour
  rw [if_neg (by simp [ht])]
  simp only []
  by_cases heq : (Fp.traverseTree A t q []).1.point = q
  · rw [if_pos heq]
    left
    intro pr _
    rw [heq, fp_sqDist_self A (fp_rnd_zero A hA)]
    exact fp_sqDist_nonneg A hA _ _
  · rw [if_neg heq]
    rcases hcase with ⟨h2, h1, hstop⟩ | ⟨path, h2, hp⟩
    · right
      rw [h2]
      exact ⟨h1, hstop⟩
    · left
      rw [h2, fp_walkUp_append A]
      have hpath : ∀ a ∈ path, a.isNull = false ∧ ∀ x ∈ a.subnodes, x ∈ t.subnodes :=
        fun a ha => ⟨isNull_of_mem_subnodes (hp a ha), fun x hx => subnodes_trans (hp a ha) hx⟩
      have hw := fp_improves_consistent A (fp_walkUp_improves A q t.subnodes path hpath
        ((Fp.traverseTree A t q []).1, Fp.sqDist A (Fp.traverseTree A t q []).1.point q))
        ⟨hmem, rfl⟩
      generalize Fp.walkUp A q path ((Fp.traverseTree A t q []).1, Fp.sqDist A (Fp.traverseTree A t q []).1.point q) = w
        at hw ⊢
      have hr := fp_improves_consistent A (fp_checkSubtree_improves A q t w.1 w.2 ht) hw
      intro pr hpr
      rw [← hr.2]
      exact fp_checkSubtree_min A hA q t w.1 w.2 ht hinv pr hpr

/-- The descent returns the node it started from, with no ancestor, only when it stops
there. -/
theorem fp_traverseTree_stops_of_no_ancestor (A : Arith) (t : Node) (q : MPoint) (ht : t.isNull = false)
    (h : (Fp.traverseTree A t q []).2 = []) : Fp.Stops A t q := by
  obtain ⟨-, hcase⟩ := fp_traverseTree_spec A q t [] ht
  rcases hcase with ⟨-, -, hstop⟩ | ⟨path, h2, -⟩
  · exact hstop
  · rw [h2] at h
    simp at h

/-- In an arithmetic whose rounding is monotone, odd and idempotent, on the tree built from one
point or from three points and more, the node returned is at the minimal computed squared
distance of the query, and the walk up ends on the root. -/
theorem fp_outside_two_points (A : Arith) (hA : A.Regular) (S : Sorter) (t0 : KdTree) (points : List MPoint)
    (ids : List Int) (q : MPoint) (hn : points.length = 1 ∨ 3 ≤ points.length) :
    (Fp.nearestNode A (build S t0 points ids) q).isNull = false ∧
      Fp.nearestNode A (build S t0 points ids) q ∈ (build S t0 points ids).root.subnodes ∧
      (Fp.nearestNode A (build S t0 points ids) q).point ∈ points ∧
      (∀ p ∈ points, Fp.sqDist A (Fp.nearestNode A (build S t0 points ids) q).point q ≤ Fp.sqDist A p q) ∧
      ((build S t0 points ids).root.isLeaf = true ∨
        ((build S t0 points ids).root.hasLeftChild = true ∧
          (build S t0 points ids).root.hasRightChild = true)) ∧
      (Fp.Stops A (build S t0 points ids).root q → (build S t0 points ids).root.isLeaf = true) ∧
      ((Fp.traverseTree A (build S t0 points ids).root q []).2 = [] →
        (build S t0 points ids).root.isLeaf = true) ∧
      ((build S t0 points ids).root.isLeaf = false →
        ∃ path, (Fp.traverseTree A (build S t0 points ids).root q []).2 =
            path ++ [(build S t0 points ids).root] ∧
          ∀ best, Fp.walkUp A q (Fp.traverseTree A (build S t0 points ids).root q []).2 best =
            Fp.checkSubtree A (build S t0 points ids).root q (Fp.walkUp A q path best).1
              (Fp.walkUp A q path best).2) := by
  have hpos : 0 < points.length := by omega
  have hne : points ≠ [] := List.length_pos.mp hpos
  have hnn : (build S t0 points ids).root.isNull = false := (build_isNull S t0 points ids).mpr hne
  have hmem : Fp.nearestNode A (build S t0 points ids) q ∈ (build S t0 points ids).root.subnodes :=
    fp_nearestNeighbour_mem A _ q hnn
  have hspec := fp_nearestNeighbour_spec A hA (build S t0 points ids).root q hnn (build_kdInv S t0 points ids)
  obtain ⟨d, p, i, lt, rt, heq, hlt, hrt⟩ := build_root_shape S t0 points ids hpos
  have hshape : (build S t0 points ids).root.isLeaf = true ∨
      ((build S t0 points ids).root.hasLeftChild = true ∧
        (build S t0 points ids).root.hasRightChild = true) := by
    rw [heq]
    rcases hn with h1 | h3
    · left
      have hl : lt.isNull = true := isNull_true_of_pairs_length (by rw [hlt, h1])
      have hr : rt.isNull = true := isNull_true_of_pairs_length (by rw [hrt, h1])
      simp [Node.isLeaf, Node.hasLeftChild, Node.hasRightChild, hl, hr]
    · right
      have hl : lt.isNull = false := isNull_false_of_pairs_length (by rw [hlt]; omega)
      have hr : rt.isNull = false := isNull_false_of_pairs_length (by rw [hrt]; omega)
      simp [Node.hasLeftChild, Node.hasRightChild, hl, hr]
  have hstop : Fp.Stops A (build S t0 points ids).root q →
      (build S t0 points ids).root.isLeaf = true := by
    intro hs
    rcases hshape with h | ⟨hl, hr⟩
    · exact h
    · exfalso
      rw [heq] at hs hl hr
      simp only [Node.hasLeftChild, Node.hasRightChild, Bool.not_eq_true'] at hl hr
      obtain ⟨h1, h2⟩ := hs
      by_cases hd : A.rnd (q.get (d % dimensions) - p.get (d % dimensions)) ≤ 0
      · exact h1 ⟨hd, hl⟩
      · exact h2 ⟨not_le.mp hd, hr⟩
  have hpairs : ∀ pr ∈ (build S t0 points ids).root.pairs,
      Fp.sqDist A (Fp.nearestNode A (build S t0 points ids) q).point q ≤ Fp.sqDist A pr.1 q := by
    rcases hspec with h | ⟨hroot, hs⟩
    · exact h
    · have hleaf := hstop hs
      intro pr hpr
      unfold Fp.nearestNode
      rw [hroot]
      rw [heq] at hleaf hpr ⊢
      simp only [Node.isLeaf, Node.hasLeftChild, Node.hasRightChild, Bool.not_not,
        Bool.and_eq_true] at hleaf
      rw [Node.pairs, pairs_of_isNull hleaf.1, pairs_of_isNull hleaf.2] at hpr
      simp only [List.append_nil, List.mem_singleton] at hpr
      rw [hpr]
      exact le_refl _
  have hstored := (build_pairs_perm S t0 points ids).mem_iff.mp (pair_mem_of_mem_subnodes hmem)
  refine ⟨isNull_of_mem_subnodes hmem, hmem, ?_, ?_, hshape, hstop, ?_, ?_⟩
  · obtain ⟨j, -, -, -, hin⟩ := makePointList_mem hstored
    exact hin
  · intro x hx
    obtain ⟨j, -, -, hin⟩ := mem_makePointList ids hx
    exact hpairs (x, decodeId points.length ids j)
      ((build_pairs_perm S t0 points ids).mem_iff.mpr hin)
  · intro h
    exact hstop (fp_traverseTree_stops_of_no_ancestor A (build S t0 points ids).root q hnn h)
  · intro hleaf
    rcases (fp_traverseTree_spec A q (build S t0 points ids).root [] hnn).2 with
      ⟨-, -, hs⟩ | ⟨path, h2, -⟩
    · rw [hstop hs] at hleaf
      exact Bool.noConfusion hleaf
    · refine ⟨path, h2, ?_⟩
      intro best
      rw [h2, fp_walkUp_append A]

end KdTree
end nwave

namespace nwave
namespace KdTree

/-- C2 (amended). Self-distance zero. For every point set, whatever its size and whatever the
identifier array, and every stored point `p`, `nearestNode(p)` returns a node (not `NULL`) of
the tree that holds one of the stored pairs, at the squared distance `0` of `p` as the search
computes it. In exact arithmetic, when no operation on the coordinates rounds, the point of
that node equals `p` (any one of the stored points with these coordinates). In the arithmetic
of `double`, on coordinates that are multiples of `2 ^ -1074` as all doubles are, the computed
squared distance of that node to `p` is `0`: its point is `p` or a point so close that the
squares of the differences underflow. -/
theorem C2_self_distance_zero (S : Sorter) (t0 : KdTree) (points : List MPoint)
    (ids : List Int) (p : MPoint) (hp : p ∈ points) :
    ((nearestNode (build S t0 points ids) p).isNull = false ∧
      (nearestNode (build S t0 points ids) p).point = p ∧
      sqDist (nearestNode (build S t0 points ids) p).point p = 0 ∧
      ((nearestNode (build S t0 points ids) p).point, (nearestNode (build S t0 points ids) p).id)
        ∈ makePointList points ids) ∧
    ((∀ q ∈ points, ∀ axis, axis < 3 → (q.get axis).den ∣ 2 ^ 1074) →
      (Fp.nearestNode Arith.ieee (build S t0 points ids) p).isNull = false ∧
      Fp.sqDist Arith.ieee (Fp.nearestNode Arith.ieee (build S t0 points ids) p).point p = 0 ∧
      ((Fp.nearestNode Arith.ieee (build S t0 points ids) p).point,
        (Fp.nearestNode Arith.ieee (build S t0 points ids) p).id) ∈ makePointList points ids) := by
  refine ⟨nearestNode_stored S t0 points ids p hp, fun hgrid => ?_⟩
  exact fp_nearestNode_stored Arith.ieee S t0 points ids p hp (by decide!)
    (fun q _ => ieee_sqDist_nonneg q p)
    (fun q hq axis haxis =>
      roundDouble_sub_nonpos_iff _ _ (hgrid p hp axis haxis) (hgrid q hq axis haxis))

/-- Witness of C2: on a set of two points queried with the point that becomes the root, in
exact arithmetic; on three points `2 ^ -600` apart queried with the middle one, in the
arithmetic of `double`. -/
theorem C2_self_distance_zero_witness :
    (⟨1, 100, 0⟩ : MPoint) ∈ [(⟨0, 0, 0⟩ : MPoint), ⟨1, 100, 0⟩] ∧
      (nearestNode (build insertionSorter KdTree.new [⟨0, 0, 0⟩, ⟨1, 100, 0⟩] [0, 1])
        ⟨1, 100, 0⟩).point = ⟨1, 100, 0⟩ ∧
      (⟨0, 0, 0⟩ : MPoint) ∈ GetMirrorVerticesIndex.tinyDiagonalPoints ∧
      (∀ q ∈ GetMirrorVerticesIndex.tinyDiagonalPoints, ∀ axis, axis < 3 →
        (q.get axis).den ∣ 2 ^ 1074) ∧
      Fp.sqDist Arith.ieee (Fp.nearestNode Arith.ieee
        (build stdSorter KdTree.new GetMirrorVerticesIndex.tinyDiagonalPoints [0, 1, 2])
        ⟨0, 0, 0⟩).point ⟨0, 0, 0⟩ = 0 :=
  ⟨by decide!,
    (C2_self_distance_zero insertionSorter KdTree.new [⟨0, 0, 0⟩, ⟨1, 100, 0⟩] [0, 1]
      ⟨1, 100, 0⟩ (by decide!)).1.2.1,
    by decide!, by decide!,
    ((C2_self_distance_zero stdSorter KdTree.new GetMirrorVerticesIndex.tinyDiagonalPoints
      [0, 1, 2] ⟨0, 0, 0⟩ (by decide!)).2 (by decide!)).2.1⟩

end KdTree
end nwave

namespace nwave
namespace KdTree

/-- The rounding to `double` is monotone, odd and idempotent. -/
theorem ieee_regular : Arith.ieee.Regular :=
  ⟨roundDouble_mono, roundDouble_neg, roundDouble_idem⟩

/-- The arithmetic without rounding is monotone, odd and idempotent. -/
theorem exact_regular : Arith.exact.Regular :=
  ⟨fun _ _ h => h, fun _ => rfl, fun _ => rfl⟩

/-- C25 (amended). Exactness outside the two-point case, on the squared distances as the
program computes them. For every array of one point or of three points and more, every
identifier array and every query, `nearestNode` on the tree built returns a node of the tree
whose point is one of the array and whose squared distance to the query is minimal among all
the points of the array: the Euclidean squared distance in exact arithmetic, when no operation
on the coordinates rounds (first part), and the squared distance as computed in the arithmetic
of `double` (second part), which two points at different Euclidean distances can share. In
both arithmetics the root of such a tree is a leaf or has both children, so the descent stops
on the root only when the root is a leaf (it is then the only point), and otherwise the chain
of ancestors that the upward loop walks ends with the root, the last call of `checkSubtree`
being on the root. -/
theorem C25_exact_outside_two_points (S : Sorter) (t0 : KdTree) (points : List MPoint)
    (ids : List Int) (q : MPoint) (hn : points.length = 1 ∨ 3 ≤ points.length) :
    ((nearestNode (build S t0 points ids) q).isNull = false ∧
      nearestNode (build S t0 points ids) q ∈ (build S t0 points ids).root.subnodes ∧
      (nearestNode (build S t0 points ids) q).point ∈ points ∧
      (∀ p ∈ points, sqDist (nearestNode (build S t0 points ids) q).point q ≤ sqDist p q) ∧
      ((build S t0 points ids).root.isLeaf = true ∨
        ((build S t0 points ids).root.hasLeftChild = true ∧
          (build S t0 points ids).root.hasRightChild = true)) ∧
      (Stops (build S t0 points ids).root q → (build S t0 points ids).root.isLeaf = true) ∧
      ((traverseTree (build S t0 points ids).root q []).2 = [] →
        (build S t0 points ids).root.isLeaf = true) ∧
      ((build S t0 points ids).root.isLeaf = false →
        ∃ path, (traverseTree (build S t0 points ids).root q []).2 =
            path ++ [(build S t0 points ids).root] ∧
          ∀ best, walkUp q (traverseTree (build S t0 points ids).root q []).2 best =
            checkSubtree (build S t0 points ids).root q (walkUp q path best).1
              (walkUp q path best).2)) ∧
    ((Fp.nearestNode Arith.ieee (build S t0 points ids) q).isNull = false ∧
      Fp.nearestNode Arith.ieee (build S t0 points ids) q ∈
        (build S t0 points ids).root.subnodes ∧
      (Fp.nearestNode Arith.ieee (build S t0 points ids) q).point ∈ points ∧
      (∀ p ∈ points,
        Fp.sqDist Arith.ieee (Fp.nearestNode Arith.ieee (build S t0 points ids) q).point q ≤
          Fp.sqDist Arith.ieee p q) ∧
      (Fp.Stops Arith.ieee (build S t0 points ids).root q →
        (build S t0 points ids).root.isLeaf = true) ∧
      ((Fp.traverseTree Arith.ieee (build S t0 points ids).root q []).2 = [] →
        (build S t0 points ids).root.isLeaf = true) ∧
      ((build S t0 points ids).root.isLeaf = false →
        ∃ path, (Fp.traverseTree Arith.ieee (build S t0 points ids).root q []).2 =
            path ++ [(build S t0 points ids).root] ∧
          ∀ best,
            Fp.walkUp Arith.ieee q
                (Fp.traverseTree Arith.ieee (build S t0 points ids).root q []).2 best =
              Fp.checkSubtree Arith.ieee (build S t0 points ids).root q
                (Fp.walkUp Arith.ieee q path best).1 (Fp.walkUp Arith.ieee q path best).2)) := by
  refine ⟨outside_two_points_exact S t0 points ids q hn, ?_⟩
  obtain ⟨h1, h2, h3, h4, -, h6, h7, h8⟩ :=
    fp_outside_two_points Arith.ieee ieee_regular S t0 points ids q hn
  exact ⟨h1, h2, h3, h4, h6, h7, h8⟩

/-- Witness of C25 on three points, in exact arithmetic and in the arithmetic of `double`; in
the latter on the points `(-1, 2 ^ -30, 0)`, `(0, 1, 0)`, `(5, 5, 5)`, where the node returned
for the origin holds the first point, at the computed squared distance `1` of the origin as
the second point is. -/
theorem C25_exact_outside_two_points_witness :
    ([(⟨0, 0, 0⟩ : MPoint), ⟨1, 0, 0⟩, ⟨5, 5, 5⟩].length = 1 ∨
        3 ≤ [(⟨0, 0, 0⟩ : MPoint), ⟨1, 0, 0⟩, ⟨5, 5, 5⟩].length) ∧
      (∀ p ∈ [(⟨0, 0, 0⟩ : MPoint), ⟨1, 0, 0⟩, ⟨5, 5, 5⟩],
        sqDist (nearestNode (build insertionSorter KdTree.new
          [⟨0, 0, 0⟩, ⟨1, 0, 0⟩, ⟨5, 5, 5⟩] [0, 1, 2]) ⟨2, 0, 0⟩).point ⟨2, 0, 0⟩
          ≤ sqDist p ⟨2, 0, 0⟩) ∧
      (nearTiePoints.length = 1 ∨ 3 ≤ nearTiePoints.length) ∧
      (∀ p ∈ nearTiePoints,
        Fp.sqDist Arith.ieee (Fp.nearestNode Arith.ieee
          (build stdSorter KdTree.new nearTiePoints [0, 1, 2]) ⟨0, 0, 0⟩).point ⟨0, 0, 0⟩
          ≤ Fp.sqDist Arith.ieee p ⟨0, 0, 0⟩) :=
  ⟨by decide,
    (C25_exact_outside_two_points insertionSorter KdTree.new [⟨0, 0, 0⟩, ⟨1, 0, 0⟩, ⟨5, 5, 5⟩]
      [0, 1, 2] ⟨2, 0, 0⟩ (by decide)).1.2.2.2.1,
    by decide,
    (C25_exact_outside_two_points stdSorter KdTree.new nearTiePoints [0, 1, 2] ⟨0, 0, 0⟩
      (by decide)).2.2.2.2.1⟩

end KdTree
end nwave

namespace nwave
namespace KdTree

/-! ## The claims on the search, with the rounding of `double` -/

/-- C2 (counterexample). In the arithmetic of `double` the search for a stored point can return
another point: on the points `(-t, -t, 0)`, `(0, 0, 0)`, `(t, t, 0)` with `t = 2 ^ -600`, the
query `(0, 0, 0)`, which is stored, is answered with the node of `(-t, -t, 0)`, the candidate
of the descent: its computed squared distance underflows to `0`, and no node is strictly
closer than `0`. -/
theorem C2_stored_point_missed_by_underflow :
    (⟨0, 0, 0⟩ : MPoint) ∈ GetMirrorVerticesIndex.tinyDiagonalPoints ∧
      (Fp.nearestNode Arith.ieee
        (build stdSorter KdTree.new GetMirrorVerticesIndex.tinyDiagonalPoints [0, 1, 2])
        ⟨0, 0, 0⟩).point = ⟨-tiny, -tiny, 0⟩ ∧
      (Fp.nearestNode Arith.ieee
        (build stdSorter KdTree.new GetMirrorVerticesIndex.tinyDiagonalPoints [0, 1, 2])
        ⟨0, 0, 0⟩).id = IdPoint.mk1 0 ∧
      (⟨-tiny, -tiny, 0⟩ : MPoint) ≠ ⟨0, 0, 0⟩ ∧
      Fp.sqDist Arith.ieee ⟨-tiny, -tiny, 0⟩ ⟨0, 0, 0⟩ = 0 ∧
      0 < sqDist ⟨-tiny, -tiny, 0⟩ ⟨0, 0, 0⟩ := by
  decide!

/-- C22 (amended). Tie-breaking, first found wins, on the distances as the program computes
them. In every arithmetic (the one of `double` included), on every non-empty tree and for every
query: when no stored point has a computed squared distance strictly smaller than the one of
the candidate returned by the descent `traverseTree` (in particular when the point of the
candidate equals the query, where `nearestNeighbour` returns at once), `nearestNode` returns
that candidate. For `checkSubtree` replaces the current best only by a node whose computed
squared distance is strictly smaller: the pair it returns is the pair it was given or holds a
strictly smaller value, and a subtree without such a point leaves the pair unchanged. -/
theorem C22_first_found_wins (A : Arith) (tr : KdTree) (q : MPoint)
    (ht : tr.root.isNull = false)
    (hmin : ∀ pr ∈ tr.root.pairs,
      Fp.sqDist A (Fp.traverseTree A tr.root q []).1.point q ≤ Fp.sqDist A pr.1 q) :
    Fp.nearestNode A tr q = (Fp.traverseTree A tr.root q []).1 ∧
      (∀ (t n : Node) (m : ℚ), t.isNull = false →
        Fp.checkSubtree A t q n m = (n, m) ∨ (Fp.checkSubtree A t q n m).2 < m) ∧
      (∀ (t n : Node) (m : ℚ), t.isNull = false → (∀ pr ∈ t.pairs, m ≤ Fp.sqDist A pr.1 q) →
        Fp.checkSubtree A t q n m = (n, m)) ∧
      ((Fp.traverseTree A tr.root q []).1.point = q →
        Fp.nearestNode A tr q = (Fp.traverseTree A tr.root q []).1) := by
  refine ⟨fp_nearestNeighbour_first_found A tr.root q ht hmin, fp_checkSubtree_strict A q,
    fp_checkSubtree_no_improve A q, ?_⟩
  intro heq
  unfold Fp.nearestNode Fp.nearestNeighbour
  rw [if_neg (by simp [ht])]
  simp only [heq, if_true]

/-- Witness of C22 in the arithmetic of `double`: the points `(-1, 0, 0)` and `(1, 0, 0)` are
both at the computed squared distance 1 of the query `(0, 0, 0)`; the descent ends on the first
one, which is the answer. -/
theorem C22_first_found_wins_witness :
    (build stdSorter KdTree.new [⟨-1, 0, 0⟩, ⟨0, 5, 0⟩, ⟨1, 0, 0⟩] [0, 1, 2]).root.isNull
        = false ∧
      Fp.nearestNode Arith.ieee
          (build stdSorter KdTree.new [⟨-1, 0, 0⟩, ⟨0, 5, 0⟩, ⟨1, 0, 0⟩] [0, 1, 2])
          ⟨0, 0, 0⟩ =
        (Fp.traverseTree Arith.ieee (build stdSorter KdTree.new
          [⟨-1, 0, 0⟩, ⟨0, 5, 0⟩, ⟨1, 0, 0⟩] [0, 1, 2]).root ⟨0, 0, 0⟩ []).1 :=
  ⟨by decide!,
    (C22_first_found_wins Arith.ieee
      (build stdSorter KdTree.new [⟨-1, 0, 0⟩, ⟨0, 5, 0⟩, ⟨1, 0, 0⟩] [0, 1, 2]) ⟨0, 0, 0⟩
      (by decide!) (by decide!)).1⟩

/-- C22 (counterexample). On the points `(-1, 12e, 0)`, `(0, 100, 0)`, `(1, 11e, 11e)` with
`e = 2 ^ -30` and the query `(0, 0, 0)`, the candidate of the descent is the first point, which
is strictly the nearest stored point (squared distances `1 + 144 e^2 < 1 + 242 e^2 < 10000`).
In the arithmetic of `double` its squared distance is computed as `1 + 2 ^ -52`, and the one of
the third point as `1`: `checkSubtree` replaces the candidate, and `nearestNode` returns the
third point. -/
theorem C22_candidate_replaced_by_farther_point :
    (Fp.traverseTree Arith.ieee
        (build stdSorter KdTree.new roundedTiePoints [0, 1, 2]).root ⟨0, 0, 0⟩ []).1.point
        = ⟨-1, 12 * small, 0⟩ ∧
      (∀ p ∈ roundedTiePoints, p ≠ ⟨-1, 12 * small, 0⟩ →
        sqDist ⟨-1, 12 * small, 0⟩ ⟨0, 0, 0⟩ < sqDist p ⟨0, 0, 0⟩) ∧
      Fp.sqDist Arith.ieee ⟨-1, 12 * small, 0⟩ ⟨0, 0, 0⟩ = 1 + 1 / 2 ^ 52 ∧
      Fp.sqDist Arith.ieee ⟨1, 11 * small, 11 * small⟩ ⟨0, 0, 0⟩ = 1 ∧
      (Fp.nearestNode Arith.ieee (build stdSorter KdTree.new roundedTiePoints [0, 1, 2])
        ⟨0, 0, 0⟩).point = ⟨1, 11 * small, 11 * small⟩ ∧
      (nearestNode (build stdSorter KdTree.new roundedTiePoints [0, 1, 2])
        ⟨0, 0, 0⟩).point = ⟨-1, 12 * small, 0⟩ := by
  decide!

/-- C25 (counterexample). On the three points `(-1, e, 0)`, `(0, 1, 0)`, `(5, 5, 5)` with
`e = 2 ^ -30` and the query `(0, 0, 0)`, the second point is strictly the nearest (squared
distance `1` against `1 + e^2`). In the arithmetic of `double` `1 + e^2` is computed as `1`, the
test `dist < minDist` fails at the root and `nearestNode` returns the first point, the
candidate of the descent. -/
theorem C25_nearer_point_lost_by_rounding :
    nearTiePoints.length = 3 ∧ (⟨0, 1, 0⟩ : MPoint) ∈ nearTiePoints ∧
      (Fp.nearestNode Arith.ieee (build stdSorter KdTree.new nearTiePoints [0, 1, 2])
        ⟨0, 0, 0⟩).point = ⟨-1, small, 0⟩ ∧
      sqDist ⟨0, 1, 0⟩ ⟨0, 0, 0⟩ < sqDist ⟨-1, small, 0⟩ ⟨0, 0, 0⟩ ∧
      Fp.sqDist Arith.ieee ⟨-1, small, 0⟩ ⟨0, 0, 0⟩ = 1 ∧
      (nearestNode (build stdSorter KdTree.new nearTiePoints [0, 1, 2])
        ⟨0, 0, 0⟩).point = ⟨0, 1, 0⟩ := by
  decide!

end KdTree
end nwave

namespace nwave
namespace GetMirrorVerticesIndex

/-! ## The claims on the results of the command, with the rounding of `double` -/

theorem exact_sqrtLe_mono (d t1 t2 : ℚ) (h : t1 ≤ t2) (h1 : Arith.exact.sqrtLe d t1 = true) :
    Arith.exact.sqrtLe d t2 = true :=
  sqrtLe_mono h h1

theorem ieee_sqrtLe_mono (d t1 t2 : ℚ) (h : t1 ≤ t2) (h1 : Arith.ieee.sqrtLe d t1 = true) :
    Arith.ieee.sqrtLe d t2 = true := by
  simp only [Arith.ieee, decide_eq_true_eq] at h1 ⊢
  exact le_trans h1 h

theorem fp_mirrorEntry_threshold (A : Arith) (c : GetMirrorVerticesIndex) (t : ℚ)
    (p : MPoint) :
    Fp.mirrorEntry A { c with threshold := t } p =
      if (Fp.nearestNode A c.tree (Fp.mirroredPos A c p)).isNull = false ∧
          A.sqrtLe (Fp.sqDist A (Fp.mirroredPos A c p)
            (Fp.nearestNode A c.tree (Fp.mirroredPos A c p)).point) t = true
      then (linearize c (Fp.nearestNode A c.tree (Fp.mirroredPos A c p)).id).getD (-2)
      else -2 := rfl

theorem fp_mirrorSearch_eq_map (A : Arith) (c : GetMirrorVerticesIndex)
    (hty : c.objectType ≠ .NO_TYPE) (prev : List Int) :
    Fp.mirrorSearch A c prev = (.kSuccess, c.points.map (Fp.mirrorEntry A c)) := by
  have hloop := fp_mirrorSearchLoop_range A c hty
  unfold Fp.mirrorSearch
  simp only [hloop]

/-- C3 (counterexample). In the arithmetic of `double` the reflection in world space is
rounded and can miss the stored partner. The mesh `(5, 0, 0)`, `(2a - 5, 0, 0)`, `(a, 0, 0)`
with `a = 1 + 2 ^ -52` has pairwise distinct vertices and is closed under the reflection about
the plane `x = a`; with the pivot `(a, 0, 0)` in world space and the threshold 0, the
reflection of the first vertex is computed as `a + -(5 - a) = -3`, which is not `2a - 5`, and
the result is `[-2, 0, 2]` where the round trip is `[1, 0, 2]`. -/
theorem C3_world_space_reflection_rounds :
    (loaded KdTree.stdSorter offCentreFlags offCentreMesh).points.Nodup ∧
      (∀ p ∈ (loaded KdTree.stdSorter offCentreFlags offCentreMesh).points,
        mirroredPos (loaded KdTree.stdSorter offCentreFlags offCentreMesh) p ∈
          (loaded KdTree.stdSorter offCentreFlags offCentreMesh).points) ∧
      0 ≤ (loaded KdTree.stdSorter offCentreFlags offCentreMesh).threshold ∧
      Fp.mirroredPos Arith.ieee (loaded KdTree.stdSorter offCentreFlags offCentreMesh)
        ⟨5, 0, 0⟩ = ⟨-3, 0, 0⟩ ∧
      Fp.mirrorSearch Arith.ieee (loaded KdTree.stdSorter offCentreFlags offCentreMesh) []
        = (.kSuccess, [-2, 0, 2]) ∧
      mirrorSearch (loaded KdTree.stdSorter offCentreFlags offCentreMesh) []
        = (.kSuccess, [1, 0, 2]) := by
  decide!

/-- C6 (amended). Mirror-mode result, on the distance as the program computes it. In every
arithmetic (the one of `double` included) and for the four object types, `mirrorSearch`
succeeds and returns exactly one entry per point, in input order; entry `i` is `mirrorEntry` of
`points[i]`, that is the linearized identifier of `nearestNode(reflect(points[i]))` when that
node exists and the computed distance `sqrt(pow + pow + pow)` to the computed reflected
position passes the test `dist <= threshold`, and `-2` otherwise; it depends on `points[i]`,
the tree and the configuration only. The loop ends with every `setIds` flag at `1`: each index
is processed once and the skip never fires. `redoIt` in mirror mode sets that array as the
result. The test is `sqrtDouble d2 <= t` in the arithmetic of `double`, and the comparison of
the Euclidean distance with the threshold in exact arithmetic. -/
theorem C6_mirror_mode_result (A : Arith) (c : GetMirrorVerticesIndex) (prev : List Int)
    (hty : c.objectType ≠ .NO_TYPE) :
    Fp.mirrorSearch A c prev = (.kSuccess, c.points.map (Fp.mirrorEntry A c)) ∧
      (Fp.mirrorSearch A c prev).2.length = c.points.length ∧
      Fp.mirrorSearchLoop A c (List.range c.points.length)
          (List.replicate c.points.length 0, List.replicate c.points.length (-2)) =
        .ok (List.replicate c.points.length 1, c.points.map (Fp.mirrorEntry A c)) ∧
      (∀ p : MPoint,
        ((Fp.nearestNode A c.tree (Fp.mirroredPos A c p)).isNull = false ∧
            A.sqrtLe (Fp.sqDist A (Fp.mirroredPos A c p)
              (Fp.nearestNode A c.tree (Fp.mirroredPos A c p)).point) c.threshold = true →
          linearize c (Fp.nearestNode A c.tree (Fp.mirroredPos A c p)).id
            = some (Fp.mirrorEntry A c p)) ∧
        (¬ ((Fp.nearestNode A c.tree (Fp.mirroredPos A c p)).isNull = false ∧
            A.sqrtLe (Fp.sqDist A (Fp.mirroredPos A c p)
              (Fp.nearestNode A c.tree (Fp.mirroredPos A c p)).point) c.threshold = true) →
          Fp.mirrorEntry A c p = -2)) ∧
      (c.usePosition = false → c.useMirror = true →
        Fp.redoIt A c = (.kSuccess, some (c.points.map (Fp.mirrorEntry A c)))) ∧
      (∀ d2 t : ℚ, Arith.ieee.sqrtLe d2 t = true ↔ sqrtDouble d2 ≤ t) ∧
      (∀ d2 t : ℚ, Arith.exact.sqrtLe d2 t = true ↔ Real.sqrt (d2 : ℝ) ≤ (t : ℝ)) := by
  have hloop := fp_mirrorSearchLoop_range A c hty
  have hms := fp_mirrorSearch_eq_map A c hty
  refine ⟨hms prev, ?_, hloop, ?_, ?_, ?_, ?_⟩
  · rw [hms prev]
    simp
  · intro p
    constructor
    · intro hcond
      obtain ⟨v, hv⟩ := linearize_isSome c hty
        (Fp.nearestNode A c.tree (Fp.mirroredPos A c p)).id
      unfold Fp.mirrorEntry
      rw [if_pos hcond, hv]
      rfl
    · intro hnot
      unfold Fp.mirrorEntry
      rw [if_neg hnot]
  · intro hp hm
    unfold Fp.redoIt
    rw [if_neg (by simp [hp]), if_pos hm, hms []]
  · intro d2 t
    simp [Arith.ieee]
  · intro d2 t
    exact sqrtLe_iff_real_sqrt_le d2 t

/-- Witness of C6 in the arithmetic of `double`, on a mesh with vertices `2 ^ -600` apart. -/
theorem C6_mirror_mode_result_witness :
    (loaded KdTree.stdSorter mirrorXFlags tinyAsymmetricMesh).objectType ≠ .NO_TYPE ∧
      (Fp.mirrorSearch Arith.ieee
        (loaded KdTree.stdSorter mirrorXFlags tinyAsymmetricMesh) []).2.length = 3 :=
  ⟨by decide!,
    (C6_mirror_mode_result Arith.ieee
      (loaded KdTree.stdSorter mirrorXFlags tinyAsymmetricMesh) [] (by decide!)).2.1⟩

/-- C6 (counterexample). On the mesh `(t, 0, 0)`, `(0, 7, 0)`, `(-2t, 0, 0)` with `t = 2 ^ -600`,
mirrored along X in object space with the threshold 0, the reflection `(-t, 0, 0)` of the first
vertex has the third vertex as nearest node, at the Euclidean distance `t > 0`: the entry would
be `-2`. In the arithmetic of `double` the squared distance underflows to `0`, the test
`dist <= threshold` passes and the entry is `2`; the result is `[2, 1, 0]`, not
`[-2, 1, -2]`. -/
theorem C6_underflow_passes_threshold :
    Fp.mirrorSearch Arith.ieee (loaded KdTree.stdSorter mirrorXFlags tinyAsymmetricMesh) []
        = (.kSuccess, [2, 1, 0]) ∧
      (Fp.nearestNode Arith.ieee
        (loaded KdTree.stdSorter mirrorXFlags tinyAsymmetricMesh).tree
        ⟨-tiny, 0, 0⟩).point = ⟨-2 * tiny, 0, 0⟩ ∧
      sqrtLe (sqDist ⟨-tiny, 0, 0⟩ ⟨-2 * tiny, 0, 0⟩) 0 = false ∧
      Fp.sqDist Arith.ieee ⟨-tiny, 0, 0⟩ ⟨-2 * tiny, 0, 0⟩ = 0 ∧
      mirrorSearch (loaded KdTree.stdSorter mirrorXFlags tinyAsymmetricMesh) []
        = (.kSuccess, [-2, 1, -2]) := by
  decide!

/-- C7 (amended). Position-mode result on a non-empty index, on the distance as the program
computes it. In every arithmetic (the one of `double` included) `nearestNode(searchPosition)`
is a node `m`; when the computed distance `sqrt(pow + pow + pow)` of `m` to `searchPosition`
passes the test `dist > threshold` the result is `-2` repeated `k` times, otherwise it is the
first `k` components of the identifier of `m`, with `k = 1` for a mesh or a curve, `2` for a
surface, `3` for a lattice. The test is `threshold < sqrtDouble d2` in the arithmetic of
`double`, and the comparison of the threshold with the Euclidean distance in exact
arithmetic. -/
theorem C7_position_mode_result (A : Arith) (c : GetMirrorVerticesIndex)
    (hpos : c.usePosition = true) (hbuilt : c.tree.isBuilt = true)
    (hty : c.objectType ≠ .NO_TYPE) :
    (Fp.nearestNode A c.tree c.searchPosition).isNull = false ∧
      (A.sqrtGt (Fp.sqDist A c.searchPosition (Fp.nearestNode A c.tree c.searchPosition).point)
          c.threshold = true →
        Fp.redoIt A c = (.kSuccess, some (List.replicate (idArity c.objectType) (-2)))) ∧
      (A.sqrtGt (Fp.sqDist A c.searchPosition (Fp.nearestNode A c.tree c.searchPosition).point)
          c.threshold = false →
        Fp.redoIt A c = (.kSuccess, some
          (([(Fp.nearestNode A c.tree c.searchPosition).id.x,
            (Fp.nearestNode A c.tree c.searchPosition).id.y,
            (Fp.nearestNode A c.tree c.searchPosition).id.z].take
              (idArity c.objectType)).map toInt32))) ∧
      (idArity .MESH = 1 ∧ idArity .NURBS_CURVE = 1 ∧ idArity .NURBS_SURFACE = 2 ∧
        idArity .LATTICE = 3) ∧
      (∀ d2 t : ℚ, Arith.ieee.sqrtGt d2 t = true ↔ t < sqrtDouble d2) ∧
      (∀ d2 t : ℚ, Arith.exact.sqrtGt d2 t = true ↔ (t : ℝ) < Real.sqrt (d2 : ℝ)) := by
  have hroot : c.tree.root.isNull = false := by
    unfold KdTree.isBuilt at hbuilt
    simpa using hbuilt
  have hnn : (Fp.nearestNode A c.tree c.searchPosition).isNull = false :=
    KdTree.isNull_of_mem_subnodes (KdTree.fp_nearestNeighbour_mem A _ _ hroot)
  refine ⟨hnn, ?_, ?_, ⟨rfl, rfl, rfl, rfl⟩, ?_, ?_⟩
  · intro hgt
    unfold Fp.redoIt Fp.positionResult
    simp only [hpos, if_true, hnn, Bool.not_false, hgt]
    cases h : c.objectType
    · exact absurd h hty
    all_goals rfl
  · intro hgt
    unfold Fp.redoIt Fp.positionResult
    simp only [hpos, if_true, hnn, Bool.not_false, hgt, Bool.false_eq_true, if_false]
    cases h : c.objectType
    · exact absurd h hty
    all_goals rfl
  · intro d2 t
    simp [Arith.ieee]
  · intro d2 t
    exact sqrtGt_iff_real_lt_sqrt d2 t

/-- Witness of C7 in the arithmetic of `double`, on the mesh of one vertex `(1, 2 ^ -30, 0)`
searched from the origin. -/
theorem C7_position_mode_result_witness :
    (loaded KdTree.stdSorter originFlags nearUnitMesh).usePosition = true ∧
      (loaded KdTree.stdSorter originFlags nearUnitMesh).tree.isBuilt = true ∧
      (loaded KdTree.stdSorter originFlags nearUnitMesh).objectType ≠ .NO_TYPE ∧
      (Fp.nearestNode Arith.ieee (loaded KdTree.stdSorter originFlags nearUnitMesh).tree
        (loaded KdTree.stdSorter originFlags nearUnitMesh).searchPosition).isNull
        = false :=
  ⟨by decide!, by decide!, by decide!,
    (C7_position_mode_result Arith.ieee (loaded KdTree.stdSorter originFlags nearUnitMesh)
      (by decide!) (by decide!) (by decide!)).1⟩

/-- C7 (counterexample). On the mesh of the single vertex `(1, 2 ^ -30, 0)`, position mode at
the origin with the threshold 1: the Euclidean distance `sqrt(1 + 2 ^ -60)` exceeds the
threshold, so the result would be `[-2]`. In the arithmetic of `double` the squared distance
is computed as `1`, its root as `1`, the test `dist > threshold` fails and the result is
`[0]`. -/
theorem C7_rounded_distance_within_threshold :
    Fp.loadBuildRedo Arith.ieee KdTree.stdSorter originFlags nearUnitMesh
        = (.kSuccess, some [0]) ∧
      sqrtGt (sqDist ⟨0, 0, 0⟩ ⟨1, small, 0⟩) 1 = true ∧
      Fp.sqDist Arith.ieee ⟨0, 0, 0⟩ ⟨1, small, 0⟩ = 1 ∧ sqrtDouble 1 = 1 ∧
      loadBuildRedo KdTree.stdSorter originFlags nearUnitMesh = (.kSuccess, some [-2]) := by
  decide!

/-- C11 (amended). Threshold rejection is monotone, on the distance as the program computes it.
In every arithmetic whose test `dist <= threshold` is monotone in the threshold (the exact one
and the one of `double` are), for thresholds `t1 <= t2` on the same points, tree, axis and
pivot, the two results have one entry per point; every entry under `t1` is `-2` or equal to the
entry under `t2`, and it is equal to the entry under `t2` whenever the computed distance of the
nearest node to the computed reflected point passes the test against `t1`. -/
theorem C11_threshold_monotone (A : Arith) (c : GetMirrorVerticesIndex) (t1 t2 : ℚ)
    (prev1 prev2 : List Int) (hty : c.objectType ≠ .NO_TYPE) (h : t1 ≤ t2)
    (hA : ∀ d t t', t ≤ t' → A.sqrtLe d t = true → A.sqrtLe d t' = true) :
    (Fp.mirrorSearch A { c with threshold := t1 } prev1).1 = .kSuccess ∧
      (Fp.mirrorSearch A { c with threshold := t2 } prev2).1 = .kSuccess ∧
      (Fp.mirrorSearch A { c with threshold := t1 } prev1).2.length = c.points.length ∧
      (Fp.mirrorSearch A { c with threshold := t2 } prev2).2.length = c.points.length ∧
      ∀ i, ∀ hi : i < c.points.length,
        ∃ e1 e2, (Fp.mirrorSearch A { c with threshold := t1 } prev1).2[i]? = some e1 ∧
          (Fp.mirrorSearch A { c with threshold := t2 } prev2).2[i]? = some e2 ∧
          (e1 = -2 ∨ e1 = e2) ∧
          (A.sqrtLe (Fp.sqDist A (Fp.mirroredPos A c c.points[i])
              (Fp.nearestNode A c.tree (Fp.mirroredPos A c c.points[i])).point) t1 = true →
            e1 = e2) := by
  have hm1 : Fp.mirrorSearch A { c with threshold := t1 } prev1 =
      (.kSuccess, c.points.map (Fp.mirrorEntry A { c with threshold := t1 })) :=
    fp_mirrorSearch_eq_map A { c with threshold := t1 } hty prev1
  have hm2 : Fp.mirrorSearch A { c with threshold := t2 } prev2 =
      (.kSuccess, c.points.map (Fp.mirrorEntry A { c with threshold := t2 })) :=
    fp_mirrorSearch_eq_map A { c with threshold := t2 } hty prev2
  rw [hm1, hm2]
  refine ⟨rfl, rfl, by simp, by simp, ?_⟩
  intro i hi
  refine ⟨Fp.mirrorEntry A { c with threshold := t1 } c.points[i],
    Fp.mirrorEntry A { c with threshold := t2 } c.points[i], by simp [hi], by simp [hi], ?_, ?_⟩
  · rw [fp_mirrorEntry_threshold, fp_mirrorEntry_threshold]
    by_cases h1 : (Fp.nearestNode A c.tree (Fp.mirroredPos A c c.points[i])).isNull = false ∧
        A.sqrtLe (Fp.sqDist A (Fp.mirroredPos A c c.points[i])
          (Fp.nearestNode A c.tree (Fp.mirroredPos A c c.points[i])).point) t1 = true
    · right
      rw [if_pos h1, if_pos ⟨h1.1, hA _ _ _ h h1.2⟩]
    · left
      rw [if_neg h1]
  · intro hle1
    have hle2 := hA _ _ _ h hle1
    rw [fp_mirrorEntry_threshold, fp_mirrorEntry_threshold]
    by_cases hn : (Fp.nearestNode A c.tree (Fp.mirroredPos A c c.points[i])).isNull = false
    · rw [if_pos ⟨hn, hle1⟩, if_pos ⟨hn, hle2⟩]
    · rw [if_neg (fun hh => hn hh.1), if_neg (fun hh => hn hh.1)]

/-- Witness of C11 in the arithmetic of `double`, on the mesh and the two thresholds of the
counterexample. -/
theorem C11_threshold_monotone_witness :
    (loaded KdTree.stdSorter mirrorXFlags boundaryMesh).objectType ≠ .NO_TYPE ∧
      boundaryThreshold ≤ 1 ∧
      (Fp.mirrorSearch Arith.ieee { loaded KdTree.stdSorter mirrorXFlags boundaryMesh with
          threshold := boundaryThreshold } []).1 = .kSuccess :=
  ⟨by decide!, by decide!,
    (C11_threshold_monotone Arith.ieee (loaded KdTree.stdSorter mirrorXFlags boundaryMesh)
      boundaryThreshold 1 [] [] (by decide!) (by decide!) ieee_sqrtLe_mono).1⟩

/-- C11 (counterexample). On the mesh `boundaryMesh` mirrored along X in object space, the
reflection of the second vertex has the first vertex `(0, 0, 0)` as nearest node, at a
Euclidean distance that is at most `t1 = 0.9811040126147056`. In the arithmetic of `double` the
distance is computed as the next double above `t1`: the entry is `-2` under `t1` and `0` under
`t2 = 1`, so that the entry under `t1` is not the entry under `t2` although the Euclidean
distance is at most `t1`. -/
theorem C11_boundary_distance_rounds_up :
    Fp.mirrorSearch Arith.ieee { loaded KdTree.stdSorter mirrorXFlags boundaryMesh with
        threshold := boundaryThreshold } [] = (.kSuccess, [0, -2, -2]) ∧
      Fp.mirrorSearch Arith.ieee { loaded KdTree.stdSorter mirrorXFlags boundaryMesh with
        threshold := 1 } [] = (.kSuccess, [0, 0, -2]) ∧
      (Fp.nearestNode Arith.ieee (loaded KdTree.stdSorter mirrorXFlags boundaryMesh).tree
        ⟨3513706503107085 / 4503599627370496, 840097039091705 / 4503599627370496,
          5087727535961581 / 9007199254740992⟩).point = ⟨0, 0, 0⟩ ∧
      sqrtLe (sqDist ⟨3513706503107085 / 4503599627370496, 840097039091705 / 4503599627370496,
        5087727535961581 / 9007199254740992⟩ ⟨0, 0, 0⟩) boundaryThreshold = true ∧
      boundaryThreshold < sqrtDouble (Fp.sqDist Arith.ieee
        ⟨3513706503107085 / 4503599627370496, 840097039091705 / 4503599627370496,
          5087727535961581 / 9007199254740992⟩ ⟨0, 0, 0⟩) ∧
      boundaryThreshold ≤ 1 := by
  decide!

/-- C30 (counterexample). On the mesh `(-t, 0, 0)`, `(0, 0, 0)`, `(t, 0, 0)` with `t = 2 ^ -600`,
whose vertices are pairwise distinct and closed under the reflection along X in object space,
with the threshold 0: in the arithmetic of `double` the search for the reflection of the second
vertex, which is the vertex itself, stops on the first vertex, whose computed squared distance
underflows to `0`. The result is `[2, 0, 0]`: `r[1] = 0` although the vertex 1 is on the mirror
plane, and `r[r[1]] = r[0] = 2`. -/
theorem C30_underflow_breaks_involution :
    (loaded KdTree.stdSorter mirrorXFlags tinySymmetricMesh).points.Nodup ∧
      (∀ p ∈ (loaded KdTree.stdSorter mirrorXFlags tinySymmetricMesh).points,
        mirroredPos (loaded KdTree.stdSorter mirrorXFlags tinySymmetricMesh) p ∈
          (loaded KdTree.stdSorter mirrorXFlags tinySymmetricMesh).points) ∧
      0 ≤ (loaded KdTree.stdSorter mirrorXFlags tinySymmetricMesh).threshold ∧
      Fp.mirrorSearch Arith.ieee (loaded KdTree.stdSorter mirrorXFlags tinySymmetricMesh)
        [] = (.kSuccess, [2, 0, 0]) ∧
      onMirrorPlane (loaded KdTree.stdSorter mirrorXFlags tinySymmetricMesh) ⟨0, 0, 0⟩
        = true ∧
      mirrorSearch (loaded KdTree.stdSorter mirrorXFlags tinySymmetricMesh) []
        = (.kSuccess, [2, 1, 0]) := by
  decide!

end GetMirrorVerticesIndex
end nwave

namespace nwave
namespace GetMirrorVerticesIndex

/-! ## The mirror search on a closed set, in the arithmetic of `double` -/

/-- In object space the reflection is a change of sign, which no arithmetic rounds. -/
theorem fp_mirroredPos_objectSpace (A : Arith) (c : GetMirrorVerticesIndex) (p : MPoint)
    (h : c.useWorldspace = false) : Fp.mirroredPos A c p = mirroredPos c p := by
  unfold Fp.mirroredPos mirroredPos
  simp [h]

/-- After `doIt` has loaded a shape of fewer than `2^31` points with coordinates multiples of
`2 ^ -1074`, in the arithmetic of `double` the entry of a point whose computed reflection is a
stored point is the index of a stored point at the computed squared distance `0` of that
reflection. -/
theorem ieee_mirrorEntry_of_stored (S : KdTree.Sorter) (c0 : GetMirrorVerticesIndex)
    (shape : Shape) (c : GetMirrorVerticesIndex) (hload : loadAndBuild S c0 shape = .ok c)
    (hthr : 0 ≤ c.threshold) (hsize : c.points.length < 2147483648)
    (hgrid : ∀ q ∈ c.points, ∀ axis, axis < 3 → (q.get axis).den ∣ 2 ^ 1074)
    (p : MPoint) (hp : Fp.mirroredPos Arith.ieee c p ∈ c.points) :
    ∃ j, ∃ hj : j < c.points.length,
      Fp.sqDist Arith.ieee c.points[j] (Fp.mirroredPos Arith.ieee c p) = 0 ∧
      Fp.mirrorEntry Arith.ieee c p = (j : Int) := by
  obtain ⟨c1, ids, hshape, hne, rfl⟩ := loadAndBuild_ok S c0 shape c hload
  simp only at hthr hsize hp hgrid ⊢
  generalize hm : Fp.mirroredPos Arith.ieee
    { c1 with tree := KdTree.build S c1.tree c1.points ids } p = m at hp ⊢
  have hst := KdTree.fp_nearestNode_stored Arith.ieee S c1.tree c1.points ids m hp (by decide!)
    (fun q _ => ieee_sqDist_nonneg q m)
    (fun q hq axis haxis =>
      roundDouble_sub_nonpos_iff _ _ (hgrid m hp axis haxis) (hgrid q hq axis haxis))
  obtain ⟨hnn, hd0, hmem⟩ := hst
  obtain ⟨j, hj, hgetD, hid, -⟩ := KdTree.makePointList_mem hmem
  simp only at hgetD hid
  have hlin := (loadShape_decode _ shape c1 ids hshape hsize j hj).2.2.2.2
  have hlin2 : linearize { c1 with tree := KdTree.build S c1.tree c1.points ids }
      (Fp.nearestNode Arith.ieee (KdTree.build S c1.tree c1.points ids) m).id
      = some (j : Int) := by
    rw [hid]
    exact hlin
  refine ⟨j, hj, ?_, ?_⟩
  · rw [← List.getD_eq_getElem _ ⟨0, 0, 0⟩ hj, hgetD]
    exact hd0
  · unfold Fp.mirrorEntry
    simp only [hm]
    rw [if_pos, hlin2]
    · rfl
    · refine ⟨hnn, ?_⟩
      rw [ieee_sqDist_comm, hd0]
      simp only [Arith.ieee, sqrtDouble_zero, decide_eq_true_eq]
      exact hthr

/-- C3 (amended). Mirror round-trip. After `doIt` has loaded a shape whose points (fewer than
`2^31`) are pairwise distinct and closed under the reflection of the command, and with a
threshold `>= 0`: in exact arithmetic, when no operation on the coordinates rounds,
`mirrorSearch` succeeds with one entry per point; whenever `points[j]` is the reflection of
`points[i]`, entry `i` is `j`, which is the linearized identifier of the tree node holding
that point; every point has such a partner, and no entry is `-2`. In the arithmetic of
`double`, on coordinates that are multiples of `2 ^ -1074` as all doubles are, when the
reflection of every point as the program computes it is a stored point (it is so in object
space, where the reflection is a change of sign), `mirrorSearch` succeeds with one entry per
point, entry `i` is the index of a stored point at the computed squared distance `0` of the
computed reflection of `points[i]`, and no entry is `-2`. -/
theorem C3_mirror_round_trip (S : KdTree.Sorter) (c0 : GetMirrorVerticesIndex) (shape : Shape)
    (c : GetMirrorVerticesIndex) (hload : loadAndBuild S c0 shape = .ok c)
    (hdistinct : c.points.Nodup) (hclosed : ∀ p ∈ c.points, mirroredPos c p ∈ c.points)
    (hthr : 0 ≤ c.threshold) (hsize : c.points.length < 2147483648) (prev : List Int) :
    (∃ r, mirrorSearch c prev = (.kSuccess, r) ∧ r.length = c.points.length ∧
      (∀ i j, ∀ hi : i < c.points.length, ∀ hj : j < c.points.length,
        c.points[j] = mirroredPos c c.points[i] →
          r[i]? = some (j : Int) ∧
          ∃ nd ∈ c.tree.root.subnodes, nd.point = c.points[j] ∧
            linearize c nd.id = some (j : Int)) ∧
      (∀ i, ∀ hi : i < c.points.length, ∃ j, ∃ hj : j < c.points.length,
        c.points[j] = mirroredPos c c.points[i]) ∧
      (∀ x ∈ r, x ≠ -2)) ∧
    ((∀ q ∈ c.points, ∀ axis, axis < 3 → (q.get axis).den ∣ 2 ^ 1074) →
      (c.useWorldspace = false ∨ ∀ p ∈ c.points, Fp.mirroredPos Arith.ieee c p ∈ c.points) →
      ∃ r, Fp.mirrorSearch Arith.ieee c prev = (.kSuccess, r) ∧ r.length = c.points.length ∧
        (∀ i, ∀ hi : i < c.points.length, ∃ j, ∃ hj : j < c.points.length,
          r[i]? = some (j : Int) ∧
          Fp.sqDist Arith.ieee c.points[j] (Fp.mirroredPos Arith.ieee c c.points[i]) = 0) ∧
        (∀ x ∈ r, x ≠ -2)) := by
  refine ⟨mirror_round_trip_exact S c0 shape c hload hdistinct hclosed hthr hsize prev, ?_⟩
  intro hgrid hspace
  have hclosed2 : ∀ p ∈ c.points, Fp.mirroredPos Arith.ieee c p ∈ c.points := by
    rcases hspace with hobj | h
    · intro p hp
      rw [fp_mirroredPos_objectSpace Arith.ieee c p hobj]
      exact hclosed p hp
    · exact h
  have hms := fp_mirrorSearch_eq_map Arith.ieee c (loadAndBuild_objectType S c0 shape c hload)
    prev
  refine ⟨c.points.map (Fp.mirrorEntry Arith.ieee c), hms, by simp, ?_, ?_⟩
  · intro i hi
    obtain ⟨j, hj, hd, he⟩ := ieee_mirrorEntry_of_stored S c0 shape c hload hthr hsize hgrid
      c.points[i] (hclosed2 _ (List.getElem_mem hi))
    refine ⟨j, hj, ?_, hd⟩
    rw [List.getElem?_map, List.getElem?_eq_getElem hi]
    simp only [Option.map_some']
    rw [he]
  · intro x hx
    obtain ⟨p, hp, rfl⟩ := List.mem_map.mp hx
    obtain ⟨j, -, -, he⟩ := ieee_mirrorEntry_of_stored S c0 shape c hload hthr hsize hgrid p
      (hclosed2 p hp)
    rw [he]
    omega

/-- Witness of C3: the eight vertices of a cube centred on the origin, mirrored along X in
object space with threshold 0; the result is the permutation `[1, 0, 3, 2, 5, 4, 7, 6]`, in
exact arithmetic and in the arithmetic of `double`. -/
theorem C3_mirror_round_trip_witness :
    (mirrorSearch (loaded KdTree.insertionSorter mirrorXFlags cubeMesh) []).2 =
        [1, 0, 3, 2, 5, 4, 7, 6] ∧
      (∃ r, mirrorSearch (loaded KdTree.insertionSorter mirrorXFlags cubeMesh) [] =
          (.kSuccess, r) ∧ ∀ x ∈ r, x ≠ -2) ∧
      (Fp.mirrorSearch Arith.ieee (loaded KdTree.insertionSorter mirrorXFlags cubeMesh) []).2 =
        [1, 0, 3, 2, 5, 4, 7, 6] ∧
      (∃ r, Fp.mirrorSearch Arith.ieee (loaded KdTree.insertionSorter mirrorXFlags cubeMesh) [] =
          (.kSuccess, r) ∧ ∀ x ∈ r, x ≠ -2) := by
  have h := C3_mirror_round_trip KdTree.insertionSorter mirrorXFlags
    cubeMesh (loaded KdTree.insertionSorter mirrorXFlags cubeMesh) rfl (by decide!) (by decide!)
    (by decide!) (by decide!) []
  obtain ⟨r, h1, -, -, -, h2⟩ := h.1
  obtain ⟨r2, h3, -, -, h4⟩ := h.2 (by decide!) (Or.inl (by decide!))
  exact ⟨by decide!, ⟨r, h1, h2⟩, by decide!, ⟨r2, h3, h4⟩⟩

end GetMirrorVerticesIndex
end nwave

namespace nwave
namespace GetMirrorVerticesIndex

/-- After `doIt` has loaded a shape in object space whose points, with coordinates multiples of
`2 ^ -1074`, are pairwise distinct, closed under the reflection and never at the computed
squared distance `0` of one another, the mirror search gives in the arithmetic of `double` the
result it gives in exact arithmetic. -/
theorem ieee_mirrorSearch_eq_exact (S : KdTree.Sorter) (c0 : GetMirrorVerticesIndex)
    (shape : Shape) (c : GetMirrorVerticesIndex) (hload : loadAndBuild S c0 shape = .ok c)
    (hdistinct : c.points.Nodup) (hclosed : ∀ p ∈ c.points, mirroredPos c p ∈ c.points)
    (hthr : 0 ≤ c.threshold) (hsize : c.points.length < 2147483648)
    (hgrid : ∀ q ∈ c.points, ∀ axis, axis < 3 → (q.get axis).den ∣ 2 ^ 1074)
    (hobj : c.useWorldspace = false)
    (hsep : ∀ p ∈ c.points, ∀ q ∈ c.points, Fp.sqDist Arith.ieee p q = 0 → p = q)
    (prev : List Int) :
    Fp.mirrorSearch Arith.ieee c prev = mirrorSearch c prev := by
  have hty := loadAndBuild_objectType S c0 shape c hload
  rw [fp_mirrorSearch_eq_map Arith.ieee c hty prev, mirrorSearch_eq_map c hty prev]
  congr 1
  apply List.map_congr_left
  intro p hp
  have hm : Fp.mirroredPos Arith.ieee c p = mirroredPos c p :=
    fp_mirroredPos_objectSpace Arith.ieee c p hobj
  have hin := hclosed p hp
  obtain ⟨j, hj, hd, he⟩ := ieee_mirrorEntry_of_stored S c0 shape c hload hthr hsize hgrid p
    (by rw [hm]; exact hin)
  obtain ⟨k, hk, hpk, hek, -⟩ := mirrorEntry_of_stored S c0 shape c hload hthr hsize p hin
  rw [hm] at hd
  have hsame : c.points[j] = mirroredPos c p := hsep _ (List.getElem_mem hj) _ hin hd
  have hjk : j = k := by
    have hpair : c.points[j] = c.points[k] := by rw [hsame, hpk]
    exact (List.Nodup.getElem_inj_iff hdistinct).mp hpair
  rw [he, hek, hjk]

/-- C30 (amended). The mirror result is an involution. After `doIt` has loaded a shape whose
points (fewer than `2^31`, numbered by `doIt`) are pairwise distinct and closed under the
reflection of the command, and with a threshold `>= 0`: in exact arithmetic, when no operation
on the coordinates rounds, `mirrorSearch` succeeds with a result `r` of one entry per point
such that, for every index `i`, the entry `r[i]` is an index `j` with `r[j] = i` (so
`r[r[i]] = i`), and `r[i] = i` exactly when the point `i` lies on the mirror plane; `r` is a
permutation of the indices `0 .. n-1`. In the arithmetic of `double`, on coordinates that are
multiples of `2 ^ -1074` as all doubles are, in object space, `mirrorSearch` returns that same
`r` when no two distinct points are at the computed squared distance `0` of one another (no
square of a difference underflows to `0`). -/
theorem C30_mirror_involution (S : KdTree.Sorter) (c0 : GetMirrorVerticesIndex) (shape : Shape)
    (c : GetMirrorVerticesIndex) (hload : loadAndBuild S c0 shape = .ok c)
    (hdistinct : c.points.Nodup) (hclosed : ∀ p ∈ c.points, mirroredPos c p ∈ c.points)
    (hthr : 0 ≤ c.threshold) (hsize : c.points.length < 2147483648) (prev : List Int) :
    ∃ r, (mirrorSearch c prev = (.kSuccess, r) ∧ r.length = c.points.length ∧
      (∀ i, ∀ hi : i < c.points.length, ∃ j, j < c.points.length ∧
        r[i]? = some (j : Int) ∧ r[j]? = some (i : Int) ∧
        (j = i ↔ onMirrorPlane c c.points[i] = true)) ∧
      r.Perm ((List.range c.points.length).map (fun (i : Nat) => (i : Int)))) ∧
    ((∀ q ∈ c.points, ∀ axis, axis < 3 → (q.get axis).den ∣ 2 ^ 1074) →
      c.useWorldspace = false →
      (∀ p ∈ c.points, ∀ q ∈ c.points, Fp.sqDist Arith.ieee p q = 0 → p = q) →
      Fp.mirrorSearch Arith.ieee c prev = (.kSuccess, r)) := by
  obtain ⟨r, h1, h2, h3, h4⟩ :=
    mirror_involution_exact S c0 shape c hload hdistinct hclosed hthr hsize prev
  refine ⟨r, ⟨h1, h2, h3, h4⟩, fun hgrid hobj hsep => ?_⟩
  rw [ieee_mirrorSearch_eq_exact S c0 shape c hload hdistinct hclosed hthr hsize hgrid hobj
    hsep prev, h1]

/-- Witness of C30: the vertices `(-1, 0, 0)`, `(0, 0, 0)`, `(1, 0, 0)` mirrored along X in
object space with threshold 0; the result is `[2, 1, 0]`, the vertex 1 is on the plane, in
exact arithmetic and in the arithmetic of `double`. -/
theorem C30_mirror_involution_witness :
    (mirrorSearch (loaded KdTree.insertionSorter mirrorXFlags symmetricMesh) []).2 = [2, 1, 0] ∧
      (Fp.mirrorSearch Arith.ieee (loaded KdTree.insertionSorter mirrorXFlags symmetricMesh)
        []).2 = [2, 1, 0] ∧
      ∃ r, mirrorSearch (loaded KdTree.insertionSorter mirrorXFlags symmetricMesh) [] =
          (.kSuccess, r) ∧
        r.Perm ((List.range
          (loaded KdTree.insertionSorter mirrorXFlags symmetricMesh).points.length).map
            (fun (i : Nat) => (i : Int))) ∧
        Fp.mirrorSearch Arith.ieee (loaded KdTree.insertionSorter mirrorXFlags symmetricMesh)
          [] = (.kSuccess, r) := by
  refine ⟨by decide!, by decide!, ?_⟩
  obtain ⟨r, ⟨h1, -, -, h2⟩, h3⟩ := C30_mirror_involution KdTree.insertionSorter mirrorXFlags
    symmetricMesh (loaded KdTree.insertionSorter mirrorXFlags symmetricMesh) rfl (by decide!)
    (by decide!) (by decide!) (by decide!) []
  exact ⟨r, h1, h2, h3 (by decide!) (by decide!) (by decide!)⟩

end GetMirrorVerticesIndex
end nwave

namespace nwave
namespace KdTree

/-! ## The order of equal keys under the `std::sort` of libstdc++ -/

/-- Insertion before the equal elements and insertion after them commute. -/
theorem stableInsert_orderedInsert (axis : Nat) (a v : Pair) : ∀ s : List Pair,
    stableInsert axis a (orderedInsert axis v s) = orderedInsert axis v (stableInsert axis a s) := by
  intro s
  induction s with
  | nil =>
    by_cases h : sortLt axis v a = true
    · simp [h, stableInsert, orderedInsert]
    · simp [h, stableInsert, orderedInsert]
  | cons b s ih =>
    simp only [sortLt, decide_eq_true_eq] at ih
    by_cases hvb : v.1.get axis < b.1.get axis <;> by_cases hba : b.1.get axis < a.1.get axis
    · have hva : v.1.get axis < a.1.get axis := lt_trans hvb hba
      simp [orderedInsert, stableInsert, sortLt, hvb, hba, hva]
    · by_cases hva : v.1.get axis < a.1.get axis
      · simp [orderedInsert, stableInsert, sortLt, hvb, hba, hva]
      · simp [orderedInsert, stableInsert, sortLt, hvb, hba, hva]
    · simp only [orderedInsert, stableInsert, sortLt, hvb, hba, decide_True, decide_False,
        if_true, if_false, Bool.false_eq_true]
      rw [ih]
    · have hva : ¬ v.1.get axis < a.1.get axis := by
        intro h
        exact hvb (lt_of_lt_of_le h (not_lt.mp hba))
      simp [orderedInsert, stableInsert, sortLt, hvb, hba, hva]

theorem stableSort_snoc (axis : Nat) (v : Pair) : ∀ l : List Pair,
    stableSort axis (l ++ [v]) = orderedInsert axis v (stableSort axis l) := by
  intro l
  induction l with
  | nil => rfl
  | cons a l ih =>
    show stableInsert axis a (stableSort axis (l ++ [v])) =
      orderedInsert axis v (stableInsert axis a (stableSort axis l))
    rw [ih, stableInsert_orderedInsert]

/-- The insertion sort that ends `std::sort` in libstdc++ keeps equal keys in the order of the
range: it is the stable sort. -/
theorem finalInsertionSort_eq_stableSort (axis : Nat) (l : List Pair) :
    finalInsertionSort axis l = stableSort axis l := by
  induction l using List.reverseRecOn with
  | nil => rfl
  | append_singleton l v ih => rw [finalInsertionSort_snoc, stableSort_snoc, ih]

theorem introsortLoop_short (H : Sorter) (axis : Nat) (l : List Pair) (depthLimit : Nat)
    (h : l.length ≤ 16) : ∀ fuel : Nat, introsortLoop H axis fuel l 0 l.length depthLimit = l := by
  intro fuel
  cases fuel with
  | zero => rfl
  | succ fuel =>
    have h16 : ¬ 16 < l.length - 0 := by omega
    simp only [introsortLoop, h16, if_false]

/-- On a range of at most 16 elements the `std::sort` of libstdc++ is the stable sort. -/
theorem libstdcxxSort_short (H : Sorter) (axis : Nat) (l : List Pair) (h : l.length ≤ 16) :
    libstdcxxSort H axis l = stableSort axis l := by
  unfold libstdcxxSort
  split
  · rename_i hl
    rw [List.isEmpty_iff.mp hl]
    rfl
  · rw [introsortLoop_short H axis l _ h, finalInsertionSort_eq_stableSort]

theorem buildKdTreeAux_short (H : Sorter) :
    ∀ (fuel : Nat) (l : List Pair) (depth : Nat), l.length ≤ 16 →
      buildKdTreeAux (libstdcxxSorter H) fuel l depth = buildKdTreeAux stableSorter fuel l depth := by
  intro fuel
  induction fuel with
  | zero => intro l depth _; rfl
  | succ fuel ih =>
    intro l depth h
    have hs : (libstdcxxSorter H).sort (depth % dimensions) l = stableSort (depth % dimensions) l :=
      libstdcxxSort_short H _ l h
    have hi : stableSorter.sort (depth % dimensions) l = stableSort (depth % dimensions) l := rfl
    have hlen : (stableSort (depth % dimensions) l).length = l.length :=
      (stableSort_perm _ l).length_eq
    have h1 : ((stableSort (depth % dimensions) l).take
        ((stableSort (depth % dimensions) l).length / 2)).length ≤ 16 := by
      rw [List.length_take]
      omega
    have h2 : ((stableSort (depth % dimensions) l).drop
        ((stableSort (depth % dimensions) l).length / 2 + 1)).length ≤ 16 := by
      rw [List.length_drop]
      omega
    rw [buildKdTreeAux, buildKdTreeAux]
    simp only [hs, hi, ih _ _ h1, ih _ _ h2]

/-- C18 (counterexample). The `std::sort` of libstdc++ does not keep equal keys in array order
on a range of more than 16 elements: on seventeen points with the same `x`, numbered 0 to 16
in array order, the sorted range holds them in the order 8, 16, 15, ..., 9, 0, 7, 6, ..., 1
where a stable sort leaves 0, 1, ..., 16; the median, the root of the tree, is the point
numbered 9 where a stable sort picks the point numbered 8, and the query `(0, 1/2, 0)`, at
the same distance of the points numbered 0 and 1, is answered with the point numbered 1 where
the tree of the stable sort answers with the point numbered 0. -/
theorem C18_equal_keys_order_not_kept :
    (stdSorter.sort 0 (makePointList seventeenTiedPoints
        ((List.range 17).map (fun (i : Nat) => (i : Int))))).map (fun pr => pr.2.x)
        = [8, 16, 15, 14, 13, 12, 11, 10, 9, 0, 7, 6, 5, 4, 3, 2, 1] ∧
      (stableSorter.sort 0 (makePointList seventeenTiedPoints
        ((List.range 17).map (fun (i : Nat) => (i : Int))))).map (fun pr => pr.2.x)
        = [0, 1, 2, 3, 4, 5, 6, 7, 8, 9, 10, 11, 12, 13, 14, 15, 16] ∧
      (build stdSorter KdTree.new seventeenTiedPoints
        ((List.range 17).map (fun (i : Nat) => (i : Int)))).root.id = IdPoint.mk1 9 ∧
      (build stableSorter KdTree.new seventeenTiedPoints
        ((List.range 17).map (fun (i : Nat) => (i : Int)))).root.id = IdPoint.mk1 8 ∧
      (nearestNode (build stdSorter KdTree.new seventeenTiedPoints
        ((List.range 17).map (fun (i : Nat) => (i : Int)))) ⟨0, 1 / 2, 0⟩).id = IdPoint.mk1 1 ∧
      (nearestNode (build stableSorter KdTree.new seventeenTiedPoints
        ((List.range 17).map (fun (i : Nat) => (i : Int)))) ⟨0, 1 / 2, 0⟩).id
        = IdPoint.mk1 0 := by
  decide!

/-- C18 (amended). Build determinism: the tree is a function of the ordered input and of the
`std::sort` in use (the former state of the index plays no part). When no sort made by the
build meets two points with the same coordinate on the split axis, the tree, hence the medians
chosen and every later `nearestNode` answer, is the same for every `std::sort`. With the
`std::sort` of libstdc++ a range of at most 16 elements is sorted as a stable sort does, equal
keys in array order, so that for at most 16 points the tree and every answer are those of the
stable sort. -/
theorem C18_build_determinism (S S' H : Sorter) (t0 t0' : KdTree) (points : List MPoint)
    (ids : List Int) :
    (tieFree (makePointList points ids).length (makePointList points ids) 0 = true →
      build S t0 points ids = build S' t0' points ids ∧
      ∀ q, nearestNode (build S t0 points ids) q = nearestNode (build S' t0' points ids) q) ∧
    (points.length ≤ 16 →
      (∀ axis (l : List Pair), l.length ≤ 16 →
        (libstdcxxSorter H).sort axis l = stableSorter.sort axis l) ∧
      build (libstdcxxSorter H) t0 points ids = build stableSorter t0' points ids ∧
      ∀ q, nearestNode (build (libstdcxxSorter H) t0 points ids) q =
        nearestNode (build stableSorter t0' points ids) q) := by
  refine ⟨fun ht => ?_, fun hn => ?_⟩
  · have e : build S t0 points ids = build S' t0' points ids := by
      rw [build_eq_of_tieFree S t0 points ids ht, build_eq_of_tieFree S' t0' points ids ht]
      rfl
    exact ⟨e, fun q => by rw [e]⟩
  · have e : build (libstdcxxSorter H) t0 points ids = build stableSorter t0' points ids := by
      unfold build buildKdTree
      rw [buildKdTreeAux_short H _ _ 0 (by rw [makePointList_length]; exact hn)]
    exact ⟨fun axis l hl => libstdcxxSort_short H axis l hl, e, fun q => by rw [e]⟩

/-- Instance of the amended C18: the three points of the scenario have no tie, so the stable
sort and the insertion sort build the same tree; the four points with the same `x` are sorted
by the `std::sort` of libstdc++ in array order and its tree is the one of the stable sort. -/
theorem C18_build_determinism_witness :
    build stableSorter KdTree.new [⟨0, 0, 0⟩, ⟨1, 0, 0⟩, ⟨5, 5, 5⟩] [0, 1, 2] =
        build insertionSorter KdTree.new [⟨0, 0, 0⟩, ⟨1, 0, 0⟩, ⟨5, 5, 5⟩] [0, 1, 2] ∧
      (stdSorter.sort 0 (makePointList tiedPoints [0, 1, 2, 3])).map (fun pr => pr.2.x)
        = [0, 1, 2, 3] ∧
      build stdSorter KdTree.new tiedPoints [0, 1, 2, 3] =
        build stableSorter KdTree.new tiedPoints [0, 1, 2, 3] :=
  ⟨((C18_build_determinism stableSorter insertionSorter stableSorter KdTree.new KdTree.new
      [⟨0, 0, 0⟩, ⟨1, 0, 0⟩, ⟨5, 5, 5⟩] [0, 1, 2]).1 (by decide!)).1,
    by decide!,
    ((C18_build_determinism stableSorter insertionSorter stableSorter KdTree.new KdTree.new
      tiedPoints [0, 1, 2, 3]).2 (by decide)).2.1⟩

end KdTree
end nwave

namespace nwave
namespace GetMirrorVerticesIndex

/-- A mirror-axis value other than 0, 1 and 2 makes `parseArgs` return an error before it
writes the help flag and the selection list: `kInvalidParameter` when no call to the host
fails. -/
theorem parseArgs_bad_axis (c : GetMirrorVerticesIndex) (args : MArgList) (v : Int)
    (hv : args.mirrorAxis = some v) (h0 : v ≠ 0) (h1 : v ≠ 1) (h2 : v ≠ 2) :
    (parseArgs c args).1 ≠ .kSuccess ∧
      (parseArgs c args).2.helpFlagSet = c.helpFlagSet ∧
      (parseArgs c args).2.objectSelectionList = c.objectSelectionList ∧
      (args.failure = none → (parseArgs c args).1 = .kInvalidParameter) := by
  have hc1 : ∀ f : GetMirrorVerticesIndex → Prop, f c →
      (∀ p, f { c with searchPosition := p }) →
      f (match args.position with
        | some p => { c with searchPosition := p }
        | none => c) := by
    intro f h0 h1
    cases args.position
    · exact h0
    · exact h1 _
  have hh := hc1 (fun x => x.helpFlagSet = c.helpFlagSet) rfl (fun _ => rfl)
  have ho := hc1 (fun x => x.objectSelectionList = c.objectSelectionList) rfl (fun _ => rfl)
  unfold parseArgs
  simp only [hv, h0, h1, h2, if_false]
  split_ifs <;>
    first
      | exact ⟨by simp, hh, ho, fun h => by simp_all⟩
      | exact ⟨by simp, rfl, rfl, fun h => by simp_all⟩

/-- When `parseArgs` returns on a command object without help flag and selection, and leaves
these two fields as they were, `doIt` returns `kInvalidParameter` or `kNotFound` with the state
`parseArgs` left and no result. -/
theorem doIt_of_early_return (S : KdTree.Sorter) (c : GetMirrorVerticesIndex) (args : MArgList)
    (hh : (parseArgs c args).2.helpFlagSet = false)
    (hsel : (parseArgs c args).2.objectSelectionList = []) :
    doIt S c args = (.kInvalidParameter, (parseArgs c args).2, none) ∨
      doIt S c args = (.kNotFound, (parseArgs c args).2, none) := by
  unfold doIt
  simp only [hh, hsel]
  cases (parseArgs c args).2.useMirror <;> cases (parseArgs c args).2.usePosition <;> simp

/-- C24 (the code ignores the status). `doIt` does not read the status of `parseArgs`. With the
help flag, when the last call of `parseArgs`, `getObjects`, fails, `parseArgs` reports the
failure after it has written the help flag, and `doIt` on the command object of the constructor
returns `kSuccess`: a parse error does not make `doIt` return an error. For the errors that
`parseArgs` returns before that call, the claim holds: on the command object of the
constructor, for every list of flags and objects on which `parseArgs` reports an error that is
not the failure of `getObjects`, or with a mirror-axis value other than 0, 1 and 2, `doIt`
returns `kInvalidParameter` or `kNotFound`, the tree is the one of the constructor (no tree is
built), the points are untouched and no result is set (no position or mirror search is run);
such an axis value always makes `parseArgs` report an error, `kInvalidParameter` when no call
to the host fails. -/
theorem C24_parse_status_ignored :
    ((parseArgs new helpFailingArgs).1 = .kFailure ∧
      (parseArgs new helpFailingArgs).1 ≠ .kSuccess ∧
      (doIt KdTree.stdSorter new helpFailingArgs).1 = .kSuccess ∧
      (doIt KdTree.stdSorter new helpFailingArgs).2.2 = none) ∧
    (∀ (S : KdTree.Sorter) (args : MArgList), (parseArgs new args).1 ≠ .kSuccess →
      (args.failure ≠ some .getObjects ∨
        ∃ v : Int, args.mirrorAxis = some v ∧ v ≠ 0 ∧ v ≠ 1 ∧ v ≠ 2) →
      ((doIt S new args).1 = .kInvalidParameter ∨ (doIt S new args).1 = .kNotFound) ∧
        (doIt S new args).1 ≠ .kSuccess ∧
        (doIt S new args).2.1 = (parseArgs new args).2 ∧
        (doIt S new args).2.1.tree = KdTree.new ∧
        (doIt S new args).2.1.tree.isBuilt = false ∧
        (doIt S new args).2.1.points = [] ∧
        (doIt S new args).2.2 = none) ∧
    (∀ (args : MArgList) (v : Int), args.mirrorAxis = some v → v ≠ 0 → v ≠ 1 → v ≠ 2 →
      (parseArgs new args).1 ≠ .kSuccess ∧
        (args.failure = none → (parseArgs new args).1 = .kInvalidParameter)) := by
  refine ⟨⟨by decide, by decide, by decide, by decide⟩, ?_, ?_⟩
  · intro S args herr hearly
    obtain ⟨htree, hpts, -, hbad⟩ := parseArgs_fields new args
    have hfields : (parseArgs new args).2.helpFlagSet = false ∧
        (parseArgs new args).2.objectSelectionList = [] := by
      rcases hearly with hne | ⟨v, hv, h0, h1, h2⟩
      · rcases hbad herr with ⟨hget, -⟩ | ⟨hh, ho⟩
        · exact absurd hget hne
        · exact ⟨hh, ho⟩
      · obtain ⟨-, hh, ho, -⟩ := parseArgs_bad_axis new args v hv h0 h1 h2
        exact ⟨hh, ho⟩
    rcases doIt_of_early_return S new args hfields.1 hfields.2 with hd | hd
    · rw [hd]
      refine ⟨Or.inl rfl, by simp, rfl, htree, ?_, hpts, rfl⟩
      simp only [htree]
      rfl
    · rw [hd]
      refine ⟨Or.inr rfl, by simp, rfl, htree, ?_, hpts, rfl⟩
      simp only [htree]
      rfl
  · intro args v hv h0 h1 h2
    obtain ⟨hne, -, -, hk⟩ := parseArgs_bad_axis new args v hv h0 h1 h2
    exact ⟨hne, hk⟩

/-- Instance of C24: the axis value 5 with the position flag, the help flag and an object;
`parseArgs` reports `kInvalidParameter` and `doIt` returns `kNotFound` without a result. -/
theorem C24_parse_status_ignored_witness :
    (parseArgs new badAxisArgs).1 = .kInvalidParameter ∧
      (doIt KdTree.insertionSorter new badAxisArgs).1 = .kNotFound ∧
      (doIt KdTree.insertionSorter new badAxisArgs).2.2 = none :=
  ⟨by decide, by decide,
    (C24_parse_status_ignored.2.1 KdTree.insertionSorter badAxisArgs (by decide)
      (Or.inl (by decide))).2.2.2.2.2.2⟩

end GetMirrorVerticesIndex
end nwave
